import Mathlib

/-!
# Expense-Tracking: the order-4 B-tree engine

A shallow embedding of the B-tree code of `DSPD2_Assignment2_BT23CSE025.c`.

Representation.  A C node is `{ num_keys, keys[M-1], children[M], is_leaf }`.
The embedding keeps the live part of the two arrays as lists:
`keys` is `keys[0 .. num_keys)`, so `num_keys` is the length of `keys`, and
`children` is `children[0 .. num_keys]` for an internal node and the empty
list for a leaf, whose child slots are all `NULL` (`createUserNode`).
A pointer that may be `NULL` is an `Option`; the record pointers stored in a
node are the records themselves.  A function that dereferences a child slot
returns `none` when the slot is not there; the recursive functions that
rebuild a node take a fuel argument and also return `none` when it runs out.
The entry points supply `depth root + 1` as fuel.
-/

namespace ExpenseTracking

/-- The constant `#define M 4`, the maximum degree of the B-tree. -/
def M : Nat := 4

/-- The fields of `struct UserNode` that the tree engine reads (`user_id`)
or that tell records apart (`user_name`). -/
structure UserNode where
  user_id : Int
  user_name : String
deriving DecidableEq

/-- The type `struct BTreeNodeUser`, with the arrays cut to their live part. -/
inductive BTreeNodeUser where
  | mk (keys : List UserNode) (children : List BTreeNodeUser) (is_leaf : Bool)

namespace BTreeNodeUser

/-- The live keys `keys[0 .. num_keys)`. -/
def keys : BTreeNodeUser → List UserNode
  | mk ks _ _ => ks

/-- The live child pointers. -/
def children : BTreeNodeUser → List BTreeNodeUser
  | mk _ cs _ => cs

/-- The field `is_leaf`. -/
def is_leaf : BTreeNodeUser → Bool
  | mk _ _ l => l

/-- The field `num_keys`. -/
def num_keys (n : BTreeNodeUser) : Nat := n.keys.length

end BTreeNodeUser

open BTreeNodeUser

/-- The function `createUserNode(is_leaf)`: no keys, all children `NULL`. -/
def createUserNode (is_leaf : Bool) : BTreeNodeUser := .mk [] [] is_leaf

mutual
/-- Number of nodes on the longest path from the node down; bounds the
recursion depth of every tree operation. -/
def depth : BTreeNodeUser → Nat
  | .mk _ cs _ => depthList cs + 1
/-- Largest `depth` among a list of children. -/
def depthList : List BTreeNodeUser → Nat
  | [] => 0
  | c :: cs => max (depth c) (depthList cs)
end

mutual
/-- The function `traverseAndPrintUsers` on a non-`NULL` node, returning the
records in the order they are printed: for each `i < num_keys` the subtree
`children[i]` and then `keys[i]`, and at the end `children[num_keys]`. -/
def traverseUsers : BTreeNodeUser → List UserNode
  | .mk ks cs _ => traverseFrom cs ks
/-- The loop of `traverseAndPrintUsers` from some index on: the remaining
children and keys.  A child that is not there is `NULL` and prints nothing. -/
def traverseFrom : List BTreeNodeUser → List UserNode → List UserNode
  | [], ks => ks
  | c :: _, [] => traverseUsers c
  | c :: cs, k :: ks => traverseUsers c ++ k :: traverseFrom cs ks
end

/-- The function `traverseAndPrintUsers(root)` on a root handle. -/
def traverseAndPrintUsers : Option BTreeNodeUser → List UserNode
  | none => []
  | some r => traverseUsers r

/-- The scan `idx = 0; while (idx < num_keys && keys[idx]->user_id < user_id) idx++`
of `find_key_index_individual`, `findUserKeyIndex` and `searchUser`. -/
def scanUp : List UserNode → Int → Nat
  | [], _ => 0
  | k :: ks, user_id => if k.user_id < user_id then scanUp ks user_id + 1 else 0

/-- The scan `while (i >= 0 && user_id < keys[i]->user_id) i--` of
`insertUserNonFull`, started with `i + 1 = n`; the result is the final `i + 1`. -/
def scanDown (ks : List UserNode) (user_id : Int) : Nat → Nat
  | 0 => 0
  | i + 1 =>
    match ks[i]? with
    | some k => if user_id < k.user_id then scanDown ks user_id i else i + 1
    | none => i + 1

/-- The function `find_key_index_individual(node, user_id)`. -/
def find_key_index_individual (node : BTreeNodeUser) (user_id : Int) : Nat :=
  scanUp node.keys user_id

mutual
/-- The function `searchUser` on a non-`NULL` node. -/
def searchUserNode : BTreeNodeUser → Int → Option UserNode
  | .mk ks cs leaf, user_id =>
    let i := scanUp ks user_id
    match ks[i]? with
    | some k =>
      if user_id = k.user_id then some k
      else if leaf then none
      else searchUserChild cs i user_id
    | none => if leaf then none else searchUserChild cs i user_id
/-- The recursive call `searchUser(root->children[i], user_id)`; a missing
child is `NULL`, for which `searchUser` returns `NULL`. -/
def searchUserChild : List BTreeNodeUser → Nat → Int → Option UserNode
  | [], _, _ => none
  | c :: _, 0, user_id => searchUserNode c user_id
  | _ :: cs, i + 1, user_id => searchUserChild cs i user_id
end

/-- The function `searchUser(root, user_id)`. -/
def searchUser : Option BTreeNodeUser → Int → Option UserNode
  | none, _ => none
  | some r, user_id => searchUserNode r user_id

/-- The function `splitUserChild(parent, idx)`: the child at `idx` keeps its
first `M/2 - 1` keys (and first `M/2` children), the new node takes the
`M/2 - 1` keys from index `M/2` on (and `M/2` children from index `M/2` on),
and the key at index `M/2 - 1` moves up into the parent at `idx`. -/
def splitUserChild (parent : BTreeNodeUser) (idx : Nat) : Option BTreeNodeUser :=
  match parent.children[idx]? with
  | none => none
  | some child =>
    match child.keys[M / 2 - 1]? with
    | none => none
    | some mid =>
      let new_child : BTreeNodeUser :=
        .mk ((child.keys.drop (M / 2)).take (M / 2 - 1))
          (if child.is_leaf then [] else (child.children.drop (M / 2)).take (M / 2))
          child.is_leaf
      let child1 : BTreeNodeUser :=
        .mk (child.keys.take (M / 2 - 1)) (child.children.take (M / 2)) child.is_leaf
      some (.mk (parent.keys.take idx ++ mid :: parent.keys.drop idx)
        (parent.children.take idx ++ child1 :: new_child :: parent.children.drop (idx + 1))
        parent.is_leaf)

/-- The function `insertUserNonFull(node, user)`. -/
def insertUserNonFull : Nat → BTreeNodeUser → UserNode → Option BTreeNodeUser
  | 0, _, _ => none
  | fuel + 1, node, user =>
    let i := scanDown node.keys user.user_id node.num_keys
    if node.is_leaf then
      some (.mk (node.keys.take i ++ user :: node.keys.drop i) node.children node.is_leaf)
    else
      match node.children[i]? with
      | none => none
      | some child =>
        if child.num_keys = M - 1 then
          match splitUserChild node i with
          | none => none
          | some node1 =>
            match node1.keys[i]? with
            | none => none
            | some ki =>
              let j := if user.user_id > ki.user_id then i + 1 else i
              match node1.children[j]? with
              | none => none
              | some c =>
                match insertUserNonFull fuel c user with
                | none => none
                | some c1 => some (.mk node1.keys (node1.children.set j c1) node1.is_leaf)
        else
          match insertUserNonFull fuel child user with
          | none => none
          | some c1 => some (.mk node.keys (node.children.set i c1) node.is_leaf)

/-- The function `insertUser(&root, user)`; the result is the new `*root`. -/
def insertUser (root : Option BTreeNodeUser) (user : UserNode) :
    Option (Option BTreeNodeUser) :=
  match root with
  | none => some (some (.mk [user] [] true))
  | some r =>
    if r.num_keys = M - 1 then
      match splitUserChild (.mk [] [r] false) 0 with
      | none => none
      | some new_root =>
        match insertUserNonFull (depth new_root + 1) new_root user with
        | none => none
        | some t => some (some t)
    else
      match insertUserNonFull (depth r + 1) r user with
      | none => none
      | some t => some (some t)

/-- The key shift of `removeFromLeafIndividual(node, idx)`: the keys after
`idx` move one slot left and `num_keys` drops by one.  (Its effects on the
family of the removed user and the release of the record are effects on the
records, not on the node.) -/
def removeFromLeafIndividual (node : BTreeNodeUser) (idx : Nat) : BTreeNodeUser :=
  .mk (node.keys.eraseIdx idx) node.children node.is_leaf

mutual
/-- The loop of `getIndividualPredecessor` from `curr` on:
`while (!curr->is_leaf) curr = curr->children[curr->num_keys];`
and then `curr->keys[curr->num_keys - 1]`. -/
def rightmostKey : BTreeNodeUser → Option UserNode
  | .mk ks cs leaf => if leaf then ks.getLast? else rightmostKeyAt cs ks.length
/-- The step `curr = curr->children[i]` of that loop. -/
def rightmostKeyAt : List BTreeNodeUser → Nat → Option UserNode
  | [], _ => none
  | c :: _, 0 => rightmostKey c
  | _ :: cs, i + 1 => rightmostKeyAt cs i
end

mutual
/-- The loop of `getIndividualSuccessor` from `curr` on:
`while (!curr->is_leaf) curr = curr->children[0];` and then `curr->keys[0]`. -/
def leftmostKey : BTreeNodeUser → Option UserNode
  | .mk ks cs leaf => if leaf then ks.head? else leftmostKeyAt cs
/-- The step `curr = curr->children[0]` of that loop. -/
def leftmostKeyAt : List BTreeNodeUser → Option UserNode
  | [] => none
  | c :: _ => leftmostKey c
end

/-- The function `getIndividualPredecessor(node, idx)`. -/
def getIndividualPredecessor (node : BTreeNodeUser) (idx : Nat) : Option UserNode :=
  match node.children[idx]? with
  | none => none
  | some c => rightmostKey c

/-- The function `getIndividualSuccessor(node, idx)`. -/
def getIndividualSuccessor (node : BTreeNodeUser) (idx : Nat) : Option UserNode :=
  match node.children[idx + 1]? with
  | none => none
  | some c => leftmostKey c

/-- The function `borrowFromLeftIndividual(parent, idx)`: the parent key
`idx - 1` moves to the front of the child, the last key of the left sibling
moves up, and for internal nodes the sibling's last child moves to the front
of the child's children. -/
def borrowFromLeftIndividual (parent : BTreeNodeUser) (idx : Nat) : Option BTreeNodeUser :=
  match parent.children[idx]?, parent.children[idx - 1]?, parent.keys[idx - 1]? with
  | some child, some sibling, some pk =>
    match sibling.keys.getLast? with
    | none => none
    | some sk =>
      let moved : Option (List BTreeNodeUser) :=
        if child.is_leaf then some child.children
        else (sibling.children[sibling.num_keys]?).map (fun g => g :: child.children)
      match moved with
      | none => none
      | some cc =>
        let child1 : BTreeNodeUser := .mk (pk :: child.keys) cc child.is_leaf
        let sibling1 : BTreeNodeUser :=
          .mk sibling.keys.dropLast (sibling.children.take sibling.num_keys) sibling.is_leaf
        some (.mk (parent.keys.set (idx - 1) sk)
          ((parent.children.set idx child1).set (idx - 1) sibling1) parent.is_leaf)
  | _, _, _ => none

/-- The function `borrowFromRightIndividual(parent, idx)`: the parent key
`idx` moves to the end of the child, the first key of the right sibling
moves up, and for internal nodes the sibling's first child moves to the end
of the child's children. -/
def borrowFromRightIndividual (parent : BTreeNodeUser) (idx : Nat) : Option BTreeNodeUser :=
  match parent.children[idx]?, parent.children[idx + 1]?, parent.keys[idx]? with
  | some child, some sibling, some pk =>
    match sibling.keys.head? with
    | none => none
    | some sk =>
      let moved : Option (List BTreeNodeUser) :=
        if child.is_leaf then some child.children
        else (sibling.children[0]?).map (fun g => child.children ++ [g])
      match moved with
      | none => none
      | some cc =>
        let child1 : BTreeNodeUser := .mk (child.keys ++ [pk]) cc child.is_leaf
        let sibling1 : BTreeNodeUser :=
          .mk sibling.keys.tail
            (if sibling.is_leaf then sibling.children else sibling.children.tail)
            sibling.is_leaf
        some (.mk (parent.keys.set idx sk)
          ((parent.children.set idx child1).set (idx + 1) sibling1) parent.is_leaf)
  | _, _, _ => none

/-- The function `mergeIndividualNodes(node, idx)`: the key `idx` of the node
is written at slot `M/2 - 1` of the child `idx`, the keys (and, for internal
nodes, the children) of the child `idx + 1` are copied behind it from slot
`M/2` on, and the key `idx` and the child `idx + 1` leave the node. -/
def mergeIndividualNodes (node : BTreeNodeUser) (idx : Nat) : Option BTreeNodeUser :=
  match node.children[idx]?, node.children[idx + 1]?, node.keys[idx]? with
  | some child, some sibling, some pk =>
    let merged : BTreeNodeUser :=
      .mk (child.keys.take (M / 2 - 1) ++ pk :: sibling.keys)
        (if child.is_leaf then child.children
         else child.children.take (M / 2) ++ sibling.children)
        child.is_leaf
    some (.mk (node.keys.eraseIdx idx)
      ((node.children.set idx merged).eraseIdx (idx + 1)) node.is_leaf)
  | _, _, _ => none

/-- The function `fillIndividualChild(node, idx)`. -/
def fillIndividualChild (node : BTreeNodeUser) (idx : Nat) : Option BTreeNodeUser :=
  let leftHas : Option Bool :=
    if idx ≠ 0 then (node.children[idx - 1]?).map (fun s => decide (s.num_keys ≥ M / 2))
    else some false
  match leftHas with
  | none => none
  | some true => borrowFromLeftIndividual node idx
  | some false =>
    let rightHas : Option Bool :=
      if idx ≠ node.num_keys then
        (node.children[idx + 1]?).map (fun s => decide (s.num_keys ≥ M / 2))
      else some false
    match rightHas with
    | none => none
    | some true => borrowFromRightIndividual node idx
    | some false =>
      if idx ≠ node.num_keys then mergeIndividualNodes node idx
      else mergeIndividualNodes node (idx - 1)

/-- The function `deleteFromIndividualSubtree(node, user_id)`; the result is
the node as the call leaves it. A key slot holds the record that the slot of
the C node points to. In the predecessor and successor branches the record
stored into `node->keys[idx]` is the one that the recursive call hands to
`removeFromLeafIndividual`, which releases it: which records a call releases
is reported by `deleteFromIndividualSubtreeTraced`, and what later calls read
through such a slot by `readTree`. -/
def deleteFromIndividualSubtree : Nat → BTreeNodeUser → Int → Option BTreeNodeUser
  | 0, _, _ => none
  | fuel + 1, node, user_id =>
    let idx := find_key_index_individual node user_id
    let found : Bool := decide ((node.keys[idx]?).map UserNode.user_id = some user_id)
    if found then
      if node.is_leaf then some (removeFromLeafIndividual node idx)
      else
        match node.children[idx]? with
        | none => none
        | some left =>
          if left.num_keys ≥ M / 2 then
            match getIndividualPredecessor node idx with
            | none => none
            | some pred =>
              match deleteFromIndividualSubtree fuel left pred.user_id with
              | none => none
              | some left1 =>
                some (.mk (node.keys.set idx pred) (node.children.set idx left1) node.is_leaf)
          else
            match node.children[idx + 1]? with
            | none => none
            | some right =>
              if right.num_keys ≥ M / 2 then
                match getIndividualSuccessor node idx with
                | none => none
                | some succ =>
                  match deleteFromIndividualSubtree fuel right succ.user_id with
                  | none => none
                  | some right1 =>
                    some (.mk (node.keys.set idx succ) (node.children.set (idx + 1) right1)
                      node.is_leaf)
              else
                match mergeIndividualNodes node idx with
                | none => none
                | some node1 =>
                  match node1.children[idx]? with
                  | none => none
                  | some c =>
                    match deleteFromIndividualSubtree fuel c user_id with
                    | none => none
                    | some c1 => some (.mk node1.keys (node1.children.set idx c1) node1.is_leaf)
    else
      if node.is_leaf then some node
      else
        let flag : Bool := decide (idx = node.num_keys)
        match node.children[idx]? with
        | none => none
        | some child =>
          let filled : Option BTreeNodeUser :=
            if child.num_keys < M / 2 then fillIndividualChild node idx else some node
          match filled with
          | none => none
          | some node1 =>
            let j := if flag && decide (idx > node1.num_keys) then idx - 1 else idx
            match node1.children[j]? with
            | none => none
            | some c =>
              match deleteFromIndividualSubtree fuel c user_id with
              | none => none
              | some c1 => some (.mk node1.keys (node1.children.set j c1) node1.is_leaf)

/-- The function `deleteIndividual(&root, user_id)`; the result is the new
`*root` and the returned flag. -/
def deleteIndividual (root : Option BTreeNodeUser) (user_id : Int) :
    Option (Option BTreeNodeUser × Bool) :=
  match root with
  | none => some (none, false)
  | some r =>
    match deleteFromIndividualSubtree (depth r + 1) r user_id with
    | none => none
    | some r1 =>
      if r1.num_keys = 0 then
        if r1.is_leaf then some (none, true) else some (r1.children[0]?, true)
      else some (some r1, true)

/-! ## Specification-side definitions -/

/-- The tail of the loop of `traverseAndPrintUsers` that starts with a key:
`keys[i]`, then `children[i+1]`, and so on. -/
def traverseTail (cs : List BTreeNodeUser) : List UserNode → List UserNode
  | [] => []
  | k :: ks => k :: traverseFrom cs ks

/-- Strictly increasing `user_id` along a list of records. -/
def StrictSorted (l : List UserNode) : Prop :=
  l.Pairwise (fun a b => a.user_id < b.user_id)

/-- Non-decreasing `user_id` along a list of records. -/
def SortedLE (l : List UserNode) : Prop :=
  l.Pairwise (fun a b => a.user_id ≤ b.user_id)

/-- The node invariants of a subtree of height `h`, the occupancy of its top
node apart: every leaf is `h` levels below the top node, a leaf has no
children, an internal node has `num_keys + 1` children, and every node below
the top node holds between `1` and `3` keys. -/
def Shape : Nat → BTreeNodeUser → Prop
  | 0, t => t.is_leaf = true ∧ t.children = []
  | h + 1, t =>
    t.is_leaf = false ∧ t.children.length = t.num_keys + 1 ∧
      ∀ c ∈ t.children, 1 ≤ c.num_keys ∧ c.num_keys ≤ 3 ∧ Shape h c

/-- The list of records without those whose `user_id` is `k`. -/
def removeId (k : Int) (l : List UserNode) : List UserNode :=
  l.filter (fun u => decide (u.user_id ≠ k))

/-- The statement proved about `deleteFromIndividualSubtree` at height `h`. -/
def DeleteSpec (h : Nat) : Prop :=
  ∀ (fuel : Nat) (node : BTreeNodeUser) (k : Int),
    h < fuel → Shape h node → 1 ≤ node.num_keys → StrictSorted (traverseUsers node) →
    ∃ node', deleteFromIndividualSubtree fuel node k = some node' ∧ Shape h node' ∧
      node.num_keys ≤ node'.num_keys + 1 ∧ node'.num_keys ≤ node.num_keys ∧
      traverseUsers node' = removeId k (traverseUsers node)

/-- The statement proved about `insertUserNonFull` at height `h`. -/
def InsertSpec (h : Nat) : Prop :=
  ∀ (fuel : Nat) (node : BTreeNodeUser) (u : UserNode),
    h < fuel → Shape h node → node.num_keys < 3 →
    ∃ node' A B, insertUserNonFull fuel node u = some node' ∧ Shape h node' ∧
      node.num_keys ≤ node'.num_keys ∧ node'.num_keys ≤ 3 ∧
      traverseUsers node = A ++ B ∧ traverseUsers node' = A ++ u :: B ∧
      (SortedLE (traverseUsers node) →
        (∀ a ∈ A, a.user_id ≤ u.user_id) ∧ (∀ b ∈ B, u.user_id ≤ b.user_id))

/-- What `fillIndividualChild` leaves behind, for a node cut at the child
`c` that held one key: a well-formed node cut at a child `d` with at least
two keys, with the same traversal, where `d` is the child that
`deleteFromIndividualSubtree` goes on with. -/
def FillOk (h : Nat) (ks₁ ks₂ : List UserNode) (cs₁ cs₂ : List BTreeNodeUser)
    (c : BTreeNodeUser) (r : Option BTreeNodeUser) : Prop :=
  ∃ K₁ K₂ C₁ d C₂, r = some (.mk (K₁ ++ K₂) (C₁ ++ d :: C₂) false) ∧
    C₁.length = K₁.length ∧
    (if (decide (ks₁.length = (ks₁ ++ ks₂).length) &&
          decide (ks₁.length > (K₁ ++ K₂).length)) = true
      then ks₁.length - 1 else ks₁.length) = K₁.length ∧
    Shape (h + 1) (.mk (K₁ ++ K₂) (C₁ ++ d :: C₂) false) ∧
    2 ≤ d.num_keys ∧
    (ks₁ ++ ks₂).length ≤ (K₁ ++ K₂).length + 1 ∧
    (K₁ ++ K₂).length ≤ (ks₁ ++ ks₂).length ∧
    traverseFrom C₁ K₁ ++ (traverseUsers d ++ traverseTail C₂ K₂) =
      traverseFrom cs₁ ks₁ ++ (traverseUsers c ++ traverseTail cs₂ ks₂) ∧
    (∀ a ∈ traverseFrom C₁ K₁, a ∈ traverseFrom cs₁ ks₁) ∧
    (∀ b ∈ traverseTail C₂ K₂, b ∈ traverseTail cs₂ ks₂)

/-- The invariants of a user tree behind a root handle: an empty tree is
`NULL`; otherwise the root holds between `1` and `3` keys and the tree under
it satisfies `Shape` for some height. -/
def WellFormed : Option BTreeNodeUser → Prop
  | none => True
  | some r => 1 ≤ r.num_keys ∧ r.num_keys ≤ 3 ∧ ∃ h, Shape h r

/-- A record with `user_id = k` is in the tree. -/
def Present (root : Option BTreeNodeUser) (k : Int) : Prop :=
  ∃ u ∈ traverseAndPrintUsers root, u.user_id = k

/-- A call on the user tree: `insertUser(&user_root, u)` or
`deleteIndividual(&user_root, k)`. -/
inductive UserOp where
  | insert (u : UserNode)
  | delete (k : Int)

/-- One call on the root handle; `none` when the call fails. -/
def applyUserOp (root : Option BTreeNodeUser) : UserOp → Option (Option BTreeNodeUser)
  | .insert u => insertUser root u
  | .delete k => (deleteIndividual root k).map Prod.fst

/-- The root handle after a sequence of calls, started at `root`. -/
def runUserOpsFrom (root : Option BTreeNodeUser) : List UserOp → Option (Option BTreeNodeUser)
  | [] => some root
  | op :: ops =>
    match applyUserOp root op with
    | none => none
    | some root1 => runUserOpsFrom root1 ops

/-- The root handle after a sequence of calls on the empty tree (`NULL`). -/
def runUserOps (ops : List UserOp) : Option (Option BTreeNodeUser) :=
  runUserOpsFrom none ops

/-- The ids of the `insertUser` calls of a sequence, in call order. -/
def insertedIds : List UserOp → List Int
  | [] => []
  | .insert u :: ops => u.user_id :: insertedIds ops
  | .delete _ :: ops => insertedIds ops

/-- The records inserted and not deleted since, after a sequence of calls that
starts with the records `live`: an insert adds its record, a delete of `k`
takes away the records whose id is `k`. -/
def liveFrom (live : List UserNode) : List UserOp → List UserNode
  | [] => live
  | .insert u :: ops => liveFrom (live ++ [u]) ops
  | .delete k :: ops => liveFrom (removeId k live) ops

/-- The records inserted and not deleted since, after a sequence of calls on
the empty tree. -/
def liveAfter (ops : List UserOp) : List UserNode := liveFrom [] ops

/-- The precondition of Insert along a sequence of calls that starts with the
records `live`: no insert carries an id that is held at that moment. -/
def freshFrom (live : List UserNode) : List UserOp → Prop
  | [] => True
  | .insert u :: ops => (∀ v ∈ live, v.user_id ≠ u.user_id) ∧ freshFrom (live ++ [u]) ops
  | .delete k :: ops => freshFrom (removeId k live) ops

/-- The precondition of Insert along a sequence of calls on the empty tree. -/
def FreshInserts (ops : List UserOp) : Prop := freshFrom [] ops

mutual
/-- The depths, counted from the node, of the leaves under a node. -/
def leafDepths : BTreeNodeUser → List Nat
  | .mk _ cs leaf => if leaf then [0] else (leafDepthsList cs).map (· + 1)
/-- The depths of the leaves under a list of children. -/
def leafDepthsList : List BTreeNodeUser → List Nat
  | [] => []
  | c :: cs => leafDepths c ++ leafDepthsList cs
end

mutual
/-- Every node strictly below the given node holds between `1` and `3` keys. -/
def OccupancyBelow : BTreeNodeUser → Prop
  | .mk _ cs _ => OccupancyList cs
/-- Every node in and below a list of children holds between `1` and `3` keys. -/
def OccupancyList : List BTreeNodeUser → Prop
  | [] => True
  | c :: cs => (1 ≤ c.num_keys ∧ c.num_keys ≤ 3 ∧ OccupancyBelow c) ∧ OccupancyList cs
end

/-- The fields of `struct ExpenseNode` that the tree engine reads. -/
structure ExpenseNode where
  expense_id : Int
  user_id : Int
deriving DecidableEq

/-- The type `struct BTreeNodeExpense`, with the arrays cut to their live part. -/
inductive BTreeNodeExpense where
  | mk (keys : List ExpenseNode) (children : List BTreeNodeExpense) (is_leaf : Bool)

namespace BTreeNodeExpense

/-- The live keys `keys[0 .. num_keys)`. -/
def keys : BTreeNodeExpense → List ExpenseNode
  | mk ks _ _ => ks

/-- The live child pointers. -/
def children : BTreeNodeExpense → List BTreeNodeExpense
  | mk _ cs _ => cs

/-- The field `is_leaf`. -/
def is_leaf : BTreeNodeExpense → Bool
  | mk _ _ l => l

/-- The field `num_keys`. -/
def num_keys (n : BTreeNodeExpense) : Nat := n.keys.length

end BTreeNodeExpense

/-- The function `createExpenseNode(is_leaf)`. -/
def createExpenseNode (is_leaf : Bool) : BTreeNodeExpense := .mk [] [] is_leaf

mutual
/-- Number of nodes on the longest path from an expense node down. -/
def depthExpense : BTreeNodeExpense → Nat
  | .mk _ cs _ => depthExpenseList cs + 1
/-- Largest `depthExpense` among a list of children. -/
def depthExpenseList : List BTreeNodeExpense → Nat
  | [] => 0
  | c :: cs => max (depthExpense c) (depthExpenseList cs)
end

/-- The order test `a > b` on the composite key `(user_id, expense_id)` as
`insertExpenseNonFull` writes it:
`a->user_id > b->user_id || (a->user_id == b->user_id && a->expense_id > b->expense_id)`. -/
def expenseGt (a b : ExpenseNode) : Bool :=
  decide (a.user_id > b.user_id) ||
    (decide (a.user_id = b.user_id) && decide (a.expense_id > b.expense_id))

/-- The order test `a < b` on the composite key, as `searchExpense` and
`insertExpenseNonFull` write it. -/
def expenseLt (a b : ExpenseNode) : Bool :=
  decide (a.user_id < b.user_id) ||
    (decide (a.user_id = b.user_id) && decide (a.expense_id < b.expense_id))

/-- The function `splitExpenseChild(parent, index)`. -/
def splitExpenseChild (parent : BTreeNodeExpense) (index : Nat) : Option BTreeNodeExpense :=
  match parent.children[index]? with
  | none => none
  | some child =>
    match child.keys[M / 2 - 1]? with
    | none => none
    | some mid =>
      let newNode : BTreeNodeExpense :=
        .mk ((child.keys.drop (M / 2)).take (M / 2 - 1))
          (if child.is_leaf then [] else (child.children.drop (M / 2)).take (M / 2))
          child.is_leaf
      let child1 : BTreeNodeExpense :=
        .mk (child.keys.take (M / 2 - 1)) (child.children.take (M / 2)) child.is_leaf
      some (.mk (parent.keys.take index ++ mid :: parent.keys.drop index)
        (parent.children.take index ++ child1 :: newNode :: parent.children.drop (index + 1))
        parent.is_leaf)

/-- The scan `while (i >= 0 && keys[i] > expense) i--` of `insertExpenseNonFull`,
started with `i + 1 = n`; the result is the final `i + 1`. -/
def scanDownExpense (ks : List ExpenseNode) (expense : ExpenseNode) : Nat → Nat
  | 0 => 0
  | i + 1 =>
    match ks[i]? with
    | some k => if expenseGt k expense then scanDownExpense ks expense i else i + 1
    | none => i + 1

/-- The function `insertExpenseNonFull(node, expense)`. -/
def insertExpenseNonFull : Nat → BTreeNodeExpense → ExpenseNode → Option BTreeNodeExpense
  | 0, _, _ => none
  | fuel + 1, node, expense =>
    let i := scanDownExpense node.keys expense node.num_keys
    if node.is_leaf then
      some (.mk (node.keys.take i ++ expense :: node.keys.drop i) node.children node.is_leaf)
    else
      match node.children[i]? with
      | none => none
      | some child =>
        if child.num_keys = M - 1 then
          match splitExpenseChild node i with
          | none => none
          | some node1 =>
            match node1.keys[i]? with
            | none => none
            | some ki =>
              let j := if expenseLt ki expense then i + 1 else i
              match node1.children[j]? with
              | none => none
              | some c =>
                match insertExpenseNonFull fuel c expense with
                | none => none
                | some c1 => some (.mk node1.keys (node1.children.set j c1) node1.is_leaf)
        else
          match insertExpenseNonFull fuel child expense with
          | none => none
          | some c1 => some (.mk node.keys (node.children.set i c1) node.is_leaf)

/-- The function `insertExpense(&root, expense)`; the result is the new
`*root`.  After a root split the child is chosen by
`new_root->keys[0]->expense_id < expense->expense_id`. -/
def insertExpense (root : Option BTreeNodeExpense) (expense : ExpenseNode) :
    Option (Option BTreeNodeExpense) :=
  match root with
  | none => some (some (.mk [expense] [] true))
  | some node =>
    if node.num_keys = M - 1 then
      match splitExpenseChild (.mk [] [node] false) 0 with
      | none => none
      | some new_root =>
        match new_root.keys[0]? with
        | none => none
        | some k0 =>
          let i := if k0.expense_id < expense.expense_id then 1 else 0
          match new_root.children[i]? with
          | none => none
          | some c =>
            match insertExpenseNonFull (depthExpense c + 1) c expense with
            | none => none
            | some c1 =>
              some (some (.mk new_root.keys (new_root.children.set i c1) new_root.is_leaf))
    else
      match insertExpenseNonFull (depthExpense node + 1) node expense with
      | none => none
      | some t => some (some t)

/-- The scan `while (i < num_keys && keys[i] < (user_id, expense_id)) i++` of
`searchExpense`. -/
def scanUpExpense : List ExpenseNode → Int → Int → Nat
  | [], _, _ => 0
  | k :: ks, user_id, expense_id =>
    if expenseLt k ⟨expense_id, user_id⟩ then scanUpExpense ks user_id expense_id + 1 else 0

mutual
/-- The function `searchExpense` on a non-`NULL` node. -/
def searchExpenseNode : BTreeNodeExpense → Int → Int → Option ExpenseNode
  | .mk ks cs leaf, user_id, expense_id =>
    let i := scanUpExpense ks user_id expense_id
    match ks[i]? with
    | some k =>
      if k.user_id = user_id ∧ k.expense_id = expense_id then some k
      else if leaf then none
      else searchExpenseChild cs i user_id expense_id
    | none => if leaf then none else searchExpenseChild cs i user_id expense_id
/-- The recursive call `searchExpense(root->children[i], user_id, expense_id)`. -/
def searchExpenseChild : List BTreeNodeExpense → Nat → Int → Int → Option ExpenseNode
  | [], _, _, _ => none
  | c :: _, 0, user_id, expense_id => searchExpenseNode c user_id expense_id
  | _ :: cs, i + 1, user_id, expense_id => searchExpenseChild cs i user_id expense_id
end

/-- The function `searchExpense(root, user_id, expense_id)`. -/
def searchExpense : Option BTreeNodeExpense → Int → Int → Option ExpenseNode
  | none, _, _ => none
  | some r, user_id, expense_id => searchExpenseNode r user_id expense_id

mutual
/-- The function `traverseAndPrintExpenses` on a non-`NULL` node, returning
the records in the order they are printed. -/
def traverseExpenses : BTreeNodeExpense → List ExpenseNode
  | .mk ks cs leaf => traverseExpensesFrom cs ks leaf
/-- The loop of `traverseAndPrintExpenses` from some index on; the last child
is visited only when the node is not a leaf. -/
def traverseExpensesFrom : List BTreeNodeExpense → List ExpenseNode → Bool → List ExpenseNode
  | [], ks, _ => ks
  | c :: _, [], leaf => if leaf then [] else traverseExpenses c
  | c :: cs, k :: ks, leaf => traverseExpenses c ++ k :: traverseExpensesFrom cs ks leaf
end

/-- The function `traverseAndPrintExpenses(root)` on a root handle. -/
def traverseAndPrintExpenses : Option BTreeNodeExpense → List ExpenseNode
  | none => []
  | some r => traverseExpenses r

/-- The expense tree after inserting a list of expenses, in order, into
`root`. -/
def insertExpenses (root : Option BTreeNodeExpense) :
    List ExpenseNode → Option (Option BTreeNodeExpense)
  | [] => some root
  | e :: es =>
    match insertExpense root e with
    | none => none
    | some root1 => insertExpenses root1 es

/-- Strictly increasing composite key `(user_id, expense_id)` along a list. -/
def ExpenseSorted (l : List ExpenseNode) : Prop :=
  l.Pairwise (fun a b => a.user_id < b.user_id ∨
    (a.user_id = b.user_id ∧ a.expense_id < b.expense_id))

/-! ## Instrumented functions: the steps a call takes and the state outside the tree -/

/-- The steps of the tree engine that a call is observed to take: a call of
`splitUserChild`, of `borrowFromLeftIndividual`, of `borrowFromRightIndividual`,
of `mergeIndividualNodes`, and a call of `removeFromLeafIndividual`, with the
record `node->keys[idx]` it is run on. -/
inductive TreeEvent where
  | split
  | borrowLeft
  | borrowRight
  | merge
  | removeFromLeaf (u : UserNode)
deriving DecidableEq

/-- The function `insertUserNonFull(node, user)`, with the steps it takes. -/
def insertUserNonFullTraced :
    Nat → BTreeNodeUser → UserNode → Option (BTreeNodeUser × List TreeEvent)
  | 0, _, _ => none
  | fuel + 1, node, user =>
    let i := scanDown node.keys user.user_id node.num_keys
    if node.is_leaf then
      some (.mk (node.keys.take i ++ user :: node.keys.drop i) node.children node.is_leaf, [])
    else
      match node.children[i]? with
      | none => none
      | some child =>
        if child.num_keys = M - 1 then
          match splitUserChild node i with
          | none => none
          | some node1 =>
            match node1.keys[i]? with
            | none => none
            | some ki =>
              let j := if user.user_id > ki.user_id then i + 1 else i
              match node1.children[j]? with
              | none => none
              | some c =>
                match insertUserNonFullTraced fuel c user with
                | none => none
                | some (c1, ev) =>
                  some (.mk node1.keys (node1.children.set j c1) node1.is_leaf,
                    TreeEvent.split :: ev)
        else
          match insertUserNonFullTraced fuel child user with
          | none => none
          | some (c1, ev) => some (.mk node.keys (node.children.set i c1) node.is_leaf, ev)

/-- The function `insertUser(&root, user)`, with the steps it takes. -/
def insertUserTraced (root : Option BTreeNodeUser) (user : UserNode) :
    Option (Option BTreeNodeUser × List TreeEvent) :=
  match root with
  | none => some (some (.mk [user] [] true), [])
  | some r =>
    if r.num_keys = M - 1 then
      match splitUserChild (.mk [] [r] false) 0 with
      | none => none
      | some new_root =>
        match insertUserNonFullTraced (depth new_root + 1) new_root user with
        | none => none
        | some (t, ev) => some (some t, TreeEvent.split :: ev)
    else
      match insertUserNonFullTraced (depth r + 1) r user with
      | none => none
      | some (t, ev) => some (some t, ev)

/-- The root handle and the steps taken after inserting a list of records, in
order, into `root`. -/
def insertUsersTraced (root : Option BTreeNodeUser) :
    List UserNode → Option (Option BTreeNodeUser × List TreeEvent)
  | [] => some (root, [])
  | u :: us =>
    match insertUserTraced root u with
    | none => none
    | some (root1, ev) =>
      match insertUsersTraced root1 us with
      | none => none
      | some (root2, ev2) => some (root2, ev ++ ev2)

/-- The function `fillIndividualChild(node, idx)`, with the step it takes. -/
def fillIndividualChildTraced (node : BTreeNodeUser) (idx : Nat) :
    Option (BTreeNodeUser × TreeEvent) :=
  let leftHas : Option Bool :=
    if idx ≠ 0 then (node.children[idx - 1]?).map (fun s => decide (s.num_keys ≥ M / 2))
    else some false
  match leftHas with
  | none => none
  | some true => (borrowFromLeftIndividual node idx).map (fun n => (n, TreeEvent.borrowLeft))
  | some false =>
    let rightHas : Option Bool :=
      if idx ≠ node.num_keys then
        (node.children[idx + 1]?).map (fun s => decide (s.num_keys ≥ M / 2))
      else some false
    match rightHas with
    | none => none
    | some true =>
      (borrowFromRightIndividual node idx).map (fun n => (n, TreeEvent.borrowRight))
    | some false =>
      if idx ≠ node.num_keys then
        (mergeIndividualNodes node idx).map (fun n => (n, TreeEvent.merge))
      else (mergeIndividualNodes node (idx - 1)).map (fun n => (n, TreeEvent.merge))

/-- The function `deleteFromIndividualSubtree(node, user_id)`, with the steps
it takes. -/
def deleteFromIndividualSubtreeTraced :
    Nat → BTreeNodeUser → Int → Option (BTreeNodeUser × List TreeEvent)
  | 0, _, _ => none
  | fuel + 1, node, user_id =>
    let idx := find_key_index_individual node user_id
    let found : Bool := decide ((node.keys[idx]?).map UserNode.user_id = some user_id)
    if found then
      if node.is_leaf then
        some (removeFromLeafIndividual node idx,
          (node.keys[idx]?).toList.map TreeEvent.removeFromLeaf)
      else
        match node.children[idx]? with
        | none => none
        | some left =>
          if left.num_keys ≥ M / 2 then
            match getIndividualPredecessor node idx with
            | none => none
            | some pred =>
              match deleteFromIndividualSubtreeTraced fuel left pred.user_id with
              | none => none
              | some (left1, ev) =>
                some (.mk (node.keys.set idx pred) (node.children.set idx left1) node.is_leaf,
                  ev)
          else
            match node.children[idx + 1]? with
            | none => none
            | some right =>
              if right.num_keys ≥ M / 2 then
                match getIndividualSuccessor node idx with
                | none => none
                | some succ =>
                  match deleteFromIndividualSubtreeTraced fuel right succ.user_id with
                  | none => none
                  | some (right1, ev) =>
                    some (.mk (node.keys.set idx succ) (node.children.set (idx + 1) right1)
                      node.is_leaf, ev)
              else
                match mergeIndividualNodes node idx with
                | none => none
                | some node1 =>
                  match node1.children[idx]? with
                  | none => none
                  | some c =>
                    match deleteFromIndividualSubtreeTraced fuel c user_id with
                    | none => none
                    | some (c1, ev) =>
                      some (.mk node1.keys (node1.children.set idx c1) node1.is_leaf,
                        TreeEvent.merge :: ev)
    else
      if node.is_leaf then some (node, [])
      else
        let flag : Bool := decide (idx = node.num_keys)
        match node.children[idx]? with
        | none => none
        | some child =>
          let filled : Option (BTreeNodeUser × List TreeEvent) :=
            if child.num_keys < M / 2 then
              (fillIndividualChildTraced node idx).map (fun r => (r.1, [r.2]))
            else some (node, [])
          match filled with
          | none => none
          | some (node1, ev1) =>
            let j := if flag && decide (idx > node1.num_keys) then idx - 1 else idx
            match node1.children[j]? with
            | none => none
            | some c =>
              match deleteFromIndividualSubtreeTraced fuel c user_id with
              | none => none
              | some (c1, ev) =>
                some (.mk node1.keys (node1.children.set j c1) node1.is_leaf, ev1 ++ ev)

/-- The function `deleteIndividual(&root, user_id)`, with the steps it takes:
the new `*root`, the returned flag and the steps. -/
def deleteIndividualTraced (root : Option BTreeNodeUser) (user_id : Int) :
    Option (Option BTreeNodeUser × Bool × List TreeEvent) :=
  match root with
  | none => some (none, false, [])
  | some r =>
    match deleteFromIndividualSubtreeTraced (depth r + 1) r user_id with
    | none => none
    | some (r1, ev) =>
      if r1.num_keys = 0 then
        if r1.is_leaf then some (none, true, ev) else some (r1.children[0]?, true, ev)
      else some (some r1, true, ev)

/-- The records that a call hands to `free` through `removeFromLeafIndividual`
(`free(node->keys[idx])`). -/
def releasedRecords : List TreeEvent → List UserNode
  | [] => []
  | .removeFromLeaf u :: ev => u :: releasedRecords ev
  | _ :: ev => releasedRecords ev

/-- The fields of `struct FamilyNode` that `removeFromLeafIndividual` changes,
apart from the float totals: `members` is `members[0 .. member_count)`. -/
structure FamilyNode where
  family_id : Int
  members : List UserNode
deriving DecidableEq

/-- The state outside the user tree that `removeFromLeafIndividual` reads and
writes: the family records, the field `user->family` of the users whose
pointer is not `NULL` (as pairs of `user_id` and `family_id`), and the records
released so far. -/
structure UserHeap where
  families : List FamilyNode
  family_of : List (Int × Int)
  released : List UserNode

/-- The effect of `removeFromLeafIndividual` on the state outside the tree,
for `user = node->keys[idx]`: when `user->family` is set, the first slot of
its `members` that holds `user` is closed by shifting the later members left
and `member_count` drops by one; then the record is released. -/
def removeFromLeafIndividualHeap (heap : UserHeap) (user : UserNode) : UserHeap :=
  let families : List FamilyNode :=
    match heap.family_of.lookup user.user_id with
    | none => heap.families
    | some fid =>
      heap.families.map (fun f =>
        if f.family_id = fid then FamilyNode.mk f.family_id (f.members.erase user) else f)
  UserHeap.mk families heap.family_of (heap.released ++ [user])

/-- The state outside the tree after the steps of a call. -/
def applyTreeEvents (heap : UserHeap) : List TreeEvent → UserHeap
  | [] => heap
  | .removeFromLeaf u :: ev => applyTreeEvents (removeFromLeafIndividualHeap heap u) ev
  | _ :: ev => applyTreeEvents heap ev

/-- The function `deleteIndividual(&root, user_id)` with the state outside the
tree: the new `*root`, the returned flag and the new state. -/
def deleteIndividualHeap (root : Option BTreeNodeUser) (user_id : Int) (heap : UserHeap) :
    Option (Option BTreeNodeUser × Bool × UserHeap) :=
  match deleteIndividualTraced root user_id with
  | none => none
  | some (root1, flag, ev) => some (root1, flag, applyTreeEvents heap ev)

/-! ## Search paths that need no fill -/

/-- The test `idx < num_keys && keys[idx]->user_id == user_id` of
`deleteFromIndividualSubtree`, at the index where the scan stops. -/
def foundAtScan (ks : List UserNode) (k : Int) : Bool :=
  decide ((ks[scanUp ks k]?).map UserNode.user_id = some k)

mutual
/-- No step on the search path of `k` from the node down needs a fill or a
replacement: at every internal node on the path the scan does not stop at `k`
and the child that the path enters holds at least two keys. -/
def sparePath : BTreeNodeUser → Int → Bool
  | .mk ks cs leaf, k => leaf || (!foundAtScan ks k && sparePathAt cs (scanUp ks k) k)
/-- The child at index `i` holds at least two keys and the path goes on
without a fill. -/
def sparePathAt : List BTreeNodeUser → Nat → Int → Bool
  | [], _, _ => false
  | c :: _, 0, k => decide (2 ≤ c.num_keys) && sparePath c k
  | _ :: cs, i + 1, k => sparePathAt cs i k
end

mutual
/-- The record with id `k` that the search path of `k` finds in the leaf at
its end, if it finds one there. -/
def foundInLeaf : BTreeNodeUser → Int → Option UserNode
  | .mk ks cs leaf, k =>
    if leaf then (if foundAtScan ks k then ks[scanUp ks k]? else none)
    else foundInLeafAt cs (scanUp ks k) k
/-- The same for the child at index `i`. -/
def foundInLeafAt : List BTreeNodeUser → Nat → Int → Option UserNode
  | [], _, _ => none
  | c :: _, 0, k => foundInLeaf c k
  | _ :: cs, i + 1, k => foundInLeafAt cs i k
end

mutual
/-- The tree in which the leaf at the end of the search path of `k` has lost
the key with id `k` at the scan index, the later keys of that leaf moved one
slot left, and no other node is changed. -/
def eraseOnPath : BTreeNodeUser → Int → BTreeNodeUser
  | .mk ks cs leaf, k =>
    if leaf then
      (if foundAtScan ks k then .mk (ks.eraseIdx (scanUp ks k)) cs leaf else .mk ks cs leaf)
    else .mk ks (eraseOnPathAt cs (scanUp ks k) k) leaf
/-- The same for the child at index `i` of a list of children. -/
def eraseOnPathAt : List BTreeNodeUser → Nat → Int → List BTreeNodeUser
  | [], _, _ => []
  | c :: cs, 0, k => eraseOnPath c k :: cs
  | c :: cs, i + 1, k => c :: eraseOnPathAt cs i k
end

/-- The user tree that the inserts of ids 10, 20, 5, 6, 12, 30, 7, 17 build, for
records without a name: the root `[10, 20]` over the leaves `[5, 6, 7]`,
`[12, 17]` and `[30]`. -/
def scenarioTree : BTreeNodeUser :=
  .mk [⟨10, ""⟩, ⟨20, ""⟩]
    [.mk [⟨5, ""⟩, ⟨6, ""⟩, ⟨7, ""⟩] [] true, .mk [⟨12, ""⟩, ⟨17, ""⟩] [] true,
      .mk [⟨30, ""⟩] [] true] false

/-! ## The logged insert and `addUser` -/

/-- What `insertUser` is observed to do to the arrays of the nodes: a call of
`insertUserNonFull` on a node that holds `num_keys` keys, a store to
`keys[idx]` of a node, and a store to `children[idx]` of a node. -/
inductive InsertEvent where
  | entered (num_keys : Nat)
  | keyWrite (idx : Nat)
  | childWrite (idx : Nat)
deriving DecidableEq

/-- The bounds of `UserNode* keys[M-1]` and `BTreeNodeUser* children[M]`: a
store is in bounds when its index is below `M - 1` (keys) or `M` (children),
and a call of `insertUserNonFull` is in order when the node is not full. -/
def InsertEvent.inBounds : InsertEvent → Bool
  | .entered n => decide (n < M - 1)
  | .keyWrite i => decide (i < M - 1)
  | .childWrite i => decide (i < M)

/-- The key counts of the nodes on which `insertUserNonFull` was entered, in
call order. -/
def enteredCounts : List InsertEvent → List Nat
  | [] => []
  | .entered n :: ev => n :: enteredCounts ev
  | _ :: ev => enteredCounts ev

/-- The stores of `createUserNode`: `children[i] = NULL` for `i < M`. -/
def createUserNodeWrites : List InsertEvent :=
  (List.range M).map InsertEvent.childWrite

/-- The stores of `splitUserChild(parent, idx)` in program order: the new
node is created, takes `keys[j]` for `j < M/2 - 1` and, for an internal child,
`children[j]` for `j < M/2`; the parent's children `j = num_keys .. idx + 1`
move to `j + 1` and `children[idx + 1]` is set; the parent's keys
`j = num_keys - 1 .. idx` move to `j + 1` and `keys[idx]` is set. -/
def splitUserChildWrites (parent : BTreeNodeUser) (idx : Nat) : List InsertEvent :=
  match parent.children[idx]? with
  | none => []
  | some child =>
    createUserNodeWrites ++ (List.range (M / 2 - 1)).map InsertEvent.keyWrite ++
      (if child.is_leaf then [] else (List.range (M / 2)).map InsertEvent.childWrite) ++
      (List.range' (idx + 1) (parent.num_keys - idx)).reverse.map
        (fun j => InsertEvent.childWrite (j + 1)) ++
      [InsertEvent.childWrite (idx + 1)] ++
      (List.range' idx (parent.num_keys - idx)).reverse.map
        (fun j => InsertEvent.keyWrite (j + 1)) ++
      [InsertEvent.keyWrite idx]

/-- The function `insertUserNonFull(node, user)`, with the calls and stores
it makes: in a leaf the keys `j = num_keys - 1 .. i` move to `j + 1` and
`keys[i]` is set, where `i` is the slot the scan stops at. -/
def insertUserNonFullLogged :
    Nat → BTreeNodeUser → UserNode → Option (BTreeNodeUser × List InsertEvent)
  | 0, _, _ => none
  | fuel + 1, node, user =>
    let i := scanDown node.keys user.user_id node.num_keys
    if node.is_leaf then
      some (.mk (node.keys.take i ++ user :: node.keys.drop i) node.children node.is_leaf,
        InsertEvent.entered node.num_keys ::
          ((List.range' i (node.num_keys - i)).reverse.map
            (fun j => InsertEvent.keyWrite (j + 1)) ++ [InsertEvent.keyWrite i]))
    else
      match node.children[i]? with
      | none => none
      | some child =>
        if child.num_keys = M - 1 then
          match splitUserChild node i with
          | none => none
          | some node1 =>
            match node1.keys[i]? with
            | none => none
            | some ki =>
              let j := if user.user_id > ki.user_id then i + 1 else i
              match node1.children[j]? with
              | none => none
              | some c =>
                match insertUserNonFullLogged fuel c user with
                | none => none
                | some (c1, ev) =>
                  some (.mk node1.keys (node1.children.set j c1) node1.is_leaf,
                    InsertEvent.entered node.num_keys :: (splitUserChildWrites node i ++ ev))
        else
          match insertUserNonFullLogged fuel child user with
          | none => none
          | some (c1, ev) =>
            some (.mk node.keys (node.children.set i c1) node.is_leaf,
              InsertEvent.entered node.num_keys :: ev)

/-- The function `insertUser(&root, user)`, with the calls and stores it
makes: on the empty tree a node is created and `keys[0]` is set; on a full
root a new root is created, `children[0]` is set and the old root is split. -/
def insertUserLogged (root : Option BTreeNodeUser) (user : UserNode) :
    Option (Option BTreeNodeUser × List InsertEvent) :=
  match root with
  | none => some (some (.mk [user] [] true), createUserNodeWrites ++ [InsertEvent.keyWrite 0])
  | some r =>
    if r.num_keys = M - 1 then
      match splitUserChild (.mk [] [r] false) 0 with
      | none => none
      | some new_root =>
        match insertUserNonFullLogged (depth new_root + 1) new_root user with
        | none => none
        | some (t, ev) =>
          some (some t, createUserNodeWrites ++ [InsertEvent.childWrite 0] ++
            splitUserChildWrites (.mk [] [r] false) 0 ++ ev)
    else
      match insertUserNonFullLogged (depth r + 1) r user with
      | none => none
      | some (t, ev) => some (some t, ev)

/-- The root handle and the calls and stores made after inserting a list of
records, in order, into `root`. -/
def insertUsersLogged (root : Option BTreeNodeUser) :
    List UserNode → Option (Option BTreeNodeUser × List InsertEvent)
  | [] => some (root, [])
  | u :: us =>
    match insertUserLogged root u with
    | none => none
    | some (root1, ev) =>
      match insertUsersLogged root1 us with
      | none => none
      | some (root2, ev2) => some (root2, ev ++ ev2)

/-- The function `addUser(user_id, name, income)` on the global `user_root`:
the new `user_root` and the returned record (`none` for `NULL`). -/
def addUser (user_root : Option BTreeNodeUser) (user_id : Int) (name : String) :
    Option (Option BTreeNodeUser × Option UserNode) :=
  match searchUser user_root user_id with
  | some _ => some (user_root, none)
  | none =>
    match insertUser user_root ⟨user_id, name⟩ with
    | none => none
    | some root1 => some (root1, some ⟨user_id, name⟩)

/-- The global `user_root` after a sequence of `addUser` calls. -/
def addUsers (user_root : Option BTreeNodeUser) :
    List (Int × String) → Option (Option BTreeNodeUser)
  | [] => some user_root
  | (user_id, name) :: calls =>
    match addUser user_root user_id name with
    | none => none
    | some (root1, _) => addUsers root1 calls

/-! ## The family engine: insertion, and trees reduced to their keys -/

/-- The type `struct BTreeNodeFamily`, with the arrays cut to their live part. -/
inductive BTreeNodeFamily where
  | mk (keys : List FamilyNode) (children : List BTreeNodeFamily) (is_leaf : Bool)

namespace BTreeNodeFamily

/-- The live keys `keys[0 .. num_keys)`. -/
def keys : BTreeNodeFamily → List FamilyNode
  | mk ks _ _ => ks

/-- The live child pointers. -/
def children : BTreeNodeFamily → List BTreeNodeFamily
  | mk _ cs _ => cs

/-- The field `is_leaf`. -/
def is_leaf : BTreeNodeFamily → Bool
  | mk _ _ l => l

/-- The field `num_keys`. -/
def num_keys (n : BTreeNodeFamily) : Nat := n.keys.length

end BTreeNodeFamily

/-- The function `createFamilyNode(is_leaf)`. -/
def createFamilyNode (is_leaf : Bool) : BTreeNodeFamily := .mk [] [] is_leaf

mutual
/-- Number of nodes on the longest path from a family node down. -/
def depthFamily : BTreeNodeFamily → Nat
  | .mk _ cs _ => depthFamilyList cs + 1
/-- Largest `depthFamily` among a list of children. -/
def depthFamilyList : List BTreeNodeFamily → Nat
  | [] => 0
  | c :: cs => max (depthFamily c) (depthFamilyList cs)
end

/-- The function `splitFamilyChild(parent, index)`. -/
def splitFamilyChild (parent : BTreeNodeFamily) (index : Nat) : Option BTreeNodeFamily :=
  match parent.children[index]? with
  | none => none
  | some child =>
    match child.keys[M / 2 - 1]? with
    | none => none
    | some mid =>
      let newNode : BTreeNodeFamily :=
        .mk ((child.keys.drop (M / 2)).take (M / 2 - 1))
          (if child.is_leaf then [] else (child.children.drop (M / 2)).take (M / 2))
          child.is_leaf
      let child1 : BTreeNodeFamily :=
        .mk (child.keys.take (M / 2 - 1)) (child.children.take (M / 2)) child.is_leaf
      some (.mk (parent.keys.take index ++ mid :: parent.keys.drop index)
        (parent.children.take index ++ child1 :: newNode :: parent.children.drop (index + 1))
        parent.is_leaf)

/-- The scan `while (i >= 0 && keys[i]->family_id > family->family_id) i--` of
`insertFamilyNonFull`, started with `i + 1 = n`; the result is the final `i + 1`. -/
def scanDownFamily (ks : List FamilyNode) (family_id : Int) : Nat → Nat
  | 0 => 0
  | i + 1 =>
    match ks[i]? with
    | some k => if k.family_id > family_id then scanDownFamily ks family_id i else i + 1
    | none => i + 1

/-- The function `insertFamilyNonFull(node, family)`. -/
def insertFamilyNonFull : Nat → BTreeNodeFamily → FamilyNode → Option BTreeNodeFamily
  | 0, _, _ => none
  | fuel + 1, node, family =>
    let i := scanDownFamily node.keys family.family_id node.num_keys
    if node.is_leaf then
      some (.mk (node.keys.take i ++ family :: node.keys.drop i) node.children node.is_leaf)
    else
      match node.children[i]? with
      | none => none
      | some child =>
        if child.num_keys = M - 1 then
          match splitFamilyChild node i with
          | none => none
          | some node1 =>
            match node1.keys[i]? with
            | none => none
            | some ki =>
              let j := if ki.family_id < family.family_id then i + 1 else i
              match node1.children[j]? with
              | none => none
              | some c =>
                match insertFamilyNonFull fuel c family with
                | none => none
                | some c1 => some (.mk node1.keys (node1.children.set j c1) node1.is_leaf)
        else
          match insertFamilyNonFull fuel child family with
          | none => none
          | some c1 => some (.mk node.keys (node.children.set i c1) node.is_leaf)

/-- The function `insertFamily(&root, family)`; the result is the new `*root`.
After a root split the function picks the child itself, by
`new_root->keys[0]->family_id < family->family_id`, and calls
`insertFamilyNonFull` on that child (the depth of the new root bounds the
recursion). -/
def insertFamily (root : Option BTreeNodeFamily) (family : FamilyNode) :
    Option (Option BTreeNodeFamily) :=
  match root with
  | none => some (some (.mk [family] [] true))
  | some node =>
    if node.num_keys = M - 1 then
      match splitFamilyChild (.mk [] [node] false) 0 with
      | none => none
      | some new_root =>
        match new_root.keys[0]? with
        | none => none
        | some k0 =>
          let i := if k0.family_id < family.family_id then 1 else 0
          match new_root.children[i]? with
          | none => none
          | some c =>
            match insertFamilyNonFull (depthFamily new_root) c family with
            | none => none
            | some c1 =>
              some (some (.mk new_root.keys (new_root.children.set i c1) new_root.is_leaf))
    else
      match insertFamilyNonFull (depthFamily node + 1) node family with
      | none => none
      | some t => some (some t)

/-- The root handle after inserting a list of families, in order, into `root`. -/
def insertFamilies (root : Option BTreeNodeFamily) :
    List FamilyNode → Option (Option BTreeNodeFamily)
  | [] => some root
  | f :: fs =>
    match insertFamily root f with
    | none => none
    | some root1 => insertFamilies root1 fs

/-- A B-tree node reduced to what the two engines have in common: the
integer keys in their slots, the children in their slots, and the leaf flag. -/
inductive KeyTree where
  | mk (keys : List Int) (children : List KeyTree) (is_leaf : Bool)

mutual
/-- The shape of a user tree node with the `user_id` of each key in place. -/
def userKeys : BTreeNodeUser → KeyTree
  | .mk ks cs leaf => .mk (ks.map UserNode.user_id) (userKeysList cs) leaf
/-- The same for a list of children. -/
def userKeysList : List BTreeNodeUser → List KeyTree
  | [] => []
  | c :: cs => userKeys c :: userKeysList cs
end

mutual
/-- The shape of a family tree node with the `family_id` of each key in place. -/
def familyKeys : BTreeNodeFamily → KeyTree
  | .mk ks cs leaf => .mk (ks.map FamilyNode.family_id) (familyKeysList cs) leaf
/-- The same for a list of children. -/
def familyKeysList : List BTreeNodeFamily → List KeyTree
  | [] => []
  | c :: cs => familyKeys c :: familyKeysList cs
end

/-! ## The expense engine: deletion, and the expense lists of the users -/

/-- The function `find_key_index_expense(node, user_id, expense_id)`. -/
def find_key_index_expense (node : BTreeNodeExpense) (user_id expense_id : Int) : Nat :=
  scanUpExpense node.keys user_id expense_id

/-- The key shift of `removeFromLeafExpense(node, idx)`: the keys after `idx`
move one slot left and `num_keys` drops by one. (The unlinking from the
user's chain and the release of the record `node->keys[idx]` are effects
outside the node: `deleteFromExpenseSubtree` reports the record, and
`removeFromLeafExpenseChain` is the effect on the chain.) -/
def removeFromLeafExpense (node : BTreeNodeExpense) (idx : Nat) : BTreeNodeExpense :=
  .mk (node.keys.eraseIdx idx) node.children node.is_leaf

mutual
/-- The loop of `getExpensePredecessor` from `curr` on. -/
def rightmostExpenseKey : BTreeNodeExpense → Option ExpenseNode
  | .mk ks cs leaf => if leaf then ks.getLast? else rightmostExpenseKeyAt cs ks.length
/-- The step `curr = curr->children[i]` of that loop. -/
def rightmostExpenseKeyAt : List BTreeNodeExpense → Nat → Option ExpenseNode
  | [], _ => none
  | c :: _, 0 => rightmostExpenseKey c
  | _ :: cs, i + 1 => rightmostExpenseKeyAt cs i
end

mutual
/-- The loop of `getExpenseSuccessor` from `curr` on. -/
def leftmostExpenseKey : BTreeNodeExpense → Option ExpenseNode
  | .mk ks cs leaf => if leaf then ks.head? else leftmostExpenseKeyAt cs
/-- The step `curr = curr->children[0]` of that loop. -/
def leftmostExpenseKeyAt : List BTreeNodeExpense → Option ExpenseNode
  | [] => none
  | c :: _ => leftmostExpenseKey c
end

/-- The function `getExpensePredecessor(node, idx)`. -/
def getExpensePredecessor (node : BTreeNodeExpense) (idx : Nat) : Option ExpenseNode :=
  match node.children[idx]? with
  | none => none
  | some c => rightmostExpenseKey c

/-- The function `getExpenseSuccessor(node, idx)`. -/
def getExpenseSuccessor (node : BTreeNodeExpense) (idx : Nat) : Option ExpenseNode :=
  match node.children[idx + 1]? with
  | none => none
  | some c => leftmostExpenseKey c

/-- The function `borrowFromLeftExpense(parent, idx)`. -/
def borrowFromLeftExpense (parent : BTreeNodeExpense) (idx : Nat) : Option BTreeNodeExpense :=
  match parent.children[idx]?, parent.children[idx - 1]?, parent.keys[idx - 1]? with
  | some child, some sibling, some pk =>
    match sibling.keys.getLast? with
    | none => none
    | some sk =>
      let moved : Option (List BTreeNodeExpense) :=
        if child.is_leaf then some child.children
        else (sibling.children[sibling.num_keys]?).map (fun g => g :: child.children)
      match moved with
      | none => none
      | some cc =>
        let child1 : BTreeNodeExpense := .mk (pk :: child.keys) cc child.is_leaf
        let sibling1 : BTreeNodeExpense :=
          .mk sibling.keys.dropLast (sibling.children.take sibling.num_keys) sibling.is_leaf
        some (.mk (parent.keys.set (idx - 1) sk)
          ((parent.children.set idx child1).set (idx - 1) sibling1) parent.is_leaf)
  | _, _, _ => none

/-- The function `borrowFromRightExpense(parent, idx)`. -/
def borrowFromRightExpense (parent : BTreeNodeExpense) (idx : Nat) : Option BTreeNodeExpense :=
  match parent.children[idx]?, parent.children[idx + 1]?, parent.keys[idx]? with
  | some child, some sibling, some pk =>
    match sibling.keys.head? with
    | none => none
    | some sk =>
      let moved : Option (List BTreeNodeExpense) :=
        if child.is_leaf then some child.children
        else (sibling.children[0]?).map (fun g => child.children ++ [g])
      match moved with
      | none => none
      | some cc =>
        let child1 : BTreeNodeExpense := .mk (child.keys ++ [pk]) cc child.is_leaf
        let sibling1 : BTreeNodeExpense :=
          .mk sibling.keys.tail
            (if sibling.is_leaf then sibling.children else sibling.children.tail)
            sibling.is_leaf
        some (.mk (parent.keys.set idx sk)
          ((parent.children.set idx child1).set (idx + 1) sibling1) parent.is_leaf)
  | _, _, _ => none

/-- The function `mergeExpenseNodes(node, idx)`. -/
def mergeExpenseNodes (node : BTreeNodeExpense) (idx : Nat) : Option BTreeNodeExpense :=
  match node.children[idx]?, node.children[idx + 1]?, node.keys[idx]? with
  | some child, some sibling, some pk =>
    let merged : BTreeNodeExpense :=
      .mk (child.keys.take (M / 2 - 1) ++ pk :: sibling.keys)
        (if child.is_leaf then child.children
         else child.children.take (M / 2) ++ sibling.children)
        child.is_leaf
    some (.mk (node.keys.eraseIdx idx)
      ((node.children.set idx merged).eraseIdx (idx + 1)) node.is_leaf)
  | _, _, _ => none

/-- The function `fillExpenseChild(node, idx)`. -/
def fillExpenseChild (node : BTreeNodeExpense) (idx : Nat) : Option BTreeNodeExpense :=
  let leftHas : Option Bool :=
    if idx ≠ 0 then (node.children[idx - 1]?).map (fun s => decide (s.num_keys ≥ M / 2))
    else some false
  match leftHas with
  | none => none
  | some true => borrowFromLeftExpense node idx
  | some false =>
    let rightHas : Option Bool :=
      if idx ≠ node.num_keys then
        (node.children[idx + 1]?).map (fun s => decide (s.num_keys ≥ M / 2))
      else some false
    match rightHas with
    | none => none
    | some true => borrowFromRightExpense node idx
    | some false =>
      if idx ≠ node.num_keys then mergeExpenseNodes node idx
      else mergeExpenseNodes node (idx - 1)

/-- The function `deleteFromExpenseSubtree(node, user_id, expense_id)`: the
node as the call leaves it, and the records `node->keys[idx]` on which
`removeFromLeafExpense` was run, which unlinks and releases them. A key slot
holds the record that the slot of the C node points to; in the predecessor
and successor branches that record is among the released ones. -/
def deleteFromExpenseSubtree :
    Nat → BTreeNodeExpense → Int → Int → Option (BTreeNodeExpense × List ExpenseNode)
  | 0, _, _, _ => none
  | fuel + 1, node, user_id, expense_id =>
    let idx := find_key_index_expense node user_id expense_id
    let found : Bool :=
      decide ((node.keys[idx]?).map (fun k => (k.user_id, k.expense_id)) =
        some (user_id, expense_id))
    if found then
      if node.is_leaf then some (removeFromLeafExpense node idx, (node.keys[idx]?).toList)
      else
        match node.children[idx]? with
        | none => none
        | some left =>
          if left.num_keys ≥ M / 2 then
            match getExpensePredecessor node idx with
            | none => none
            | some pred =>
              match deleteFromExpenseSubtree fuel left pred.user_id pred.expense_id with
              | none => none
              | some (left1, ev) =>
                some (.mk (node.keys.set idx pred) (node.children.set idx left1) node.is_leaf,
                  ev)
          else
            match node.children[idx + 1]? with
            | none => none
            | some right =>
              if right.num_keys ≥ M / 2 then
                match getExpenseSuccessor node idx with
                | none => none
                | some succ =>
                  match deleteFromExpenseSubtree fuel right succ.user_id succ.expense_id with
                  | none => none
                  | some (right1, ev) =>
                    some (.mk (node.keys.set idx succ) (node.children.set (idx + 1) right1)
                      node.is_leaf, ev)
              else
                match mergeExpenseNodes node idx with
                | none => none
                | some node1 =>
                  match node1.children[idx]? with
                  | none => none
                  | some c =>
                    match deleteFromExpenseSubtree fuel c user_id expense_id with
                    | none => none
                    | some (c1, ev) =>
                      some (.mk node1.keys (node1.children.set idx c1) node1.is_leaf, ev)
    else
      if node.is_leaf then some (node, [])
      else
        let flag : Bool := decide (idx = node.num_keys)
        match node.children[idx]? with
        | none => none
        | some child =>
          let filled : Option BTreeNodeExpense :=
            if child.num_keys < M / 2 then fillExpenseChild node idx else some node
          match filled with
          | none => none
          | some node1 =>
            let j := if flag && decide (idx > node1.num_keys) then idx - 1 else idx
            match node1.children[j]? with
            | none => none
            | some c =>
              match deleteFromExpenseSubtree fuel c user_id expense_id with
              | none => none
              | some (c1, ev) =>
                some (.mk node1.keys (node1.children.set j c1) node1.is_leaf, ev)

/-- The function `deleteExpense(&root, user_id, expense_id)`: the new `*root`,
the returned flag, and the records on which `removeFromLeafExpense` was run. -/
def deleteExpense (root : Option BTreeNodeExpense) (user_id expense_id : Int) :
    Option (Option BTreeNodeExpense × Bool × List ExpenseNode) :=
  match root with
  | none => some (none, false, [])
  | some r =>
    match deleteFromExpenseSubtree (depthExpense r + 1) r user_id expense_id with
    | none => none
    | some (r1, ev) =>
      if r1.num_keys = 0 then
        if r1.is_leaf then some (none, true, ev) else some (r1.children[0]?, true, ev)
      else some (some r1, true, ev)

/-- The globals `user_root` and `expense_root`, and for each user record (by
`user_id`) its chain `expenses_head`, `->next`, ... -/
structure Domain where
  user_root : Option BTreeNodeUser
  expense_root : Option BTreeNodeExpense
  expenses_head : List (Int × List ExpenseNode)

/-- The chain `user->expenses_head` of the user record with this id. -/
def Domain.expensesOf (d : Domain) (user_id : Int) : List ExpenseNode :=
  (d.expenses_head.lookup user_id).getD []

/-- The chains after the chain of the user record with this id is set. -/
def Domain.setExpenses (d : Domain) (user_id : Int) (chain : List ExpenseNode) :
    List (Int × List ExpenseNode) :=
  (user_id, chain) :: d.expenses_head.filter (fun p => decide (p.1 ≠ user_id))

/-- The function `searchExpenseForUser(user, expense_id)` on the chain of the
user (`none` for a `NULL` user): the first record of the chain with this
`expense_id`. -/
def searchExpenseForUser (user : Option (List ExpenseNode)) (expense_id : Int) :
    Option ExpenseNode :=
  match user with
  | none => none
  | some chain => chain.find? (fun e => decide (e.expense_id = expense_id))

/-- The function `addUser` on the domain: a new user record starts with
`expenses_head = NULL`. -/
def Domain.addUser (d : Domain) (user_id : Int) (name : String) : Option Domain :=
  match ExpenseTracking.addUser d.user_root user_id name with
  | none => none
  | some (_, none) => some d
  | some (root1, some u) =>
    some ⟨root1, d.expense_root, d.setExpenses u.user_id []⟩

/-- The function `addExpense(user_id, expense_id, ...)`: nothing happens when
the user is not found or `searchExpenseForUser` finds the id in the user's
chain; otherwise the new record is appended to the chain and inserted into the
expense tree. The result is the new state and the returned record. -/
def addExpense (d : Domain) (user_id expense_id : Int) : Option (Domain × Option ExpenseNode) :=
  match searchUser d.user_root user_id with
  | none => some (d, none)
  | some user =>
    match searchExpenseForUser (some (d.expensesOf user.user_id)) expense_id with
    | some _ => some (d, none)
    | none =>
      let new_expense : ExpenseNode := ⟨expense_id, user_id⟩
      match insertExpense d.expense_root new_expense with
      | none => none
      | some root1 =>
        some (⟨d.user_root, root1,
          d.setExpenses user.user_id (d.expensesOf user.user_id ++ [new_expense])⟩,
          some new_expense)

/-- The effect of `removeFromLeafExpense` outside the node, for the record
`node->keys[idx]`: when `searchUser(user_root, record->user_id)` finds the
user, the record is unlinked from that user's chain; then it is released. -/
def removeFromLeafExpenseChain (d : Domain) (expense : ExpenseNode) : Domain :=
  match searchUser d.user_root expense.user_id with
  | none => d
  | some user =>
    ⟨d.user_root, d.expense_root,
      d.setExpenses user.user_id ((d.expensesOf user.user_id).erase expense)⟩

/-- The call `deleteExpense(&expense_root, user_id, expense_id)` on the
domain: the new state and the returned flag. -/
def Domain.deleteExpense (d : Domain) (user_id expense_id : Int) : Option (Domain × Bool) :=
  match ExpenseTracking.deleteExpense d.expense_root user_id expense_id with
  | none => none
  | some (root1, flag, removed) =>
    some (removed.foldl removeFromLeafExpenseChain ⟨d.user_root, root1, d.expenses_head⟩, flag)

/-- A call on the domain. -/
inductive DomainOp where
  | addUser (user_id : Int) (name : String)
  | addExpense (user_id expense_id : Int)
  | deleteExpense (user_id expense_id : Int)

/-- The state after one call. -/
def applyDomainOp (d : Domain) : DomainOp → Option Domain
  | .addUser user_id name => d.addUser user_id name
  | .addExpense user_id expense_id => (addExpense d user_id expense_id).map Prod.fst
  | .deleteExpense user_id expense_id => (d.deleteExpense user_id expense_id).map Prod.fst

/-- The state after a sequence of calls, started at `d`. -/
def runDomainOps (d : Domain) : List DomainOp → Option Domain
  | [] => some d
  | op :: ops =>
    match applyDomainOp d op with
    | none => none
    | some d1 => runDomainOps d1 ops

/-- The state after user 1 has added the expenses 10, 20, 30, 40: the expense
tree is `[(1,20)]` over `[(1,10)]` and `[(1,30), (1,40)]`. -/
def expenseScenario : Domain :=
  ⟨some (.mk [⟨1, "a"⟩] [] true),
    some (.mk [⟨20, 1⟩] [.mk [⟨10, 1⟩] [] true, .mk [⟨30, 1⟩, ⟨40, 1⟩] [] true] false),
    [(1, [⟨10, 1⟩, ⟨20, 1⟩, ⟨30, 1⟩, ⟨40, 1⟩])]⟩

/-! ## The family engine: search and deletion, and the branch that deletes a
family with its members -/

/-- The constant `#define MAX_FAMILY_MEMBERS 4`. -/
def MAX_FAMILY_MEMBERS : Nat := 4

/-- The scan `idx = 0; while (idx < num_keys && keys[idx]->family_id < key) idx++`
of `find_key_index_family` and `findFamilyKeyIndex`. -/
def scanUpFamily : List FamilyNode → Int → Nat
  | [], _ => 0
  | k :: ks, family_id => if k.family_id < family_id then scanUpFamily ks family_id + 1 else 0

/-- The function `find_key_index_family(node, key)`. -/
def find_key_index_family (node : BTreeNodeFamily) (key : Int) : Nat :=
  scanUpFamily node.keys key

mutual
/-- The function `searchFamily` on a non-`NULL` node. -/
def searchFamilyNode : BTreeNodeFamily → Int → Option FamilyNode
  | .mk ks cs leaf, family_id =>
    let index := scanUpFamily ks family_id
    match ks[index]? with
    | some k =>
      if k.family_id = family_id then some k
      else if leaf then none
      else searchFamilyChild cs index family_id
    | none => if leaf then none else searchFamilyChild cs index family_id
/-- The recursive call `searchFamily(root->children[index], family_id)`. -/
def searchFamilyChild : List BTreeNodeFamily → Nat → Int → Option FamilyNode
  | [], _, _ => none
  | c :: _, 0, family_id => searchFamilyNode c family_id
  | _ :: cs, i + 1, family_id => searchFamilyChild cs i family_id
end

/-- The function `searchFamily(root, family_id)`. -/
def searchFamily : Option BTreeNodeFamily → Int → Option FamilyNode
  | none, _ => none
  | some r, family_id => searchFamilyNode r family_id

/-- The key shift of `removeFromLeafFamily(node, idx)`. -/
def removeFromLeafFamily (node : BTreeNodeFamily) (idx : Nat) : BTreeNodeFamily :=
  .mk (node.keys.eraseIdx idx) node.children node.is_leaf

mutual
/-- The loop of `getFamilyPredecessor` from `curr` on. -/
def rightmostFamilyKey : BTreeNodeFamily → Option FamilyNode
  | .mk ks cs leaf => if leaf then ks.getLast? else rightmostFamilyKeyAt cs ks.length
/-- The step `curr = curr->children[i]` of that loop. -/
def rightmostFamilyKeyAt : List BTreeNodeFamily → Nat → Option FamilyNode
  | [], _ => none
  | c :: _, 0 => rightmostFamilyKey c
  | _ :: cs, i + 1 => rightmostFamilyKeyAt cs i
end

mutual
/-- The loop of `getFamilySuccessor` from `curr` on. -/
def leftmostFamilyKey : BTreeNodeFamily → Option FamilyNode
  | .mk ks cs leaf => if leaf then ks.head? else leftmostFamilyKeyAt cs
/-- The step `curr = curr->children[0]` of that loop. -/
def leftmostFamilyKeyAt : List BTreeNodeFamily → Option FamilyNode
  | [] => none
  | c :: _ => leftmostFamilyKey c
end

/-- The function `getFamilyPredecessor(node, idx)`. -/
def getFamilyPredecessor (node : BTreeNodeFamily) (idx : Nat) : Option FamilyNode :=
  match node.children[idx]? with
  | none => none
  | some c => rightmostFamilyKey c

/-- The function `getFamilySuccessor(node, idx)`. -/
def getFamilySuccessor (node : BTreeNodeFamily) (idx : Nat) : Option FamilyNode :=
  match node.children[idx + 1]? with
  | none => none
  | some c => leftmostFamilyKey c

/-- The function `borrowFromLeftFamily(parent, idx)`. -/
def borrowFromLeftFamily (parent : BTreeNodeFamily) (idx : Nat) : Option BTreeNodeFamily :=
  match parent.children[idx]?, parent.children[idx - 1]?, parent.keys[idx - 1]? with
  | some child, some sibling, some pk =>
    match sibling.keys.getLast? with
    | none => none
    | some sk =>
      let moved : Option (List BTreeNodeFamily) :=
        if child.is_leaf then some child.children
        else (sibling.children[sibling.num_keys]?).map (fun g => g :: child.children)
      match moved with
      | none => none
      | some cc =>
        let child1 : BTreeNodeFamily := .mk (pk :: child.keys) cc child.is_leaf
        let sibling1 : BTreeNodeFamily :=
          .mk sibling.keys.dropLast (sibling.children.take sibling.num_keys) sibling.is_leaf
        some (.mk (parent.keys.set (idx - 1) sk)
          ((parent.children.set idx child1).set (idx - 1) sibling1) parent.is_leaf)
  | _, _, _ => none

/-- The function `borrowFromRightFamily(parent, idx)`. -/
def borrowFromRightFamily (parent : BTreeNodeFamily) (idx : Nat) : Option BTreeNodeFamily :=
  match parent.children[idx]?, parent.children[idx + 1]?, parent.keys[idx]? with
  | some child, some sibling, some pk =>
    match sibling.keys.head? with
    | none => none
    | some sk =>
      let moved : Option (List BTreeNodeFamily) :=
        if child.is_leaf then some child.children
        else (sibling.children[0]?).map (fun g => child.children ++ [g])
      match moved with
      | none => none
      | some cc =>
        let child1 : BTreeNodeFamily := .mk (child.keys ++ [pk]) cc child.is_leaf
        let sibling1 : BTreeNodeFamily :=
          .mk sibling.keys.tail
            (if sibling.is_leaf then sibling.children else sibling.children.tail)
            sibling.is_leaf
        some (.mk (parent.keys.set idx sk)
          ((parent.children.set idx child1).set (idx + 1) sibling1) parent.is_leaf)
  | _, _, _ => none

/-- The function `mergeFamilyNodes(node, idx)`. -/
def mergeFamilyNodes (node : BTreeNodeFamily) (idx : Nat) : Option BTreeNodeFamily :=
  match node.children[idx]?, node.children[idx + 1]?, node.keys[idx]? with
  | some child, some sibling, some pk =>
    let merged : BTreeNodeFamily :=
      .mk (child.keys.take (M / 2 - 1) ++ pk :: sibling.keys)
        (if child.is_leaf then child.children
         else child.children.take (M / 2) ++ sibling.children)
        child.is_leaf
    some (.mk (node.keys.eraseIdx idx)
      ((node.children.set idx merged).eraseIdx (idx + 1)) node.is_leaf)
  | _, _, _ => none

/-- The function `fillFamilyChild(node, idx)`. -/
def fillFamilyChild (node : BTreeNodeFamily) (idx : Nat) : Option BTreeNodeFamily :=
  let leftHas : Option Bool :=
    if idx ≠ 0 then (node.children[idx - 1]?).map (fun s => decide (s.num_keys ≥ M / 2))
    else some false
  match leftHas with
  | none => none
  | some true => borrowFromLeftFamily node idx
  | some false =>
    let rightHas : Option Bool :=
      if idx ≠ node.num_keys then
        (node.children[idx + 1]?).map (fun s => decide (s.num_keys ≥ M / 2))
      else some false
    match rightHas with
    | none => none
    | some true => borrowFromRightFamily node idx
    | some false =>
      if idx ≠ node.num_keys then mergeFamilyNodes node idx
      else mergeFamilyNodes node (idx - 1)

/-- The function `deleteFromFamilySubtree(node, family_id)`: the node as the
call leaves it, and the records `node->keys[idx]` on which
`removeFromLeafFamily` was run. -/
def deleteFromFamilySubtree :
    Nat → BTreeNodeFamily → Int → Option (BTreeNodeFamily × List FamilyNode)
  | 0, _, _ => none
  | fuel + 1, node, family_id =>
    let idx := find_key_index_family node family_id
    let found : Bool :=
      decide ((node.keys[idx]?).map FamilyNode.family_id = some family_id)
    if found then
      if node.is_leaf then some (removeFromLeafFamily node idx, (node.keys[idx]?).toList)
      else
        match node.children[idx]? with
        | none => none
        | some left =>
          if left.num_keys ≥ M / 2 then
            match getFamilyPredecessor node idx with
            | none => none
            | some pred =>
              match deleteFromFamilySubtree fuel left pred.family_id with
              | none => none
              | some (left1, ev) =>
                some (.mk (node.keys.set idx pred) (node.children.set idx left1) node.is_leaf,
                  ev)
          else
            match node.children[idx + 1]? with
            | none => none
            | some right =>
              if right.num_keys ≥ M / 2 then
                match getFamilySuccessor node idx with
                | none => none
                | some succ =>
                  match deleteFromFamilySubtree fuel right succ.family_id with
                  | none => none
                  | some (right1, ev) =>
                    some (.mk (node.keys.set idx succ) (node.children.set (idx + 1) right1)
                      node.is_leaf, ev)
              else
                match mergeFamilyNodes node idx with
                | none => none
                | some node1 =>
                  match node1.children[idx]? with
                  | none => none
                  | some c =>
                    match deleteFromFamilySubtree fuel c family_id with
                    | none => none
                    | some (c1, ev) =>
                      some (.mk node1.keys (node1.children.set idx c1) node1.is_leaf, ev)
    else
      if node.is_leaf then some (node, [])
      else
        let flag : Bool := decide (idx = node.num_keys)
        match node.children[idx]? with
        | none => none
        | some child =>
          let filled : Option BTreeNodeFamily :=
            if child.num_keys < M / 2 then fillFamilyChild node idx else some node
          match filled with
          | none => none
          | some node1 =>
            let j := if flag && decide (idx > node1.num_keys) then idx - 1 else idx
            match node1.children[j]? with
            | none => none
            | some c =>
              match deleteFromFamilySubtree fuel c family_id with
              | none => none
              | some (c1, ev) =>
                some (.mk node1.keys (node1.children.set j c1) node1.is_leaf, ev)

/-- The function `deleteFamily(&root, family_id)`: the new `*root`, the
returned flag, and the records on which `removeFromLeafFamily` was run. -/
def deleteFamily (root : Option BTreeNodeFamily) (family_id : Int) :
    Option (Option BTreeNodeFamily × Bool × List FamilyNode) :=
  match root with
  | none => some (none, false, [])
  | some r =>
    match deleteFromFamilySubtree (depthFamily r + 1) r family_id with
    | none => none
    | some (r1, ev) =>
      if r1.num_keys = 0 then
        if r1.is_leaf then some (none, true, ev) else some (r1.children[0]?, true, ev)
      else some (some r1, true, ev)

/-- The effect of `removeFromLeafFamily` outside the node, for the family
record `node->keys[idx]`: `members[i]->family = NULL` for each of its members,
then the record is released. -/
def removeFromLeafFamilyHeap (heap : UserHeap) (family : FamilyNode) : UserHeap :=
  match heap.families.find? (fun g => decide (g.family_id = family.family_id)) with
  | none => heap
  | some g =>
    UserHeap.mk (heap.families.filter (fun x => decide (x.family_id ≠ family.family_id)))
      (heap.family_of.filter (fun p => !(g.members.map UserNode.user_id).contains p.1))
      heap.released

/-- The loop `for (i = 0; i < family->member_count; i++) if (family->members[i])
deleteIndividual(user_root, family->members[i]->user_id);` from index `i` on,
for the family record with this id; `member_count` and `members` are read
again in every round. -/
def deleteFamilyMembers :
    Nat → Nat → Int → Option BTreeNodeUser → UserHeap → Option (Option BTreeNodeUser × UserHeap)
  | 0, _, _, _, _ => none
  | fuel + 1, i, family_id, user_root, heap =>
    match heap.families.find? (fun g => decide (g.family_id = family_id)) with
    | none => none
    | some family =>
      if i < family.members.length then
        match family.members[i]? with
        | none => deleteFamilyMembers fuel (i + 1) family_id user_root heap
        | some member =>
          match deleteIndividualHeap user_root member.user_id heap with
          | none => none
          | some (root1, _, heap1) => deleteFamilyMembers fuel (i + 1) family_id root1 heap1
      else some (user_root, heap)

/-- The branch `case 4` ("Delete Family (and all its members)") of
`updateOrDeleteIndividualFamilyDetails` for an entered `family_id`: when
`searchFamily` finds the family, the member loop and then `deleteFamily`. The
loop index never exceeds `MAX_FAMILY_MEMBERS`. -/
def deleteFamilyAndMembers (user_root : Option BTreeNodeUser)
    (family_root : Option BTreeNodeFamily) (heap : UserHeap) (family_id : Int) :
    Option (Option BTreeNodeUser × Option BTreeNodeFamily × UserHeap) :=
  match searchFamily family_root family_id with
  | none => some (user_root, family_root, heap)
  | some _ =>
    match deleteFamilyMembers (MAX_FAMILY_MEMBERS + 1) 0 family_id user_root heap with
    | none => none
    | some (root1, heap1) =>
      match deleteFamily family_root family_id with
      | none => none
      | some (froot1, _, removed) =>
        some (root1, froot1, removed.foldl removeFromLeafFamilyHeap heap1)

/-! ## Dates, counters, family membership, subtrees -/

/-- The type `Date`. -/
structure Date where
  day : Int
  month : Int
  year : Int
deriving DecidableEq

/-- The value of an `int` expression whose exact value is `x`: the
representative of `x` modulo `2^32` in the range `-2^31 .. 2^31 - 1`. -/
def wrapInt32 (x : Int) : Int := (x + 2147483648) % 4294967296 - 2147483648

/-- The function `dateCompare(d1, d2)`. -/
def dateCompare (d1 d2 : Date) : Int :=
  if d1.year ≠ d2.year then wrapInt32 (d1.year - d2.year)
  else if d1.month ≠ d2.month then wrapInt32 (d1.month - d2.month)
  else wrapInt32 (d1.day - d2.day)

/-- The three fields of a date are values of type `int`. -/
def Date.isInt (d : Date) : Prop :=
  (-2147483648 ≤ d.day ∧ d.day < 2147483648) ∧
  (-2147483648 ≤ d.month ∧ d.month < 2147483648) ∧
  (-2147483648 ≤ d.year ∧ d.year < 2147483648)

/-- The date `d1` is before `d2` in the order by year, then month, then day. -/
def Date.earlier (d1 d2 : Date) : Prop :=
  d1.year < d2.year ∨ (d1.year = d2.year ∧
    (d1.month < d2.month ∨ (d1.month = d2.month ∧ d1.day < d2.day)))

/-- The fields of the two dates are close enough that no subtraction of a
field of one from the same field of the other leaves the range of `int`. -/
def Date.noOverflow (d1 d2 : Date) : Prop :=
  (-2147483648 < d1.day - d2.day ∧ d1.day - d2.day < 2147483648) ∧
  (-2147483648 < d1.month - d2.month ∧ d1.month - d2.month < 2147483648) ∧
  (-2147483648 < d1.year - d2.year ∧ d1.year - d2.year < 2147483648)

/-- The domain state together with the field `expense_count` of each user
record (by `user_id`). -/
structure CountedDomain where
  domain : Domain
  expense_count : List (Int × Nat)

/-- The field `user->expense_count` of the user record with this id. -/
def CountedDomain.countOf (c : CountedDomain) (user_id : Int) : Nat :=
  (c.expense_count.lookup user_id).getD 0

/-- One call on the domain with the counters: `addUser` sets
`expense_count = 0` in the new record, `addExpense` runs
`user->expense_count++` when it adds the record, and `deleteExpense` (through
`removeFromLeafExpense`) does not write the field. -/
def applyCountedOp (c : CountedDomain) : DomainOp → Option CountedDomain
  | .addUser user_id name =>
    match ExpenseTracking.addUser c.domain.user_root user_id name,
      c.domain.addUser user_id name with
    | some (_, some u), some d1 =>
      some ⟨d1, (u.user_id, 0) :: c.expense_count.filter (fun p => decide (p.1 ≠ u.user_id))⟩
    | some (_, none), some d1 => some ⟨d1, c.expense_count⟩
    | _, _ => none
  | .addExpense user_id expense_id =>
    match searchUser c.domain.user_root user_id, addExpense c.domain user_id expense_id with
    | some user, some (d1, some _) =>
      some ⟨d1, (user.user_id, c.countOf user.user_id + 1) ::
        c.expense_count.filter (fun p => decide (p.1 ≠ user.user_id))⟩
    | _, some (d1, _) => some ⟨d1, c.expense_count⟩
    | _, none => none
  | .deleteExpense user_id expense_id =>
    (c.domain.deleteExpense user_id expense_id).map (fun r => ⟨r.1, c.expense_count⟩)

/-- The state with the counters after a sequence of calls, started at `c`. -/
def runCountedOps (c : CountedDomain) : List DomainOp → Option CountedDomain
  | [] => some c
  | op :: ops =>
    match applyCountedOp c op with
    | none => none
    | some c1 => runCountedOps c1 ops

/-- The function `joinFamily(user_id, family_id)` on the globals `user_root`
and `family_root` and the membership state: the new membership state and the
returned flag. The family record that `searchFamily` returns is read in the
record store by its `family_id`; the totals of the family are not modelled. -/
def joinFamily (user_root : Option BTreeNodeUser) (family_root : Option BTreeNodeFamily)
    (heap : UserHeap) (user_id family_id : Int) : Option (UserHeap × Bool) :=
  match searchUser user_root user_id, searchFamily family_root family_id with
  | some user, some family =>
    if (heap.family_of.lookup user.user_id).isSome then some (heap, false)
    else
      match heap.families.find? (fun g => decide (g.family_id = family.family_id)) with
      | none => none
      | some record =>
        if record.members.length ≥ MAX_FAMILY_MEMBERS then some (heap, false)
        else
          some (UserHeap.mk
            (heap.families.map (fun g =>
              if g.family_id = record.family_id then
                FamilyNode.mk g.family_id (g.members ++ [user])
              else g))
            ((user.user_id, record.family_id) :: heap.family_of) heap.released, true)
  | _, _ => some (heap, false)

/-- The membership state after a sequence of `joinFamily(user_id, family_id)`
calls. -/
def joinFamilies (user_root : Option BTreeNodeUser) (family_root : Option BTreeNodeFamily)
    (heap : UserHeap) : List (Int × Int) → Option UserHeap
  | [] => some heap
  | (user_id, family_id) :: calls =>
    match joinFamily user_root family_root heap user_id family_id with
    | none => none
    | some (heap1, _) => joinFamilies user_root family_root heap1 calls

/-- The membership state is consistent: the family records have pairwise
distinct ids, every member of a family has that family as its `family`, and
no member list holds two records with the same `user_id`. -/
def MembershipOk (heap : UserHeap) : Prop :=
  (heap.families.map FamilyNode.family_id).Nodup ∧
  (∀ f ∈ heap.families, ∀ u ∈ f.members,
    heap.family_of.lookup u.user_id = some f.family_id) ∧
  (∀ f ∈ heap.families, (f.members.map UserNode.user_id).Nodup)

/-- Every family record that `searchFamily` can return is in the record store. -/
def StoreCovers (family_root : Option BTreeNodeFamily) (heap : UserHeap) : Prop :=
  ∀ family_id family, searchFamily family_root family_id = some family →
    ∃ g ∈ heap.families, g.family_id = family.family_id

mutual
/-- The nodes of the subtree under a node, the node itself first. -/
def subtrees : BTreeNodeUser → List BTreeNodeUser
  | .mk ks cs leaf => .mk ks cs leaf :: subtreesList cs
/-- The nodes of the subtrees under a list of children. -/
def subtreesList : List BTreeNodeUser → List BTreeNodeUser
  | [] => []
  | c :: cs => subtrees c ++ subtreesList cs
end

mutual
/-- The expense tree with the shape of a user tree and, in the place of each
user record, the expense record of user `uid` whose `expense_id` is the
`user_id` of the user record. -/
def userAsExpense (uid : Int) : BTreeNodeUser → BTreeNodeExpense
  | .mk ks cs leaf =>
    .mk (ks.map (fun u => ExpenseNode.mk u.user_id uid)) (userAsExpenseList uid cs) leaf
/-- The same for a list of children. -/
def userAsExpenseList (uid : Int) : List BTreeNodeUser → List BTreeNodeExpense
  | [] => []
  | c :: cs => userAsExpense uid c :: userAsExpenseList uid cs
end

/-- The function `deleteFromIndividualSubtree(node, user_id)`, with the number
of recursive calls of `deleteFromIndividualSubtree` made in the course of the
call (the call itself is not counted). -/
def deleteFromIndividualSubtreeCalls : Nat → BTreeNodeUser → Int → Option (BTreeNodeUser × Nat)
  | 0, _, _ => none
  | fuel + 1, node, user_id =>
    let idx := find_key_index_individual node user_id
    let found : Bool := decide ((node.keys[idx]?).map UserNode.user_id = some user_id)
    if found then
      if node.is_leaf then some (removeFromLeafIndividual node idx, 0)
      else
        match node.children[idx]? with
        | none => none
        | some left =>
          if left.num_keys ≥ M / 2 then
            match getIndividualPredecessor node idx with
            | none => none
            | some pred =>
              match deleteFromIndividualSubtreeCalls fuel left pred.user_id with
              | none => none
              | some (left1, n) =>
                some (.mk (node.keys.set idx pred) (node.children.set idx left1) node.is_leaf,
                  n + 1)
          else
            match node.children[idx + 1]? with
            | none => none
            | some right =>
              if right.num_keys ≥ M / 2 then
                match getIndividualSuccessor node idx with
                | none => none
                | some succ =>
                  match deleteFromIndividualSubtreeCalls fuel right succ.user_id with
                  | none => none
                  | some (right1, n) =>
                    some (.mk (node.keys.set idx succ) (node.children.set (idx + 1) right1)
                      node.is_leaf, n + 1)
              else
                match mergeIndividualNodes node idx with
                | none => none
                | some node1 =>
                  match node1.children[idx]? with
                  | none => none
                  | some c =>
                    match deleteFromIndividualSubtreeCalls fuel c user_id with
                    | none => none
                    | some (c1, n) =>
                      some (.mk node1.keys (node1.children.set idx c1) node1.is_leaf, n + 1)
    else
      if node.is_leaf then some (node, 0)
      else
        let flag : Bool := decide (idx = node.num_keys)
        match node.children[idx]? with
        | none => none
        | some child =>
          let filled : Option BTreeNodeUser :=
            if child.num_keys < M / 2 then fillIndividualChild node idx else some node
          match filled with
          | none => none
          | some node1 =>
            let j := if flag && decide (idx > node1.num_keys) then idx - 1 else idx
            match node1.children[j]? with
            | none => none
            | some c =>
              match deleteFromIndividualSubtreeCalls fuel c user_id with
              | none => none
              | some (c1, n) =>
                some (.mk node1.keys (node1.children.set j c1) node1.is_leaf, n + 1)

/-- The capacity bound on the member lists of a membership state. -/
def WithinCapacity (heap : UserHeap) : Prop :=
  ∀ f ∈ heap.families, f.members.length ≤ MAX_FAMILY_MEMBERS

/-! ## Reads through pointers to released records -/

/-- What a read through a record pointer gives once the records in `released`
have been handed to `free`: the contents of a released record are no longer
determined by the program, so its `user_id` reads as some value `g`; every
other record reads as it is. Records are told apart by their fields. -/
def readThrough (released : List UserNode) (g : Int) (u : UserNode) : UserNode :=
  if u ∈ released then ⟨g, u.user_name⟩ else u

mutual
/-- The tree as the program reads it once the records in `released` have been
handed to `free`: the nodes and the slots are as they are, and a key slot
that points to a released record reads with `user_id = g`. -/
def readTree (released : List UserNode) (g : Int) : BTreeNodeUser → BTreeNodeUser
  | .mk ks cs leaf => .mk (ks.map (readThrough released g)) (readTreeList released g cs) leaf
/-- The same for a list of children. -/
def readTreeList (released : List UserNode) (g : Int) :
    List BTreeNodeUser → List BTreeNodeUser
  | [] => []
  | c :: cs => readTree released g c :: readTreeList released g cs
end

/-- The function `deleteIndividual(&root, user_id)` with `free` taken into
account: the new `*root` as later calls read it (a slot that points to a
record released during the call reads with `user_id = g`), the returned flag,
and the records released during the call. Released memory is taken to keep
reading `g` and not to be handed out again; a second release of a released
record is listed like a first one. -/
def deleteIndividualAfterFree (g : Int) (root : Option BTreeNodeUser) (user_id : Int) :
    Option (Option BTreeNodeUser × Bool × List UserNode) :=
  match deleteIndividualTraced root user_id with
  | none => none
  | some (root1, flag, ev) =>
    some (root1.map (readTree (releasedRecords ev) g), flag, releasedRecords ev)

/-- A sequence of `deleteIndividual(&root, k)` calls with `free` taken into
account: the final `*root` as the program reads it and the records released,
in the order of their release. -/
def deletesAfterFree (g : Int) (root : Option BTreeNodeUser) :
    List Int → Option (Option BTreeNodeUser × List UserNode)
  | [] => some (root, [])
  | k :: ks =>
    match deleteIndividualAfterFree g root k with
    | none => none
    | some (root1, _, released) =>
      match deletesAfterFree g root1 ks with
      | none => none
      | some (root2, released2) => some (root2, released ++ released2)

/-- The tree `[10, 20]` over `[5, 6, 7]`, `[12, 17]`, `[30]` after
`deleteIndividual(&root, 10)`, as the program reads it: the first key slot of
the root points to the released record of user 7 and reads `g`. -/
def scenarioAfterDelete (g : Int) : BTreeNodeUser :=
  .mk [⟨g, ""⟩, ⟨20, ""⟩]
    [.mk [⟨5, ""⟩, ⟨6, ""⟩] [] true, .mk [⟨12, ""⟩, ⟨17, ""⟩] [] true,
      .mk [⟨30, ""⟩] [] true] false

/-! ## Lemmas -/

theorem getElem?_app_len {α : Type} {l₁ l₂ : List α} {a : α} {n : Nat} (h : l₁.length = n) :
    (l₁ ++ a :: l₂)[n]? = some a := by
  subst h
  rw [List.getElem?_append_right (Nat.le_refl _)]
  simp

theorem getElem?_app_len_succ {α : Type} {l₁ l₂ : List α} {a b : α} {n : Nat} (h : l₁.length = n) :
    (l₁ ++ a :: b :: l₂)[n + 1]? = some b := by
  subst h
  rw [List.getElem?_append_right (by omega)]
  simp

theorem getElem?_len_none {α : Type} {l₁ : List α} {n : Nat} (h : l₁.length = n) :
    l₁[n]? = none := by
  subst h; simp

theorem set_app_len {α : Type} {l₁ l₂ : List α} {a b : α} {n : Nat} (h : l₁.length = n) :
    (l₁ ++ a :: l₂).set n b = l₁ ++ b :: l₂ := by
  subst h; simp

theorem set_app_len_succ {α : Type} {l₁ l₂ : List α} {a b x : α} {n : Nat} (h : l₁.length = n) :
    (l₁ ++ a :: b :: l₂).set (n + 1) x = l₁ ++ a :: x :: l₂ := by
  subst h
  induction l₁ with
  | nil => simp
  | cons y ys ih => simp [ih]

theorem take_app_len {α : Type} {l₁ l₂ : List α} {n : Nat} (h : l₁.length = n) :
    (l₁ ++ l₂).take n = l₁ := by
  subst h; simp

theorem drop_app_len {α : Type} {l₁ l₂ : List α} {n : Nat} (h : l₁.length = n) :
    (l₁ ++ l₂).drop n = l₂ := by
  subst h; simp

theorem drop_app_len_succ {α : Type} {l₁ l₂ : List α} {a : α} {n : Nat} (h : l₁.length = n) :
    (l₁ ++ a :: l₂).drop (n + 1) = l₂ := by
  subst h
  induction l₁ with
  | nil => simp
  | cons y ys ih => simp

theorem eraseIdx_app_len {α : Type} {l₁ l₂ : List α} {a : α} {n : Nat} (h : l₁.length = n) :
    (l₁ ++ a :: l₂).eraseIdx n = l₁ ++ l₂ := by
  subst h
  induction l₁ with
  | nil => simp
  | cons y ys ih => simpa using ih

theorem eraseIdx_app_len_succ {α : Type} {l₁ l₂ : List α} {a b : α} {n : Nat} (h : l₁.length = n) :
    (l₁ ++ a :: b :: l₂).eraseIdx (n + 1) = l₁ ++ a :: l₂ := by
  subst h
  induction l₁ with
  | nil => simp
  | cons y ys ih => simpa using ih

theorem split_at_len {α : Type} (l : List α) (n : Nat) (h : n < l.length) :
    ∃ l₁ a l₂, l = l₁ ++ a :: l₂ ∧ l₁.length = n := by
  refine ⟨l.take n, l[n], l.drop (n + 1), ?_, ?_⟩
  · simp
  · simp; omega

theorem split_last {α : Type} (l : List α) (h : l ≠ []) : ∃ l₁ a, l = l₁ ++ [a] := by
  rcases List.eq_nil_or_concat l with h0 | ⟨l₁, a, rfl⟩
  · exact absurd h0 h
  · exact ⟨l₁, a, by simp⟩

/-! ### Traversal of a node cut at a child -/

@[simp] theorem traverseUsers_mk (ks : List UserNode) (cs : List BTreeNodeUser) (l : Bool) :
    traverseUsers (.mk ks cs l) = traverseFrom cs ks := by
  rw [traverseUsers]

@[simp] theorem traverseFrom_nil (ks : List UserNode) : traverseFrom [] ks = ks := by
  rw [traverseFrom]

@[simp] theorem traverseFrom_cons_nil (c : BTreeNodeUser) (cs : List BTreeNodeUser) :
    traverseFrom (c :: cs) [] = traverseUsers c := by
  rw [traverseFrom]

@[simp] theorem traverseFrom_cons_cons (c : BTreeNodeUser) (cs : List BTreeNodeUser)
    (k : UserNode) (ks : List UserNode) :
    traverseFrom (c :: cs) (k :: ks) = traverseUsers c ++ k :: traverseFrom cs ks := by
  rw [traverseFrom]

@[simp] theorem traverseTail_nil (cs : List BTreeNodeUser) : traverseTail cs [] = [] := rfl

@[simp] theorem traverseTail_cons (cs : List BTreeNodeUser) (k : UserNode)
    (ks : List UserNode) : traverseTail cs (k :: ks) = k :: traverseFrom cs ks := rfl

theorem traverseFrom_cons (c : BTreeNodeUser) (cs : List BTreeNodeUser) (ks : List UserNode) :
    traverseFrom (c :: cs) ks = traverseUsers c ++ traverseTail cs ks := by
  cases ks <;> simp

theorem traverseFrom_append (cs₁ cs₂ : List BTreeNodeUser) (ks₁ ks₂ : List UserNode)
    (h : cs₁.length = ks₁.length) :
    traverseFrom (cs₁ ++ cs₂) (ks₁ ++ ks₂) = traverseFrom cs₁ ks₁ ++ traverseFrom cs₂ ks₂ := by
  induction cs₁ generalizing ks₁ with
  | nil =>
    cases ks₁ with
    | nil => simp
    | cons k ks => simp at h
  | cons c cs ih =>
    cases ks₁ with
    | nil => simp at h
    | cons k ks =>
      simp only [List.length_cons, Nat.add_right_cancel_iff] at h
      simp [ih ks h]

/-- The traversal of a node, cut at the child in front of key `ks₂`. -/
theorem traverseFrom_cut (cs₁ cs₂ : List BTreeNodeUser) (c : BTreeNodeUser)
    (ks₁ ks₂ : List UserNode) (h : cs₁.length = ks₁.length) :
    traverseFrom (cs₁ ++ c :: cs₂) (ks₁ ++ ks₂) =
      traverseFrom cs₁ ks₁ ++ (traverseUsers c ++ traverseTail cs₂ ks₂) := by
  rw [traverseFrom_append _ _ _ _ h, traverseFrom_cons]

theorem traverseTail_append (cs₁ cs₂ : List BTreeNodeUser) (ks₁ ks₂ : List UserNode)
    (k : UserNode) (h : cs₁.length = ks₁.length) :
    traverseTail (cs₁ ++ cs₂) (k :: ks₁ ++ ks₂) =
      k :: traverseFrom cs₁ ks₁ ++ traverseFrom cs₂ ks₂ := by
  simp [traverseFrom_append _ _ _ _ h]

/-! ### The two key scans -/

theorem scanUp_split (ks : List UserNode) (k : Int) :
    ∃ ks₁ ks₂, ks = ks₁ ++ ks₂ ∧ scanUp ks k = ks₁.length ∧
      (∀ a ∈ ks₁, a.user_id < k) ∧ (∀ y, ks₂.head? = some y → k ≤ y.user_id) := by
  induction ks with
  | nil => exact ⟨[], [], by simp [scanUp]⟩
  | cons x xs ih =>
    by_cases hx : x.user_id < k
    · obtain ⟨ks₁, ks₂, h1, h2, h3, h4⟩ := ih
      refine ⟨x :: ks₁, ks₂, by simp [h1], by simp [scanUp, hx, h2], ?_, h4⟩
      intro a ha
      rcases List.mem_cons.1 ha with rfl | ha
      · exact hx
      · exact h3 a ha
    · refine ⟨[], x :: xs, by simp, by simp [scanUp, hx], by simp, ?_⟩
      intro y hy
      simp at hy
      subst hy
      omega

theorem scanDown_le (ks : List UserNode) (k : Int) (n : Nat) : scanDown ks k n ≤ n := by
  induction n with
  | zero => simp [scanDown]
  | succ i ih =>
    rw [scanDown]
    split
    · split
      · omega
      · omega
    · omega

theorem scanDown_above (ks : List UserNode) (k : Int) (n : Nat) :
    ∀ j, scanDown ks k n ≤ j → j < n → ∀ x, ks[j]? = some x → k < x.user_id := by
  induction n with
  | zero => intro j _ hj; omega
  | succ i ih =>
    intro j hj1 hj2 x hx
    rw [scanDown] at hj1
    split at hj1
    · rename_i y hy
      split at hj1
      · rename_i hlt
        by_cases hji : j = i
        · subst hji
          rw [hy] at hx
          cases hx
          exact hlt
        · exact ih j hj1 (by omega) x hx
      · omega
    · omega

theorem scanDown_below (ks : List UserNode) (k : Int) (n : Nat) (hn : n ≤ ks.length) :
    ∀ x, ks[scanDown ks k n - 1]? = some x → 0 < scanDown ks k n → x.user_id ≤ k := by
  induction n with
  | zero => intro x _ h; simp [scanDown] at h
  | succ i ih =>
    intro x hx hpos
    have hi : i < ks.length := by omega
    have hy : ks[i]? = some ks[i] := List.getElem?_eq_getElem hi
    by_cases hlt : k < ks[i].user_id
    · have e : scanDown ks k (i + 1) = scanDown ks k i := by
        rw [scanDown, hy]; simp [hlt]
      rw [e] at hx hpos
      exact ih (by omega) x hx hpos
    · have e : scanDown ks k (i + 1) = i + 1 := by
        rw [scanDown, hy]; simp [hlt]
      rw [e] at hx
      simp only [Nat.add_sub_cancel] at hx
      rw [hy] at hx
      cases hx
      omega

theorem scanDown_split (ks : List UserNode) (k : Int) :
    ∃ ks₁ ks₂, ks = ks₁ ++ ks₂ ∧ scanDown ks k ks.length = ks₁.length ∧
      (∀ b ∈ ks₂, k < b.user_id) ∧ (∀ x, ks₁.getLast? = some x → x.user_id ≤ k) := by
  have hle := scanDown_le ks k ks.length
  refine ⟨ks.take (scanDown ks k ks.length), ks.drop (scanDown ks k ks.length),
    by simp, by simp [hle], ?_, ?_⟩
  · intro b hb
    obtain ⟨j, hj, rfl⟩ := List.getElem_of_mem hb
    simp only [List.length_drop] at hj
    rw [List.getElem_drop]
    exact scanDown_above ks k ks.length _ (by omega) (by omega) _
      (List.getElem?_eq_getElem (by omega))
  · intro x hx
    by_cases hp : scanDown ks k ks.length = 0
    · simp [hp] at hx
    · rw [List.getLast?_eq_getElem?] at hx
      simp only [List.length_take, Nat.min_eq_left hle] at hx
      rw [List.getElem?_take_of_lt (by omega)] at hx
      exact scanDown_below ks k ks.length (Nat.le_refl _) x hx (by omega)

/-! ### Shape -/

theorem Shape_zero (t : BTreeNodeUser) :
    Shape 0 t ↔ (t.is_leaf = true ∧ t.children = []) := by
  rw [Shape]

theorem Shape_succ (h : Nat) (t : BTreeNodeUser) :
    Shape (h + 1) t ↔ (t.is_leaf = false ∧ t.children.length = t.num_keys + 1 ∧
      ∀ c ∈ t.children, 1 ≤ c.num_keys ∧ c.num_keys ≤ 3 ∧ Shape h c) := by
  rw [Shape]

@[simp] theorem keys_mk (ks : List UserNode) (cs : List BTreeNodeUser) (l : Bool) :
    (BTreeNodeUser.mk ks cs l).keys = ks := rfl
@[simp] theorem children_mk (ks : List UserNode) (cs : List BTreeNodeUser) (l : Bool) :
    (BTreeNodeUser.mk ks cs l).children = cs := rfl
@[simp] theorem is_leaf_mk (ks : List UserNode) (cs : List BTreeNodeUser) (l : Bool) :
    (BTreeNodeUser.mk ks cs l).is_leaf = l := rfl
@[simp] theorem num_keys_mk (ks : List UserNode) (cs : List BTreeNodeUser) (l : Bool) :
    (BTreeNodeUser.mk ks cs l).num_keys = ks.length := rfl
@[simp] theorem M_eq : M = 4 := rfl

theorem depthList_eq (cs : List BTreeNodeUser) (d : Nat) (hne : cs ≠ [])
    (h : ∀ c ∈ cs, depth c = d) : depthList cs = d := by
  induction cs with
  | nil => exact absurd rfl hne
  | cons c cs ih =>
    rw [depthList]
    have hc := h c (List.mem_cons_self _ _)
    by_cases hcs : cs = []
    · subst hcs
      simp [depthList, hc]
    · rw [ih hcs (fun x hx => h x (List.mem_cons_of_mem _ hx)), hc]
      simp

theorem depth_of_Shape (h : Nat) : ∀ t, Shape h t → depth t = h + 1 := by
  induction h with
  | zero =>
    intro t ht
    obtain ⟨ks, cs, l⟩ := t
    rw [Shape_zero] at ht
    simp only [children_mk] at ht
    rw [depth, ht.2, depthList]
  | succ h ih =>
    intro t ht
    obtain ⟨ks, cs, l⟩ := t
    rw [Shape_succ] at ht
    simp only [children_mk, num_keys_mk] at ht
    rw [depth, depthList_eq cs (h + 1) ?_ (fun c hc => ih c (ht.2.2 c hc).2.2)]
    intro hcs
    rw [hcs] at ht
    simp at ht

/-! ### Order facts about a traversal cut at a child -/

theorem StrictSorted.sortedLE {l : List UserNode} (h : StrictSorted l) : SortedLE l :=
  List.Pairwise.imp (fun hab => Int.le_of_lt hab) h

theorem le_getLast_of_sortedLE {l : List UserNode} (h : SortedLE l) :
    ∀ a ∈ l, ∃ x, l.getLast? = some x ∧ a.user_id ≤ x.user_id := by
  intro a ha
  rcases List.eq_nil_or_concat l with h0 | ⟨l₁, x, rfl⟩
  · subst h0; simp at ha
  · refine ⟨x, by simp, ?_⟩
    rw [List.concat_eq_append] at ha h
    rcases List.mem_append.1 ha with ha | ha
    · exact (List.pairwise_append.1 h).2.2 a ha x (by simp)
    · simp at ha; subst ha; exact Int.le_refl _

theorem traverseFrom_getLast (cs : List BTreeNodeUser) (ks : List UserNode)
    (h : cs.length = ks.length) : (traverseFrom cs ks).getLast? = ks.getLast? := by
  rcases List.eq_nil_or_concat ks with h0 | ⟨ks₁, x, rfl⟩
  · subst h0
    cases cs with
    | nil => simp
    | cons c cs => simp at h
  · rcases List.eq_nil_or_concat cs with h1 | ⟨cs₁, c, rfl⟩
    · subst h1; simp at h
    · simp only [List.concat_eq_append, List.length_append, List.length_singleton,
        Nat.add_right_cancel_iff] at h
      rw [List.concat_eq_append, List.concat_eq_append, traverseFrom_append _ _ _ _ h]
      simp

/-- Every record in front of a cut is at most the last key in front of it. -/
theorem traverseFrom_le_last (cs : List BTreeNodeUser) (ks : List UserNode)
    (h : cs.length = ks.length) (hs : SortedLE (traverseFrom cs ks)) :
    ∀ a ∈ traverseFrom cs ks, ∃ x, ks.getLast? = some x ∧ a.user_id ≤ x.user_id := by
  intro a ha
  obtain ⟨x, hx, hax⟩ := le_getLast_of_sortedLE hs a ha
  rw [traverseFrom_getLast cs ks h] at hx
  exact ⟨x, hx, hax⟩

/-- Every record behind a cut is at least the first key behind it. -/
theorem traverseTail_ge_head (cs : List BTreeNodeUser) (ks : List UserNode)
    (hs : SortedLE (traverseTail cs ks)) :
    ∀ b ∈ traverseTail cs ks, ∃ y, ks.head? = some y ∧ y.user_id ≤ b.user_id := by
  intro b hb
  cases ks with
  | nil => simp at hb
  | cons y ys =>
    refine ⟨y, by simp, ?_⟩
    simp only [traverseTail_cons] at hb hs
    rcases List.mem_cons.1 hb with rfl | hb
    · exact Int.le_refl _
    · exact (List.pairwise_cons.1 hs).1 b hb

theorem children_cut (cs : List BTreeNodeUser) (ks₁ ks₂ : List UserNode)
    (h : cs.length = (ks₁ ++ ks₂).length + 1) :
    ∃ cs₁ c cs₂, cs = cs₁ ++ c :: cs₂ ∧ cs₁.length = ks₁.length ∧
      cs₂.length = ks₂.length := by
  obtain ⟨cs₁, c, cs₂, rfl, h1⟩ := split_at_len cs ks₁.length (by simp at h; omega)
  refine ⟨cs₁, c, cs₂, rfl, h1, ?_⟩
  simp at h
  omega

/-! ### `splitUserChild` -/

theorem splitUserChild_spec (h : Nat) (ks₁ ks₂ : List UserNode) (cs₁ cs₂ : List BTreeNodeUser)
    (c : BTreeNodeUser) (pl : Bool) (hlen : cs₁.length = ks₁.length) (hc : Shape h c)
    (h3 : c.num_keys = 3) :
    ∃ cL b cR, splitUserChild (.mk (ks₁ ++ ks₂) (cs₁ ++ c :: cs₂) pl) ks₁.length =
        some (.mk (ks₁ ++ b :: ks₂) (cs₁ ++ cL :: cR :: cs₂) pl) ∧
      Shape h cL ∧ Shape h cR ∧ cL.num_keys = 1 ∧ cR.num_keys = 1 ∧
      traverseUsers c = traverseUsers cL ++ b :: traverseUsers cR := by
  obtain ⟨cks, ccs, cl⟩ := c
  simp only [num_keys_mk] at h3
  obtain ⟨a, b, d, rfl⟩ : ∃ a b d, cks = [a, b, d] := by
    match cks, h3 with
    | [a, b, d], _ => exact ⟨a, b, d, rfl⟩
  cases h with
  | zero =>
    rw [Shape_zero] at hc
    simp only [is_leaf_mk, children_mk] at hc
    obtain ⟨rfl, rfl⟩ := hc
    refine ⟨.mk [a] [] true, b, .mk [d] [] true, ?_, ?_, ?_, rfl, rfl, ?_⟩
    · simp [splitUserChild, getElem?_app_len hlen,
        take_app_len hlen, drop_app_len hlen, drop_app_len_succ hlen]
    · simp [Shape_zero]
    · simp [Shape_zero]
    · simp
  | succ h =>
    rw [Shape_succ] at hc
    simp only [is_leaf_mk, children_mk, num_keys_mk] at hc
    obtain ⟨rfl, hl, hall⟩ := hc
    obtain ⟨g0, g1, g2, g3, rfl⟩ : ∃ g0 g1 g2 g3, ccs = [g0, g1, g2, g3] := by
      match ccs, hl with
      | [g0, g1, g2, g3], _ => exact ⟨g0, g1, g2, g3, rfl⟩
    refine ⟨.mk [a] [g0, g1] false, b, .mk [d] [g2, g3] false, ?_, ?_, ?_, rfl, rfl, ?_⟩
    · simp [splitUserChild, getElem?_app_len hlen,
        take_app_len hlen, drop_app_len hlen, drop_app_len_succ hlen]
    · rw [Shape_succ]
      refine ⟨rfl, rfl, ?_⟩
      intro x hx
      exact hall x (by simp at hx ⊢; tauto)
    · rw [Shape_succ]
      refine ⟨rfl, rfl, ?_⟩
      intro x hx
      exact hall x (by simp at hx ⊢; tauto)
    · simp

/-! ### `insertUserNonFull` -/

theorem Shape_replace_child {h : Nat} {ks : List UserNode} {cs₁ cs₂ : List BTreeNodeUser}
    {c c' : BTreeNodeUser} {l : Bool} (hs : Shape (h + 1) (.mk ks (cs₁ ++ c :: cs₂) l))
    (hc : 1 ≤ c'.num_keys ∧ c'.num_keys ≤ 3 ∧ Shape h c') :
    Shape (h + 1) (.mk ks (cs₁ ++ c' :: cs₂) l) := by
  rw [Shape_succ] at hs ⊢
  simp only [is_leaf_mk, children_mk, num_keys_mk, List.length_append, List.length_cons] at hs ⊢
  refine ⟨hs.1, hs.2.1, ?_⟩
  intro x hx
  rcases List.mem_append.1 hx with hx | hx
  · exact hs.2.2 x (List.mem_append_left _ hx)
  · rcases List.mem_cons.1 hx with rfl | hx
    · exact hc
    · exact hs.2.2 x (List.mem_append_right _ (List.mem_cons_of_mem _ hx))

theorem Shape_split_children {h : Nat} {ks₁ ks₂ : List UserNode}
    {cs₁ cs₂ : List BTreeNodeUser} {c cL cR : BTreeNodeUser} {m : UserNode} {l : Bool}
    (hs : Shape (h + 1) (.mk (ks₁ ++ ks₂) (cs₁ ++ c :: cs₂) l))
    (hL : 1 ≤ cL.num_keys ∧ cL.num_keys ≤ 3 ∧ Shape h cL)
    (hR : 1 ≤ cR.num_keys ∧ cR.num_keys ≤ 3 ∧ Shape h cR) :
    Shape (h + 1) (.mk (ks₁ ++ m :: ks₂) (cs₁ ++ cL :: cR :: cs₂) l) := by
  rw [Shape_succ] at hs ⊢
  simp only [is_leaf_mk, children_mk, num_keys_mk, List.length_append, List.length_cons] at hs ⊢
  refine ⟨hs.1, by omega, ?_⟩
  intro x hx
  rcases List.mem_append.1 hx with hx | hx
  · exact hs.2.2 x (List.mem_append_left _ hx)
  · rcases List.mem_cons.1 hx with rfl | hx
    · exact hL
    · rcases List.mem_cons.1 hx with rfl | hx
      · exact hR
      · exact hs.2.2 x (List.mem_append_right _ (List.mem_cons_of_mem _ hx))

theorem insert_descend {h : Nat} (ih : InsertSpec h) (f : Nat) (u : UserNode)
    (K₁ K₂ : List UserNode) (C₁ C₂ : List BTreeNodeUser) (d : BTreeNodeUser)
    (hl : C₁.length = K₁.length)
    (hs : Shape (h + 1) (.mk (K₁ ++ K₂) (C₁ ++ d :: C₂) false))
    (hd : d.num_keys < 3) (hf : h < f)
    (hA : ∀ x, K₁.getLast? = some x → x.user_id ≤ u.user_id)
    (hB : ∀ y, K₂.head? = some y → u.user_id ≤ y.user_id) :
    ∃ d' A B, insertUserNonFull f d u = some d' ∧
      Shape (h + 1) (.mk (K₁ ++ K₂) (C₁ ++ d' :: C₂) false) ∧
      traverseUsers (.mk (K₁ ++ K₂) (C₁ ++ d :: C₂) false) = A ++ B ∧
      traverseUsers (.mk (K₁ ++ K₂) (C₁ ++ d' :: C₂) false) = A ++ u :: B ∧
      (SortedLE (traverseUsers (.mk (K₁ ++ K₂) (C₁ ++ d :: C₂) false)) →
        (∀ a ∈ A, a.user_id ≤ u.user_id) ∧ (∀ b ∈ B, u.user_id ≤ b.user_id)) := by
  have hs' := hs
  rw [Shape_succ] at hs'
  simp only [is_leaf_mk, children_mk, num_keys_mk] at hs'
  have hdS := hs'.2.2 d (by simp)
  obtain ⟨d', A, B, hins, hsd, hd1, hd3, hA', hB', hordd⟩ := ih f d u hf hdS.2.2 hd
  refine ⟨d', traverseFrom C₁ K₁ ++ A, B ++ traverseTail C₂ K₂, hins,
    Shape_replace_child hs ⟨by omega, hd3, hsd⟩, ?_, ?_, ?_⟩
  · simp [traverseFrom_cut _ _ _ _ _ hl, hA']
  · simp [traverseFrom_cut _ _ _ _ _ hl, hB']
  · intro hsort
    rw [traverseUsers_mk, traverseFrom_cut _ _ _ _ _ hl] at hsort
    have h1 := List.pairwise_append.1 hsort
    have h2 := List.pairwise_append.1 h1.2.1
    obtain ⟨ho3, ho4⟩ := hordd h2.1
    constructor
    · intro a ha
      rcases List.mem_append.1 ha with ha | ha
      · obtain ⟨x, hx, hax⟩ := traverseFrom_le_last C₁ K₁ hl h1.1 a ha
        exact Int.le_trans hax (hA x hx)
      · exact ho3 a ha
    · intro b hb
      rcases List.mem_append.1 hb with hb | hb
      · exact ho4 b hb
      · obtain ⟨y, hy, hyb⟩ := traverseTail_ge_head C₂ K₂ h2.2.1 b hb
        exact Int.le_trans (hB y hy) hyb

theorem insertUserNonFull_spec (h : Nat) : InsertSpec h := by
  induction h with
  | zero =>
    intro fuel node u hf hs hn
    obtain ⟨f, rfl⟩ : ∃ f, fuel = f + 1 := ⟨fuel - 1, by omega⟩
    obtain ⟨ks, cs, l⟩ := node
    rw [Shape_zero] at hs
    simp only [is_leaf_mk, children_mk] at hs
    obtain ⟨rfl, rfl⟩ := hs
    obtain ⟨ks₁, ks₂, rfl, hi, hB, hA⟩ := scanDown_split ks u.user_id
    simp only [num_keys_mk] at hn
    refine ⟨.mk (ks₁ ++ u :: ks₂) [] true, ks₁, ks₂, ?_, ?_, ?_, ?_, ?_, ?_, ?_⟩
    · rw [insertUserNonFull]
      simp only [keys_mk, num_keys_mk, is_leaf_mk, children_mk, hi, if_true,
        take_app_len rfl, drop_app_len rfl]
    · simp [Shape_zero]
    · simp
    · simp at hn ⊢; omega
    · simp
    · simp
    · intro hsort
      simp only [traverseUsers_mk, traverseFrom_nil] at hsort
      refine ⟨?_, fun b hb => Int.le_of_lt (hB b hb)⟩
      intro a ha
      obtain ⟨x, hx, hax⟩ := le_getLast_of_sortedLE (List.pairwise_append.1 hsort).1 a ha
      exact Int.le_trans hax (hA x hx)
  | succ h ih =>
    intro fuel node u hf hs hn
    obtain ⟨f, rfl⟩ : ∃ f, fuel = f + 1 := ⟨fuel - 1, by omega⟩
    obtain ⟨ks, cs, l⟩ := node
    have hs0 := hs
    rw [Shape_succ] at hs
    simp only [is_leaf_mk, children_mk, num_keys_mk] at hs hn
    obtain ⟨rfl, hlen, hall⟩ := hs
    obtain ⟨ks₁, ks₂, rfl, hi, hB, hA⟩ := scanDown_split ks u.user_id
    obtain ⟨cs₁, c, cs₂, rfl, hl1, hl2⟩ := children_cut cs ks₁ ks₂ hlen
    have hc := hall c (by simp)
    have hB0 : ∀ y, ks₂.head? = some y → u.user_id ≤ y.user_id :=
      fun y hy => Int.le_of_lt (hB y (List.mem_of_mem_head? hy))
    have hcount : (ks₁ ++ ks₂).length < 3 := hn
    simp only [List.length_append] at hcount
    by_cases hfull : c.num_keys = 3
    · obtain ⟨cL, m, cR, hsplit, hsL, hsR, hnL, hnR, htr⟩ :=
        splitUserChild_spec h ks₁ ks₂ cs₁ cs₂ c false hl1 hc.2.2 hfull
      have hs1 : Shape (h + 1) (.mk (ks₁ ++ m :: ks₂) (cs₁ ++ cL :: cR :: cs₂) false) :=
        Shape_split_children hs0 ⟨by omega, by omega, hsL⟩ ⟨by omega, by omega, hsR⟩
      have htr1 : traverseUsers (.mk (ks₁ ++ m :: ks₂) (cs₁ ++ cL :: cR :: cs₂) false) =
          traverseUsers (.mk (ks₁ ++ ks₂) (cs₁ ++ c :: cs₂) false) := by
        simp [traverseFrom_cut _ _ _ _ _ hl1, htr, traverseFrom_cons]
      by_cases hgt : u.user_id > m.user_id
      · have e1 : ks₁ ++ m :: ks₂ = (ks₁ ++ [m]) ++ ks₂ := by simp
        have e2 : ∀ x, cs₁ ++ cL :: x :: cs₂ = (cs₁ ++ [cL]) ++ x :: cs₂ := by simp
        rw [e1, e2] at hs1 htr1
        obtain ⟨d', A, B, hins, hsd, hA', hB', hord⟩ :=
          insert_descend ih f u (ks₁ ++ [m]) ks₂ (cs₁ ++ [cL]) cs₂ cR (by simp [hl1]) hs1
            (by omega) (by omega) (by simp; omega) hB0
        refine ⟨_, A, B, ?_, hsd, ?_, ?_, ?_, hB', ?_⟩
        · rw [insertUserNonFull]
          simp only [keys_mk, num_keys_mk, is_leaf_mk, children_mk, hi,
            getElem?_app_len hl1, hfull, M_eq, hsplit, getElem?_app_len rfl, hgt, if_true,
            getElem?_app_len_succ hl1, hins, set_app_len_succ hl1]
          simp
        · simp
        · simp; omega
        · rw [← htr1]; exact hA'
        · intro hsort
          rw [← htr1] at hsort
          exact hord hsort
      · obtain ⟨d', A, B, hins, hsd, hA', hB', hord⟩ :=
          insert_descend ih f u ks₁ (m :: ks₂) cs₁ (cR :: cs₂) cL hl1 hs1
            (by omega) (by omega) hA (by simp; omega)
        refine ⟨_, A, B, ?_, hsd, ?_, ?_, ?_, hB', ?_⟩
        · rw [insertUserNonFull]
          simp only [keys_mk, num_keys_mk, is_leaf_mk, children_mk, hi,
            getElem?_app_len hl1, hfull, M_eq, hsplit, getElem?_app_len rfl, hgt, if_false,
            hins, set_app_len hl1]
          simp
        · simp
        · simp; omega
        · rw [← htr1]; exact hA'
        · intro hsort
          rw [← htr1] at hsort
          exact hord hsort
    · obtain ⟨d', A, B, hins, hsd, hA', hB', hord⟩ :=
        insert_descend ih f u ks₁ ks₂ cs₁ cs₂ c hl1 hs0 (by omega) (by omega) hA hB0
      refine ⟨_, A, B, ?_, hsd, ?_, ?_, hA', hB', hord⟩
      · rw [insertUserNonFull]
        simp only [keys_mk, num_keys_mk, is_leaf_mk, children_mk, hi,
          getElem?_app_len hl1, hfull, M_eq, hins, set_app_len hl1]
        simp
      · simp
      · simp; omega

/-! ### Predecessor and successor -/

theorem rightmostKeyAt_eq (cs : List BTreeNodeUser) (i : Nat) :
    rightmostKeyAt cs i = (cs[i]?).bind rightmostKey := by
  induction cs generalizing i with
  | nil => simp [rightmostKeyAt]
  | cons c cs ih =>
    cases i with
    | zero => simp [rightmostKeyAt]
    | succ i => simp [rightmostKeyAt, ih]

theorem leftmostKeyAt_eq (cs : List BTreeNodeUser) :
    leftmostKeyAt cs = (cs[0]?).bind leftmostKey := by
  cases cs <;> simp [leftmostKeyAt]

theorem searchUserChild_eq (cs : List BTreeNodeUser) (i : Nat) (k : Int) :
    searchUserChild cs i k = (cs[i]?).bind (fun c => searchUserNode c k) := by
  induction cs generalizing i with
  | nil => simp [searchUserChild]
  | cons c cs ih =>
    cases i with
    | zero => simp [searchUserChild]
    | succ i => simp [searchUserChild, ih]

theorem rightmostKey_spec (h : Nat) : ∀ t, Shape h t → 1 ≤ t.num_keys →
    ∃ p init, rightmostKey t = some p ∧ traverseUsers t = init ++ [p] := by
  induction h with
  | zero =>
    intro t hs hn
    obtain ⟨ks, cs, l⟩ := t
    rw [Shape_zero] at hs
    simp only [is_leaf_mk, children_mk] at hs
    obtain ⟨rfl, rfl⟩ := hs
    simp only [num_keys_mk] at hn
    obtain ⟨init, p, rfl⟩ := split_last ks (by intro h0; subst h0; simp at hn)
    exact ⟨p, init, by simp [rightmostKey], by simp⟩
  | succ h ih =>
    intro t hs hn
    obtain ⟨ks, cs, l⟩ := t
    rw [Shape_succ] at hs
    simp only [is_leaf_mk, children_mk, num_keys_mk] at hs
    obtain ⟨rfl, hlen, hall⟩ := hs
    obtain ⟨cs₁, c, cs₂, rfl, hl1, hl2⟩ := children_cut cs ks [] (by simpa using hlen)
    have hc := hall c (by simp)
    obtain ⟨p, init, hp, htr⟩ := ih c hc.2.2 hc.1
    refine ⟨p, traverseFrom cs₁ ks ++ init, ?_, ?_⟩
    · rw [rightmostKey]
      simp [rightmostKeyAt_eq, getElem?_app_len hl1, hp]
    · have := traverseFrom_cut cs₁ cs₂ c ks [] hl1
      simp only [List.append_nil, traverseTail_nil] at this
      simp [this, htr]

theorem leftmostKey_spec (h : Nat) : ∀ t, Shape h t → 1 ≤ t.num_keys →
    ∃ q rest, leftmostKey t = some q ∧ traverseUsers t = q :: rest := by
  induction h with
  | zero =>
    intro t hs hn
    obtain ⟨ks, cs, l⟩ := t
    rw [Shape_zero] at hs
    simp only [is_leaf_mk, children_mk] at hs
    obtain ⟨rfl, rfl⟩ := hs
    simp only [num_keys_mk] at hn
    cases ks with
    | nil => simp at hn
    | cons q rest => exact ⟨q, rest, by simp [leftmostKey], by simp⟩
  | succ h ih =>
    intro t hs hn
    obtain ⟨ks, cs, l⟩ := t
    rw [Shape_succ] at hs
    simp only [is_leaf_mk, children_mk, num_keys_mk] at hs
    obtain ⟨rfl, hlen, hall⟩ := hs
    cases cs with
    | nil => simp at hlen
    | cons c cs =>
      have hc := hall c (by simp)
      obtain ⟨q, rest, hq, htr⟩ := ih c hc.2.2 hc.1
      refine ⟨q, rest ++ traverseTail cs ks, ?_, ?_⟩
      · rw [leftmostKey]
        simp [leftmostKeyAt_eq, hq]
      · simp [traverseFrom_cons, htr]

/-! ### Removing one id from a strictly sorted list -/

theorem filter_of_all_ne {l : List UserNode} {k : Int} (h : ∀ a ∈ l, a.user_id ≠ k) :
    l.filter (fun u => decide (u.user_id ≠ k)) = l := by
  rw [List.filter_eq_self]
  intro a ha
  simpa using h a ha

theorem filter_strictSorted_mid {A B : List UserNode} {y : UserNode} {k : Int}
    (hs : StrictSorted (A ++ y :: B)) (hy : y.user_id = k) :
    (A ++ y :: B).filter (fun u => decide (u.user_id ≠ k)) = A ++ B := by
  have h1 := List.pairwise_append.1 hs
  have h2 := List.pairwise_cons.1 h1.2.1
  rw [List.filter_append, List.filter_cons]
  simp only [hy, ne_eq, not_true_eq_false, decide_False, Bool.false_eq_true, if_false]
  rw [filter_of_all_ne, filter_of_all_ne]
  · intro b hb
    have := h2.1 b hb
    omega
  · intro a ha
    have := h1.2.2 a ha y (by simp)
    omega

/-! ### Merge and the two borrows -/

theorem traverseFrom_snoc_child (cs : List BTreeNodeUser) (c : BTreeNodeUser)
    (ks : List UserNode) (h : cs.length = ks.length) :
    traverseFrom (cs ++ [c]) ks = traverseFrom cs ks ++ traverseUsers c := by
  have := traverseFrom_cut cs [] c ks [] h
  simpa using this

theorem traverseFrom_snoc_key (cs : List BTreeNodeUser) (ks : List UserNode) (k : UserNode)
    (h : cs.length = ks.length + 1) :
    traverseFrom cs (ks ++ [k]) = traverseFrom cs ks ++ [k] := by
  obtain ⟨cs₁, c, rfl⟩ := split_last cs (by intro h0; subst h0; simp at h)
  have h' : cs₁.length = ks.length := by simpa using h
  rw [traverseFrom_append _ _ _ _ h', traverseFrom_snoc_child _ _ _ h']
  simp

theorem Shape_mk_succ {h : Nat} {ks : List UserNode} {cs : List BTreeNodeUser}
    (hlen : cs.length = ks.length + 1)
    (hall : ∀ c ∈ cs, 1 ≤ c.num_keys ∧ c.num_keys ≤ 3 ∧ Shape h c) :
    Shape (h + 1) (.mk ks cs false) := by
  rw [Shape_succ]
  exact ⟨rfl, hlen, hall⟩

theorem Shape_succ_mk {h : Nat} {ks : List UserNode} {cs : List BTreeNodeUser} {l : Bool}
    (hs : Shape (h + 1) (.mk ks cs l)) :
    l = false ∧ cs.length = ks.length + 1 ∧
      ∀ c ∈ cs, 1 ≤ c.num_keys ∧ c.num_keys ≤ 3 ∧ Shape h c := by
  rw [Shape_succ] at hs
  exact hs

theorem Shape_zero_mk {ks : List UserNode} {cs : List BTreeNodeUser} {l : Bool}
    (hs : Shape 0 (.mk ks cs l)) : l = true ∧ cs = [] := by
  rw [Shape_zero] at hs
  exact hs

theorem mergeIndividualNodes_spec (h : Nat) (ks₁ ks₂ : List UserNode)
    (cs₁ cs₂ : List BTreeNodeUser) (c s : BTreeNodeUser) (pk : UserNode) (pl : Bool)
    (hl : cs₁.length = ks₁.length) (hc : Shape h c) (hs : Shape h s)
    (hc1 : c.num_keys = 1) (hs1 : s.num_keys = 1) :
    ∃ m, mergeIndividualNodes (.mk (ks₁ ++ pk :: ks₂) (cs₁ ++ c :: s :: cs₂) pl) ks₁.length =
        some (.mk (ks₁ ++ ks₂) (cs₁ ++ m :: cs₂) pl) ∧
      Shape h m ∧ m.num_keys = 3 ∧
      traverseUsers m = traverseUsers c ++ pk :: traverseUsers s := by
  obtain ⟨cks, ccs, cl⟩ := c
  obtain ⟨sks, scs, sl⟩ := s
  simp only [num_keys_mk] at hc1 hs1
  obtain ⟨a, rfl⟩ : ∃ a, cks = [a] := by
    match cks, hc1 with
    | [a], _ => exact ⟨a, rfl⟩
  obtain ⟨b, rfl⟩ : ∃ b, sks = [b] := by
    match sks, hs1 with
    | [b], _ => exact ⟨b, rfl⟩
  cases h with
  | zero =>
    obtain ⟨rfl, rfl⟩ := Shape_zero_mk hc
    obtain ⟨rfl, rfl⟩ := Shape_zero_mk hs
    refine ⟨.mk [a, pk, b] [] true, ?_, by simp [Shape_zero], rfl, by simp⟩
    simp [mergeIndividualNodes, getElem?_app_len hl, getElem?_app_len_succ hl,
      eraseIdx_app_len hl, set_app_len hl, eraseIdx_app_len_succ hl,
      getElem?_app_len rfl, eraseIdx_app_len rfl]
  | succ h =>
    obtain ⟨rfl, hcl, hcall⟩ := Shape_succ_mk hc
    obtain ⟨rfl, hsl, hsall⟩ := Shape_succ_mk hs
    obtain ⟨g0, g1, rfl⟩ : ∃ g0 g1, ccs = [g0, g1] := by
      match ccs, hcl with
      | [g0, g1], _ => exact ⟨g0, g1, rfl⟩
    obtain ⟨g2, g3, rfl⟩ : ∃ g2 g3, scs = [g2, g3] := by
      match scs, hsl with
      | [g2, g3], _ => exact ⟨g2, g3, rfl⟩
    refine ⟨.mk [a, pk, b] [g0, g1, g2, g3] false, ?_, ?_, rfl, by simp⟩
    · simp [mergeIndividualNodes, getElem?_app_len hl, getElem?_app_len_succ hl,
        eraseIdx_app_len hl, set_app_len hl, eraseIdx_app_len_succ hl,
        getElem?_app_len rfl, eraseIdx_app_len rfl]
    · apply Shape_mk_succ (by simp)
      intro x hx
      simp only [List.mem_cons, List.mem_singleton, List.not_mem_nil, or_false] at hx
      rcases hx with rfl | rfl | rfl | rfl
      · exact hcall _ (by simp)
      · exact hcall _ (by simp)
      · exact hsall _ (by simp)
      · exact hsall _ (by simp)

theorem borrowFromLeftIndividual_spec (h : Nat) (ks₁ ks₂ : List UserNode)
    (cs₁ cs₂ : List BTreeNodeUser) (c s : BTreeNodeUser) (pk : UserNode) (pl : Bool)
    (hl : cs₁.length = ks₁.length) (hc : Shape h c) (hs : Shape h s)
    (hs2 : 2 ≤ s.num_keys) :
    ∃ s' sk c' G,
      borrowFromLeftIndividual (.mk (ks₁ ++ pk :: ks₂) (cs₁ ++ s :: c :: cs₂) pl)
          (ks₁.length + 1) =
        some (.mk (ks₁ ++ sk :: ks₂) (cs₁ ++ s' :: c' :: cs₂) pl) ∧
      Shape h s' ∧ Shape h c' ∧ s'.num_keys + 1 = s.num_keys ∧
      c'.num_keys = c.num_keys + 1 ∧
      traverseUsers s = traverseUsers s' ++ sk :: G ∧
      traverseUsers c' = G ++ pk :: traverseUsers c := by
  obtain ⟨cks, ccs, cl⟩ := c
  obtain ⟨sks0, scs, sl⟩ := s
  simp only [num_keys_mk] at hs2
  obtain ⟨sks, sk, rfl⟩ := split_last sks0 (by intro h0; subst h0; simp at hs2)
  cases h with
  | zero =>
    obtain ⟨rfl, rfl⟩ := Shape_zero_mk hc
    obtain ⟨rfl, rfl⟩ := Shape_zero_mk hs
    refine ⟨.mk sks [] true, sk, .mk (pk :: cks) [] true, [], ?_, by simp [Shape_zero],
      by simp [Shape_zero], by simp, by simp, by simp, by simp⟩
    simp [borrowFromLeftIndividual, getElem?_app_len hl, getElem?_app_len_succ hl,
      set_app_len hl, set_app_len_succ hl, getElem?_app_len rfl, set_app_len rfl]
  | succ h =>
    obtain ⟨rfl, hcl, hcall⟩ := Shape_succ_mk hc
    obtain ⟨rfl, hsl, hsall⟩ := Shape_succ_mk hs
    obtain ⟨scs', g, rfl⟩ := split_last scs (by intro h0; subst h0; simp at hsl)
    have hsl' : scs'.length = sks.length + 1 := by simpa using hsl
    refine ⟨.mk sks scs' false, sk, .mk (pk :: cks) (g :: ccs) false, traverseUsers g,
      ?_, ?_, ?_, by simp, by simp, ?_, by simp⟩
    · have e : (scs' ++ [g])[sks.length + 1]? = some g := getElem?_app_len hsl'
      simp [borrowFromLeftIndividual, getElem?_app_len hl, getElem?_app_len_succ hl,
        set_app_len hl, set_app_len_succ hl, e, take_app_len hsl', getElem?_app_len rfl,
        set_app_len rfl]
    · apply Shape_mk_succ hsl'
      intro x hx
      exact hsall x (by simp [hx])
    · apply Shape_mk_succ (by simpa using hcl)
      intro x hx
      rcases List.mem_cons.1 hx with rfl | hx
      · exact hsall _ (by simp)
      · exact hcall x hx
    · rw [traverseUsers_mk, traverseUsers_mk,
        traverseFrom_snoc_child _ _ _ (by simpa using hsl'),
        traverseFrom_snoc_key _ _ _ hsl']
      simp

theorem borrowFromRightIndividual_spec (h : Nat) (ks₁ ks₂ : List UserNode)
    (cs₁ cs₂ : List BTreeNodeUser) (c s : BTreeNodeUser) (pk : UserNode) (pl : Bool)
    (hl : cs₁.length = ks₁.length) (hc : Shape h c) (hs : Shape h s)
    (hs2 : 2 ≤ s.num_keys) :
    ∃ c' sk s' G,
      borrowFromRightIndividual (.mk (ks₁ ++ pk :: ks₂) (cs₁ ++ c :: s :: cs₂) pl)
          ks₁.length =
        some (.mk (ks₁ ++ sk :: ks₂) (cs₁ ++ c' :: s' :: cs₂) pl) ∧
      Shape h c' ∧ Shape h s' ∧ s'.num_keys + 1 = s.num_keys ∧
      c'.num_keys = c.num_keys + 1 ∧
      traverseUsers s = G ++ sk :: traverseUsers s' ∧
      traverseUsers c' = traverseUsers c ++ pk :: G := by
  obtain ⟨cks, ccs, cl⟩ := c
  obtain ⟨sks0, scs, sl⟩ := s
  simp only [num_keys_mk] at hs2
  obtain ⟨sk, sks, rfl⟩ : ∃ sk sks, sks0 = sk :: sks := by
    cases sks0 with
    | nil => simp at hs2
    | cons sk sks => exact ⟨sk, sks, rfl⟩
  cases h with
  | zero =>
    obtain ⟨rfl, rfl⟩ := Shape_zero_mk hc
    obtain ⟨rfl, rfl⟩ := Shape_zero_mk hs
    refine ⟨.mk (cks ++ [pk]) [] true, sk, .mk sks [] true, [], ?_, by simp [Shape_zero],
      by simp [Shape_zero], by simp, by simp, by simp, by simp⟩
    simp [borrowFromRightIndividual, getElem?_app_len hl, getElem?_app_len_succ hl,
      set_app_len hl, set_app_len_succ hl, getElem?_app_len rfl, set_app_len rfl]
  | succ h =>
    obtain ⟨rfl, hcl, hcall⟩ := Shape_succ_mk hc
    obtain ⟨rfl, hsl, hsall⟩ := Shape_succ_mk hs
    obtain ⟨g, scs', rfl⟩ : ∃ g scs', scs = g :: scs' := by
      cases scs with
      | nil => simp at hsl
      | cons g scs' => exact ⟨g, scs', rfl⟩
    have hsl' : scs'.length = sks.length + 1 := by simpa using hsl
    refine ⟨.mk (cks ++ [pk]) (ccs ++ [g]) false, sk, .mk sks scs' false, traverseUsers g,
      ?_, ?_, ?_, by simp, by simp, by simp, ?_⟩
    · simp [borrowFromRightIndividual, getElem?_app_len hl, getElem?_app_len_succ hl,
        set_app_len hl, set_app_len_succ hl, getElem?_app_len rfl, set_app_len rfl]
    · apply Shape_mk_succ (by simpa using hcl)
      intro x hx
      rcases List.mem_append.1 hx with hx | hx
      · exact hcall x hx
      · simp at hx; subst hx; exact hsall _ (by simp)
    · apply Shape_mk_succ hsl'
      intro x hx
      exact hsall x (by simp [hx])
    · rw [traverseUsers_mk, traverseUsers_mk,
        traverseFrom_snoc_child _ _ _ (by simpa using hcl),
        traverseFrom_snoc_key _ _ _ hcl]
      simp

/-! ### `fillIndividualChild` -/

theorem Shape_two_children {h : Nat} {ks₁ ks₂ : List UserNode}
    {cs₁ cs₂ : List BTreeNodeUser} {a b : BTreeNodeUser} {k : UserNode} {l : Bool}
    (hs : Shape (h + 1) (.mk (ks₁ ++ k :: ks₂) (cs₁ ++ a :: b :: cs₂) l))
    (k' : UserNode) (a' b' : BTreeNodeUser)
    (ha : 1 ≤ a'.num_keys ∧ a'.num_keys ≤ 3 ∧ Shape h a')
    (hb : 1 ≤ b'.num_keys ∧ b'.num_keys ≤ 3 ∧ Shape h b') :
    Shape (h + 1) (.mk (ks₁ ++ k' :: ks₂) (cs₁ ++ a' :: b' :: cs₂) l) := by
  rw [Shape_succ] at hs ⊢
  simp only [is_leaf_mk, children_mk, num_keys_mk, List.length_append, List.length_cons] at hs ⊢
  refine ⟨hs.1, hs.2.1, ?_⟩
  intro x hx
  rcases List.mem_append.1 hx with hx | hx
  · exact hs.2.2 x (List.mem_append_left _ hx)
  · rcases List.mem_cons.1 hx with rfl | hx
    · exact ha
    · rcases List.mem_cons.1 hx with rfl | hx
      · exact hb
      · exact hs.2.2 x (List.mem_append_right _
          (List.mem_cons_of_mem _ (List.mem_cons_of_mem _ hx)))

theorem Shape_merge_children {h : Nat} {ks₁ ks₂ : List UserNode}
    {cs₁ cs₂ : List BTreeNodeUser} {a b m : BTreeNodeUser} {k : UserNode} {l : Bool}
    (hs : Shape (h + 1) (.mk (ks₁ ++ k :: ks₂) (cs₁ ++ a :: b :: cs₂) l))
    (hm : 1 ≤ m.num_keys ∧ m.num_keys ≤ 3 ∧ Shape h m) :
    Shape (h + 1) (.mk (ks₁ ++ ks₂) (cs₁ ++ m :: cs₂) l) := by
  rw [Shape_succ] at hs ⊢
  simp only [is_leaf_mk, children_mk, num_keys_mk, List.length_append, List.length_cons] at hs ⊢
  refine ⟨hs.1, by omega, ?_⟩
  intro x hx
  rcases List.mem_append.1 hx with hx | hx
  · exact hs.2.2 x (List.mem_append_left _ hx)
  · rcases List.mem_cons.1 hx with rfl | hx
    · exact hm
    · exact hs.2.2 x (List.mem_append_right _
        (List.mem_cons_of_mem _ (List.mem_cons_of_mem _ hx)))

/-- Borrow from the left sibling. -/
theorem fill_left (h : Nat) (ks₁ ks₂ : List UserNode) (cs₁ cs₂ : List BTreeNodeUser)
    (c s : BTreeNodeUser) (pk : UserNode)
    (hl : cs₁.length = ks₁.length)
    (hs : Shape (h + 1) (.mk (ks₁ ++ pk :: ks₂) (cs₁ ++ s :: c :: cs₂) false))
    (hc1 : c.num_keys = 1) (hs2 : 2 ≤ s.num_keys) :
    FillOk h (ks₁ ++ [pk]) ks₂ (cs₁ ++ [s]) cs₂ c
      (fillIndividualChild (.mk (ks₁ ++ pk :: ks₂) (cs₁ ++ s :: c :: cs₂) false)
        (ks₁.length + 1)) := by
  obtain ⟨_, _, hall⟩ := Shape_succ_mk hs
  have hsS := hall s (by simp)
  have hcS := hall c (by simp)
  obtain ⟨s', sk, c', G, hb, hs', hc', hn1, hn2, ht1, ht2⟩ :=
    borrowFromLeftIndividual_spec h ks₁ ks₂ cs₁ cs₂ c s pk false hl hcS.2.2 hsS.2.2 hs2
  refine ⟨ks₁ ++ [sk], ks₂, cs₁ ++ [s'], c', cs₂, ?_, by simp [hl], ?_, ?_, by omega,
    by simp, by simp, ?_, ?_, fun b hb => hb⟩
  · have e : (cs₁ ++ s :: c :: cs₂)[ks₁.length]? = some s := getElem?_app_len hl
    simp only [fillIndividualChild, ne_eq, Nat.add_one_ne_zero, not_false_eq_true, if_true,
      Nat.add_sub_cancel, children_mk, e, Option.map_some', M_eq]
    have : decide (s.num_keys ≥ 4 / 2) = true := by simpa using hs2
    rw [this]
    simp only [hb]
    simp
  · simp
  · have := Shape_two_children hs sk s' c'
      ⟨by omega, by omega, hs'⟩ ⟨by omega, by omega, hc'⟩
    simpa using this
  · rw [traverseFrom_append _ _ _ _ hl, traverseFrom_append _ _ _ _ hl, ht2]
    simp [ht1]
  · intro a ha
    rw [traverseFrom_append _ _ _ _ hl] at ha ⊢
    simp only [traverseFrom_cons_cons, traverseFrom_nil, List.mem_append, List.mem_cons,
      List.mem_singleton, List.not_mem_nil, or_false, ht1] at ha ⊢
    tauto

/-- Borrow from the right sibling or merge with it: the cases in which the
left sibling cannot lend and the child is not the last one. -/
theorem fill_right (h : Nat) (ks₁ ks₂ : List UserNode) (cs₁ cs₂ : List BTreeNodeUser)
    (c s : BTreeNodeUser) (pk : UserNode)
    (hl : cs₁.length = ks₁.length)
    (hs : Shape (h + 1) (.mk (ks₁ ++ pk :: ks₂) (cs₁ ++ c :: s :: cs₂) false))
    (hc1 : c.num_keys = 1)
    (hleft : (if ks₁.length ≠ 0 then
        ((cs₁ ++ c :: s :: cs₂)[ks₁.length - 1]?).map (fun s => decide (s.num_keys ≥ M / 2))
        else some false) = some false) :
    FillOk h ks₁ (pk :: ks₂) cs₁ (s :: cs₂) c
      (fillIndividualChild (.mk (ks₁ ++ pk :: ks₂) (cs₁ ++ c :: s :: cs₂) false)
        ks₁.length) := by
  obtain ⟨_, _, hall⟩ := Shape_succ_mk hs
  have hsS := hall s (by simp)
  have hcS := hall c (by simp)
  have e1 : (cs₁ ++ c :: s :: cs₂)[ks₁.length + 1]? = some s := getElem?_app_len_succ hl
  have hne : ks₁.length ≠ (ks₁ ++ pk :: ks₂).length := by simp
  simp only [M_eq, ne_eq] at hleft
  by_cases hs2 : 2 ≤ s.num_keys
  · obtain ⟨c', sk, s', G, hb, hc', hs', hn1, hn2, ht1, ht2⟩ :=
      borrowFromRightIndividual_spec h ks₁ ks₂ cs₁ cs₂ c s pk false hl hcS.2.2 hsS.2.2 hs2
    refine ⟨ks₁, sk :: ks₂, cs₁, c', s' :: cs₂, ?_, hl, ?_, ?_, by omega,
      by simp, by simp, ?_, fun a ha => ha, ?_⟩
    · simp only [fillIndividualChild, children_mk, num_keys_mk, hleft, e1, hne, ne_eq,
        not_false_eq_true, if_true, Option.map_some', M_eq]
      have : decide (s.num_keys ≥ 4 / 2) = true := by simpa using hs2
      rw [this]
      simp only [hb]
    · simp
    · exact Shape_two_children hs sk c' s' ⟨by omega, by omega, hc'⟩
        ⟨by omega, by omega, hs'⟩
    · simp [traverseFrom_cons, ht1, ht2]
    · intro b hb
      simp only [traverseTail_cons, traverseFrom_cons, List.mem_append, List.mem_cons,
        ht1] at hb ⊢
      tauto
  · have hs1 : s.num_keys = 1 := by omega
    obtain ⟨m, hm, hmS, hm3, htm⟩ :=
      mergeIndividualNodes_spec h ks₁ ks₂ cs₁ cs₂ c s pk false hl hcS.2.2 hsS.2.2 hc1 hs1
    refine ⟨ks₁, ks₂, cs₁, m, cs₂, ?_, hl, ?_, ?_, by omega,
      by simp only [List.length_append, List.length_cons]; omega, by simp, ?_,
      fun a ha => ha, ?_⟩
    · simp only [fillIndividualChild, children_mk, num_keys_mk, hleft, e1, hne, ne_eq,
        not_false_eq_true, if_true, Option.map_some', M_eq]
      have : decide (s.num_keys ≥ 4 / 2) = false := by simpa using hs2
      rw [this]
      simp only [hm]
    · simp
    · exact Shape_merge_children hs ⟨by omega, by omega, hmS⟩
    · simp [traverseFrom_cons, htm]
    · intro b hb
      simp only [traverseTail_cons, traverseFrom_cons, List.mem_append, List.mem_cons]
      tauto

/-- Merge with the left sibling: the child is the last one and the left
sibling cannot lend. -/
theorem fill_last (h : Nat) (ks₁ : List UserNode) (cs₁ : List BTreeNodeUser)
    (c s : BTreeNodeUser) (pk : UserNode)
    (hl : cs₁.length = ks₁.length)
    (hs : Shape (h + 1) (.mk (ks₁ ++ [pk]) (cs₁ ++ [s, c]) false))
    (hc1 : c.num_keys = 1) (hs1 : s.num_keys = 1) :
    FillOk h (ks₁ ++ [pk]) [] (cs₁ ++ [s]) [] c
      (fillIndividualChild (.mk (ks₁ ++ [pk]) (cs₁ ++ [s, c]) false)
        (ks₁.length + 1)) := by
  obtain ⟨_, _, hall⟩ := Shape_succ_mk hs
  have hsS := hall s (by simp)
  have hcS := hall c (by simp)
  obtain ⟨m, hm, hmS, hm3, htm⟩ :=
    mergeIndividualNodes_spec h ks₁ [] cs₁ [] s c pk false hl hsS.2.2 hcS.2.2 hs1 hc1
  refine ⟨ks₁, [], cs₁, m, [], ?_, hl, ?_, ?_, by omega,
    by simp, by simp, ?_, ?_, by simp⟩
  · have e : (cs₁ ++ [s, c])[ks₁.length]? = some s := getElem?_app_len hl
    simp only [fillIndividualChild, ne_eq, Nat.add_one_ne_zero, not_false_eq_true, if_true,
      Nat.add_sub_cancel, children_mk, num_keys_mk, e, Option.map_some', M_eq,
      List.length_append, List.length_singleton, not_true_eq_false, if_false]
    have : decide (s.num_keys ≥ 4 / 2) = false := by simp [hs1]
    rw [this]
    simp only [hm]
  · simp
  · simpa using Shape_merge_children hs ⟨by omega, by omega, hmS⟩
  · rw [traverseFrom_append _ _ _ _ hl]
    simp [htm]
  · intro a ha
    rw [traverseFrom_append _ _ _ _ hl]
    simp [ha]

theorem fillIndividualChild_spec (h : Nat) (ks₁ ks₂ : List UserNode)
    (cs₁ cs₂ : List BTreeNodeUser) (c : BTreeNodeUser)
    (hl : cs₁.length = ks₁.length)
    (hs : Shape (h + 1) (.mk (ks₁ ++ ks₂) (cs₁ ++ c :: cs₂) false))
    (hc1 : c.num_keys = 1) (hn : 1 ≤ (ks₁ ++ ks₂).length) :
    FillOk h ks₁ ks₂ cs₁ cs₂ c
      (fillIndividualChild (.mk (ks₁ ++ ks₂) (cs₁ ++ c :: cs₂) false) ks₁.length) := by
  obtain ⟨_, hlen, hall⟩ := Shape_succ_mk hs
  have hl2 : cs₂.length = ks₂.length := by simp at hlen; omega
  rcases List.eq_nil_or_concat ks₁ with h0 | ⟨ks₁', pk, rfl⟩
  · subst h0
    have hcs : cs₁ = [] := List.length_eq_zero.1 (by simpa using hl)
    subst hcs
    cases ks₂ with
    | nil => simp at hn
    | cons pk ks₂' =>
      cases cs₂ with
      | nil => simp at hl2
      | cons s cs₂' =>
        exact fill_right h [] ks₂' [] cs₂' c s pk rfl hs hc1 (by simp)
  · rw [List.concat_eq_append] at hl hs hn ⊢
    obtain ⟨cs₁', s, rfl⟩ := split_last cs₁ (by intro h0; subst h0; simp at hl)
    have hl' : cs₁'.length = ks₁'.length := by simpa using hl
    have hsS := hall s (by simp)
    by_cases hs2 : 2 ≤ s.num_keys
    · have := fill_left h ks₁' ks₂ cs₁' cs₂ c s pk hl' (by simpa using hs) hc1 hs2
      simpa using this
    · have hs1 : s.num_keys = 1 := by omega
      cases ks₂ with
      | nil =>
        have hcs : cs₂ = [] := List.length_eq_zero.1 (by simpa using hl2)
        subst hcs
        have := fill_last h ks₁' cs₁' c s pk hl' (by simpa using hs) hc1 hs1
        simpa using this
      | cons pk2 ks₂' =>
        cases cs₂ with
        | nil => simp at hl2
        | cons s2 cs₂' =>
          refine fill_right h (ks₁' ++ [pk]) ks₂' (cs₁' ++ [s]) cs₂' c s2 pk2 hl hs hc1 ?_
          have e : (cs₁' ++ s :: c :: s2 :: cs₂')[ks₁'.length]? = some s :=
            getElem?_app_len hl'
          simp [e, hs1]

/-! ### `deleteFromIndividualSubtree` -/

theorem removeId_append (k : Int) (l₁ l₂ : List UserNode) :
    removeId k (l₁ ++ l₂) = removeId k l₁ ++ removeId k l₂ := by
  simp [removeId]

theorem removeId_of_all_ne {l : List UserNode} {k : Int} (h : ∀ a ∈ l, a.user_id ≠ k) :
    removeId k l = l := filter_of_all_ne h

theorem removeId_mid (A B : List UserNode) {y : UserNode} {k : Int}
    (hs : StrictSorted (A ++ y :: B)) (hy : y.user_id = k) :
    removeId k (A ++ y :: B) = A ++ B := filter_strictSorted_mid hs hy

theorem delete_leaf (fuel : Nat) (node : BTreeNodeUser) (k : Int) (hf : 0 < fuel)
    (hs : Shape 0 node) (hsort : StrictSorted (traverseUsers node)) :
    ∃ node', deleteFromIndividualSubtree fuel node k = some node' ∧ Shape 0 node' ∧
      node.num_keys ≤ node'.num_keys + 1 ∧ node'.num_keys ≤ node.num_keys ∧
      traverseUsers node' = removeId k (traverseUsers node) := by
  obtain ⟨f, rfl⟩ : ∃ f, fuel = f + 1 := ⟨fuel - 1, by omega⟩
  obtain ⟨ks, cs, l⟩ := node
  obtain ⟨rfl, rfl⟩ := Shape_zero_mk hs
  obtain ⟨ks₁, ks₂, rfl, hi, hlt, hge⟩ := scanUp_split ks k
  simp only [traverseUsers_mk, traverseFrom_nil] at hsort
  have hL : ∀ a ∈ ks₁, a.user_id ≠ k := fun a ha => by have := hlt a ha; omega
  cases ks₂ with
  | nil =>
    simp only [List.append_nil] at hi hsort ⊢
    refine ⟨.mk ks₁ [] true, ?_, by simp [Shape_zero], by simp, by simp, ?_⟩
    · rw [deleteFromIndividualSubtree]
      simp only [find_key_index_individual, keys_mk, hi, getElem?_len_none rfl, is_leaf_mk]
      simp
    · simp [removeId_of_all_ne hL]
  | cons y ks₂' =>
    have hy := hge y (by simp)
    by_cases hyk : y.user_id = k
    · refine ⟨.mk (ks₁ ++ ks₂') [] true, ?_, by simp [Shape_zero], by simp; omega,
        by simp, ?_⟩
      · rw [deleteFromIndividualSubtree]
        simp only [find_key_index_individual, keys_mk, hi, getElem?_app_len rfl, hyk,
          Option.map_some', decide_True, is_leaf_mk, if_true, removeFromLeafIndividual,
          children_mk, eraseIdx_app_len rfl]
      · simp [removeId_mid _ _ hsort hyk]
    · refine ⟨.mk (ks₁ ++ y :: ks₂') [] true, ?_, by simp [Shape_zero], by simp, by simp, ?_⟩
      · rw [deleteFromIndividualSubtree]
        simp only [find_key_index_individual, keys_mk, hi, getElem?_app_len rfl,
          Option.map_some', Option.some.injEq, hyk, decide_False, is_leaf_mk,
          Bool.false_eq_true, if_false, if_true]
      · simp only [traverseUsers_mk, traverseFrom_nil]
        symm
        apply removeId_of_all_ne
        intro a ha
        rcases List.mem_append.1 ha with ha | ha
        · exact hL a ha
        · have h2 := (List.pairwise_append.1 hsort).2.1
          rcases List.mem_cons.1 ha with rfl | ha
          · exact hyk
          · have := (List.pairwise_cons.1 h2).1 a ha
            omega

theorem StrictSorted.sublist {l₁ l₂ : List UserNode} (h : StrictSorted l₂)
    (hsub : l₁.Sublist l₂) : StrictSorted l₁ :=
  List.Pairwise.sublist hsub h

/-- Case A of `deleteFromIndividualSubtree` on an internal node: the key is
in the node, at the cut. -/
theorem delete_found {h : Nat} (ih : DeleteSpec h) (f : Nat) (k : Int)
    (ks₁ ks₂ : List UserNode) (cs₁ cs₂ : List BTreeNodeUser) (c s : BTreeNodeUser)
    (y : UserNode) (hf : h < f) (hl : cs₁.length = ks₁.length)
    (hs : Shape (h + 1) (.mk (ks₁ ++ y :: ks₂) (cs₁ ++ c :: s :: cs₂) false))
    (hi : scanUp (ks₁ ++ y :: ks₂) k = ks₁.length) (hy : y.user_id = k)
    (hsort : StrictSorted (traverseUsers (.mk (ks₁ ++ y :: ks₂) (cs₁ ++ c :: s :: cs₂) false))) :
    ∃ node', deleteFromIndividualSubtree (f + 1)
        (.mk (ks₁ ++ y :: ks₂) (cs₁ ++ c :: s :: cs₂) false) k = some node' ∧
      Shape (h + 1) node' ∧
      (ks₁ ++ y :: ks₂).length ≤ node'.num_keys + 1 ∧
      node'.num_keys ≤ (ks₁ ++ y :: ks₂).length ∧
      traverseUsers node' =
        removeId k (traverseUsers (.mk (ks₁ ++ y :: ks₂) (cs₁ ++ c :: s :: cs₂) false)) := by
  obtain ⟨_, _, hall⟩ := Shape_succ_mk hs
  have hsS := hall s (by simp)
  have hcS := hall c (by simp)
  have htr : traverseUsers (.mk (ks₁ ++ y :: ks₂) (cs₁ ++ c :: s :: cs₂) false) =
      (traverseFrom cs₁ ks₁ ++ traverseUsers c) ++
        y :: (traverseUsers s ++ traverseTail cs₂ ks₂) := by
    simp [traverseFrom_cut _ _ _ _ _ hl, traverseFrom_cons]
  rw [htr] at hsort ⊢
  rw [removeId_mid _ _ hsort hy]
  have hsortc : StrictSorted (traverseUsers c) :=
    (List.pairwise_append.1 (List.pairwise_append.1 hsort).1).2.1
  have hsorts : StrictSorted (traverseUsers s) :=
    (List.pairwise_append.1
      (List.pairwise_cons.1 (List.pairwise_append.1 hsort).2.1).2).1
  have e0 : (cs₁ ++ c :: s :: cs₂)[ks₁.length]? = some c := getElem?_app_len hl
  have e1 : (cs₁ ++ c :: s :: cs₂)[ks₁.length + 1]? = some s := getElem?_app_len_succ hl
  by_cases hc2 : 2 ≤ c.num_keys
  · -- replace by the predecessor
    obtain ⟨p, init, hp, htc⟩ := rightmostKey_spec h c hcS.2.2 hcS.1
    obtain ⟨c', hdel, hc'S, hc'1, hc'2, htc'⟩ := ih f c p.user_id hf hcS.2.2 hcS.1 hsortc
    refine ⟨.mk (ks₁ ++ p :: ks₂) (cs₁ ++ c' :: s :: cs₂) false, ?_, ?_, by simp, by simp, ?_⟩
    · rw [deleteFromIndividualSubtree]
      have : decide (c.num_keys ≥ 4 / 2) = true := by simpa using hc2
      simp only [find_key_index_individual, keys_mk, hi, getElem?_app_len rfl, hy,
          Option.map_some', Option.some.injEq,
        decide_True, is_leaf_mk, if_true, children_mk, e0, M_eq, getIndividualPredecessor,
        hp, hdel, set_app_len rfl, set_app_len hl]
      simp [hc2]
    · exact Shape_two_children hs p c' s ⟨by omega, by omega, hc'S⟩ hsS
    · have e : traverseUsers c' = init := by
        rw [htc', htc]
        rw [htc] at hsortc
        simpa using removeId_mid init [] hsortc rfl
      simp [traverseFrom_cut _ _ _ _ _ hl, traverseFrom_cons, e, htc]
  · by_cases hs2 : 2 ≤ s.num_keys
    · -- replace by the successor
      obtain ⟨q, rest, hq, hts⟩ := leftmostKey_spec h s hsS.2.2 hsS.1
      obtain ⟨s', hdel, hs'S, hs'1, hs'2, hts'⟩ := ih f s q.user_id hf hsS.2.2 hsS.1 hsorts
      refine ⟨.mk (ks₁ ++ q :: ks₂) (cs₁ ++ c :: s' :: cs₂) false, ?_, ?_, by simp, by simp,
        ?_⟩
      · rw [deleteFromIndividualSubtree]
        simp only [find_key_index_individual, keys_mk, hi, getElem?_app_len rfl, hy,
          Option.map_some', Option.some.injEq,
          decide_True, is_leaf_mk, if_true, children_mk, e0, e1, M_eq,
          getIndividualSuccessor, hq, hdel, set_app_len rfl, set_app_len_succ hl]
        simp [hc2, hs2]
      · exact Shape_two_children hs q c s' hcS ⟨by omega, by omega, hs'S⟩
      · have e : traverseUsers s' = rest := by
          rw [hts', hts]
          rw [hts] at hsorts
          simpa using removeId_mid [] rest hsorts rfl
        simp [traverseFrom_cut _ _ _ _ _ hl, traverseFrom_cons, e, hts]
    · -- merge the two children around the key
      obtain ⟨m, hm, hmS, hm3, htm⟩ :=
        mergeIndividualNodes_spec h ks₁ ks₂ cs₁ cs₂ c s y false hl hcS.2.2 hsS.2.2
          (by omega) (by omega)
      have hsortm : StrictSorted (traverseUsers m) := by
        rw [htm]
        have h1 := (List.pairwise_append.1 hsort).1
        have h2 := (List.pairwise_append.1 hsort)
        refine StrictSorted.sublist hsort ?_
        rw [List.append_assoc]
        refine List.Sublist.trans ?_ (List.sublist_append_right _ _)
        rw [← List.cons_append, ← List.append_assoc]
        exact List.sublist_append_left _ _
      obtain ⟨m', hdel, hm'S, hm'1, hm'2, htm'⟩ :=
        ih f m k hf hmS (by omega) hsortm
      refine ⟨.mk (ks₁ ++ ks₂) (cs₁ ++ m' :: cs₂) false, ?_, ?_, by simp; omega,
        by simp, ?_⟩
      · rw [deleteFromIndividualSubtree]
        simp only [find_key_index_individual, keys_mk, hi, getElem?_app_len rfl, hy,
          Option.map_some', Option.some.injEq,
          decide_True, is_leaf_mk, if_true, children_mk, e0, e1, M_eq, hm,
          getElem?_app_len hl, hdel, set_app_len hl]
        simp [hc2, hs2]
      · exact Shape_merge_children hs ⟨by omega, by omega, hm'S⟩
      · have e : traverseUsers m' = traverseUsers c ++ traverseUsers s := by
          rw [htm', htm]
          rw [htm] at hsortm
          exact removeId_mid _ _ hsortm hy
        simp [traverseFrom_cut _ _ _ _ _ hl, e]

/-- Case B of `deleteFromIndividualSubtree` on an internal node: the key is
not in the node, and the call goes on in the child at the cut. -/
theorem delete_notfound {h : Nat} (ih : DeleteSpec h) (f : Nat) (k : Int)
    (ks₁ ks₂ : List UserNode) (cs₁ cs₂ : List BTreeNodeUser) (c : BTreeNodeUser)
    (hf : h < f) (hl : cs₁.length = ks₁.length)
    (hs : Shape (h + 1) (.mk (ks₁ ++ ks₂) (cs₁ ++ c :: cs₂) false))
    (hn : 1 ≤ (ks₁ ++ ks₂).length)
    (hi : find_key_index_individual (.mk (ks₁ ++ ks₂) (cs₁ ++ c :: cs₂) false) k = ks₁.length)
    (hlt : ∀ a ∈ ks₁, a.user_id < k) (hgt : ∀ y, ks₂.head? = some y → k < y.user_id)
    (hsort : StrictSorted (traverseUsers (.mk (ks₁ ++ ks₂) (cs₁ ++ c :: cs₂) false))) :
    ∃ node', deleteFromIndividualSubtree (f + 1)
        (.mk (ks₁ ++ ks₂) (cs₁ ++ c :: cs₂) false) k = some node' ∧
      Shape (h + 1) node' ∧
      (ks₁ ++ ks₂).length ≤ node'.num_keys + 1 ∧
      node'.num_keys ≤ (ks₁ ++ ks₂).length ∧
      traverseUsers node' =
        removeId k (traverseUsers (.mk (ks₁ ++ ks₂) (cs₁ ++ c :: cs₂) false)) := by
  obtain ⟨_, hlen, hall⟩ := Shape_succ_mk hs
  have hcS := hall c (by simp)
  rw [traverseUsers_mk, traverseFrom_cut _ _ _ _ _ hl] at hsort ⊢
  have h1 := List.pairwise_append.1 hsort
  have h2 := List.pairwise_append.1 h1.2.1
  -- the key is neither in front of the cut nor behind it
  have hL : ∀ a ∈ traverseFrom cs₁ ks₁, a.user_id ≠ k := by
    intro a ha
    obtain ⟨x, hx, hax⟩ := traverseFrom_le_last cs₁ ks₁ hl (StrictSorted.sortedLE h1.1) a ha
    have := hlt x (List.mem_of_mem_getLast? hx)
    omega
  have hR : ∀ b ∈ traverseTail cs₂ ks₂, b.user_id ≠ k := by
    intro b hb
    obtain ⟨y, hy, hyb⟩ := traverseTail_ge_head cs₂ ks₂ (StrictSorted.sortedLE h2.2.1) b hb
    have := hgt y hy
    omega
  have hfound : decide (((ks₁ ++ ks₂)[ks₁.length]?).map UserNode.user_id = some k) = false := by
    cases ks₂ with
    | nil => simp
    | cons y ks₂' =>
      have := hgt y (by simp)
      rw [getElem?_app_len rfl]
      simp; omega
  have e0 : (cs₁ ++ c :: cs₂)[ks₁.length]? = some c := getElem?_app_len hl
  rw [removeId_append, removeId_append, removeId_of_all_ne hL, removeId_of_all_ne hR]
  by_cases hc2 : 2 ≤ c.num_keys
  · obtain ⟨c', hdel, hc'S, hc'1, hc'2, htc'⟩ := ih f c k hf hcS.2.2 hcS.1 h2.1
    refine ⟨.mk (ks₁ ++ ks₂) (cs₁ ++ c' :: cs₂) false, ?_, ?_, by simp, by simp, ?_⟩
    · rw [deleteFromIndividualSubtree]
      have hlt2 : ¬ c.num_keys < 4 / 2 := by simp; omega
      have hj : ¬ (ks₁.length > (ks₁ ++ ks₂).length) := by simp
      simp only [hi, keys_mk]
      rw [hfound]
      simp only [is_leaf_mk, children_mk, num_keys_mk, keys_mk, e0, M_eq, hlt2,
        Bool.false_eq_true, if_false, hj, decide_False, Bool.and_false, hdel, set_app_len hl]
    · exact Shape_replace_child hs ⟨by omega, by omega, hc'S⟩
    · simp [traverseFrom_cut _ _ _ _ _ hl, htc']
  · obtain ⟨K₁, K₂, C₁, d, C₂, hfill, hL1, hj, hS1, hd2, hcnt1, hcnt2, htr, hLsub, hRsub⟩ :=
      fillIndividualChild_spec h ks₁ ks₂ cs₁ cs₂ c hl hs (by omega) hn
    obtain ⟨_, _, hall1⟩ := Shape_succ_mk hS1
    have hdS := hall1 d (by simp)
    rw [← htr] at hsort
    have h1' := List.pairwise_append.1 hsort
    have h2' := List.pairwise_append.1 h1'.2.1
    obtain ⟨d', hdel, hd'S, hd'1, hd'2, htd'⟩ := ih f d k hf hdS.2.2 hdS.1 h2'.1
    refine ⟨.mk (K₁ ++ K₂) (C₁ ++ d' :: C₂) false, ?_, ?_, by simpa using hcnt1,
      by simpa using hcnt2, ?_⟩
    · rw [deleteFromIndividualSubtree]
      have hlt2 : c.num_keys < 4 / 2 := by simp; omega
      simp only [hi, keys_mk]
      rw [hfound]
      simp only [is_leaf_mk, children_mk, num_keys_mk, keys_mk, e0, M_eq, hlt2,
        Bool.false_eq_true, if_false, if_true, hfill, hj, getElem?_app_len hL1, hdel,
        set_app_len hL1]
    · exact Shape_replace_child hS1 ⟨by omega, by omega, hd'S⟩
    · have e : traverseFrom cs₁ ks₁ ++ (removeId k (traverseUsers c) ++ traverseTail cs₂ ks₂) =
          removeId k (traverseFrom cs₁ ks₁ ++ (traverseUsers c ++ traverseTail cs₂ ks₂)) := by
        rw [removeId_append, removeId_append, removeId_of_all_ne hL, removeId_of_all_ne hR]
      rw [e, ← htr, removeId_append, removeId_append,
        removeId_of_all_ne (fun a ha => hL a (hLsub a ha)),
        removeId_of_all_ne (fun b hb => hR b (hRsub b hb))]
      simp [traverseFrom_cut _ _ _ _ _ hL1, htd']

theorem deleteFromIndividualSubtree_spec (h : Nat) : DeleteSpec h := by
  induction h with
  | zero =>
    intro fuel node k hf hs _ hsort
    exact delete_leaf fuel node k hf hs hsort
  | succ h ih =>
    intro fuel node k hf hs hn hsort
    obtain ⟨f, rfl⟩ : ∃ f, fuel = f + 1 := ⟨fuel - 1, by omega⟩
    obtain ⟨ks, cs, l⟩ := node
    obtain ⟨rfl, hlen, hall⟩ := Shape_succ_mk hs
    obtain ⟨ks₁, ks₂, rfl, hi, hlt, hge⟩ := scanUp_split ks k
    obtain ⟨cs₁, c, cs₂, rfl, hl1, hl2⟩ := children_cut cs ks₁ ks₂ hlen
    by_cases hfound : ∃ y ks₂', ks₂ = y :: ks₂' ∧ y.user_id = k
    · obtain ⟨y, ks₂', rfl, hy⟩ := hfound
      cases cs₂ with
      | nil => simp at hl2
      | cons s cs₂' =>
        exact delete_found ih f k ks₁ ks₂' cs₁ cs₂' c s y (by omega) hl1 hs hi hy hsort
    · refine delete_notfound ih f k ks₁ ks₂ cs₁ cs₂ c (by omega) hl1 hs hn hi hlt ?_ hsort
      intro y hy
      have h1 := hge y hy
      have h2 : y.user_id ≠ k := by
        intro heq
        apply hfound
        cases ks₂ with
        | nil => simp at hy
        | cons z zs =>
          simp at hy
          subst hy
          exact ⟨z, zs, rfl, heq⟩
      omega

/-! ### `searchUser` -/

theorem find?_none_of_all_ne {l : List UserNode} {k : Int} (h : ∀ a ∈ l, a.user_id ≠ k) :
    l.find? (fun u => decide (u.user_id = k)) = none := by
  rw [List.find?_eq_none]
  intro a ha
  simpa using h a ha

theorem searchUserNode_spec (h : Nat) : ∀ (t : BTreeNodeUser) (k : Int),
    Shape h t → StrictSorted (traverseUsers t) →
    searchUserNode t k = (traverseUsers t).find? (fun u => decide (u.user_id = k)) := by
  induction h with
  | zero =>
    intro t k hs hsort
    obtain ⟨ks, cs, l⟩ := t
    obtain ⟨rfl, rfl⟩ := Shape_zero_mk hs
    obtain ⟨ks₁, ks₂, rfl, hi, hlt, hge⟩ := scanUp_split ks k
    simp only [traverseUsers_mk, traverseFrom_nil] at hsort ⊢
    have hL : ∀ a ∈ ks₁, a.user_id ≠ k := fun a ha => by have := hlt a ha; omega
    rw [searchUserNode, List.find?_append, find?_none_of_all_ne hL]
    simp only [hi, Option.none_or]
    cases ks₂ with
    | nil => simp
    | cons y ks₂' =>
      rw [getElem?_app_len rfl]
      by_cases hyk : k = y.user_id
      · simp [hyk]
      · have hy := hge y (by simp)
        have h2 := (List.pairwise_append.1 hsort).2.1
        have hR : ∀ b ∈ y :: ks₂', b.user_id ≠ k := by
          intro b hb
          rcases List.mem_cons.1 hb with rfl | hb
          · omega
          · have := (List.pairwise_cons.1 h2).1 b hb
            omega
        rw [find?_none_of_all_ne hR]
        simp [hyk]
  | succ h ih =>
    intro t k hs hsort
    obtain ⟨ks, cs, l⟩ := t
    obtain ⟨rfl, hlen, hall⟩ := Shape_succ_mk hs
    obtain ⟨ks₁, ks₂, rfl, hi, hlt, hge⟩ := scanUp_split ks k
    obtain ⟨cs₁, c, cs₂, rfl, hl1, hl2⟩ := children_cut cs ks₁ ks₂ hlen
    have hcS := hall c (by simp)
    rw [traverseUsers_mk, traverseFrom_cut _ _ _ _ _ hl1] at hsort ⊢
    have h1 := List.pairwise_append.1 hsort
    have h2 := List.pairwise_append.1 h1.2.1
    have hL : ∀ a ∈ traverseFrom cs₁ ks₁, a.user_id ≠ k := by
      intro a ha
      obtain ⟨x, hx, hax⟩ := traverseFrom_le_last cs₁ ks₁ hl1 (StrictSorted.sortedLE h1.1) a ha
      have := hlt x (List.mem_of_mem_getLast? hx)
      omega
    have e0 : (cs₁ ++ c :: cs₂)[ks₁.length]? = some c := getElem?_app_len hl1
    rw [searchUserNode, List.find?_append, find?_none_of_all_ne hL, List.find?_append]
    simp only [hi, Option.none_or, searchUserChild_eq, e0, Option.some_bind,
      ih c k hcS.2.2 h2.1]
    cases ks₂ with
    | nil => simp
    | cons y ks₂' =>
      rw [getElem?_app_len rfl]
      have hy := hge y (by simp)
      by_cases hyk : k = y.user_id
      · have hC : ∀ a ∈ traverseUsers c, a.user_id ≠ k := by
          intro a ha
          have := h2.2.2 a ha y (by simp)
          omega
        rw [find?_none_of_all_ne hC]
        simp [hyk]
      · have hR : ∀ b ∈ traverseTail cs₂ (y :: ks₂'), b.user_id ≠ k := by
          intro b hb
          obtain ⟨z, hz, hzb⟩ :=
            traverseTail_ge_head cs₂ (y :: ks₂') (StrictSorted.sortedLE h2.2.1) b hb
          simp at hz
          subst hz
          omega
        rw [find?_none_of_all_ne hR]
        simp [hyk]

theorem searchUser_spec (root : Option BTreeNodeUser) (k : Int) (hwf : WellFormed root)
    (hsort : StrictSorted (traverseAndPrintUsers root)) :
    searchUser root k =
      (traverseAndPrintUsers root).find? (fun u => decide (u.user_id = k)) := by
  cases root with
  | none => simp [searchUser, traverseAndPrintUsers]
  | some r =>
    obtain ⟨_, _, h, hs⟩ := hwf
    exact searchUserNode_spec h r k hs hsort

/-- In a strictly sorted list, the search by id finds `u` exactly when `u`
is in the list and carries the id. -/
theorem find?_eq_some_of_strictSorted {l : List UserNode} (hs : StrictSorted l) (k : Int)
    (u : UserNode) :
    l.find? (fun v => decide (v.user_id = k)) = some u ↔ (u ∈ l ∧ u.user_id = k) := by
  induction l with
  | nil => simp
  | cons a l ih =>
    have h1 := List.pairwise_cons.1 hs
    rw [List.find?_cons]
    by_cases ha : a.user_id = k
    · simp only [ha, decide_True, Option.some.injEq, List.mem_cons]
      constructor
      · rintro rfl
        exact ⟨Or.inl rfl, ha⟩
      · rintro ⟨rfl | hu, huk⟩
        · rfl
        · have := h1.1 u hu
          omega
    · simp only [ha, decide_False, List.mem_cons]
      rw [ih h1.2]
      constructor
      · rintro ⟨hu, huk⟩
        exact ⟨Or.inr hu, huk⟩
      · rintro ⟨rfl | hu, huk⟩
        · exact absurd huk ha
        · exact ⟨hu, huk⟩

/-! ### `insertUser` and `deleteIndividual` on a root handle -/

theorem insertUser_spec (root : Option BTreeNodeUser) (u : UserNode) (hwf : WellFormed root) :
    ∃ t A B, insertUser root u = some (some t) ∧ WellFormed (some t) ∧
      traverseAndPrintUsers root = A ++ B ∧ traverseUsers t = A ++ u :: B ∧
      (SortedLE (traverseAndPrintUsers root) →
        (∀ a ∈ A, a.user_id ≤ u.user_id) ∧ (∀ b ∈ B, u.user_id ≤ b.user_id)) := by
  cases root with
  | none =>
    refine ⟨.mk [u] [] true, [], [], rfl, ?_, rfl, by simp, by simp⟩
    exact ⟨by simp, by simp, 0, by simp [Shape_zero]⟩
  | some r =>
    obtain ⟨hr1, hr3, h, hs⟩ := hwf
    by_cases hfull : r.num_keys = 3
    · obtain ⟨cL, m, cR, hsplit, hsL, hsR, hnL, hnR, htr⟩ :=
        splitUserChild_spec h [] [] [] [] r false rfl hs hfull
      simp only [List.nil_append, List.length_nil] at hsplit
      have hs1 : Shape (h + 1) (.mk [m] [cL, cR] false) := by
        apply Shape_mk_succ (by simp)
        intro x hx
        simp only [List.mem_cons, List.mem_singleton, List.not_mem_nil, or_false] at hx
        rcases hx with rfl | rfl
        · exact ⟨by omega, by omega, hsL⟩
        · exact ⟨by omega, by omega, hsR⟩
      obtain ⟨t, A, B, hins, hst, ht1, ht3, hA, hB, hord⟩ :=
        insertUserNonFull_spec (h + 1) (depth (.mk [m] [cL, cR] false) + 1)
          (.mk [m] [cL, cR] false) u (by rw [depth_of_Shape _ _ hs1]; omega) hs1 (by simp)
      have htr1 : traverseUsers (.mk [m] [cL, cR] false) = traverseUsers r := by
        simp [htr]
      refine ⟨t, A, B, ?_, ⟨?_, ht3, h + 1, hst⟩, ?_, hB, ?_⟩
      · simp only [insertUser, hfull, M_eq, if_true, hsplit, hins]
      · simp at ht1; omega
      · rw [traverseAndPrintUsers, ← htr1]; exact hA
      · intro hsort
        rw [traverseAndPrintUsers, ← htr1] at hsort
        exact hord hsort
    · obtain ⟨t, A, B, hins, hst, ht1, ht3, hA, hB, hord⟩ :=
        insertUserNonFull_spec h (depth r + 1) r u (by rw [depth_of_Shape _ _ hs]; omega) hs
          (by omega)
      refine ⟨t, A, B, ?_, ⟨by omega, ht3, h, hst⟩, hA, hB, hord⟩
      simp only [insertUser, hfull, M_eq, if_false, hins]

theorem deleteIndividual_spec (root : Option BTreeNodeUser) (k : Int) (hwf : WellFormed root)
    (hsort : StrictSorted (traverseAndPrintUsers root)) :
    ∃ root', deleteIndividual root k = some (root', root.isSome) ∧ WellFormed root' ∧
      traverseAndPrintUsers root' = removeId k (traverseAndPrintUsers root) := by
  cases root with
  | none => exact ⟨none, rfl, trivial, by simp [traverseAndPrintUsers, removeId]⟩
  | some r =>
    obtain ⟨hr1, hr3, h, hs⟩ := hwf
    obtain ⟨r1, hdel, hs1, hc1, hc2, htr⟩ :=
      deleteFromIndividualSubtree_spec h (depth r + 1) r k
        (by rw [depth_of_Shape _ _ hs]; omega) hs hr1 hsort
    by_cases h0 : r1.num_keys = 0
    · obtain ⟨ks, cs, l⟩ := r1
      simp only [num_keys_mk] at h0
      have hks : ks = [] := List.length_eq_zero.1 h0
      subst hks
      cases h with
      | zero =>
        obtain ⟨rfl, rfl⟩ := Shape_zero_mk hs1
        refine ⟨none, ?_, trivial, ?_⟩
        · simp [deleteIndividual, hdel]
        · rw [traverseAndPrintUsers, traverseAndPrintUsers, ← htr]
          simp
      | succ h =>
        obtain ⟨rfl, hlen, hall⟩ := Shape_succ_mk hs1
        obtain ⟨d, rfl⟩ : ∃ d, cs = [d] := by
          match cs, hlen with
          | [d], _ => exact ⟨d, rfl⟩
        have hd := hall d (by simp)
        refine ⟨some d, ?_, ⟨hd.1, hd.2.1, h, hd.2.2⟩, ?_⟩
        · simp [deleteIndividual, hdel]
        · rw [traverseAndPrintUsers, traverseAndPrintUsers, ← htr]
          simp
    · refine ⟨some r1, ?_, ⟨by omega, by omega, h, hs1⟩, ?_⟩
      · simp [deleteIndividual, hdel, h0]
      · rw [traverseAndPrintUsers, traverseAndPrintUsers, htr]

/-! ### Sequences of calls -/

theorem mem_removeId {k : Int} {l : List UserNode} {u : UserNode} :
    u ∈ removeId k l ↔ (u ∈ l ∧ u.user_id ≠ k) := by
  simp [removeId]

theorem StrictSorted_removeId {l : List UserNode} (k : Int) (h : StrictSorted l) :
    StrictSorted (removeId k l) :=
  List.Pairwise.sublist (List.filter_sublist l) h

/-- Inserting a record with a new id at a position between the smaller and
the larger ids keeps the list strictly sorted. -/
theorem StrictSorted_insert {A B : List UserNode} {u : UserNode}
    (hs : StrictSorted (A ++ B)) (hA : ∀ a ∈ A, a.user_id ≤ u.user_id)
    (hB : ∀ b ∈ B, u.user_id ≤ b.user_id) (hnew : ∀ v ∈ A ++ B, v.user_id ≠ u.user_id) :
    (∀ a ∈ A, a.user_id < u.user_id) ∧ (∀ b ∈ B, u.user_id < b.user_id) ∧
      StrictSorted (A ++ u :: B) := by
  have hA' : ∀ a ∈ A, a.user_id < u.user_id := by
    intro a ha
    have h1 := hA a ha
    have h2 := hnew a (List.mem_append_left _ ha)
    omega
  have hB' : ∀ b ∈ B, u.user_id < b.user_id := by
    intro b hb
    have h1 := hB b hb
    have h2 := hnew b (List.mem_append_right _ hb)
    omega
  refine ⟨hA', hB', ?_⟩
  have h := List.pairwise_append.1 hs
  refine List.pairwise_append.2 ⟨h.1, List.pairwise_cons.2 ⟨hB', h.2.1⟩, ?_⟩
  intro a ha b hb
  rcases List.mem_cons.1 hb with rfl | hb
  · exact hA' a ha
  · exact h.2.2 a ha b hb

/-- One `insertUser` call with a new id on a well-formed, sorted tree. -/
theorem insertUser_sorted (root : Option BTreeNodeUser) (u : UserNode) (hwf : WellFormed root)
    (hsort : StrictSorted (traverseAndPrintUsers root))
    (hnew : ∀ v ∈ traverseAndPrintUsers root, v.user_id ≠ u.user_id) :
    ∃ t A B, insertUser root u = some (some t) ∧ WellFormed (some t) ∧
      traverseAndPrintUsers root = A ++ B ∧ traverseUsers t = A ++ u :: B ∧
      (∀ a ∈ A, a.user_id < u.user_id) ∧ (∀ b ∈ B, u.user_id < b.user_id) ∧
      StrictSorted (traverseUsers t) := by
  obtain ⟨t, A, B, hins, hwf', hA, hB, hord⟩ := insertUser_spec root u hwf
  obtain ⟨ho1, ho2⟩ := hord (StrictSorted.sortedLE hsort)
  rw [hA] at hsort hnew
  obtain ⟨h1, h2, h3⟩ := StrictSorted_insert hsort ho1 ho2 hnew
  exact ⟨t, A, B, hins, hwf', hA, hB, h1, h2, hB ▸ h3⟩

/-- The invariant kept by every sequence of calls that respects the
precondition of Insert. -/
theorem runUserOpsFrom_inv : ∀ (ops : List UserOp) (root : Option BTreeNodeUser)
    (live : List UserNode), WellFormed root → StrictSorted (traverseAndPrintUsers root) →
    (∀ u, u ∈ traverseAndPrintUsers root ↔ u ∈ live) → freshFrom live ops →
    ∃ root', runUserOpsFrom root ops = some root' ∧ WellFormed root' ∧
      StrictSorted (traverseAndPrintUsers root') ∧
      (∀ u, u ∈ traverseAndPrintUsers root' ↔ u ∈ liveFrom live ops) := by
  intro ops
  induction ops with
  | nil =>
    intro root live hwf hsort hmem _
    exact ⟨root, rfl, hwf, hsort, hmem⟩
  | cons op ops ih =>
    intro root live hwf hsort hmem hfresh
    cases op with
    | insert u =>
      obtain ⟨hf1, hf2⟩ := hfresh
      obtain ⟨t, A, B, hins, hwf', hA, hB, _, _, hs'⟩ :=
        insertUser_sorted root u hwf hsort (fun v hv => hf1 v ((hmem v).1 hv))
      have hmem' : ∀ v, v ∈ traverseAndPrintUsers (some t) ↔ v ∈ live ++ [u] := by
        intro v
        have := hmem v
        rw [hA] at this
        simp only [traverseAndPrintUsers, hB, List.mem_append, List.mem_cons,
          List.mem_singleton] at this ⊢
        tauto
      obtain ⟨root', hrun, h1, h2, h3⟩ := ih (some t) (live ++ [u]) hwf' hs' hmem' hf2
      exact ⟨root', by simp [runUserOpsFrom, applyUserOp, hins, hrun], h1, h2, h3⟩
    | delete k =>
      obtain ⟨root1, hdel, hwf', htr⟩ := deleteIndividual_spec root k hwf hsort
      have hs' : StrictSorted (traverseAndPrintUsers root1) := by
        rw [htr]; exact StrictSorted_removeId k hsort
      have hmem' : ∀ v, v ∈ traverseAndPrintUsers root1 ↔ v ∈ removeId k live := by
        intro v
        rw [htr, mem_removeId, mem_removeId, hmem v]
      obtain ⟨root', hrun, h1, h2, h3⟩ := ih root1 (removeId k live) hwf' hs' hmem' hfresh
      exact ⟨root', by simp [runUserOpsFrom, applyUserOp, hdel, hrun], h1, h2, h3⟩

theorem freshFrom_of_nodup : ∀ (ops : List UserOp) (live : List UserNode),
    (insertedIds ops).Nodup → (∀ v ∈ live, v.user_id ∉ insertedIds ops) →
    freshFrom live ops := by
  intro ops
  induction ops with
  | nil => intro live _ _; trivial
  | cons op ops ih =>
    intro live hnd hdis
    cases op with
    | insert u =>
      simp only [insertedIds, List.nodup_cons] at hnd
      simp only [insertedIds, List.mem_cons, not_or] at hdis
      refine ⟨fun v hv => (hdis v hv).1, ih _ hnd.2 ?_⟩
      intro v hv
      rcases List.mem_append.1 hv with hv | hv
      · exact (hdis v hv).2
      · simp at hv; subst hv; exact hnd.1
    | delete k =>
      simp only [insertedIds] at hnd hdis
      exact ih _ hnd (fun v hv => hdis v (mem_removeId.1 hv).1)

theorem runUserOps_inv (ops : List UserOp) (hfresh : FreshInserts ops) :
    ∃ root, runUserOps ops = some root ∧ WellFormed root ∧
      StrictSorted (traverseAndPrintUsers root) ∧
      (∀ u, u ∈ traverseAndPrintUsers root ↔ u ∈ liveAfter ops) :=
  runUserOpsFrom_inv ops none [] trivial (by simp [traverseAndPrintUsers, StrictSorted])
    (by simp [traverseAndPrintUsers]) hfresh

theorem FreshInserts_of_nodup (ops : List UserOp) (h : (insertedIds ops).Nodup) :
    FreshInserts ops :=
  freshFrom_of_nodup ops [] h (by simp)

/-! ### Balance and occupancy, read off the tree -/

theorem leafDepthsList_mem (cs : List BTreeNodeUser) (x : Nat) :
    x ∈ leafDepthsList cs ↔ ∃ c ∈ cs, x ∈ leafDepths c := by
  induction cs with
  | nil => simp [leafDepthsList]
  | cons c cs ih => simp [leafDepthsList, ih]

theorem leafDepths_of_Shape (h : Nat) : ∀ t, Shape h t → ∀ x ∈ leafDepths t, x = h := by
  induction h with
  | zero =>
    intro t hs x hx
    obtain ⟨ks, cs, l⟩ := t
    obtain ⟨rfl, rfl⟩ := Shape_zero_mk hs
    simpa [leafDepths] using hx
  | succ h ih =>
    intro t hs x hx
    obtain ⟨ks, cs, l⟩ := t
    obtain ⟨rfl, _, hall⟩ := Shape_succ_mk hs
    simp only [leafDepths, Bool.false_eq_true, if_false, List.mem_map] at hx
    obtain ⟨y, hy, rfl⟩ := hx
    obtain ⟨c, hc, hyc⟩ := (leafDepthsList_mem cs y).1 hy
    rw [ih c (hall c hc).2.2 y hyc]

theorem OccupancyList_iff (cs : List BTreeNodeUser) :
    OccupancyList cs ↔ ∀ c ∈ cs, 1 ≤ c.num_keys ∧ c.num_keys ≤ 3 ∧ OccupancyBelow c := by
  induction cs with
  | nil => simp [OccupancyList]
  | cons c cs ih => simp [OccupancyList, ih]

theorem OccupancyBelow_of_Shape (h : Nat) : ∀ t, Shape h t → OccupancyBelow t := by
  induction h with
  | zero =>
    intro t hs
    obtain ⟨ks, cs, l⟩ := t
    obtain ⟨rfl, rfl⟩ := Shape_zero_mk hs
    simp [OccupancyBelow, OccupancyList]
  | succ h ih =>
    intro t hs
    obtain ⟨ks, cs, l⟩ := t
    obtain ⟨rfl, _, hall⟩ := Shape_succ_mk hs
    rw [OccupancyBelow, OccupancyList_iff]
    intro c hc
    exact ⟨(hall c hc).1, (hall c hc).2.1, ih c (hall c hc).2.2⟩

theorem traverseUsers_ne_nil (h : Nat) (t : BTreeNodeUser) (hs : Shape h t)
    (hn : 1 ≤ t.num_keys) : traverseUsers t ≠ [] := by
  obtain ⟨p, init, _, htr⟩ := rightmostKey_spec h t hs hn
  rw [htr]
  simp

/-! ### A run of inserts alone -/

theorem runUserOpsFrom_inserts : ∀ (us : List UserNode) (root : Option BTreeNodeUser),
    WellFormed root →
    ∃ root', runUserOpsFrom root (us.map UserOp.insert) = some root' ∧ WellFormed root' := by
  intro us
  induction us with
  | nil => intro root hwf; exact ⟨root, rfl, hwf⟩
  | cons u us ih =>
    intro root hwf
    obtain ⟨t, _, _, hins, hwf', _⟩ := insertUser_spec root u hwf
    obtain ⟨root', hrun, h1⟩ := ih (some t) hwf'
    exact ⟨root', by simp [runUserOpsFrom, applyUserOp, hins, hrun], h1⟩

theorem Present_some {root : Option BTreeNodeUser} {k : Int} (h : Present root k) :
    root.isSome = true := by
  cases root with
  | none => obtain ⟨u, hu, _⟩ := h; simp [traverseAndPrintUsers] at hu
  | some r => rfl

/-! ### The claims -/

/-- C2 (the code at the failing input): on the one-leaf tree that holds only
user 1, `deleteIndividual(&root, 2)` returns `true` and leaves the tree as it
was, although no record with `user_id = 2` is present. -/
theorem deleteIndividual_absent_returns_true :
    ¬ Present (some (.mk [⟨1, "a"⟩] [] true)) 2 ∧
    deleteIndividual (some (.mk [⟨1, "a"⟩] [] true)) 2 =
      some (some (.mk [⟨1, "a"⟩] [] true), true) := by
  refine ⟨?_, rfl⟩
  rintro ⟨u, hu, hk⟩
  simp [traverseAndPrintUsers] at hu
  subst hu
  simp at hk

/-- C3 (the code at the failing input): inserting the expenses
`(user 1, expense 10)`, `(1, 20)`, `(1, 30)`, `(2, 5)` in this order gives the
traversal `(1,10), (2,5), (1,20), (1,30)`, which is not increasing in
`(user_id, expense_id)`. -/
theorem insertExpense_breaks_order :
    (insertExpenses none [⟨10, 1⟩, ⟨20, 1⟩, ⟨30, 1⟩, ⟨5, 2⟩]).map traverseAndPrintExpenses =
      some [⟨10, 1⟩, ⟨5, 2⟩, ⟨20, 1⟩, ⟨30, 1⟩] ∧
    ¬ ExpenseSorted [⟨10, 1⟩, ⟨5, 2⟩, ⟨20, 1⟩, ⟨30, 1⟩] := by
  refine ⟨by decide, ?_⟩
  unfold ExpenseSorted
  decide

/-- C4 (the code at the failing input): after inserting the expenses
`(user 1, expense 10)`, `(1, 20)`, `(1, 30)`, `(2, 5)` in this order,
`searchExpense(root, 2, 5)` returns `NULL` although `(2, 5)` was inserted. -/
theorem searchExpense_misses_inserted :
    (insertExpenses none [⟨10, 1⟩, ⟨20, 1⟩, ⟨30, 1⟩, ⟨5, 2⟩]).map
      (fun root => searchExpense root 2 5) = some none := by
  decide

/-- C6: on a well-formed, sorted user tree that does not hold the id of `u`,
`insertUser(&root, u)` leaves the in-order sequence of before with `u` put in
at its sorted position: the records in front of it have smaller ids, those
behind it larger ids, and every earlier record is kept. -/
theorem insertUser_traversal (root : Option BTreeNodeUser) (u : UserNode)
    (hwf : WellFormed root) (hsort : StrictSorted (traverseAndPrintUsers root))
    (hnew : ¬ Present root u.user_id) :
    ∃ t A B, insertUser root u = some (some t) ∧
      traverseAndPrintUsers root = A ++ B ∧
      traverseAndPrintUsers (some t) = A ++ u :: B ∧
      (∀ a ∈ A, a.user_id < u.user_id) ∧ (∀ b ∈ B, u.user_id < b.user_id) := by
  obtain ⟨t, A, B, hins, _, hA, hB, h1, h2, _⟩ :=
    insertUser_sorted root u hwf hsort (fun v hv heq => hnew ⟨v, hv, heq⟩)
  exact ⟨t, A, B, hins, hA, hB, h1, h2⟩

/-- Witness for C6: insert 15 into the leaf `[10, 20]`. -/
theorem insertUser_traversal_witness :
    WellFormed (some (.mk [⟨10, "a"⟩, ⟨20, "b"⟩] [] true)) ∧
    StrictSorted (traverseAndPrintUsers (some (.mk [⟨10, "a"⟩, ⟨20, "b"⟩] [] true))) ∧
    ¬ Present (some (.mk [⟨10, "a"⟩, ⟨20, "b"⟩] [] true)) (UserNode.mk 15 "c").user_id ∧
    ∃ t A B, insertUser (some (.mk [⟨10, "a"⟩, ⟨20, "b"⟩] [] true)) ⟨15, "c"⟩ = some (some t) ∧
      traverseAndPrintUsers (some (.mk [⟨10, "a"⟩, ⟨20, "b"⟩] [] true)) = A ++ B ∧
      traverseAndPrintUsers (some t) = A ++ (UserNode.mk 15 "c") :: B ∧
      (∀ a ∈ A, a.user_id < (UserNode.mk 15 "c").user_id) ∧
      (∀ b ∈ B, (UserNode.mk 15 "c").user_id < b.user_id) :=
  have hwf : WellFormed (some (.mk [⟨10, "a"⟩, ⟨20, "b"⟩] [] true)) :=
    ⟨by decide, by decide, 0, by simp [Shape]⟩
  have hsort : StrictSorted
      (traverseAndPrintUsers (some (.mk [⟨10, "a"⟩, ⟨20, "b"⟩] [] true))) := by
    simp [traverseAndPrintUsers, StrictSorted]
  have hnew : ¬ Present (some (.mk [⟨10, "a"⟩, ⟨20, "b"⟩] [] true))
      (UserNode.mk 15 "c").user_id := by
    rintro ⟨v, hv, hk⟩
    simp [traverseAndPrintUsers] at hv
    rcases hv with rfl | rfl <;> simp at hk
  ⟨hwf, hsort, hnew, insertUser_traversal _ ⟨15, "c"⟩ hwf hsort hnew⟩

/-- C9: after any sequence of `insertUser` calls on the empty tree (repeated
ids included), every leaf of the tree is at the same depth from the root. -/
theorem leaves_same_depth_after_inserts (us : List UserNode) :
    ∃ root, runUserOps (us.map UserOp.insert) = some root ∧
      ∀ r, root = some r → ∃ d, ∀ x ∈ leafDepths r, x = d := by
  obtain ⟨root, hrun, hwf⟩ := runUserOpsFrom_inserts us none trivial
  refine ⟨root, hrun, ?_⟩
  rintro r rfl
  obtain ⟨_, _, h, hs⟩ := hwf
  exact ⟨h, leafDepths_of_Shape h r hs⟩

/-! ## The instrumented functions refine the plain ones -/

/-! ### The traced functions compute the same trees -/

theorem fillIndividualChildTraced_fst (node : BTreeNodeUser) (idx : Nat) :
    (fillIndividualChildTraced node idx).map Prod.fst = fillIndividualChild node idx := by
  unfold fillIndividualChildTraced fillIndividualChild
  simp only
  generalize (if idx ≠ 0 then
    (node.children[idx - 1]?).map (fun s => decide (s.num_keys ≥ M / 2)) else some false) = lh
  generalize (if idx ≠ node.num_keys then
    (node.children[idx + 1]?).map (fun s => decide (s.num_keys ≥ M / 2)) else some false) = rh
  rcases lh with _ | _ | _
  · rfl
  · rcases rh with _ | _ | _
    · rfl
    · by_cases h : idx ≠ node.num_keys <;> simp [h, Option.map_map, Function.comp_def]
    · simp [Option.map_map, Function.comp_def]
  · simp [Option.map_map, Function.comp_def]

theorem insertUserNonFullTraced_fst : ∀ (fuel : Nat) (node : BTreeNodeUser) (u : UserNode),
    (insertUserNonFullTraced fuel node u).map Prod.fst = insertUserNonFull fuel node u := by
  intro fuel
  induction fuel with
  | zero => intro node u; rfl
  | succ f ih =>
    intro node u
    rw [insertUserNonFullTraced, insertUserNonFull]
    simp only
    cases hleaf : node.is_leaf
    swap
    · simp
    simp only [Bool.false_eq_true, if_false]
    cases hc : node.children[scanDown node.keys u.user_id node.num_keys]? with
    | none => rfl
    | some child =>
      simp only
      by_cases hfull : child.num_keys = M - 1
      · simp only [hfull, if_true]
        cases hs : splitUserChild node (scanDown node.keys u.user_id node.num_keys) with
        | none => rfl
        | some node1 =>
          simp only
          cases hk : node1.keys[scanDown node.keys u.user_id node.num_keys]? with
          | none => rfl
          | some ki =>
            simp only
            generalize (if u.user_id > ki.user_id then
              scanDown node.keys u.user_id node.num_keys + 1
              else scanDown node.keys u.user_id node.num_keys) = j
            cases hj : node1.children[j]? with
            | none => rfl
            | some c =>
              simp only
              rw [← ih c u]
              cases insertUserNonFullTraced f c u <;> rfl
      · simp only [hfull, if_false]
        rw [← ih child u]
        cases insertUserNonFullTraced f child u <;> rfl

theorem insertUserTraced_fst (root : Option BTreeNodeUser) (u : UserNode) :
    (insertUserTraced root u).map Prod.fst = insertUser root u := by
  cases root with
  | none => rfl
  | some r =>
    rw [insertUserTraced, insertUser]
    by_cases hfull : r.num_keys = M - 1
    · simp only [hfull, if_true]
      cases hs : splitUserChild (.mk [] [r] false) 0 with
      | none => rfl
      | some new_root =>
        simp only
        rw [← insertUserNonFullTraced_fst]
        cases insertUserNonFullTraced (depth new_root + 1) new_root u <;> rfl
    · simp only [hfull, if_false]
      rw [← insertUserNonFullTraced_fst]
      cases insertUserNonFullTraced (depth r + 1) r u <;> rfl

theorem deleteFromIndividualSubtreeTraced_fst : ∀ (fuel : Nat) (node : BTreeNodeUser)
    (k : Int),
    (deleteFromIndividualSubtreeTraced fuel node k).map Prod.fst =
      deleteFromIndividualSubtree fuel node k := by
  intro fuel
  induction fuel with
  | zero => intro node k; rfl
  | succ f ih =>
    intro node k
    rw [deleteFromIndividualSubtreeTraced, deleteFromIndividualSubtree]
    simp only
    generalize find_key_index_individual node k = idx
    by_cases hfound : decide ((node.keys[idx]?).map UserNode.user_id = some k) = true
    · simp only [hfound, if_true]
      cases hleaf : node.is_leaf
      swap
      · simp
      simp only [Bool.false_eq_true, if_false]
      cases hc : node.children[idx]? with
      | none => rfl
      | some left =>
        simp only
        by_cases hl : left.num_keys ≥ M / 2
        · simp only [hl, if_true]
          cases hp : getIndividualPredecessor node idx with
          | none => rfl
          | some pred =>
            simp only
            rw [← ih left pred.user_id]
            cases deleteFromIndividualSubtreeTraced f left pred.user_id <;> rfl
        · simp only [hl, if_false]
          cases hc2 : node.children[idx + 1]? with
          | none => rfl
          | some right =>
            simp only
            by_cases hr : right.num_keys ≥ M / 2
            · simp only [hr, if_true]
              cases hp : getIndividualSuccessor node idx with
              | none => rfl
              | some succ =>
                simp only
                rw [← ih right succ.user_id]
                cases deleteFromIndividualSubtreeTraced f right succ.user_id <;> rfl
            · simp only [hr, if_false]
              cases hm : mergeIndividualNodes node idx with
              | none => rfl
              | some node1 =>
                simp only
                cases hc3 : node1.children[idx]? with
                | none => rfl
                | some c =>
                  simp only
                  rw [← ih c k]
                  cases deleteFromIndividualSubtreeTraced f c k <;> rfl
    · simp only [hfound, if_false]
      cases hleaf : node.is_leaf
      swap
      · simp
      simp only [Bool.false_eq_true, if_false]
      cases hc : node.children[idx]? with
      | none => rfl
      | some child =>
        simp only
        by_cases hlt : child.num_keys < M / 2
        · simp only [hlt, if_true, ← fillIndividualChildTraced_fst]
          cases fillIndividualChildTraced node idx with
          | none => rfl
          | some r =>
            obtain ⟨node1, e⟩ := r
            simp only [Option.map_some']
            generalize (if (decide (idx = node.num_keys) && decide (idx > node1.num_keys)) = true
              then idx - 1 else idx) = j
            cases hj : node1.children[j]? with
            | none => rfl
            | some c =>
              simp only
              rw [← ih c k]
              cases deleteFromIndividualSubtreeTraced f c k <;> rfl
        · simp only [hlt, if_false]
          generalize (if (decide (idx = node.num_keys) && decide (idx > node.num_keys)) = true
            then idx - 1 else idx) = j
          cases hj : node.children[j]? with
          | none => rfl
          | some c =>
            simp only
            rw [← ih c k]
            cases deleteFromIndividualSubtreeTraced f c k <;> rfl

theorem deleteIndividualTraced_fst (root : Option BTreeNodeUser) (k : Int) :
    (deleteIndividualTraced root k).map (fun r => (r.1, r.2.1)) = deleteIndividual root k := by
  cases root with
  | none => rfl
  | some r =>
    rw [deleteIndividualTraced, deleteIndividual, ← deleteFromIndividualSubtreeTraced_fst]
    cases deleteFromIndividualSubtreeTraced (depth r + 1) r k with
    | none => rfl
    | some p =>
      obtain ⟨r1, ev⟩ := p
      simp only [Option.map_some']
      by_cases h0 : r1.num_keys = 0
      · simp only [h0, if_true]
        cases r1.is_leaf <;> rfl
      · simp only [h0, if_false, Option.map_some']

/-! ### The eight inserts of the first scenario, one call at a time -/

theorem scenario_step1 (a : UserNode) :
    insertUserTraced none a = some (some (.mk [a] [] true), []) := rfl

theorem scenario_step2 (n10 n20 : String) :
    insertUserTraced (some (.mk [⟨10, n10⟩] [] true)) ⟨20, n20⟩ =
      some (some (.mk [⟨10, n10⟩, ⟨20, n20⟩] [] true), []) := rfl

theorem scenario_step3 (n10 n20 n5 : String) :
    insertUserTraced (some (.mk [⟨10, n10⟩, ⟨20, n20⟩] [] true)) ⟨5, n5⟩ =
      some (some (.mk [⟨5, n5⟩, ⟨10, n10⟩, ⟨20, n20⟩] [] true), []) := rfl

theorem scenario_step4 (n10 n20 n5 n6 : String) :
    insertUserTraced (some (.mk [⟨5, n5⟩, ⟨10, n10⟩, ⟨20, n20⟩] [] true)) ⟨6, n6⟩ =
      some (some (.mk [⟨10, n10⟩]
        [.mk [⟨5, n5⟩, ⟨6, n6⟩] [] true, .mk [⟨20, n20⟩] [] true] false),
        [TreeEvent.split]) := rfl

theorem scenario_step5 (n10 n20 n5 n6 n12 : String) :
    insertUserTraced (some (.mk [⟨10, n10⟩]
        [.mk [⟨5, n5⟩, ⟨6, n6⟩] [] true, .mk [⟨20, n20⟩] [] true] false)) ⟨12, n12⟩ =
      some (some (.mk [⟨10, n10⟩]
        [.mk [⟨5, n5⟩, ⟨6, n6⟩] [] true, .mk [⟨12, n12⟩, ⟨20, n20⟩] [] true] false),
        []) := rfl

theorem scenario_step6 (n10 n20 n5 n6 n12 n30 : String) :
    insertUserTraced (some (.mk [⟨10, n10⟩]
        [.mk [⟨5, n5⟩, ⟨6, n6⟩] [] true, .mk [⟨12, n12⟩, ⟨20, n20⟩] [] true] false))
        ⟨30, n30⟩ =
      some (some (.mk [⟨10, n10⟩]
        [.mk [⟨5, n5⟩, ⟨6, n6⟩] [] true,
          .mk [⟨12, n12⟩, ⟨20, n20⟩, ⟨30, n30⟩] [] true] false), []) := rfl

theorem scenario_step7 (n10 n20 n5 n6 n12 n30 n7 : String) :
    insertUserTraced (some (.mk [⟨10, n10⟩]
        [.mk [⟨5, n5⟩, ⟨6, n6⟩] [] true,
          .mk [⟨12, n12⟩, ⟨20, n20⟩, ⟨30, n30⟩] [] true] false)) ⟨7, n7⟩ =
      some (some (.mk [⟨10, n10⟩]
        [.mk [⟨5, n5⟩, ⟨6, n6⟩, ⟨7, n7⟩] [] true,
          .mk [⟨12, n12⟩, ⟨20, n20⟩, ⟨30, n30⟩] [] true] false), []) := rfl

theorem scenario_step8 (n10 n20 n5 n6 n12 n30 n7 n17 : String) :
    insertUserTraced (some (.mk [⟨10, n10⟩]
        [.mk [⟨5, n5⟩, ⟨6, n6⟩, ⟨7, n7⟩] [] true,
          .mk [⟨12, n12⟩, ⟨20, n20⟩, ⟨30, n30⟩] [] true] false)) ⟨17, n17⟩ =
      some (some (.mk [⟨10, n10⟩, ⟨20, n20⟩]
        [.mk [⟨5, n5⟩, ⟨6, n6⟩, ⟨7, n7⟩] [] true, .mk [⟨12, n12⟩, ⟨17, n17⟩] [] true,
          .mk [⟨30, n30⟩] [] true] false), [TreeEvent.split]) := rfl

/-- The eight inserts of the first scenario, with the steps they take. -/
theorem scenario_insertUsersTraced (n10 n20 n5 n6 n12 n30 n7 n17 : String) :
    insertUsersTraced none [⟨10, n10⟩, ⟨20, n20⟩, ⟨5, n5⟩, ⟨6, n6⟩, ⟨12, n12⟩, ⟨30, n30⟩,
        ⟨7, n7⟩, ⟨17, n17⟩] =
      some (some (.mk [⟨10, n10⟩, ⟨20, n20⟩]
        [.mk [⟨5, n5⟩, ⟨6, n6⟩, ⟨7, n7⟩] [] true, .mk [⟨12, n12⟩, ⟨17, n17⟩] [] true,
          .mk [⟨30, n30⟩] [] true] false), [TreeEvent.split, TreeEvent.split]) := by
  simp only [insertUsersTraced, scenario_step1, scenario_step2, scenario_step3,
    scenario_step4, scenario_step5, scenario_step6, scenario_step7, scenario_step8,
    List.append_nil, List.nil_append, List.singleton_append]

theorem insertUser_of_traced {root : Option BTreeNodeUser} {u : UserNode}
    {root1 : Option BTreeNodeUser} {ev : List TreeEvent}
    (h : insertUserTraced root u = some (root1, ev)) : insertUser root u = some root1 := by
  rw [← insertUserTraced_fst, h]
  rfl

/-- The eight inserts of the first scenario on the root handle. -/
theorem scenario_runUserOps (n10 n20 n5 n6 n12 n30 n7 n17 : String) :
    runUserOps [UserOp.insert ⟨10, n10⟩, UserOp.insert ⟨20, n20⟩, UserOp.insert ⟨5, n5⟩,
        UserOp.insert ⟨6, n6⟩, UserOp.insert ⟨12, n12⟩, UserOp.insert ⟨30, n30⟩,
        UserOp.insert ⟨7, n7⟩, UserOp.insert ⟨17, n17⟩] =
      some (some (.mk [⟨10, n10⟩, ⟨20, n20⟩]
        [.mk [⟨5, n5⟩, ⟨6, n6⟩, ⟨7, n7⟩] [] true, .mk [⟨12, n12⟩, ⟨17, n17⟩] [] true,
          .mk [⟨30, n30⟩] [] true] false)) := by
  simp only [runUserOps, runUserOpsFrom, applyUserOp,
    insertUser_of_traced (scenario_step1 _), insertUser_of_traced (scenario_step2 _ _),
    insertUser_of_traced (scenario_step3 _ _ _), insertUser_of_traced (scenario_step4 _ _ _ _),
    insertUser_of_traced (scenario_step5 _ _ _ _ _),
    insertUser_of_traced (scenario_step6 _ _ _ _ _ _),
    insertUser_of_traced (scenario_step7 _ _ _ _ _ _ _),
    insertUser_of_traced (scenario_step8 _ _ _ _ _ _ _ _)]

/-! ### Deleting along a path that needs no fill -/

/-! ### Deletion along a search path that needs no fill -/

theorem scanUp_le (ks : List UserNode) (k : Int) : scanUp ks k ≤ ks.length := by
  induction ks with
  | nil => simp [scanUp]
  | cons x xs ih =>
    rw [scanUp]
    split
    · simp; omega
    · simp

theorem sparePathAt_eq (cs : List BTreeNodeUser) (i : Nat) (k : Int) :
    sparePathAt cs i k = true ↔
      ∃ c, cs[i]? = some c ∧ 2 ≤ c.num_keys ∧ sparePath c k = true := by
  induction cs generalizing i with
  | nil => simp [sparePathAt]
  | cons c cs ih =>
    cases i with
    | zero => simp [sparePathAt]
    | succ i => simp [sparePathAt, ih]

theorem foundInLeafAt_eq (cs : List BTreeNodeUser) (i : Nat) (k : Int) :
    foundInLeafAt cs i k = (cs[i]?).bind (fun c => foundInLeaf c k) := by
  induction cs generalizing i with
  | nil => simp [foundInLeafAt]
  | cons c cs ih =>
    cases i with
    | zero => simp [foundInLeafAt]
    | succ i => simp [foundInLeafAt, ih]

theorem eraseOnPathAt_eq (cs : List BTreeNodeUser) (i : Nat) (k : Int) (c : BTreeNodeUser)
    (h : cs[i]? = some c) : eraseOnPathAt cs i k = cs.set i (eraseOnPath c k) := by
  induction cs generalizing i with
  | nil => simp at h
  | cons c0 cs ih =>
    cases i with
    | zero =>
      simp at h
      subst h
      simp [eraseOnPathAt]
    | succ i =>
      simp at h
      simp [eraseOnPathAt, ih i h]

theorem eraseOnPathAt_none (cs : List BTreeNodeUser) (i : Nat) (k : Int)
    (h : cs[i]? = none) : eraseOnPathAt cs i k = cs := by
  induction cs generalizing i with
  | nil => simp [eraseOnPathAt]
  | cons c0 cs ih =>
    cases i with
    | zero => simp at h
    | succ i =>
      simp at h
      simp [eraseOnPathAt, ih i (by simpa using h)]

theorem depth_le_depthList (cs : List BTreeNodeUser) (c : BTreeNodeUser) (h : c ∈ cs) :
    depth c ≤ depthList cs := by
  induction cs with
  | nil => simp at h
  | cons c0 cs ih =>
    rw [depthList]
    rcases List.mem_cons.1 h with rfl | h
    · exact Nat.le_max_left _ _
    · exact Nat.le_trans (ih h) (Nat.le_max_right _ _)

theorem depth_child_lt (ks : List UserNode) (cs : List BTreeNodeUser) (l : Bool) (i : Nat)
    (c : BTreeNodeUser) (h : cs[i]? = some c) : depth c < depth (.mk ks cs l) := by
  rw [depth]
  have := depth_le_depthList cs c (List.getElem?_mem h)
  omega

theorem depth_pos (node : BTreeNodeUser) : 1 ≤ depth node := by
  obtain ⟨ks, cs, l⟩ := node
  rw [depth]
  omega

/-- Along a search path that needs no fill, `deleteFromIndividualSubtree`
only runs `removeFromLeafIndividual` on the leaf at the end of the path, when
the key is found there. -/
theorem deleteTraced_sparePath : ∀ (fuel : Nat) (node : BTreeNodeUser) (k : Int),
    depth node ≤ fuel → sparePath node k = true →
    deleteFromIndividualSubtreeTraced fuel node k =
      some (eraseOnPath node k, (foundInLeaf node k).toList.map TreeEvent.removeFromLeaf) := by
  intro fuel
  induction fuel with
  | zero =>
    intro node k hd _
    have := depth_pos node
    omega
  | succ f ih =>
    intro node k hd hp
    obtain ⟨ks, cs, l⟩ := node
    rw [deleteFromIndividualSubtreeTraced, eraseOnPath, foundInLeaf]
    simp only [find_key_index_individual, keys_mk, is_leaf_mk, children_mk, num_keys_mk]
    cases l with
    | true =>
      by_cases hfound : foundAtScan ks k = true
      · have hf2 := hfound
        rw [foundAtScan] at hf2
        simp only [hf2, hfound, if_true, removeFromLeafIndividual, keys_mk, children_mk,
          is_leaf_mk]
      · have hf2 := hfound
        rw [foundAtScan] at hf2
        simp only [hf2, hfound, if_false, if_true, Bool.false_eq_true, Option.toList,
          List.map_nil]
    | false =>
      rw [sparePath] at hp
      simp only [Bool.false_or, Bool.and_eq_true, Bool.not_eq_true'] at hp
      obtain ⟨hnf, hpa⟩ := hp
      obtain ⟨c, hc, hc2, hpc⟩ := (sparePathAt_eq cs (scanUp ks k) k).1 hpa
      have hf2 := hnf
      rw [foundAtScan] at hf2
      have hlt : ¬ c.num_keys < M / 2 := by simp; omega
      have hj : ¬ (scanUp ks k > ks.length) := by
        have := scanUp_le ks k
        omega
      have hdc : depth c ≤ f := by
        have := depth_child_lt ks cs false _ c hc
        omega
      simp only [hf2, Bool.false_eq_true, if_false, hc, hlt]
      simp only [num_keys_mk, children_mk, keys_mk, is_leaf_mk, hj, decide_False,
        Bool.and_false, Bool.false_eq_true, if_false, hc,
        ih c k hdc hpc, foundInLeafAt_eq, Option.some_bind, List.nil_append,
        eraseOnPathAt_eq cs _ k c hc]

theorem set_self_of_getElem? {α : Type} {l : List α} {i : Nat} {a : α}
    (h : l[i]? = some a) : l.set i a = l := by
  induction l generalizing i with
  | nil => simp
  | cons x xs ih =>
    cases i with
    | zero =>
      simp at h
      subst h
      simp
    | succ i =>
      simp at h
      simp [ih h]

theorem mem_traverseFrom_key (cs : List BTreeNodeUser) (ks : List UserNode) (a : UserNode)
    (h : a ∈ ks) : a ∈ traverseFrom cs ks := by
  induction cs generalizing ks with
  | nil => simpa using h
  | cons c cs ih =>
    cases ks with
    | nil => simp at h
    | cons x xs =>
      simp only [traverseFrom_cons_cons, List.mem_append, List.mem_cons]
      rcases List.mem_cons.1 h with rfl | h
      · exact Or.inr (Or.inl rfl)
      · exact Or.inr (Or.inr (ih xs h))

theorem mem_traverseFrom_child (cs : List BTreeNodeUser) (ks : List UserNode) (i : Nat)
    (c : BTreeNodeUser) (hc : cs[i]? = some c) (hi : i ≤ ks.length) :
    ∀ u ∈ traverseUsers c, u ∈ traverseFrom cs ks := by
  induction cs generalizing ks i with
  | nil => simp at hc
  | cons c0 cs ih =>
    intro u hu
    cases i with
    | zero =>
      simp at hc
      subst hc
      rw [traverseFrom_cons]
      exact List.mem_append_left _ hu
    | succ i =>
      simp at hc
      cases ks with
      | nil => simp at hi
      | cons x xs =>
        simp only [traverseFrom_cons_cons, List.mem_append, List.mem_cons]
        exact Or.inr (Or.inr (ih xs i hc (by simpa using hi) u hu))

theorem foundAtScan_mem (ks : List UserNode) (k : Int) (h : foundAtScan ks k = true) :
    ∃ u, ks[scanUp ks k]? = some u ∧ u ∈ ks ∧ u.user_id = k := by
  rw [foundAtScan] at h
  simp only [decide_eq_true_eq, Option.map_eq_some'] at h
  obtain ⟨u, hu, hk⟩ := h
  exact ⟨u, hu, List.getElem?_mem hu, hk⟩

/-- The record found in the leaf at the end of the search path carries the
id and is in the traversal. -/
theorem foundInLeaf_spec : ∀ (n : Nat) (node : BTreeNodeUser) (k : Int) (u : UserNode),
    depth node ≤ n → foundInLeaf node k = some u →
    u.user_id = k ∧ u ∈ traverseUsers node := by
  intro n
  induction n with
  | zero =>
    intro node k u hd _
    have := depth_pos node
    omega
  | succ n ih =>
    intro node k u hd hf
    obtain ⟨ks, cs, l⟩ := node
    rw [foundInLeaf] at hf
    cases l with
    | true =>
      simp only [if_true] at hf
      by_cases hfound : foundAtScan ks k = true
      · simp only [hfound, if_true] at hf
        obtain ⟨v, hv, hmem, hk⟩ := foundAtScan_mem ks k hfound
        rw [hv] at hf
        have huv : v = u := Option.some.inj hf
        rw [← huv]
        exact ⟨hk, mem_traverseFrom_key cs ks v hmem⟩
      · simp [hfound] at hf
    | false =>
      simp only [Bool.false_eq_true, if_false, foundInLeafAt_eq] at hf
      cases hc : cs[scanUp ks k]? with
      | none => simp [hc] at hf
      | some c =>
        simp only [hc, Option.some_bind] at hf
        have hdc : depth c ≤ n := by
          have := depth_child_lt ks cs false _ c hc
          omega
        obtain ⟨h1, h2⟩ := ih c k u hdc hf
        exact ⟨h1, mem_traverseFrom_child cs ks _ c hc (scanUp_le ks k) u h2⟩

/-- When no record carries the id, nothing is erased on the search path. -/
theorem eraseOnPath_absent : ∀ (n : Nat) (node : BTreeNodeUser) (k : Int),
    depth node ≤ n → (∀ u ∈ traverseUsers node, u.user_id ≠ k) →
    eraseOnPath node k = node := by
  intro n
  induction n with
  | zero =>
    intro node k hd _
    have := depth_pos node
    omega
  | succ n ih =>
    intro node k hd habs
    obtain ⟨ks, cs, l⟩ := node
    rw [eraseOnPath]
    cases l with
    | true =>
      by_cases hfound : foundAtScan ks k = true
      · obtain ⟨v, _, hmem, hk⟩ := foundAtScan_mem ks k hfound
        exact absurd hk (habs v (mem_traverseFrom_key cs ks v hmem))
      · simp [hfound]
    | false =>
      simp only [Bool.false_eq_true, if_false]
      cases hc : cs[scanUp ks k]? with
      | none => rw [eraseOnPathAt_none cs _ k hc]
      | some c =>
        have hdc : depth c ≤ n := by
          have := depth_child_lt ks cs false _ c hc
          omega
        rw [eraseOnPathAt_eq cs _ k c hc,
          ih c k hdc (fun u hu =>
            habs u (mem_traverseFrom_child cs ks _ c hc (scanUp_le ks k) u hu))]
        congr 1
        exact set_self_of_getElem? hc

theorem eraseOnPath_num_keys (node : BTreeNodeUser) (k : Int) (h1 : 1 ≤ node.num_keys)
    (h2 : node.is_leaf = true → 2 ≤ node.num_keys) : (eraseOnPath node k).num_keys ≠ 0 := by
  obtain ⟨ks, cs, l⟩ := node
  simp only [num_keys_mk, is_leaf_mk] at h1 h2
  rw [eraseOnPath]
  cases l with
  | true =>
    have := h2 rfl
    by_cases hfound : foundAtScan ks k = true
    · obtain ⟨v, hv, _, _⟩ := foundAtScan_mem ks k hfound
      have hlt : scanUp ks k < ks.length := by
        rcases List.getElem?_eq_some_iff.1 hv with ⟨hlt, _⟩
        exact hlt
      simp only [hfound, if_true, num_keys_mk, List.length_eraseIdx, hlt]
      omega
    · simp only [hfound, if_true, Bool.false_eq_true, if_false, num_keys_mk]
      omega
  | false =>
    simp only [Bool.false_eq_true, if_false, num_keys_mk]
    omega

/-! ### The merge step of case A -/

/-- The node that `mergeIndividualNodes` builds from two one-key children. -/
theorem mergeIndividualNodes_eq (ks₁ ks₂ : List UserNode) (cs₁ cs₂ : List BTreeNodeUser)
    (c s : BTreeNodeUser) (pk : UserNode) (pl : Bool) (hl : cs₁.length = ks₁.length)
    (hc1 : c.num_keys = 1) :
    mergeIndividualNodes (.mk (ks₁ ++ pk :: ks₂) (cs₁ ++ c :: s :: cs₂) pl) ks₁.length =
      some (.mk (ks₁ ++ ks₂)
        (cs₁ ++ .mk (c.keys ++ pk :: s.keys)
          (if c.is_leaf then c.children else c.children.take 2 ++ s.children) c.is_leaf ::
          cs₂) pl) := by
  have ht : c.keys.take 1 = c.keys := List.take_of_length_le (by rw [num_keys] at hc1; omega)
  simp [mergeIndividualNodes, getElem?_app_len hl, getElem?_app_len_succ hl,
    eraseIdx_app_len hl, set_app_len hl, eraseIdx_app_len_succ hl,
    getElem?_app_len rfl, eraseIdx_app_len rfl, ht]

theorem liveFrom_inserts (us : List UserNode) (ops : List UserOp) (l : List UserNode) :
    liveFrom l (us.map UserOp.insert ++ ops) = liveFrom (l ++ us) ops := by
  induction us generalizing l with
  | nil => simp
  | cons u us ih => simp [liveFrom, ih]

theorem mem_liveFrom_deletes (ds : List Int) (l : List UserNode) (u : UserNode) :
    u ∈ liveFrom l (ds.map UserOp.delete) ↔ (u ∈ l ∧ u.user_id ∉ ds) := by
  induction ds generalizing l with
  | nil => simp [liveFrom]
  | cons d ds ih =>
    simp only [List.map_cons, liveFrom, ih, mem_removeId, List.mem_cons, not_or]
    tauto

theorem insertedIds_inserts_deletes (us : List UserNode) (ds : List Int) :
    insertedIds (us.map UserOp.insert ++ ds.map UserOp.delete) = us.map UserNode.user_id := by
  induction us with
  | nil =>
    induction ds with
    | nil => rfl
    | cons d ds ih => simpa [insertedIds] using ih
  | cons u us ih => simp [insertedIds, ih]

/-- After inserting the records `us` with pairwise distinct ids and deleting
the ids `ds`, the tree holds the records of `us` whose id is not in `ds`. -/
theorem run_inserts_deletes (us : List UserNode) (ds : List Int)
    (hd : (us.map UserNode.user_id).Nodup) :
    ∃ root, runUserOps (us.map UserOp.insert ++ ds.map UserOp.delete) = some root ∧
      WellFormed root ∧
      (∀ u, u ∈ traverseAndPrintUsers root ↔ (u ∈ us ∧ u.user_id ∉ ds)) := by
  obtain ⟨root, hrun, hwf, _, hmem⟩ :=
    runUserOps_inv (us.map UserOp.insert ++ ds.map UserOp.delete)
      (FreshInserts_of_nodup _ (by rw [insertedIds_inserts_deletes]; exact hd))
  refine ⟨root, hrun, hwf, fun u => ?_⟩
  rw [hmem u, liveAfter, liveFrom_inserts, mem_liveFrom_deletes]
  simp

theorem root_none_of_traversal_nil (root : Option BTreeNodeUser) (hwf : WellFormed root)
    (h : traverseAndPrintUsers root = []) : root = none := by
  cases root with
  | none => rfl
  | some r =>
    obtain ⟨h1, _, hh, hs⟩ := hwf
    exact absurd h (traverseUsers_ne_nil hh r hs h1)

theorem not_mem_take_of_nodup {l : List Int} (hn : l.Nodup) :
    ∀ (j : Nat) (k : Int), l[j]? = some k → k ∉ l.take j := by
  induction l with
  | nil => intro j k h; simp at h
  | cons a l ih =>
    intro j k h
    cases j with
    | zero => simp
    | succ j =>
      have h1 := List.nodup_cons.1 hn
      simp only [List.getElem?_cons_succ] at h
      have hk : k ∈ l := List.getElem?_mem h
      simp only [List.take_succ_cons, List.mem_cons, not_or]
      refine ⟨?_, ih h1.2 j k h⟩
      rintro rfl
      exact h1.1 hk

theorem scenarioTree_wellFormed : WellFormed (some scenarioTree) :=
  ⟨by decide, by decide, 1, by simp [scenarioTree, Shape]⟩

theorem scenarioTree_sorted : StrictSorted (traverseUsers scenarioTree) := by
  simp [scenarioTree, StrictSorted]

/-- C11 (counterexample): the id 99 is not in the well-formed tree
`[10, 20]` over `[5, 6, 7]`, `[12, 17]`, `[30]`, and `deleteIndividual(&root, 99)`
moves key 20 down into the last leaf and key 17 up into the root: the tree it
leaves is `[10, 17]` over `[5, 6, 7]`, `[12]`, `[20, 30]`, not the tree it
started from. -/
theorem deleteIndividual_absent_borrows :
    WellFormed (some scenarioTree) ∧ ¬ Present (some scenarioTree) 99 ∧
    deleteIndividual (some scenarioTree) 99 =
      some (some (.mk [⟨10, ""⟩, ⟨17, ""⟩]
        [.mk [⟨5, ""⟩, ⟨6, ""⟩, ⟨7, ""⟩] [] true, .mk [⟨12, ""⟩] [] true,
          .mk [⟨20, ""⟩, ⟨30, ""⟩] [] true] false), true) ∧
    ∀ root' b, deleteIndividual (some scenarioTree) 99 = some (root', b) →
      root' ≠ some scenarioTree := by
  have he : deleteIndividual (some scenarioTree) 99 =
      some (some (.mk [⟨10, ""⟩, ⟨17, ""⟩]
        [.mk [⟨5, ""⟩, ⟨6, ""⟩, ⟨7, ""⟩] [] true, .mk [⟨12, ""⟩] [] true,
          .mk [⟨20, ""⟩, ⟨30, ""⟩] [] true] false), true) := rfl
  refine ⟨scenarioTree_wellFormed, ?_, he, ?_⟩
  · rintro ⟨u, hu, hk⟩
    simp [traverseAndPrintUsers, scenarioTree] at hu
    rcases hu with rfl | rfl | rfl | rfl | rfl | rfl | rfl | rfl <;> simp at hk
  · intro root' b h hr
    rw [he] at h
    simp only [Option.some.injEq, Prod.mk.injEq] at h
    rw [← h.1] at hr
    have hk := congrArg (fun o => o.map BTreeNodeUser.keys) hr
    simp [scenarioTree] at hk

/-- C11 (amended): for a well-formed user tree with strictly increasing
traversal and an id `k` that is not in it, `deleteIndividual(&root, k)` keeps
the tree well-formed and keeps its in-order traversal; and when no step of the
search path of `k` needs a fill (every child the path enters holds at least two
keys) the tree itself is left as it was. -/
theorem deleteIndividual_absent_frame (r : BTreeNodeUser) (k : Int)
    (hwf : WellFormed (some r)) (hsort : StrictSorted (traverseUsers r))
    (habs : ∀ u ∈ traverseUsers r, u.user_id ≠ k) :
    (∃ root', deleteIndividual (some r) k = some (root', true) ∧ WellFormed root' ∧
      traverseAndPrintUsers root' = traverseUsers r) ∧
    (sparePath r k = true → deleteIndividual (some r) k = some (some r, true)) := by
  constructor
  · obtain ⟨root', hdel, hwf', htr⟩ := deleteIndividual_spec (some r) k hwf hsort
    refine ⟨root', hdel, hwf', ?_⟩
    rw [htr]
    exact removeId_of_all_ne habs
  · intro hp
    have ht := deleteTraced_sparePath (depth r + 1) r k (by omega) hp
    have hpure : deleteFromIndividualSubtree (depth r + 1) r k = some r := by
      rw [← deleteFromIndividualSubtreeTraced_fst, ht]
      simp [eraseOnPath_absent (depth r) r k le_rfl habs]
    have h0 : ¬ r.num_keys = 0 := by have := hwf.1; omega
    simp only [deleteIndividual, hpure, h0, if_false]

/-- Witness for C11 (amended): the id 15 is not in the tree `[10, 20]` over
`[5, 6, 7]`, `[12, 17]`, `[30]`, and its search path enters the leaf `[12, 17]`. -/
theorem deleteIndividual_absent_frame_witness :
    WellFormed (some scenarioTree) ∧ StrictSorted (traverseUsers scenarioTree) ∧
    (∀ u ∈ traverseUsers scenarioTree, u.user_id ≠ 15) ∧
    (∃ root', deleteIndividual (some scenarioTree) 15 = some (root', true) ∧
      WellFormed root' ∧ traverseAndPrintUsers root' = traverseUsers scenarioTree) ∧
    (sparePath scenarioTree 15 = true →
      deleteIndividual (some scenarioTree) 15 = some (some scenarioTree, true)) :=
  have habs : ∀ u ∈ traverseUsers scenarioTree, u.user_id ≠ 15 := by decide
  ⟨scenarioTree_wellFormed, scenarioTree_sorted, habs,
    deleteIndividual_absent_frame scenarioTree 15 scenarioTree_wellFormed scenarioTree_sorted
      habs⟩

/-- C12 (the code at the failing input): on the tree `[10, 20]` over
`[5, 6, 7]`, `[12, 17]`, `[30]`, `deleteIndividual(&root, 10)` returns `true`, the
one record it releases is the record of user 7, and the tree it leaves still
holds that record (in the root slot where user 10 was); the record of user 10,
which left the tree, is not released. -/
theorem deleteIndividual_releases_predecessor :
    (deleteIndividualTraced (some scenarioTree) 10).map
        (fun r => (r.2.1, releasedRecords r.2.2, traverseAndPrintUsers r.1,
          (r.1.map BTreeNodeUser.keys))) =
      some (true, [⟨7, ""⟩],
        [⟨5, ""⟩, ⟨6, ""⟩, ⟨7, ""⟩, ⟨12, ""⟩, ⟨17, ""⟩, ⟨20, ""⟩, ⟨30, ""⟩],
        some [⟨7, ""⟩, ⟨20, ""⟩]) := by
  decide

/-- C13 (the code at the failing input): users 10 and 7 are the only members
of families 1 and 2; on the tree `[10, 20]` over `[5, 6, 7]`, `[12, 17]`, `[30]`,
`deleteIndividual(&root, 10)` returns `true`, leaves user 10 in the member
list of family 1 and takes user 7, who stays in the tree, out of the member
list of family 2. -/
theorem deleteIndividual_detaches_predecessor :
    (deleteIndividualHeap (some scenarioTree) 10
        ⟨[⟨1, [⟨10, ""⟩]⟩, ⟨2, [⟨7, ""⟩]⟩], [(10, 1), (7, 2)], []⟩).map
        (fun r => (r.2.1, r.2.2.families, traverseAndPrintUsers r.1)) =
      some (true, [⟨1, [⟨10, ""⟩]⟩, ⟨2, []⟩],
        [⟨5, ""⟩, ⟨6, ""⟩, ⟨7, ""⟩, ⟨12, ""⟩, ⟨17, ""⟩, ⟨20, ""⟩, ⟨30, ""⟩]) := by
  decide

/-- C14: inserting users with ids 10, 20, 5, 6, 12, 30, 7, 17 in this order
with `insertUser` into the empty tree succeeds and gives a tree whose in-order
traversal is 5, 6, 7, 10, 12, 17, 20, 30 (whatever the other fields of the
records are). -/
theorem scenario_traversal (n10 n20 n5 n6 n12 n30 n7 n17 : String) :
    (runUserOps [UserOp.insert ⟨10, n10⟩, UserOp.insert ⟨20, n20⟩, UserOp.insert ⟨5, n5⟩,
        UserOp.insert ⟨6, n6⟩, UserOp.insert ⟨12, n12⟩, UserOp.insert ⟨30, n30⟩,
        UserOp.insert ⟨7, n7⟩, UserOp.insert ⟨17, n17⟩]).map traverseAndPrintUsers =
      some [⟨5, n5⟩, ⟨6, n6⟩, ⟨7, n7⟩, ⟨10, n10⟩, ⟨12, n12⟩, ⟨17, n17⟩, ⟨20, n20⟩,
        ⟨30, n30⟩] := by
  rw [scenario_runUserOps]
  rfl

/-- C15 (counterexample): after the inserts of ids 10, 20, 5, 6, 12, 30, 7, 17
the root does not hold exactly one key. -/
theorem scenario_root_not_one_key :
    ¬ ∃ r ev, insertUsersTraced none [⟨10, ""⟩, ⟨20, ""⟩, ⟨5, ""⟩, ⟨6, ""⟩, ⟨12, ""⟩,
        ⟨30, ""⟩, ⟨7, ""⟩, ⟨17, ""⟩] = some (some r, ev) ∧
      ev.count TreeEvent.split = 2 ∧ r.num_keys = 1 := by
  rintro ⟨r, ev, h, _, h1⟩
  rw [scenario_insertUsersTraced] at h
  simp only [Option.some.injEq, Prod.mk.injEq] at h
  rw [← h.1] at h1
  simp at h1

/-- C15 (amended): after the inserts of ids 10, 20, 5, 6, 12, 30, 7, 17 into
the empty tree exactly two splits have been performed and the root holds
exactly two keys, 10 and 20. -/
theorem scenario_two_splits (n10 n20 n5 n6 n12 n30 n7 n17 : String) :
    ∃ r ev, insertUsersTraced none [⟨10, n10⟩, ⟨20, n20⟩, ⟨5, n5⟩, ⟨6, n6⟩, ⟨12, n12⟩,
        ⟨30, n30⟩, ⟨7, n7⟩, ⟨17, n17⟩] = some (some r, ev) ∧
      ev.count TreeEvent.split = 2 ∧ r.num_keys = 2 ∧ r.keys = [⟨10, n10⟩, ⟨20, n20⟩] := by
  refine ⟨_, _, scenario_insertUsersTraced n10 n20 n5 n6 n12 n30 n7 n17, ?_, rfl, rfl⟩
  decide

/-- C16: for every list of records with pairwise distinct ids, inserting them
all with `insertUser` into the empty tree and then calling `deleteIndividual`
on each id in ascending order ends with the root handle `NULL`, and each of
the delete calls acts on a tree that still holds its key. -/
theorem delete_all_ascending (us : List UserNode) (hd : (us.map UserNode.user_id).Nodup) :
    runUserOps (us.map UserOp.insert ++
        ((us.map UserNode.user_id).insertionSort (· ≤ ·)).map UserOp.delete) = some none ∧
    ∀ (j : Nat) (k : Int), ((us.map UserNode.user_id).insertionSort (· ≤ ·))[j]? = some k →
      ∃ root, runUserOps (us.map UserOp.insert ++
          (((us.map UserNode.user_id).insertionSort (· ≤ ·)).take j).map UserOp.delete) =
          some root ∧ Present root k := by
  have hperm := List.perm_insertionSort (· ≤ ·) (us.map UserNode.user_id)
  constructor
  · obtain ⟨root, hrun, hwf, hmem⟩ := run_inserts_deletes us _ hd
    have hnil : traverseAndPrintUsers root = [] := by
      refine List.eq_nil_iff_forall_not_mem.2 (fun u hu => ?_)
      have h := (hmem u).1 hu
      exact h.2 (hperm.mem_iff.2 (List.mem_map_of_mem _ h.1))
    rw [hrun, root_none_of_traversal_nil root hwf hnil]
  · intro j k hj
    obtain ⟨root, hrun, _, hmem⟩ := run_inserts_deletes us
      (((us.map UserNode.user_id).insertionSort (· ≤ ·)).take j) hd
    refine ⟨root, hrun, ?_⟩
    have hk : k ∈ us.map UserNode.user_id := hperm.mem_iff.1 (List.getElem?_mem hj)
    obtain ⟨u, hu, huk⟩ := List.mem_map.1 hk
    refine ⟨u, (hmem u).2 ⟨hu, ?_⟩, huk⟩
    rw [huk]
    exact not_mem_take_of_nodup (hperm.nodup_iff.2 hd) j k hj

/-- Witness for C16: the ids 20, 10, 30. -/
theorem delete_all_ascending_witness :
    ([UserNode.mk 20 "b", ⟨10, "a"⟩, ⟨30, "c"⟩].map UserNode.user_id).Nodup ∧
    runUserOps ([UserNode.mk 20 "b", ⟨10, "a"⟩, ⟨30, "c"⟩].map UserOp.insert ++
        (([UserNode.mk 20 "b", ⟨10, "a"⟩, ⟨30, "c"⟩].map UserNode.user_id).insertionSort
          (· ≤ ·)).map UserOp.delete) = some none ∧
    ∀ (j : Nat) (k : Int),
      (([UserNode.mk 20 "b", ⟨10, "a"⟩, ⟨30, "c"⟩].map UserNode.user_id).insertionSort
        (· ≤ ·))[j]? = some k →
      ∃ root, runUserOps ([UserNode.mk 20 "b", ⟨10, "a"⟩, ⟨30, "c"⟩].map UserOp.insert ++
          ((([UserNode.mk 20 "b", ⟨10, "a"⟩, ⟨30, "c"⟩].map UserNode.user_id).insertionSort
            (· ≤ ·)).take j).map UserOp.delete) = some root ∧ Present root k :=
  ⟨by decide, delete_all_ascending _ (by decide)⟩

/-- C17: inserting the expenses (user 3, expense 5) and then (user 2,
expense 9) with `insertExpense` into the empty expense tree gives the in-order
traversal (2, 9), (3, 5); and for any two expenses `a` then `b` the leaf insert
puts `b` before `a` exactly when `a` is greater in the order by `user_id`
first and `expense_id` second. -/
theorem insertExpense_two_ordered :
    (insertExpenses none [⟨5, 3⟩, ⟨9, 2⟩]).map traverseAndPrintExpenses =
      some [⟨9, 2⟩, ⟨5, 3⟩] ∧
    ∀ a b : ExpenseNode, (insertExpenses none [a, b]).map traverseAndPrintExpenses =
      some (if a.user_id > b.user_id ∨ (a.user_id = b.user_id ∧ a.expense_id > b.expense_id)
        then [b, a] else [a, b]) := by
  refine ⟨by decide, fun a b => ?_⟩
  by_cases h : a.user_id > b.user_id ∨ (a.user_id = b.user_id ∧ a.expense_id > b.expense_id)
  · have hg : expenseGt a b = true := by simpa [expenseGt] using h
    simp [insertExpenses, insertExpense, insertExpenseNonFull, scanDownExpense, hg, h,
      BTreeNodeExpense.num_keys, BTreeNodeExpense.keys, BTreeNodeExpense.is_leaf,
      BTreeNodeExpense.children, traverseAndPrintExpenses, traverseExpenses,
      traverseExpensesFrom, M]
  · have hg : expenseGt a b = false := by
      rw [← Bool.not_eq_true]
      simpa [expenseGt] using h
    simp [insertExpenses, insertExpense, insertExpenseNonFull, scanDownExpense, hg, h,
      BTreeNodeExpense.num_keys, BTreeNodeExpense.keys, BTreeNodeExpense.is_leaf,
      BTreeNodeExpense.children, traverseAndPrintExpenses, traverseExpenses,
      traverseExpensesFrom, M]

/-- C18: when the search path of `k` ends in a leaf that holds the record `u`
with id `k`, every child the path enters holds at least two keys and the root
holds at least two keys if it is itself the leaf, `deleteIndividual(&root, k)`
returns `true`, takes the one step `removeFromLeafIndividual` on `u` (no
borrow, no merge), and leaves the tree in which that leaf has lost `u` with
its later keys moved one slot left and every other node, the root included,
is as it was. -/
theorem deleteIndividual_spare_leaf (r : BTreeNodeUser) (k : Int) (u : UserNode)
    (h1 : 1 ≤ r.num_keys) (h2 : r.is_leaf = true → 2 ≤ r.num_keys)
    (hp : sparePath r k = true) (hu : foundInLeaf r k = some u) :
    deleteIndividualTraced (some r) k =
      some (some (eraseOnPath r k), true, [TreeEvent.removeFromLeaf u]) ∧
    u.user_id = k ∧ u ∈ traverseUsers r := by
  refine ⟨?_, foundInLeaf_spec (depth r) r k u le_rfl hu⟩
  have ht := deleteTraced_sparePath (depth r + 1) r k (by omega) hp
  have h0 := eraseOnPath_num_keys r k h1 h2
  simp [deleteIndividualTraced, ht, hu, h0]

/-- Witness for C18: deleting id 6 from the tree built by the inserts of 10,
20, 5, 6, 12, 30, 7, 17 leaves `[10, 20]` over `[5, 7]`, `[12, 17]`, `[30]`. -/
theorem deleteIndividual_spare_leaf_witness :
    1 ≤ scenarioTree.num_keys ∧ (scenarioTree.is_leaf = true → 2 ≤ scenarioTree.num_keys) ∧
    sparePath scenarioTree 6 = true ∧ foundInLeaf scenarioTree 6 = some ⟨6, ""⟩ ∧
    eraseOnPath scenarioTree 6 =
      .mk [⟨10, ""⟩, ⟨20, ""⟩]
        [.mk [⟨5, ""⟩, ⟨7, ""⟩] [] true, .mk [⟨12, ""⟩, ⟨17, ""⟩] [] true,
          .mk [⟨30, ""⟩] [] true] false ∧
    (deleteIndividualTraced (some scenarioTree) 6 =
        some (some (eraseOnPath scenarioTree 6), true, [TreeEvent.removeFromLeaf ⟨6, ""⟩]) ∧
      (UserNode.mk 6 "").user_id = 6 ∧ ⟨6, ""⟩ ∈ traverseUsers scenarioTree) :=
  ⟨by decide, by decide, by decide, by decide, rfl,
    deleteIndividual_spare_leaf scenarioTree 6 ⟨6, ""⟩ (by decide) (by decide) (by decide)
      (by decide)⟩

/-- C20: for a parent with fewer than 3 keys whose child at index `idx` holds
the three keys `[a, b, c]`, `splitUserChild(parent, idx)` leaves the child with
the single key `a`, puts a new node with the single key `c` at child index
`idx + 1`, puts `b` into the parent at key index `idx`, keeps the other keys
and children of the parent in their order, makes the key count of the parent
one larger (at most 3), and for an internal child with the four children
`g0, g1, g2, g3` leaves `g0, g1` under the child and gives `g2, g3` to the new
node. -/
theorem splitUserChild_full_child (ks₁ ks₂ : List UserNode) (cs₁ cs₂ : List BTreeNodeUser)
    (a b c : UserNode) (g0 g1 g2 g3 : BTreeNodeUser) (pl : Bool)
    (hl : cs₁.length = ks₁.length) (hp : (ks₁ ++ ks₂).length < 3) :
    splitUserChild (.mk (ks₁ ++ ks₂) (cs₁ ++ .mk [a, b, c] [] true :: cs₂) pl) ks₁.length =
      some (.mk (ks₁ ++ b :: ks₂) (cs₁ ++ .mk [a] [] true :: .mk [c] [] true :: cs₂) pl) ∧
    splitUserChild (.mk (ks₁ ++ ks₂) (cs₁ ++ .mk [a, b, c] [g0, g1, g2, g3] false :: cs₂) pl)
        ks₁.length =
      some (.mk (ks₁ ++ b :: ks₂)
        (cs₁ ++ .mk [a] [g0, g1] false :: .mk [c] [g2, g3] false :: cs₂) pl) ∧
    (BTreeNodeUser.mk (ks₁ ++ b :: ks₂)
        (cs₁ ++ .mk [a] [] true :: .mk [c] [] true :: cs₂) pl).num_keys =
      (BTreeNodeUser.mk (ks₁ ++ ks₂) (cs₁ ++ .mk [a, b, c] [] true :: cs₂) pl).num_keys + 1 ∧
    (BTreeNodeUser.mk (ks₁ ++ b :: ks₂)
        (cs₁ ++ .mk [a] [] true :: .mk [c] [] true :: cs₂) pl).num_keys ≤ M - 1 := by
  refine ⟨?_, ?_, ?_, ?_⟩
  · simp [splitUserChild, getElem?_app_len hl, take_app_len hl, drop_app_len hl,
      drop_app_len_succ hl]
  · simp [splitUserChild, getElem?_app_len hl, take_app_len hl, drop_app_len hl,
      drop_app_len_succ hl]
  · simp; omega
  · simp at hp ⊢; omega

/-- Witness for C20: the parent `[10]` over the leaves `[1, 2, 3]` and `[20]`,
split at index 0. -/
theorem splitUserChild_full_child_witness :
    ([] : List BTreeNodeUser).length = ([] : List UserNode).length ∧
    (([] : List UserNode) ++ [UserNode.mk 10 ""]).length < 3 ∧
    (splitUserChild (.mk ([] ++ [UserNode.mk 10 ""])
        ([] ++ .mk [⟨1, ""⟩, ⟨2, ""⟩, ⟨3, ""⟩] [] true :: [.mk [⟨20, ""⟩] [] true]) false)
        ([] : List UserNode).length =
      some (.mk ([] ++ (UserNode.mk 2 "") :: [UserNode.mk 10 ""])
        ([] ++ .mk [⟨1, ""⟩] [] true :: .mk [⟨3, ""⟩] [] true :: [.mk [⟨20, ""⟩] [] true])
        false) ∧
    splitUserChild (.mk ([] ++ [UserNode.mk 10 ""])
        ([] ++ .mk [⟨1, ""⟩, ⟨2, ""⟩, ⟨3, ""⟩]
          [.mk [⟨0, ""⟩] [] true, .mk [⟨0, ""⟩] [] true, .mk [⟨0, ""⟩] [] true,
            .mk [⟨0, ""⟩] [] true] false :: [.mk [⟨20, ""⟩] [] true]) false)
        ([] : List UserNode).length =
      some (.mk ([] ++ (UserNode.mk 2 "") :: [UserNode.mk 10 ""])
        ([] ++ .mk [⟨1, ""⟩] [.mk [⟨0, ""⟩] [] true, .mk [⟨0, ""⟩] [] true] false ::
          .mk [⟨3, ""⟩] [.mk [⟨0, ""⟩] [] true, .mk [⟨0, ""⟩] [] true] false ::
          [.mk [⟨20, ""⟩] [] true]) false) ∧
    (BTreeNodeUser.mk ([] ++ (UserNode.mk 2 "") :: [UserNode.mk 10 ""])
        ([] ++ .mk [⟨1, ""⟩] [] true :: .mk [⟨3, ""⟩] [] true :: [.mk [⟨20, ""⟩] [] true])
        false).num_keys =
      (BTreeNodeUser.mk ([] ++ [UserNode.mk 10 ""])
        ([] ++ .mk [⟨1, ""⟩, ⟨2, ""⟩, ⟨3, ""⟩] [] true :: [.mk [⟨20, ""⟩] [] true])
        false).num_keys + 1 ∧
    (BTreeNodeUser.mk ([] ++ (UserNode.mk 2 "") :: [UserNode.mk 10 ""])
        ([] ++ .mk [⟨1, ""⟩] [] true :: .mk [⟨3, ""⟩] [] true :: [.mk [⟨20, ""⟩] [] true])
        false).num_keys ≤ M - 1) :=
  ⟨rfl, by decide,
    splitUserChild_full_child [] [UserNode.mk 10 ""] [] [.mk [⟨20, ""⟩] [] true] ⟨1, ""⟩ ⟨2, ""⟩ ⟨3, ""⟩
      (.mk [⟨0, ""⟩] [] true) (.mk [⟨0, ""⟩] [] true) (.mk [⟨0, ""⟩] [] true)
      (.mk [⟨0, ""⟩] [] true) false rfl (by decide)⟩

/-! ### The rotations and the merge, key by key -/

/-- What `borrowFromLeftIndividual` does to the child, the left sibling and
the parent. -/
theorem borrowFromLeftIndividual_rotation (h : Nat) (ks₁ ks₂ : List UserNode)
    (cs₁ cs₂ : List BTreeNodeUser) (c s : BTreeNodeUser) (pk : UserNode) (pl : Bool)
    (hl : cs₁.length = ks₁.length) (hc : Shape h c) (hs : Shape h s)
    (hs2 : 2 ≤ s.num_keys) :
    ∃ s' sk c',
      borrowFromLeftIndividual (.mk (ks₁ ++ pk :: ks₂) (cs₁ ++ s :: c :: cs₂) pl)
          (ks₁.length + 1) =
        some (.mk (ks₁ ++ sk :: ks₂) (cs₁ ++ s' :: c' :: cs₂) pl) ∧
      s.keys = s'.keys ++ [sk] ∧ c'.keys = pk :: c.keys ∧
      (h = 0 → s'.children = s.children ∧ c'.children = c.children) ∧
      (0 < h → ∃ g, s.children = s'.children ++ [g] ∧ c'.children = g :: c.children) ∧
      traverseUsers (.mk (ks₁ ++ sk :: ks₂) (cs₁ ++ s' :: c' :: cs₂) pl) =
        traverseUsers (.mk (ks₁ ++ pk :: ks₂) (cs₁ ++ s :: c :: cs₂) pl) := by
  obtain ⟨cks, ccs, cl⟩ := c
  obtain ⟨sks0, scs, sl⟩ := s
  simp only [num_keys_mk] at hs2
  obtain ⟨sks, sk, rfl⟩ := split_last sks0 (by intro h0; subst h0; simp at hs2)
  cases h with
  | zero =>
    obtain ⟨rfl, rfl⟩ := Shape_zero_mk hc
    obtain ⟨rfl, rfl⟩ := Shape_zero_mk hs
    refine ⟨.mk sks [] true, sk, .mk (pk :: cks) [] true, ?_, by simp, by simp, by simp,
      by simp, ?_⟩
    · simp [borrowFromLeftIndividual, getElem?_app_len hl, getElem?_app_len_succ hl,
        set_app_len hl, set_app_len_succ hl, getElem?_app_len rfl, set_app_len rfl]
    · simp [traverseFrom_cut _ _ _ _ _ hl, traverseFrom_cons]
  | succ h =>
    obtain ⟨rfl, hcl, hcall⟩ := Shape_succ_mk hc
    obtain ⟨rfl, hsl, hsall⟩ := Shape_succ_mk hs
    obtain ⟨scs', g, rfl⟩ := split_last scs (by intro h0; subst h0; simp at hsl)
    have hsl' : scs'.length = sks.length + 1 := by simpa using hsl
    refine ⟨.mk sks scs' false, sk, .mk (pk :: cks) (g :: ccs) false, ?_, by simp, by simp,
      by simp, fun _ => ⟨g, by simp, by simp⟩, ?_⟩
    · have e : (scs' ++ [g])[sks.length + 1]? = some g := getElem?_app_len hsl'
      simp [borrowFromLeftIndividual, getElem?_app_len hl, getElem?_app_len_succ hl,
        set_app_len hl, set_app_len_succ hl, e, take_app_len hsl', getElem?_app_len rfl,
        set_app_len rfl]
    · simp only [traverseUsers_mk, traverseFrom_cut _ _ _ _ _ hl, traverseTail_cons,
        traverseFrom_cons]
      rw [traverseFrom_snoc_child _ _ _ (by simpa using hsl'),
        traverseFrom_snoc_key _ _ _ hsl']
      simp

/-- What `borrowFromRightIndividual` does to the child, the right sibling and
the parent. -/
theorem borrowFromRightIndividual_rotation (h : Nat) (ks₁ ks₂ : List UserNode)
    (cs₁ cs₂ : List BTreeNodeUser) (c s : BTreeNodeUser) (pk : UserNode) (pl : Bool)
    (hl : cs₁.length = ks₁.length) (hc : Shape h c) (hs : Shape h s)
    (hs2 : 2 ≤ s.num_keys) :
    ∃ c' sk s',
      borrowFromRightIndividual (.mk (ks₁ ++ pk :: ks₂) (cs₁ ++ c :: s :: cs₂) pl)
          ks₁.length =
        some (.mk (ks₁ ++ sk :: ks₂) (cs₁ ++ c' :: s' :: cs₂) pl) ∧
      s.keys = sk :: s'.keys ∧ c'.keys = c.keys ++ [pk] ∧
      (h = 0 → s'.children = s.children ∧ c'.children = c.children) ∧
      (0 < h → ∃ g, s.children = g :: s'.children ∧ c'.children = c.children ++ [g]) ∧
      traverseUsers (.mk (ks₁ ++ sk :: ks₂) (cs₁ ++ c' :: s' :: cs₂) pl) =
        traverseUsers (.mk (ks₁ ++ pk :: ks₂) (cs₁ ++ c :: s :: cs₂) pl) := by
  obtain ⟨cks, ccs, cl⟩ := c
  obtain ⟨sks0, scs, sl⟩ := s
  simp only [num_keys_mk] at hs2
  obtain ⟨sk, sks, rfl⟩ : ∃ sk sks, sks0 = sk :: sks := by
    cases sks0 with
    | nil => simp at hs2
    | cons sk sks => exact ⟨sk, sks, rfl⟩
  cases h with
  | zero =>
    obtain ⟨rfl, rfl⟩ := Shape_zero_mk hc
    obtain ⟨rfl, rfl⟩ := Shape_zero_mk hs
    refine ⟨.mk (cks ++ [pk]) [] true, sk, .mk sks [] true, ?_, by simp, by simp, by simp,
      by simp, ?_⟩
    · simp [borrowFromRightIndividual, getElem?_app_len hl, getElem?_app_len_succ hl,
        set_app_len hl, set_app_len_succ hl, getElem?_app_len rfl, set_app_len rfl]
    · simp [traverseFrom_cut _ _ _ _ _ hl, traverseFrom_cons]
  | succ h =>
    obtain ⟨rfl, hcl, hcall⟩ := Shape_succ_mk hc
    obtain ⟨rfl, hsl, hsall⟩ := Shape_succ_mk hs
    obtain ⟨g, scs', rfl⟩ : ∃ g scs', scs = g :: scs' := by
      cases scs with
      | nil => simp at hsl
      | cons g scs' => exact ⟨g, scs', rfl⟩
    have hsl' : scs'.length = sks.length + 1 := by simpa using hsl
    refine ⟨.mk (cks ++ [pk]) (ccs ++ [g]) false, sk, .mk sks scs' false, ?_, by simp,
      by simp, by simp, fun _ => ⟨g, by simp, by simp⟩, ?_⟩
    · simp [borrowFromRightIndividual, getElem?_app_len hl, getElem?_app_len_succ hl,
        set_app_len hl, set_app_len_succ hl, getElem?_app_len rfl, set_app_len rfl]
    · simp only [traverseUsers_mk, traverseFrom_cut _ _ _ _ _ hl, traverseTail_cons,
        traverseFrom_cons]
      rw [traverseFrom_snoc_child _ _ _ (by simpa using hcl),
        traverseFrom_snoc_key _ _ _ hcl]
      simp

/-- C28: for an internal node of a well-formed tree and a child index `idx`
whose child holds one key, `fillIndividualChild(node, idx)` is the borrow from
the left sibling when `idx != 0` and that sibling holds at least 2 keys;
otherwise the borrow from the right sibling when `idx != num_keys` and that
sibling holds at least 2 keys; otherwise the merge with the right sibling when
`idx != num_keys` and the merge with the left sibling (at `idx - 1`) when
`idx` is the last child index; and the call succeeds and leaves at least 2 keys
in the child that `deleteFromIndividualSubtree` descends into. -/
theorem fillIndividualChild_cases (h : Nat) (ks₁ ks₂ : List UserNode)
    (cs₁ cs₂ : List BTreeNodeUser) (c : BTreeNodeUser)
    (hl : cs₁.length = ks₁.length)
    (hs : Shape (h + 1) (.mk (ks₁ ++ ks₂) (cs₁ ++ c :: cs₂) false))
    (hc1 : c.num_keys = 1) (hn : 1 ≤ (ks₁ ++ ks₂).length) :
    (∀ s, ks₁.length ≠ 0 → (cs₁ ++ c :: cs₂)[ks₁.length - 1]? = some s → 2 ≤ s.num_keys →
      fillIndividualChild (.mk (ks₁ ++ ks₂) (cs₁ ++ c :: cs₂) false) ks₁.length =
        borrowFromLeftIndividual (.mk (ks₁ ++ ks₂) (cs₁ ++ c :: cs₂) false) ks₁.length) ∧
    (∀ r, (ks₁.length = 0 ∨
          ∃ s, (cs₁ ++ c :: cs₂)[ks₁.length - 1]? = some s ∧ s.num_keys < 2) →
      ks₁.length ≠ (ks₁ ++ ks₂).length →
      (cs₁ ++ c :: cs₂)[ks₁.length + 1]? = some r → 2 ≤ r.num_keys →
      fillIndividualChild (.mk (ks₁ ++ ks₂) (cs₁ ++ c :: cs₂) false) ks₁.length =
        borrowFromRightIndividual (.mk (ks₁ ++ ks₂) (cs₁ ++ c :: cs₂) false) ks₁.length) ∧
    (∀ r, (ks₁.length = 0 ∨
          ∃ s, (cs₁ ++ c :: cs₂)[ks₁.length - 1]? = some s ∧ s.num_keys < 2) →
      ks₁.length ≠ (ks₁ ++ ks₂).length →
      (cs₁ ++ c :: cs₂)[ks₁.length + 1]? = some r → r.num_keys < 2 →
      fillIndividualChild (.mk (ks₁ ++ ks₂) (cs₁ ++ c :: cs₂) false) ks₁.length =
        mergeIndividualNodes (.mk (ks₁ ++ ks₂) (cs₁ ++ c :: cs₂) false) ks₁.length) ∧
    ((ks₁.length = 0 ∨
          ∃ s, (cs₁ ++ c :: cs₂)[ks₁.length - 1]? = some s ∧ s.num_keys < 2) →
      ks₁.length = (ks₁ ++ ks₂).length →
      fillIndividualChild (.mk (ks₁ ++ ks₂) (cs₁ ++ c :: cs₂) false) ks₁.length =
        mergeIndividualNodes (.mk (ks₁ ++ ks₂) (cs₁ ++ c :: cs₂) false) (ks₁.length - 1)) ∧
    ∃ node1 d, fillIndividualChild (.mk (ks₁ ++ ks₂) (cs₁ ++ c :: cs₂) false) ks₁.length =
        some node1 ∧
      node1.children[if (decide (ks₁.length = (ks₁ ++ ks₂).length) &&
          decide (ks₁.length > node1.num_keys)) = true
        then ks₁.length - 1 else ks₁.length]? = some d ∧
      2 ≤ d.num_keys := by
  have hleft' : (ks₁.length = 0 ∨
        ∃ s, (cs₁ ++ c :: cs₂)[ks₁.length - 1]? = some s ∧ s.num_keys < 2) →
      (if ¬ ks₁.length = 0 then
        ((cs₁ ++ c :: cs₂)[ks₁.length - 1]?).map (fun s => decide (s.num_keys ≥ 4 / 2))
        else some false) = some false := by
    intro hcase
    rcases hcase with h0 | ⟨s, hs1, hs2⟩
    · simp [h0]
    · by_cases h0 : ks₁.length = 0
      · simp [h0]
      · simp only [h0, not_false_eq_true, if_true, hs1, Option.map_some', Option.some.injEq]
        simp; omega
  refine ⟨?_, ?_, ?_, ?_, ?_⟩
  · intro s h0 hs1 hs2
    have : decide (s.num_keys ≥ 4 / 2) = true := by simp; omega
    simp only [fillIndividualChild, children_mk, ne_eq, h0, not_false_eq_true, if_true, hs1,
      Option.map_some', M_eq, this]
  · intro r hcase hne hr1 hr2
    have : decide (r.num_keys ≥ 4 / 2) = true := by simp; omega
    simp only [fillIndividualChild, children_mk, num_keys_mk, hleft' hcase, ne_eq, hne,
      not_false_eq_true, if_true, hr1, Option.map_some', M_eq, this]
  · intro r hcase hne hr1 hr2
    have : decide (r.num_keys ≥ 4 / 2) = false := by simp; omega
    simp only [fillIndividualChild, children_mk, num_keys_mk, hleft' hcase, ne_eq, hne,
      not_false_eq_true, if_true, hr1, Option.map_some', M_eq, this]
  · intro hcase he
    simp only [fillIndividualChild, children_mk, num_keys_mk, hleft' hcase, ne_eq,
      eq_true he, not_true_eq_false, if_false, M_eq]
  · obtain ⟨K₁, K₂, C₁, d, C₂, hr, hC, hj, _, hd, _⟩ :=
      fillIndividualChild_spec h ks₁ ks₂ cs₁ cs₂ c hl hs hc1 hn
    refine ⟨_, d, hr, ?_, hd⟩
    simp only [num_keys_mk, children_mk]
    rw [hj]
    exact getElem?_app_len hC

/-- Witness for C28: the node `[10, 20]` over the leaves `[5]`, `[15]`,
`[30, 40]`, filled at child index 1: the left sibling holds one key, the right
sibling two, so the key 20 comes down and 30 goes up. -/
theorem fillIndividualChild_cases_witness :
    fillIndividualChild (.mk [⟨10, ""⟩, ⟨20, ""⟩]
        [.mk [⟨5, ""⟩] [] true, .mk [⟨15, ""⟩] [] true, .mk [⟨30, ""⟩, ⟨40, ""⟩] [] true]
        false) 1 =
      some (.mk [⟨10, ""⟩, ⟨30, ""⟩]
        [.mk [⟨5, ""⟩] [] true, .mk [⟨15, ""⟩, ⟨20, ""⟩] [] true, .mk [⟨40, ""⟩] [] true]
        false) ∧
    ∃ node1 d, fillIndividualChild (.mk ([UserNode.mk 10 ""] ++ [UserNode.mk 20 ""])
        ([BTreeNodeUser.mk [⟨5, ""⟩] [] true] ++ .mk [⟨15, ""⟩] [] true ::
          [.mk [⟨30, ""⟩, ⟨40, ""⟩] [] true]) false) [UserNode.mk 10 ""].length =
        some node1 ∧
      node1.children[if (decide ([UserNode.mk 10 ""].length =
            ([UserNode.mk 10 ""] ++ [UserNode.mk 20 ""]).length) &&
          decide ([UserNode.mk 10 ""].length > node1.num_keys)) = true
        then [UserNode.mk 10 ""].length - 1 else [UserNode.mk 10 ""].length]? = some d ∧
      2 ≤ d.num_keys :=
  ⟨rfl, (fillIndividualChild_cases 0 [⟨10, ""⟩] [⟨20, ""⟩] [.mk [⟨5, ""⟩] [] true]
    [.mk [⟨30, ""⟩, ⟨40, ""⟩] [] true] (.mk [⟨15, ""⟩] [] true) rfl (by simp [Shape]) rfl
    (by simp)).2.2.2.2⟩

/-- C29: `borrowFromLeftIndividual` and `borrowFromRightIndividual` rotate
exactly one key through the parent. When the lending sibling holds at least 2
keys and the child at most 2: the parent key next to the child moves into the
child (at the front for a left borrow, at the end for a right borrow), the
sibling's nearest key moves up into that parent slot, so the child gains one
key (and holds at most 3), the sibling loses one and the parent keeps its key
count; for leaves no child pointer moves, for internal nodes exactly the
sibling's nearest child moves over to the child; and the in-order sequence of
the parent's subtree is unchanged. -/
theorem borrow_rotates_one_key (h : Nat) (ks₁ ks₂ : List UserNode)
    (cs₁ cs₂ : List BTreeNodeUser) (c sl sr : BTreeNodeUser) (pl pr : UserNode) (leaf : Bool)
    (hl : cs₁.length = ks₁.length) (hc : Shape h c) (hsl : Shape h sl) (hsr : Shape h sr)
    (hsl2 : 2 ≤ sl.num_keys) (hsr2 : 2 ≤ sr.num_keys) (hc2 : c.num_keys ≤ 2) :
    (∃ s' sk c',
      borrowFromLeftIndividual (.mk (ks₁ ++ pl :: ks₂) (cs₁ ++ sl :: c :: cs₂) leaf)
          (ks₁.length + 1) =
        some (.mk (ks₁ ++ sk :: ks₂) (cs₁ ++ s' :: c' :: cs₂) leaf) ∧
      c'.num_keys = c.num_keys + 1 ∧ c'.num_keys ≤ 3 ∧ s'.num_keys + 1 = sl.num_keys ∧
      (BTreeNodeUser.mk (ks₁ ++ sk :: ks₂) (cs₁ ++ s' :: c' :: cs₂) leaf).num_keys =
        (BTreeNodeUser.mk (ks₁ ++ pl :: ks₂) (cs₁ ++ sl :: c :: cs₂) leaf).num_keys ∧
      sl.keys = s'.keys ++ [sk] ∧ c'.keys = pl :: c.keys ∧
      (h = 0 → s'.children = sl.children ∧ c'.children = c.children) ∧
      (0 < h → ∃ g, sl.children = s'.children ++ [g] ∧ c'.children = g :: c.children) ∧
      traverseUsers (.mk (ks₁ ++ sk :: ks₂) (cs₁ ++ s' :: c' :: cs₂) leaf) =
        traverseUsers (.mk (ks₁ ++ pl :: ks₂) (cs₁ ++ sl :: c :: cs₂) leaf)) ∧
    (∃ c' sk s',
      borrowFromRightIndividual (.mk (ks₁ ++ pr :: ks₂) (cs₁ ++ c :: sr :: cs₂) leaf)
          ks₁.length =
        some (.mk (ks₁ ++ sk :: ks₂) (cs₁ ++ c' :: s' :: cs₂) leaf) ∧
      c'.num_keys = c.num_keys + 1 ∧ c'.num_keys ≤ 3 ∧ s'.num_keys + 1 = sr.num_keys ∧
      (BTreeNodeUser.mk (ks₁ ++ sk :: ks₂) (cs₁ ++ c' :: s' :: cs₂) leaf).num_keys =
        (BTreeNodeUser.mk (ks₁ ++ pr :: ks₂) (cs₁ ++ c :: sr :: cs₂) leaf).num_keys ∧
      sr.keys = sk :: s'.keys ∧ c'.keys = c.keys ++ [pr] ∧
      (h = 0 → s'.children = sr.children ∧ c'.children = c.children) ∧
      (0 < h → ∃ g, sr.children = g :: s'.children ∧ c'.children = c.children ++ [g]) ∧
      traverseUsers (.mk (ks₁ ++ sk :: ks₂) (cs₁ ++ c' :: s' :: cs₂) leaf) =
        traverseUsers (.mk (ks₁ ++ pr :: ks₂) (cs₁ ++ c :: sr :: cs₂) leaf)) := by
  constructor
  · obtain ⟨s', sk, c', hb, hk1, hk2, hc0, hc1, htr⟩ :=
      borrowFromLeftIndividual_rotation h ks₁ ks₂ cs₁ cs₂ c sl pl leaf hl hc hsl hsl2
    have e1 : c'.num_keys = c.num_keys + 1 := by simp [num_keys, hk2]
    have e2 : s'.num_keys + 1 = sl.num_keys := by simp [num_keys, hk1]
    exact ⟨s', sk, c', hb, e1, by omega, e2, by simp, hk1, hk2, hc0, hc1, htr⟩
  · obtain ⟨c', sk, s', hb, hk1, hk2, hc0, hc1, htr⟩ :=
      borrowFromRightIndividual_rotation h ks₁ ks₂ cs₁ cs₂ c sr pr leaf hl hc hsr hsr2
    have e1 : c'.num_keys = c.num_keys + 1 := by simp [num_keys, hk2]
    have e2 : s'.num_keys + 1 = sr.num_keys := by simp [num_keys, hk1]
    exact ⟨c', sk, s', hb, e1, by omega, e2, by simp, hk1, hk2, hc0, hc1, htr⟩

/-- Witness for C29: the child `[10]` between the left sibling `[5, 6]` (parent
key 8) and the right sibling `[20, 30]` (parent key 15): the left borrow gives
`[5]`, 6, `[8, 10]` and the right borrow gives `[10, 15]`, 20, `[30]`. -/
theorem borrow_rotates_one_key_witness :
    borrowFromLeftIndividual (.mk [⟨8, ""⟩]
        [.mk [⟨5, ""⟩, ⟨6, ""⟩] [] true, .mk [⟨10, ""⟩] [] true] true) 1 =
      some (.mk [⟨6, ""⟩] [.mk [⟨5, ""⟩] [] true, .mk [⟨8, ""⟩, ⟨10, ""⟩] [] true] true) ∧
    borrowFromRightIndividual (.mk [⟨15, ""⟩]
        [.mk [⟨10, ""⟩] [] true, .mk [⟨20, ""⟩, ⟨30, ""⟩] [] true] true) 0 =
      some (.mk [⟨20, ""⟩] [.mk [⟨10, ""⟩, ⟨15, ""⟩] [] true, .mk [⟨30, ""⟩] [] true] true) ∧
    ∃ c' sk s',
      borrowFromRightIndividual (.mk ([] ++ (UserNode.mk 15 "") :: [])
          ([] ++ .mk [⟨10, ""⟩] [] true :: .mk [⟨20, ""⟩, ⟨30, ""⟩] [] true :: []) true)
          ([] : List UserNode).length =
        some (.mk ([] ++ sk :: []) ([] ++ c' :: s' :: []) true) ∧
      c'.num_keys = (BTreeNodeUser.mk [⟨10, ""⟩] [] true).num_keys + 1 ∧ c'.num_keys ≤ 3 ∧
      s'.num_keys + 1 = (BTreeNodeUser.mk [⟨20, ""⟩, ⟨30, ""⟩] [] true).num_keys :=
  ⟨rfl, rfl, by
    obtain ⟨c', sk, s', h1, h2, h3, h4, _⟩ :=
      (borrow_rotates_one_key 0 [] [] [] [] (.mk [⟨10, ""⟩] [] true)
        (.mk [⟨5, ""⟩, ⟨6, ""⟩] [] true) (.mk [⟨20, ""⟩, ⟨30, ""⟩] [] true) ⟨8, ""⟩ ⟨15, ""⟩
        true rfl (by simp [Shape]) (by simp [Shape]) (by simp [Shape]) (by decide)
        (by decide) (by decide)).2
    exact ⟨c', sk, s', h1, h2, h3, h4⟩⟩

/-- C30: for a node with a key at index `idx` whose children `idx` and
`idx + 1` are well-formed nodes of the same height holding exactly one key each,
`mergeIndividualNodes(node, idx)` makes child `idx` hold the three keys child
key, `node->keys[idx]`, sibling key (and, for internal children, the two
children of the child followed by the two of the sibling), takes key `idx` and
child `idx + 1` out of the node and keeps the other keys and children in
order, so the key count of the node drops by one; the in-order sequence of the
node's subtree is unchanged. -/
theorem mergeIndividualNodes_one_key_children (h : Nat) (ks₁ ks₂ : List UserNode)
    (cs₁ cs₂ : List BTreeNodeUser) (c s : BTreeNodeUser) (y : UserNode) (leaf : Bool)
    (hl : cs₁.length = ks₁.length) (hc : Shape h c) (hs : Shape h s)
    (hc1 : c.num_keys = 1) (hs1 : s.num_keys = 1) :
    ∃ m, mergeIndividualNodes (.mk (ks₁ ++ y :: ks₂) (cs₁ ++ c :: s :: cs₂) leaf) ks₁.length =
        some (.mk (ks₁ ++ ks₂) (cs₁ ++ m :: cs₂) leaf) ∧
      m.keys = c.keys ++ y :: s.keys ∧ m.num_keys = 3 ∧
      m.children = c.children ++ s.children ∧ m.is_leaf = c.is_leaf ∧
      (0 < h → m.children.length = 4) ∧
      (BTreeNodeUser.mk (ks₁ ++ ks₂) (cs₁ ++ m :: cs₂) leaf).num_keys + 1 =
        (BTreeNodeUser.mk (ks₁ ++ y :: ks₂) (cs₁ ++ c :: s :: cs₂) leaf).num_keys ∧
      traverseUsers (.mk (ks₁ ++ ks₂) (cs₁ ++ m :: cs₂) leaf) =
        traverseUsers (.mk (ks₁ ++ y :: ks₂) (cs₁ ++ c :: s :: cs₂) leaf) := by
  have he := mergeIndividualNodes_eq ks₁ ks₂ cs₁ cs₂ c s y leaf hl hc1
  obtain ⟨m0, hm0, _, hm3, htm⟩ :=
    mergeIndividualNodes_spec h ks₁ ks₂ cs₁ cs₂ c s y leaf hl hc hs hc1 hs1
  have hmm : m0 = .mk (c.keys ++ y :: s.keys)
      (if c.is_leaf then c.children else c.children.take 2 ++ s.children) c.is_leaf := by
    rw [hm0] at he
    simpa using he
  have hch : (if c.is_leaf then c.children else c.children.take 2 ++ s.children) =
      c.children ++ s.children ∧
      (0 < h → (c.children ++ s.children).length = 4) := by
    obtain ⟨cks, ccs, cl⟩ := c
    obtain ⟨sks, scs, sl⟩ := s
    simp only [num_keys_mk] at hc1 hs1
    cases h with
    | zero =>
      obtain ⟨rfl, rfl⟩ := Shape_zero_mk hc
      obtain ⟨rfl, rfl⟩ := Shape_zero_mk hs
      simp
    | succ h =>
      obtain ⟨rfl, hcl, _⟩ := Shape_succ_mk hc
      obtain ⟨rfl, hsl, _⟩ := Shape_succ_mk hs
      have : List.take 2 ccs = ccs := List.take_of_length_le (by omega)
      simp [this, hcl, hsl, hc1, hs1]
  refine ⟨m0, hm0, ?_, hm3, ?_, ?_, ?_, by simp; omega, ?_⟩
  · rw [hmm]; rfl
  · rw [hmm]; exact hch.1
  · rw [hmm]; rfl
  · intro hpos
    rw [hmm]
    simp only [children_mk, hch.1]
    exact hch.2 hpos
  · simp only [traverseUsers_mk, traverseFrom_cut _ _ _ _ _ hl, traverseTail_cons,
      traverseFrom_cons, htm]
    simp

/-- Witness for C30: the node `[10]` over the leaves `[5]` and `[20]`, merged
at index 0, becomes a node without keys over the single leaf `[5, 10, 20]`. -/
theorem mergeIndividualNodes_one_key_children_witness :
    mergeIndividualNodes (.mk [⟨10, ""⟩] [.mk [⟨5, ""⟩] [] true, .mk [⟨20, ""⟩] [] true]
        false) 0 = some (.mk [] [.mk [⟨5, ""⟩, ⟨10, ""⟩, ⟨20, ""⟩] [] true] false) ∧
    ∃ m, mergeIndividualNodes (.mk ([] ++ (UserNode.mk 10 "") :: [])
          ([] ++ .mk [⟨5, ""⟩] [] true :: .mk [⟨20, ""⟩] [] true :: []) false)
          ([] : List UserNode).length =
        some (.mk ([] ++ []) ([] ++ m :: []) false) ∧
      m.keys = (BTreeNodeUser.mk [⟨5, ""⟩] [] true).keys ++
        (UserNode.mk 10 "") :: (BTreeNodeUser.mk [⟨20, ""⟩] [] true).keys ∧
      m.num_keys = 3 :=
  ⟨rfl, by
    obtain ⟨m, h1, h2, h3, _⟩ :=
      mergeIndividualNodes_one_key_children 0 [] [] [] [] (.mk [⟨5, ""⟩] [] true)
        (.mk [⟨20, ""⟩] [] true) ⟨10, ""⟩ false rfl (by simp [Shape]) (by simp [Shape]) rfl rfl
    exact ⟨m, h1, h2, h3⟩⟩

/-! ### The logged insert: same trees, and every store in bounds -/

theorem insertUserNonFullLogged_fst : ∀ (fuel : Nat) (node : BTreeNodeUser) (u : UserNode),
    (insertUserNonFullLogged fuel node u).map Prod.fst = insertUserNonFull fuel node u := by
  intro fuel
  induction fuel with
  | zero => intro node u; rfl
  | succ f ih =>
    intro node u
    rw [insertUserNonFullLogged, insertUserNonFull]
    simp only
    cases hleaf : node.is_leaf
    swap
    · simp
    simp only [Bool.false_eq_true, if_false]
    cases hc : node.children[scanDown node.keys u.user_id node.num_keys]? with
    | none => rfl
    | some child =>
      simp only
      by_cases hfull : child.num_keys = M - 1
      · simp only [hfull, if_true]
        cases hs : splitUserChild node (scanDown node.keys u.user_id node.num_keys) with
        | none => rfl
        | some node1 =>
          simp only
          cases hk : node1.keys[scanDown node.keys u.user_id node.num_keys]? with
          | none => rfl
          | some ki =>
            simp only
            generalize (if u.user_id > ki.user_id then
              scanDown node.keys u.user_id node.num_keys + 1
              else scanDown node.keys u.user_id node.num_keys) = j
            cases hj : node1.children[j]? with
            | none => rfl
            | some c =>
              simp only
              rw [← ih c u]
              cases insertUserNonFullLogged f c u <;> rfl
      · simp only [hfull, if_false]
        rw [← ih child u]
        cases insertUserNonFullLogged f child u <;> rfl

theorem insertUserLogged_fst (root : Option BTreeNodeUser) (u : UserNode) :
    (insertUserLogged root u).map Prod.fst = insertUser root u := by
  cases root with
  | none => rfl
  | some r =>
    rw [insertUserLogged, insertUser]
    by_cases hfull : r.num_keys = M - 1
    · simp only [hfull, if_true]
      cases hs : splitUserChild (.mk [] [r] false) 0 with
      | none => rfl
      | some new_root =>
        simp only
        rw [← insertUserNonFullLogged_fst]
        cases insertUserNonFullLogged (depth new_root + 1) new_root u <;> rfl
    · simp only [hfull, if_false]
      rw [← insertUserNonFullLogged_fst]
      cases insertUserNonFullLogged (depth r + 1) r u <;> rfl

theorem createUserNodeWrites_inBounds : ∀ e ∈ createUserNodeWrites, e.inBounds = true := by
  decide

theorem shiftWrites_inBounds (i n : Nat) (hn : n < 3) :
    ∀ e ∈ (List.range' i (n - i)).reverse.map (fun j => InsertEvent.keyWrite (j + 1)),
      e.inBounds = true := by
  intro e he
  simp only [List.mem_map, List.mem_reverse, List.mem_range'_1] at he
  obtain ⟨j, ⟨hj1, hj2⟩, rfl⟩ := he
  simp only [InsertEvent.inBounds, M_eq, decide_eq_true_eq]
  omega

theorem splitUserChildWrites_inBounds (parent : BTreeNodeUser) (idx : Nat)
    (hn : parent.num_keys < 3) (hi : idx ≤ parent.num_keys) :
    ∀ e ∈ splitUserChildWrites parent idx, e.inBounds = true := by
  intro e he
  rw [splitUserChildWrites] at he
  cases hc : parent.children[idx]? with
  | none => simp [hc] at he
  | some child =>
    simp only [hc, List.mem_append, List.mem_singleton] at he
    rcases he with (((((he | he) | he) | he) | he) | he) | he
    · exact createUserNodeWrites_inBounds e he
    · revert e; decide
    · by_cases hl : child.is_leaf = true
      · simp [hl] at he
      · simp only [hl, if_false] at he
        revert e; decide
    · simp only [List.mem_map, List.mem_reverse, List.mem_range'_1] at he
      obtain ⟨j, ⟨hj1, hj2⟩, rfl⟩ := he
      simp only [InsertEvent.inBounds, M_eq, decide_eq_true_eq]
      omega
    · subst he
      simp only [InsertEvent.inBounds, M_eq, decide_eq_true_eq]
      omega
    · exact shiftWrites_inBounds idx parent.num_keys hn e he
    · subst he
      simp only [InsertEvent.inBounds, M_eq, decide_eq_true_eq]
      omega

/-- On a well-formed node that is not full, `insertUserNonFull` is only
entered on nodes with fewer than `M - 1` keys and every store is in bounds. -/
theorem insertUserNonFullLogged_inBounds (h : Nat) :
    ∀ (fuel : Nat) (node : BTreeNodeUser) (u : UserNode),
      h < fuel → Shape h node → node.num_keys < 3 →
      ∃ node' ev, insertUserNonFullLogged fuel node u = some (node', ev) ∧
        ∀ e ∈ ev, e.inBounds = true := by
  induction h with
  | zero =>
    intro fuel node u hf hs hn
    obtain ⟨f, rfl⟩ : ∃ f, fuel = f + 1 := ⟨fuel - 1, by omega⟩
    obtain ⟨ks, cs, l⟩ := node
    obtain ⟨rfl, rfl⟩ := Shape_zero_mk hs
    simp only [num_keys_mk] at hn
    have hle := scanDown_le ks u.user_id ks.length
    refine ⟨.mk (ks.take (scanDown ks u.user_id ks.length) ++
        u :: ks.drop (scanDown ks u.user_id ks.length)) [] true,
      InsertEvent.entered ks.length ::
      ((List.range' (scanDown ks u.user_id ks.length)
        (ks.length - scanDown ks u.user_id ks.length)).reverse.map
          (fun j => InsertEvent.keyWrite (j + 1)) ++
        [InsertEvent.keyWrite (scanDown ks u.user_id ks.length)]), ?_, ?_⟩
    · rw [insertUserNonFullLogged]
      simp only [is_leaf_mk, if_true, num_keys_mk, keys_mk, children_mk]
    intro e he
    simp only [List.mem_cons, List.mem_append, List.mem_singleton, List.not_mem_nil,
      or_false] at he
    rcases he with rfl | he | rfl
    · simp only [InsertEvent.inBounds, M_eq, decide_eq_true_eq]; omega
    · exact shiftWrites_inBounds _ _ hn e he
    · simp only [InsertEvent.inBounds, M_eq, decide_eq_true_eq]; omega
  | succ h ih =>
    intro fuel node u hf hs hn
    obtain ⟨f, rfl⟩ : ∃ f, fuel = f + 1 := ⟨fuel - 1, by omega⟩
    obtain ⟨ks, cs, l⟩ := node
    have hs0 := hs
    obtain ⟨rfl, hlen, hall⟩ := Shape_succ_mk hs
    simp only [num_keys_mk] at hn
    obtain ⟨ks₁, ks₂, rfl, hi, _, _⟩ := scanDown_split ks u.user_id
    obtain ⟨cs₁, c, cs₂, rfl, hl1, hl2⟩ := children_cut cs ks₁ ks₂ hlen
    have hc := hall c (by simp)
    have hent : (InsertEvent.entered (ks₁ ++ ks₂).length).inBounds = true := by
      simp only [InsertEvent.inBounds, M_eq, decide_eq_true_eq]; omega
    by_cases hfull : c.num_keys = 3
    · obtain ⟨cL, m, cR, hsplit, hsL, hsR, hnL, hnR, _⟩ :=
        splitUserChild_spec h ks₁ ks₂ cs₁ cs₂ c false hl1 hc.2.2 hfull
      have hw := splitUserChildWrites_inBounds (.mk (ks₁ ++ ks₂) (cs₁ ++ c :: cs₂) false)
        ks₁.length (by simpa using hn) (by simp)
      by_cases hgt : u.user_id > m.user_id
      · obtain ⟨d', ev, hlog, hev⟩ := ih f cR u (by omega) hsR (by omega)
        apply Exists.intro; apply Exists.intro; refine ⟨?_, ?_⟩
        · rw [insertUserNonFullLogged]
          simp only [keys_mk, num_keys_mk, is_leaf_mk, children_mk, hi,
            getElem?_app_len hl1, hfull, M_eq, hsplit, getElem?_app_len rfl, hgt, if_true,
            getElem?_app_len_succ hl1, hlog]
          rfl
        · intro e he
          simp only [List.mem_cons, List.mem_append] at he
          rcases he with rfl | he | he
          · exact hent
          · exact hw e he
          · exact hev e he
      · obtain ⟨d', ev, hlog, hev⟩ := ih f cL u (by omega) hsL (by omega)
        apply Exists.intro; apply Exists.intro; refine ⟨?_, ?_⟩
        · rw [insertUserNonFullLogged]
          simp only [keys_mk, num_keys_mk, is_leaf_mk, children_mk, hi,
            getElem?_app_len hl1, hfull, M_eq, hsplit, getElem?_app_len rfl, hgt, if_false,
            hlog]
          rfl
        · intro e he
          simp only [List.mem_cons, List.mem_append] at he
          rcases he with rfl | he | he
          · exact hent
          · exact hw e he
          · exact hev e he
    · obtain ⟨d', ev, hlog, hev⟩ := ih f c u (by omega) hc.2.2 (by omega)
      apply Exists.intro; apply Exists.intro; refine ⟨?_, ?_⟩
      · rw [insertUserNonFullLogged]
        simp only [keys_mk, num_keys_mk, is_leaf_mk, children_mk, hi,
          getElem?_app_len hl1, hfull, M_eq, hlog]
        rfl
      · intro e he
        simp only [List.mem_cons] at he
        rcases he with rfl | he
        · exact hent
        · exact hev e he

/-- One `insertUser` call on a well-formed tree: it succeeds, the logged run
gives the same tree, and every call and store of the run is in bounds. -/
theorem insertUserLogged_spec (root : Option BTreeNodeUser) (u : UserNode)
    (hwf : WellFormed root) :
    ∃ t ev, insertUserLogged root u = some (some t, ev) ∧ insertUser root u = some (some t) ∧
      ∀ e ∈ ev, e.inBounds = true := by
  have key : ∃ t ev, insertUserLogged root u = some (some t, ev) ∧
      ∀ e ∈ ev, e.inBounds = true := by
    cases root with
    | none =>
      refine ⟨_, _, rfl, ?_⟩
      intro e he
      simp only [List.mem_append, List.mem_singleton] at he
      rcases he with he | rfl
      · exact createUserNodeWrites_inBounds e he
      · rfl
    | some r =>
      obtain ⟨hr1, hr3, h, hs⟩ := hwf
      by_cases hfull : r.num_keys = 3
      · obtain ⟨cL, m, cR, hsplit, hsL, hsR, hnL, hnR, _⟩ :=
          splitUserChild_spec h [] [] [] [] r false rfl hs hfull
        simp only [List.nil_append, List.length_nil] at hsplit
        have hs1 : Shape (h + 1) (.mk [m] [cL, cR] false) := by
          apply Shape_mk_succ (by simp)
          intro x hx
          simp only [List.mem_cons, List.mem_singleton, List.not_mem_nil, or_false] at hx
          rcases hx with rfl | rfl
          · exact ⟨by omega, by omega, hsL⟩
          · exact ⟨by omega, by omega, hsR⟩
        have hd := depth_of_Shape (h + 1) _ hs1
        obtain ⟨t, ev, hlog, hev⟩ :=
          insertUserNonFullLogged_inBounds (h + 1) (depth (.mk [m] [cL, cR] false) + 1)
            (.mk [m] [cL, cR] false) u (by omega) hs1 (by simp)
        have hw := splitUserChildWrites_inBounds (.mk [] [r] false) 0 (by simp) (by simp)
        refine ⟨t, createUserNodeWrites ++ [InsertEvent.childWrite 0] ++
          splitUserChildWrites (.mk [] [r] false) 0 ++ ev, ?_, ?_⟩
        · rw [insertUserLogged]
          simp only [hfull, M_eq, if_true, hsplit, hlog]
        · intro e he
          simp only [List.mem_append, List.mem_singleton] at he
          rcases he with ((he | rfl) | he) | he
          · exact createUserNodeWrites_inBounds e he
          · rfl
          · exact hw e he
          · exact hev e he
      · have hd := depth_of_Shape h r hs
        obtain ⟨t, ev, hlog, hev⟩ :=
          insertUserNonFullLogged_inBounds h (depth r + 1) r u (by omega) hs (by omega)
        refine ⟨t, ev, ?_, hev⟩
        rw [insertUserLogged]
        simp only [hfull, M_eq, if_false, hlog]
  obtain ⟨t, ev, hlog, hev⟩ := key
  refine ⟨t, ev, hlog, ?_, hev⟩
  rw [← insertUserLogged_fst, hlog]
  rfl

/-! ### Runs of inserts with repeated ids, and runs of `addUser` -/

theorem SortedLE_insert {A B : List UserNode} {u : UserNode} (hs : SortedLE (A ++ B))
    (hA : ∀ a ∈ A, a.user_id ≤ u.user_id) (hB : ∀ b ∈ B, u.user_id ≤ b.user_id) :
    SortedLE (A ++ u :: B) := by
  have h := List.pairwise_append.1 hs
  refine List.pairwise_append.2 ⟨h.1, List.pairwise_cons.2 ⟨hB, h.2.1⟩, ?_⟩
  intro a ha b hb
  rcases List.mem_cons.1 hb with rfl | hb
  · exact hA a ha
  · exact h.2.2 a ha b hb

theorem insertUsersLogged_from : ∀ (us : List UserNode) (root : Option BTreeNodeUser),
    WellFormed root → SortedLE (traverseAndPrintUsers root) →
    ∃ root' ev, insertUsersLogged root us = some (root', ev) ∧
      runUserOpsFrom root (us.map UserOp.insert) = some root' ∧
      (∀ e ∈ ev, e.inBounds = true) ∧ WellFormed root' ∧
      (traverseAndPrintUsers root').Perm (traverseAndPrintUsers root ++ us) ∧
      SortedLE (traverseAndPrintUsers root') := by
  intro us
  induction us with
  | nil =>
    intro root hwf hsort
    exact ⟨root, [], rfl, rfl, by simp, hwf, by simp, hsort⟩
  | cons u us ih =>
    intro root hwf hsort
    obtain ⟨t, ev, hlog, hins, hev⟩ := insertUserLogged_spec root u hwf
    obtain ⟨t', A, B, hins', hwf', hA, hB, hord⟩ := insertUser_spec root u hwf
    have ht : t' = t := by
      rw [hins] at hins'
      simpa using hins'.symm
    subst ht
    obtain ⟨ho1, ho2⟩ := hord hsort
    have hsort' : SortedLE (traverseAndPrintUsers (some t')) := by
      rw [traverseAndPrintUsers, hB]
      exact SortedLE_insert (hA ▸ hsort) ho1 ho2
    obtain ⟨root', ev', hlog', hrun', hev', hwf'', hperm, hs''⟩ := ih (some t') hwf' hsort'
    refine ⟨root', ev ++ ev', ?_, ?_, ?_, hwf'', ?_, hs''⟩
    · simp only [insertUsersLogged, hlog, hlog']
    · simp only [List.map_cons, runUserOpsFrom, applyUserOp, hins, hrun']
    · intro e he
      rcases List.mem_append.1 he with he | he
      · exact hev e he
      · exact hev' e he
    · refine hperm.trans ?_
      rw [traverseAndPrintUsers, hB, hA]
      have h1 : (A ++ u :: B).Perm (u :: (A ++ B)) := List.perm_middle
      have h2 : ((A ++ B) ++ u :: us).Perm (u :: ((A ++ B) ++ us)) := List.perm_middle
      exact (List.Perm.append_right us h1).trans h2.symm

theorem addUser_step (root : Option BTreeNodeUser) (id : Int) (name : String)
    (hwf : WellFormed root) (hsort : StrictSorted (traverseAndPrintUsers root)) :
    (∀ u, searchUser root id = some u → addUser root id name = some (root, none)) ∧
    (searchUser root id = none →
      ∃ t A B, addUser root id name = some (some t, some ⟨id, name⟩) ∧
        WellFormed (some t) ∧ StrictSorted (traverseUsers t) ∧
        traverseAndPrintUsers root = A ++ B ∧ traverseUsers t = A ++ ⟨id, name⟩ :: B) := by
  constructor
  · intro u hu
    simp only [addUser, hu]
  · intro hnone
    have hnew : ∀ v ∈ traverseAndPrintUsers root, v.user_id ≠ (UserNode.mk id name).user_id := by
      rw [searchUser_spec root id hwf hsort] at hnone
      intro v hv
      have := List.find?_eq_none.1 hnone v hv
      simpa using this
    obtain ⟨t, A, B, hins, hwf', hA, hB, _, _, hs'⟩ :=
      insertUser_sorted root ⟨id, name⟩ hwf hsort hnew
    exact ⟨t, A, B, by simp only [addUser, hnone, hins], hwf', hs', hA, hB⟩

theorem addUsers_from : ∀ (calls : List (Int × String)) (root : Option BTreeNodeUser),
    WellFormed root → StrictSorted (traverseAndPrintUsers root) →
    ∃ root', addUsers root calls = some root' ∧ WellFormed root' ∧
      StrictSorted (traverseAndPrintUsers root') := by
  intro calls
  induction calls with
  | nil => intro root hwf hsort; exact ⟨root, rfl, hwf, hsort⟩
  | cons call calls ih =>
    intro root hwf hsort
    obtain ⟨id, name⟩ := call
    obtain ⟨h1, h2⟩ := addUser_step root id name hwf hsort
    cases hsearch : searchUser root id with
    | some u =>
      obtain ⟨root', hrun, hwf', hs'⟩ := ih root hwf hsort
      exact ⟨root', by simp only [addUsers, h1 u hsearch, hrun], hwf', hs'⟩
    | none =>
      obtain ⟨t, A, B, hadd, hwf1, hs1, _, _⟩ := h2 hsearch
      obtain ⟨root', hrun, hwf', hs'⟩ := ih (some t) hwf1 hs1
      exact ⟨root', by simp only [addUsers, hadd, hrun], hwf', hs'⟩

/-- C21: on a well-formed user tree `insertUser` succeeds, every call of
`insertUserNonFull` it makes is on a node with fewer than `M - 1 = 3` keys,
every store to a `keys` array is at an index of at most 2 and every store to a
`children` array at an index of at most 3, and in the tree it leaves the root
and every node below it hold at most 3 keys. -/
theorem insertUser_never_enters_full_node (root : Option BTreeNodeUser) (u : UserNode)
    (hwf : WellFormed root) :
    ∃ t ev, insertUserLogged root u = some (some t, ev) ∧ insertUser root u = some (some t) ∧
      (∀ n, InsertEvent.entered n ∈ ev → n < M - 1) ∧
      (∀ i, InsertEvent.keyWrite i ∈ ev → i ≤ 2) ∧
      (∀ i, InsertEvent.childWrite i ∈ ev → i ≤ 3) ∧
      t.num_keys ≤ 3 ∧ OccupancyBelow t := by
  obtain ⟨t, ev, hlog, hins, hev⟩ := insertUserLogged_spec root u hwf
  obtain ⟨t', _, _, hins', hwf', _⟩ := insertUser_spec root u hwf
  have ht : t' = t := by
    rw [hins] at hins'
    simpa using hins'.symm
  subst ht
  obtain ⟨_, h3, h, hs⟩ := hwf'
  refine ⟨t', ev, hlog, hins, ?_, ?_, ?_, h3, OccupancyBelow_of_Shape h t' hs⟩
  · intro n hn
    simpa [InsertEvent.inBounds] using hev _ hn
  · intro i hi
    have := hev _ hi
    simp only [InsertEvent.inBounds, M_eq, decide_eq_true_eq] at this
    omega
  · intro i hi
    have := hev _ hi
    simp only [InsertEvent.inBounds, M_eq, decide_eq_true_eq] at this
    omega

/-- Witness for C21: inserting 4 into the full root leaf `[1, 2, 3]`: the root
is split and `insertUserNonFull` is entered on the new root (1 key) and on the
right leaf (1 key). -/
theorem insertUser_never_enters_full_node_witness :
    (insertUserLogged (some (.mk [⟨1, ""⟩, ⟨2, ""⟩, ⟨3, ""⟩] [] true)) ⟨4, ""⟩).map
        (fun r => enteredCounts r.2) = some [1, 1] ∧
    ∃ t ev, insertUserLogged (some (.mk [⟨1, ""⟩, ⟨2, ""⟩, ⟨3, ""⟩] [] true)) ⟨4, ""⟩ =
        some (some t, ev) ∧
      insertUser (some (.mk [⟨1, ""⟩, ⟨2, ""⟩, ⟨3, ""⟩] [] true)) ⟨4, ""⟩ = some (some t) ∧
      (∀ n, InsertEvent.entered n ∈ ev → n < M - 1) ∧
      (∀ i, InsertEvent.keyWrite i ∈ ev → i ≤ 2) ∧
      (∀ i, InsertEvent.childWrite i ∈ ev → i ≤ 3) ∧
      t.num_keys ≤ 3 ∧ OccupancyBelow t :=
  ⟨by decide,
   insertUser_never_enters_full_node _ ⟨4, ""⟩ ⟨by decide, by decide, 0, by simp [Shape]⟩⟩

/-- C24: in every state reached from the empty tree by `addUser` calls alone
the user tree is well-formed and holds pairwise distinct `user_id`s, and there
`addUser(id, name, ...)` returns `NULL` and leaves the tree as it is when
`searchUser` finds `id`, and otherwise returns the new record and puts exactly
that one record into the in-order sequence. -/
theorem addUser_keeps_ids_distinct (calls : List (Int × String)) :
    ∃ root, addUsers none calls = some root ∧ WellFormed root ∧
      ((traverseAndPrintUsers root).map UserNode.user_id).Nodup ∧
      ∀ (id : Int) (name : String),
        (∀ u, searchUser root id = some u → addUser root id name = some (root, none)) ∧
        (searchUser root id = none →
          ∃ t A B, addUser root id name = some (some t, some ⟨id, name⟩) ∧
            traverseAndPrintUsers root = A ++ B ∧
            traverseUsers t = A ++ ⟨id, name⟩ :: B ∧
            ((traverseUsers t).map UserNode.user_id).Nodup) := by
  have hnd : ∀ l : List UserNode, StrictSorted l → (l.map UserNode.user_id).Nodup := by
    intro l hl
    rw [List.Nodup, List.pairwise_map]
    exact List.Pairwise.imp (fun h => Int.ne_of_lt h) hl
  obtain ⟨root, hrun, hwf, hsort⟩ := addUsers_from calls none trivial
    (by simp [traverseAndPrintUsers, StrictSorted])
  refine ⟨root, hrun, hwf, hnd _ hsort, fun id name => ?_⟩
  obtain ⟨h1, h2⟩ := addUser_step root id name hwf hsort
  refine ⟨h1, fun hnone => ?_⟩
  obtain ⟨t, A, B, hadd, _, hs', hA, hB⟩ := h2 hnone
  exact ⟨t, A, B, hadd, hA, hB, hnd _ hs'⟩

/-- C25: for every sequence of `insertUser` calls on the empty tree, repeated
ids included, every call succeeds, every call of `insertUserNonFull` is on a
node that is not full and every store to a `keys` or `children` array is in
bounds, the tree stays well-formed (all leaves at one depth, 1 to 3 keys in
the root and in every node below it), the in-order traversal holds exactly the
inserted records, each as often as it was inserted, and it is non-decreasing
in `user_id`. -/
theorem inserts_with_repeats_safe (us : List UserNode) :
    ∃ root ev, insertUsersLogged none us = some (root, ev) ∧
      runUserOps (us.map UserOp.insert) = some root ∧
      (∀ e ∈ ev, e.inBounds = true) ∧
      (∀ r, root = some r → 1 ≤ r.num_keys ∧ r.num_keys ≤ 3 ∧ OccupancyBelow r ∧
        ∃ d, ∀ x ∈ leafDepths r, x = d) ∧
      (traverseAndPrintUsers root).Perm us ∧
      SortedLE (traverseAndPrintUsers root) := by
  obtain ⟨root, ev, hlog, hrun, hev, hwf, hperm, hsort⟩ :=
    insertUsersLogged_from us none trivial (by simp [traverseAndPrintUsers, SortedLE])
  refine ⟨root, ev, hlog, hrun, hev, ?_, by simpa [traverseAndPrintUsers] using hperm, hsort⟩
  rintro r rfl
  obtain ⟨h1, h3, h, hs⟩ := hwf
  exact ⟨h1, h3, OccupancyBelow_of_Shape h r hs, h, leafDepths_of_Shape h r hs⟩

/-! ### The family engine and the user engine on the same keys -/

theorem family_keys_mk (ks : List FamilyNode) (cs : List BTreeNodeFamily) (l : Bool) :
    (BTreeNodeFamily.mk ks cs l).keys = ks := rfl
theorem family_children_mk (ks : List FamilyNode) (cs : List BTreeNodeFamily) (l : Bool) :
    (BTreeNodeFamily.mk ks cs l).children = cs := rfl
theorem family_is_leaf_mk (ks : List FamilyNode) (cs : List BTreeNodeFamily) (l : Bool) :
    (BTreeNodeFamily.mk ks cs l).is_leaf = l := rfl
theorem family_num_keys_mk (ks : List FamilyNode) (cs : List BTreeNodeFamily) (l : Bool) :
    (BTreeNodeFamily.mk ks cs l).num_keys = ks.length := rfl

theorem userKeysList_eq (cs : List BTreeNodeUser) : userKeysList cs = cs.map userKeys := by
  induction cs with
  | nil => rfl
  | cons c cs ih => simp [userKeysList, ih]

theorem familyKeysList_eq (cs : List BTreeNodeFamily) :
    familyKeysList cs = cs.map familyKeys := by
  induction cs with
  | nil => rfl
  | cons c cs ih => simp [familyKeysList, ih]

theorem userKeys_mk (ks : List UserNode) (cs : List BTreeNodeUser) (l : Bool) :
    userKeys (.mk ks cs l) = .mk (ks.map UserNode.user_id) (cs.map userKeys) l := by
  rw [userKeys, userKeysList_eq]

theorem familyKeys_mk (ks : List FamilyNode) (cs : List BTreeNodeFamily) (l : Bool) :
    familyKeys (.mk ks cs l) = .mk (ks.map FamilyNode.family_id) (cs.map familyKeys) l := by
  rw [familyKeys, familyKeysList_eq]

theorem keysEq_iff (fks : List FamilyNode) (fcs : List BTreeNodeFamily) (fl : Bool)
    (uks : List UserNode) (ucs : List BTreeNodeUser) (ul : Bool) :
    familyKeys (.mk fks fcs fl) = userKeys (.mk uks ucs ul) ↔
      (fks.map FamilyNode.family_id = uks.map UserNode.user_id ∧
        fcs.map familyKeys = ucs.map userKeys ∧ fl = ul) := by
  rw [familyKeys_mk, userKeys_mk]
  simp

theorem getElem?_keysEq {α β γ : Type} {f : α → γ} {g : β → γ} {l : List α} {m : List β}
    (h : l.map f = m.map g) (i : Nat) : (l[i]?).map f = (m[i]?).map g := by
  rw [← List.getElem?_map, h, List.getElem?_map]

theorem scanDown_keysEq {fks : List FamilyNode} {uks : List UserNode}
    (hk : fks.map FamilyNode.family_id = uks.map UserNode.user_id) (k : Int) :
    ∀ n, scanDownFamily fks k n = scanDown uks k n := by
  intro n
  induction n with
  | zero => rfl
  | succ i ih =>
    have h := getElem?_keysEq hk i
    rw [scanDownFamily, scanDown]
    cases hf : fks[i]? with
    | none =>
      cases hu : uks[i]? with
      | none => rfl
      | some b => rw [hf, hu] at h; simp at h
    | some a =>
      cases hu : uks[i]? with
      | none => rw [hf, hu] at h; simp at h
      | some b =>
        rw [hf, hu] at h
        simp only [Option.map_some', Option.some.injEq] at h
        simp only [h, ih, gt_iff_lt]

theorem splitChild_keysEq {pf : BTreeNodeFamily} {pu : BTreeNodeUser}
    (h : familyKeys pf = userKeys pu) (i : Nat) :
    (splitFamilyChild pf i).map familyKeys = (splitUserChild pu i).map userKeys := by
  obtain ⟨fks, fcs, fl⟩ := pf
  obtain ⟨uks, ucs, ul⟩ := pu
  obtain ⟨hk, hc, rfl⟩ := (keysEq_iff _ _ _ _ _ _).1 h
  have hci := getElem?_keysEq hc i
  simp only [splitFamilyChild, splitUserChild, family_children_mk, children_mk]
  cases hf : fcs[i]? with
  | none =>
    cases hu : ucs[i]? with
    | none => rfl
    | some cu => rw [hf, hu] at hci; simp at hci
  | some cf =>
    cases hu : ucs[i]? with
    | none => rw [hf, hu] at hci; simp at hci
    | some cu =>
      rw [hf, hu] at hci
      simp only [Option.map_some', Option.some.injEq] at hci
      obtain ⟨cfk, cfc, cfl⟩ := cf
      obtain ⟨cuk, cuc, cul⟩ := cu
      obtain ⟨hck, hcc, rfl⟩ := (keysEq_iff _ _ _ _ _ _).1 hci
      have hmi := getElem?_keysEq hck (M / 2 - 1)
      simp only [family_keys_mk, keys_mk, family_is_leaf_mk, is_leaf_mk,
        family_children_mk, children_mk]
      cases hmf : cfk[M / 2 - 1]? with
      | none =>
        cases hmu : cuk[M / 2 - 1]? with
        | none => rfl
        | some b => rw [hmf, hmu] at hmi; simp at hmi
      | some a =>
        cases hmu : cuk[M / 2 - 1]? with
        | none => rw [hmf, hmu] at hmi; simp at hmi
        | some b =>
          rw [hmf, hmu] at hmi
          simp only [Option.map_some', Option.some.injEq] at hmi
          cases cfl <;>
            simp [familyKeys_mk, userKeys_mk, List.map_take, List.map_drop, hk, hc, hck, hcc,
              hmi]

theorem set_keysEq {fcs : List BTreeNodeFamily} {ucs : List BTreeNodeUser}
    (hc : fcs.map familyKeys = ucs.map userKeys) {cf : BTreeNodeFamily} {cu : BTreeNodeUser}
    (h : familyKeys cf = userKeys cu) (j : Nat) :
    (fcs.set j cf).map familyKeys = (ucs.set j cu).map userKeys := by
  rw [List.map_set, List.map_set, hc, h]

theorem num_keys_keysEq {nf : BTreeNodeFamily} {nu : BTreeNodeUser}
    (h : familyKeys nf = userKeys nu) : nf.num_keys = nu.num_keys := by
  obtain ⟨fks, fcs, fl⟩ := nf
  obtain ⟨uks, ucs, ul⟩ := nu
  obtain ⟨hk, _, _⟩ := (keysEq_iff _ _ _ _ _ _).1 h
  have := congrArg List.length hk
  simpa [family_num_keys_mk] using this

/-- With the same fuel, on nodes with the same keys in the same places and for
records with the same id, `insertFamilyNonFull` and `insertUserNonFull` fail
together or give nodes with the same keys in the same places. -/
theorem insertNonFull_keysEq : ∀ (fuel : Nat) (nf : BTreeNodeFamily) (nu : BTreeNodeUser)
    (f : FamilyNode) (u : UserNode), familyKeys nf = userKeys nu →
    f.family_id = u.user_id →
    (insertFamilyNonFull fuel nf f).map familyKeys =
      (insertUserNonFull fuel nu u).map userKeys := by
  intro fuel
  induction fuel with
  | zero => intro nf nu f u _ _; rfl
  | succ n ih =>
    intro nf nu f u hrel hid
    have hsplit := splitChild_keysEq hrel
    obtain ⟨fks, fcs, fl⟩ := nf
    obtain ⟨uks, ucs, ul⟩ := nu
    obtain ⟨hk, hc, rfl⟩ := (keysEq_iff _ _ _ _ _ _).1 hrel
    have hlen : fks.length = uks.length := by
      have := congrArg List.length hk
      simpa using this
    have hscan : scanDownFamily fks f.family_id fks.length = scanDown uks u.user_id uks.length := by
      rw [hid, hlen]
      exact scanDown_keysEq hk _ _
    rw [insertFamilyNonFull, insertUserNonFull]
    simp only [family_keys_mk, family_num_keys_mk, family_is_leaf_mk,
      family_children_mk, keys_mk, num_keys_mk, is_leaf_mk, children_mk, hscan]
    generalize scanDown uks u.user_id uks.length = i at hsplit ⊢
    cases fl with
    | true =>
      simp [familyKeys_mk, userKeys_mk, List.map_take, List.map_drop, hk, hc, hid]
    | false =>
      simp only [Bool.false_eq_true, if_false]
      have hci := getElem?_keysEq hc i
      cases hf : fcs[i]? with
      | none =>
        cases hu : ucs[i]? with
        | none => rfl
        | some cu => rw [hf, hu] at hci; simp at hci
      | some cf =>
        cases hu : ucs[i]? with
        | none => rw [hf, hu] at hci; simp at hci
        | some cu =>
          rw [hf, hu] at hci
          simp only [Option.map_some', Option.some.injEq] at hci
          have hn := num_keys_keysEq hci
          simp only [hn]
          by_cases hfull : cu.num_keys = M - 1
          · simp only [hfull, if_true]
            have hsp := hsplit i
            cases hsf : splitFamilyChild (.mk fks fcs false) i with
            | none =>
              cases hsu : splitUserChild (.mk uks ucs false) i with
              | none => rfl
              | some n1u => rw [hsf, hsu] at hsp; simp at hsp
            | some n1f =>
              cases hsu : splitUserChild (.mk uks ucs false) i with
              | none => rw [hsf, hsu] at hsp; simp at hsp
              | some n1u =>
                rw [hsf, hsu] at hsp
                simp only [Option.map_some', Option.some.injEq] at hsp
                obtain ⟨k1f, c1f, l1f⟩ := n1f
                obtain ⟨k1u, c1u, l1u⟩ := n1u
                obtain ⟨hk1, hc1, rfl⟩ := (keysEq_iff _ _ _ _ _ _).1 hsp
                simp only [family_keys_mk, family_is_leaf_mk,
                  family_children_mk, keys_mk, is_leaf_mk, children_mk]
                have hki := getElem?_keysEq hk1 i
                cases hkf : k1f[i]? with
                | none =>
                  cases hku : k1u[i]? with
                  | none => rfl
                  | some b => rw [hkf, hku] at hki; simp at hki
                | some a =>
                  cases hku : k1u[i]? with
                  | none => rw [hkf, hku] at hki; simp at hki
                  | some b =>
                    rw [hkf, hku] at hki
                    simp only [Option.map_some', Option.some.injEq] at hki
                    simp only [hki, hid, gt_iff_lt]
                    generalize (if b.user_id < u.user_id then i + 1 else i) = j
                    have hcj := getElem?_keysEq hc1 j
                    cases hjf : c1f[j]? with
                    | none =>
                      cases hju : c1u[j]? with
                      | none => rfl
                      | some x => rw [hjf, hju] at hcj; simp at hcj
                    | some df =>
                      cases hju : c1u[j]? with
                      | none => rw [hjf, hju] at hcj; simp at hcj
                      | some du =>
                        rw [hjf, hju] at hcj
                        simp only [Option.map_some', Option.some.injEq] at hcj
                        simp only
                        have hrec := ih df du f u hcj hid
                        cases hrf : insertFamilyNonFull n df f with
                        | none =>
                          cases hru : insertUserNonFull n du u with
                          | none => rfl
                          | some y => rw [hrf, hru] at hrec; simp at hrec
                        | some xf =>
                          cases hru : insertUserNonFull n du u with
                          | none => rw [hrf, hru] at hrec; simp at hrec
                          | some xu =>
                            rw [hrf, hru] at hrec
                            simp only [Option.map_some', Option.some.injEq] at hrec
                            simp only [Option.map_some', Option.some.injEq]
                            exact (keysEq_iff _ _ _ _ _ _).2 ⟨hk1, set_keysEq hc1 hrec j, rfl⟩
          · simp only [hfull, if_false]
            have hrec := ih cf cu f u hci hid
            cases hrf : insertFamilyNonFull n cf f with
            | none =>
              cases hru : insertUserNonFull n cu u with
              | none => rfl
              | some y => rw [hrf, hru] at hrec; simp at hrec
            | some xf =>
              cases hru : insertUserNonFull n cu u with
              | none => rw [hrf, hru] at hrec; simp at hrec
              | some xu =>
                rw [hrf, hru] at hrec
                simp only [Option.map_some', Option.some.injEq] at hrec
                simp only [Option.map_some', Option.some.injEq]
                exact (keysEq_iff _ _ _ _ _ _).2 ⟨hk, set_keysEq hc hrec i, rfl⟩

theorem depthFamilyList_of_keysEq {h : Nat}
    (ihd : ∀ (nf : BTreeNodeFamily) (nu : BTreeNodeUser), Shape h nu →
      familyKeys nf = userKeys nu → depthFamily nf = h + 1) :
    ∀ (fcs : List BTreeNodeFamily) (ucs : List BTreeNodeUser),
      fcs.map familyKeys = ucs.map userKeys → (∀ c ∈ ucs, Shape h c) → ucs ≠ [] →
      depthFamilyList fcs = h + 1 := by
  intro fcs
  induction fcs with
  | nil =>
    intro ucs hc _ hne
    cases ucs with
    | nil => exact absurd rfl hne
    | cons _ _ => simp at hc
  | cons fc fcs ih =>
    intro ucs hc hall _
    cases ucs with
    | nil => simp at hc
    | cons uc ucs =>
      simp only [List.map_cons, List.cons.injEq] at hc
      have h1 := ihd fc uc (hall uc (by simp)) hc.1
      rw [depthFamilyList, h1]
      cases ucs with
      | nil =>
        have : fcs = [] := by simpa using hc.2
        subst this
        simp [depthFamilyList]
      | cons uc' ucs' =>
        rw [ih (uc' :: ucs') hc.2 (fun c hc' => hall c (List.mem_cons_of_mem _ hc'))
          (by simp)]
        simp

/-- A family node with the same keys in the same places as a well-formed user
node of height `h` has depth `h + 1`. -/
theorem depthFamily_of_keysEq (h : Nat) : ∀ (nf : BTreeNodeFamily) (nu : BTreeNodeUser),
    Shape h nu → familyKeys nf = userKeys nu → depthFamily nf = h + 1 := by
  induction h with
  | zero =>
    intro nf nu hs hrel
    obtain ⟨fks, fcs, fl⟩ := nf
    obtain ⟨uks, ucs, ul⟩ := nu
    obtain ⟨_, hc, _⟩ := (keysEq_iff _ _ _ _ _ _).1 hrel
    obtain ⟨_, rfl⟩ := Shape_zero_mk hs
    have : fcs = [] := by simpa using hc
    subst this
    simp [depthFamily, depthFamilyList]
  | succ h ih =>
    intro nf nu hs hrel
    obtain ⟨fks, fcs, fl⟩ := nf
    obtain ⟨uks, ucs, ul⟩ := nu
    obtain ⟨_, hc, _⟩ := (keysEq_iff _ _ _ _ _ _).1 hrel
    obtain ⟨_, hlen, hall⟩ := Shape_succ_mk hs
    have hne : ucs ≠ [] := by intro h0; subst h0; simp at hlen
    rw [depthFamily, depthFamilyList_of_keysEq ih fcs ucs hc (fun c hc' => (hall c hc').2.2) hne]

/-- After a root split, the child that `insertFamily` picks and the insert
into it give the same tree as entering `insertFamilyNonFull` at the new root,
when the new key differs from the key that moved up. -/
theorem insertFamily_full_root (nf : BTreeNodeFamily) (f mf : FamilyNode)
    (fL fR : BTreeNodeFamily) (hfull : nf.num_keys = M - 1)
    (hsf : splitFamilyChild (.mk [] [nf] false) 0 = some (.mk [mf] [fL, fR] false))
    (hL : fL.num_keys ≠ M - 1) (hR : fR.num_keys ≠ M - 1)
    (hne : f.family_id ≠ mf.family_id) :
    insertFamily (some nf) f =
      (insertFamilyNonFull (depthFamily (.mk [mf] [fL, fR] false) + 1)
        (.mk [mf] [fL, fR] false) f).map some := by
  have hL' : ¬ fL.num_keys = 3 := by simpa using hL
  have hR' : ¬ fR.num_keys = 3 := by simpa using hR
  rw [insertFamily]
  conv_rhs => rw [insertFamilyNonFull]
  simp only [hfull, if_true, hsf, family_keys_mk, family_num_keys_mk, family_is_leaf_mk,
    family_children_mk, Bool.false_eq_true, if_false, List.length_singleton,
    List.getElem?_cons_zero]
  by_cases hlt : mf.family_id < f.family_id
  · have hgt : ¬ mf.family_id > f.family_id := by omega
    simp only [scanDownFamily, hlt, hgt, if_true, if_false, List.getElem?_cons_zero,
      List.getElem?_cons_succ, M_eq, hR', List.set_cons_succ, List.set_cons_zero]
    cases insertFamilyNonFull (depthFamily (.mk [mf] [fL, fR] false)) fR f <;> rfl
  · have hgt : mf.family_id > f.family_id := by omega
    simp only [scanDownFamily, hlt, hgt, if_true, if_false, List.getElem?_cons_zero,
      M_eq, hL', List.set_cons_zero]
    cases insertFamilyNonFull (depthFamily (.mk [mf] [fL, fR] false)) fL f <;> rfl

/-- One insert: with the same keys in the same places before, and a new key
that is not in the user tree, `insertFamily` and `insertUser` fail together or
give trees with the same keys in the same places. -/
theorem insert_keysEq (rF : Option BTreeNodeFamily) (rU : Option BTreeNodeUser)
    (f : FamilyNode) (u : UserNode) (hrel : rF.map familyKeys = rU.map userKeys)
    (hid : f.family_id = u.user_id) (hwf : WellFormed rU)
    (hnew : ∀ v ∈ traverseAndPrintUsers rU, v.user_id ≠ u.user_id) :
    (insertFamily rF f).map (Option.map familyKeys) =
      (insertUser rU u).map (Option.map userKeys) := by
  cases rF with
  | none =>
    cases rU with
    | none => simp [insertFamily, insertUser, familyKeys_mk, userKeys_mk, hid]
    | some nu => simp at hrel
  | some nf =>
    cases rU with
    | none => simp at hrel
    | some nu =>
      simp only [Option.map_some', Option.some.injEq] at hrel
      obtain ⟨_, _, h, hs⟩ := hwf
      have hn := num_keys_keysEq hrel
      by_cases hfull : nu.num_keys = M - 1
      · obtain ⟨cL, m, cR, hsplit, hsL, hsR, hnL, hnR, htr⟩ :=
          splitUserChild_spec h [] [] [] [] nu false rfl hs (by simpa using hfull)
        simp only [List.nil_append, List.length_nil] at hsplit
        have hs1 : Shape (h + 1) (.mk [m] [cL, cR] false) := by
          apply Shape_mk_succ (by simp)
          intro x hx
          simp only [List.mem_cons, List.mem_singleton, List.not_mem_nil, or_false] at hx
          rcases hx with rfl | rfl
          · exact ⟨by omega, by omega, hsL⟩
          · exact ⟨by omega, by omega, hsR⟩
        have hroot : familyKeys (.mk [] [nf] false) = userKeys (.mk [] [nu] false) :=
          (keysEq_iff _ _ _ _ _ _).2 ⟨rfl, by simp [hrel], rfl⟩
        have hsp := splitChild_keysEq hroot 0
        rw [hsplit] at hsp
        cases hsf : splitFamilyChild (.mk [] [nf] false) 0 with
        | none => rw [hsf] at hsp; simp at hsp
        | some n1f =>
          rw [hsf] at hsp
          simp only [Option.map_some', Option.some.injEq] at hsp
          have hdep := depthFamily_of_keysEq (h + 1) n1f _ hs1 hsp
          have hdu := depth_of_Shape (h + 1) _ hs1
          obtain ⟨k1f, c1f, l1f⟩ := n1f
          obtain ⟨hk1, hc1, rfl⟩ := (keysEq_iff _ _ _ _ _ _).1 hsp
          have hlen1 : k1f.length = 1 := by simpa using congrArg List.length hk1
          have hlen2 : c1f.length = 2 := by simpa using congrArg List.length hc1
          obtain ⟨mf, rfl⟩ : ∃ mf, k1f = [mf] := by
            match k1f, hlen1 with
            | [mf], _ => exact ⟨mf, rfl⟩
          obtain ⟨fL, fR, rfl⟩ : ∃ fL fR, c1f = [fL, fR] := by
            match c1f, hlen2 with
            | [fL, fR], _ => exact ⟨fL, fR, rfl⟩
          simp only [List.map_cons, List.map_nil, List.cons.injEq, and_true] at hk1 hc1
          have hm : m ∈ traverseUsers nu := by rw [htr]; simp
          have hne : f.family_id ≠ mf.family_id := by
            rw [hid, hk1]
            exact fun e => hnew m hm e.symm
          have hL : fL.num_keys ≠ M - 1 := by rw [num_keys_keysEq hc1.1, hnL]; decide
          have hR : fR.num_keys ≠ M - 1 := by rw [num_keys_keysEq hc1.2, hnR]; decide
          have hsim := insertNonFull_keysEq (h + 1 + 1 + 1) (.mk [mf] [fL, fR] false)
            (.mk [m] [cL, cR] false) f u hsp hid
          rw [insertFamily_full_root nf f mf fL fR (hn.trans hfull) hsf hL hR hne, insertUser]
          simp only [hfull, if_true, hsplit, hdep, hdu]
          cases hrf : insertFamilyNonFull (h + 1 + 1 + 1) (.mk [mf] [fL, fR] false) f with
          | none =>
            cases hru : insertUserNonFull (h + 1 + 1 + 1) (.mk [m] [cL, cR] false) u with
            | none => rfl
            | some y => rw [hrf, hru] at hsim; simp at hsim
          | some x =>
            cases hru : insertUserNonFull (h + 1 + 1 + 1) (.mk [m] [cL, cR] false) u with
            | none => rw [hrf, hru] at hsim; simp at hsim
            | some y =>
              rw [hrf, hru] at hsim
              simpa using hsim
      · have hdep := depthFamily_of_keysEq h nf nu hs hrel
        have hdu := depth_of_Shape h nu hs
        have hsim := insertNonFull_keysEq (h + 1 + 1) nf nu f u hrel hid
        rw [insertFamily, insertUser]
        simp only [hn, hfull, if_false, hdep, hdu]
        cases hrf : insertFamilyNonFull (h + 1 + 1) nf f with
        | none =>
          cases hru : insertUserNonFull (h + 1 + 1) nu u with
          | none => rfl
          | some y => rw [hrf, hru] at hsim; simp at hsim
        | some x =>
          cases hru : insertUserNonFull (h + 1 + 1) nu u with
          | none => rw [hrf, hru] at hsim; simp at hsim
          | some y =>
            rw [hrf, hru] at hsim
            simpa using hsim

theorem insertFamilies_keysEq : ∀ (us : List UserNode) (fs : List FamilyNode)
    (rF : Option BTreeNodeFamily) (rU : Option BTreeNodeUser),
    fs.map FamilyNode.family_id = us.map UserNode.user_id →
    rF.map familyKeys = rU.map userKeys → WellFormed rU →
    StrictSorted (traverseAndPrintUsers rU) →
    (∀ v ∈ traverseAndPrintUsers rU, v.user_id ∉ us.map UserNode.user_id) →
    (us.map UserNode.user_id).Nodup →
    ∃ rF' rU', insertFamilies rF fs = some rF' ∧
      runUserOpsFrom rU (us.map UserOp.insert) = some rU' ∧
      rF'.map familyKeys = rU'.map userKeys := by
  intro us
  induction us with
  | nil =>
    intro fs rF rU hids hrel _ _ _ _
    have : fs = [] := by simpa using hids
    subst this
    exact ⟨rF, rU, rfl, rfl, hrel⟩
  | cons u us ih =>
    intro fs rF rU hids hrel hwf hsort hfresh hnd
    cases fs with
    | nil => simp at hids
    | cons f fs =>
      simp only [List.map_cons, List.cons.injEq] at hids
      have hnd' := List.nodup_cons.1 hnd
      have hnew : ∀ v ∈ traverseAndPrintUsers rU, v.user_id ≠ u.user_id := by
        intro v hv e
        exact hfresh v hv (by simp [e])
      obtain ⟨t, A, B, hins, hwf', hA, hB, _, _, hs'⟩ := insertUser_sorted rU u hwf hsort hnew
      have hsim := insert_keysEq rF rU f u hrel hids.1 hwf hnew
      rw [hins] at hsim
      cases hif : insertFamily rF f with
      | none => rw [hif] at hsim; simp at hsim
      | some tF =>
        rw [hif] at hsim
        simp only [Option.map_some', Option.some.injEq] at hsim
        have hfresh' : ∀ v ∈ traverseAndPrintUsers (some t),
            v.user_id ∉ us.map UserNode.user_id := by
          intro v hv
          rw [traverseAndPrintUsers, hB] at hv
          rcases List.mem_append.1 hv with hv | hv
          · intro hmem
            exact hfresh v (by rw [hA]; exact List.mem_append_left _ hv)
              (List.mem_cons_of_mem _ hmem)
          · rcases List.mem_cons.1 hv with rfl | hv
            · exact hnd'.1
            · intro hmem
              exact hfresh v (by rw [hA]; exact List.mem_append_right _ hv)
                (List.mem_cons_of_mem _ hmem)
        obtain ⟨rF', rU', h1, h2, h3⟩ := ih fs tF (some t) hids.2 hsim hwf' hs' hfresh' hnd'.2
        exact ⟨rF', rU', by simp only [insertFamilies, hif, h1],
          by simp only [List.map_cons, runUserOpsFrom, applyUserOp, hins, h2], h3⟩

/-- C22 (counterexample): for the key sequence 1, 2, 3, 2 the two engines
give different trees. Both split the full root `[1, 2, 3]` into `[2]` over
`[1]` and `[3]`; `insertUser` re-enters at the new root and puts the second 2
into the right leaf, `insertFamily` picks the child by
`new_root->keys[0]->family_id < family->family_id` and puts it into the left
leaf. -/
theorem insertFamily_differs_on_repeated_key :
    ∃ rF rU,
      insertFamilies none [⟨1, []⟩, ⟨2, []⟩, ⟨3, []⟩, ⟨2, []⟩] = some (some rF) ∧
      runUserOps [UserOp.insert ⟨1, ""⟩, UserOp.insert ⟨2, ""⟩, UserOp.insert ⟨3, ""⟩,
        UserOp.insert ⟨2, ""⟩] = some (some rU) ∧
      familyKeys rF = .mk [2] [.mk [1, 2] [] true, .mk [3] [] true] false ∧
      userKeys rU = .mk [2] [.mk [1] [] true, .mk [2, 3] [] true] false ∧
      familyKeys rF ≠ userKeys rU := by
  refine ⟨.mk [⟨2, []⟩] [.mk [⟨1, []⟩, ⟨2, []⟩] [] true, .mk [⟨3, []⟩] [] true] false,
    .mk [⟨2, ""⟩] [.mk [⟨1, ""⟩] [] true, .mk [⟨2, ""⟩, ⟨3, ""⟩] [] true] false,
    rfl, rfl, rfl, rfl, ?_⟩
  intro h
  simp [keysEq_iff] at h

/-- C22 (amended): for every sequence of pairwise distinct integer keys,
inserting them with `insertFamily` into an empty family tree and with
`insertUser` into an empty user tree succeeds on both sides and gives trees of
the same shape with the same keys at the same positions. -/
theorem insertFamily_same_tree_as_insertUser (fs : List FamilyNode) (us : List UserNode)
    (hids : fs.map FamilyNode.family_id = us.map UserNode.user_id)
    (hnd : (us.map UserNode.user_id).Nodup) :
    ∃ rF rU, insertFamilies none fs = some rF ∧
      runUserOps (us.map UserOp.insert) = some rU ∧
      rF.map familyKeys = rU.map userKeys :=
  insertFamilies_keysEq us fs none none hids rfl trivial
    (by simp [traverseAndPrintUsers, StrictSorted]) (by simp [traverseAndPrintUsers]) hnd

/-- Witness for C22 (amended): the keys 1, 2, 3, 4. -/
theorem insertFamily_same_tree_as_insertUser_witness :
    ([FamilyNode.mk 1 [], ⟨2, []⟩, ⟨3, []⟩, ⟨4, []⟩].map FamilyNode.family_id =
      [UserNode.mk 1 "a", ⟨2, "b"⟩, ⟨3, "c"⟩, ⟨4, "d"⟩].map UserNode.user_id) ∧
    ([UserNode.mk 1 "a", ⟨2, "b"⟩, ⟨3, "c"⟩, ⟨4, "d"⟩].map UserNode.user_id).Nodup ∧
    ∃ rF rU, insertFamilies none [FamilyNode.mk 1 [], ⟨2, []⟩, ⟨3, []⟩, ⟨4, []⟩] = some rF ∧
      runUserOps ([UserNode.mk 1 "a", ⟨2, "b"⟩, ⟨3, "c"⟩, ⟨4, "d"⟩].map UserOp.insert) =
        some rU ∧
      rF.map familyKeys = rU.map userKeys :=
  ⟨by decide, by decide, insertFamily_same_tree_as_insertUser _ _ (by decide) (by decide)⟩

/-! ### The expense scenario, one call at a time -/

theorem expense_step1 :
    applyDomainOp ⟨none, none, []⟩ (.addUser 1 "a") =
      some ⟨some (.mk [⟨1, "a"⟩] [] true), none, [(1, [])]⟩ := rfl

theorem expense_step2 :
    applyDomainOp ⟨some (.mk [⟨1, "a"⟩] [] true), none, [(1, [])]⟩ (.addExpense 1 10) =
      some ⟨some (.mk [⟨1, "a"⟩] [] true), some (.mk [⟨10, 1⟩] [] true),
        [(1, [⟨10, 1⟩])]⟩ := rfl

theorem expense_step3 :
    applyDomainOp ⟨some (.mk [⟨1, "a"⟩] [] true), some (.mk [⟨10, 1⟩] [] true),
        [(1, [⟨10, 1⟩])]⟩ (.addExpense 1 20) =
      some ⟨some (.mk [⟨1, "a"⟩] [] true), some (.mk [⟨10, 1⟩, ⟨20, 1⟩] [] true),
        [(1, [⟨10, 1⟩, ⟨20, 1⟩])]⟩ := rfl

theorem expense_step4 :
    applyDomainOp ⟨some (.mk [⟨1, "a"⟩] [] true), some (.mk [⟨10, 1⟩, ⟨20, 1⟩] [] true),
        [(1, [⟨10, 1⟩, ⟨20, 1⟩])]⟩ (.addExpense 1 30) =
      some ⟨some (.mk [⟨1, "a"⟩] [] true),
        some (.mk [⟨10, 1⟩, ⟨20, 1⟩, ⟨30, 1⟩] [] true),
        [(1, [⟨10, 1⟩, ⟨20, 1⟩, ⟨30, 1⟩])]⟩ := rfl

theorem expense_step5 :
    applyDomainOp ⟨some (.mk [⟨1, "a"⟩] [] true),
        some (.mk [⟨10, 1⟩, ⟨20, 1⟩, ⟨30, 1⟩] [] true),
        [(1, [⟨10, 1⟩, ⟨20, 1⟩, ⟨30, 1⟩])]⟩ (.addExpense 1 40) = some expenseScenario := rfl

theorem expense_step6 :
    applyDomainOp expenseScenario (.deleteExpense 1 20) =
      some ⟨some (.mk [⟨1, "a"⟩] [] true),
        some (.mk [⟨30, 1⟩] [.mk [⟨10, 1⟩] [] true, .mk [⟨40, 1⟩] [] true] false),
        [(1, [⟨10, 1⟩, ⟨20, 1⟩, ⟨40, 1⟩])]⟩ := rfl

theorem expense_step7 :
    applyDomainOp ⟨some (.mk [⟨1, "a"⟩] [] true),
        some (.mk [⟨30, 1⟩] [.mk [⟨10, 1⟩] [] true, .mk [⟨40, 1⟩] [] true] false),
        [(1, [⟨10, 1⟩, ⟨20, 1⟩, ⟨40, 1⟩])]⟩ (.addExpense 1 30) =
      some ⟨some (.mk [⟨1, "a"⟩] [] true),
        some (.mk [⟨30, 1⟩] [.mk [⟨10, 1⟩] [] true, .mk [⟨30, 1⟩, ⟨40, 1⟩] [] true] false),
        [(1, [⟨10, 1⟩, ⟨20, 1⟩, ⟨40, 1⟩, ⟨30, 1⟩])]⟩ := rfl

/-- The expense scenario is the state after `addUser(1)` and the four
`addExpense` calls of user 1 with the ids 10, 20, 30, 40. -/
theorem expenseScenario_reached :
    runDomainOps ⟨none, none, []⟩ [.addUser 1 "a", .addExpense 1 10, .addExpense 1 20,
      .addExpense 1 30, .addExpense 1 40] = some expenseScenario := by
  simp only [runDomainOps, expense_step1, expense_step2, expense_step3, expense_step4,
    expense_step5]

/-- C23 (the code at the failing input): user 1 adds the expenses 10, 20, 30,
40, deletes expense 20 and adds expense 30 again. Every call succeeds, and the
expense tree then holds the pair (user 1, expense 30) twice: its in-order
traversal is (1,10), (1,30), (1,30), (1,40). -/
theorem addExpense_inserts_pair_twice :
    (runDomainOps ⟨none, none, []⟩ [.addUser 1 "a", .addExpense 1 10, .addExpense 1 20,
        .addExpense 1 30, .addExpense 1 40, .deleteExpense 1 20, .addExpense 1 30]).map
        (fun d => traverseAndPrintExpenses d.expense_root) =
      some [⟨10, 1⟩, ⟨30, 1⟩, ⟨30, 1⟩, ⟨40, 1⟩] ∧
    ¬ ([ExpenseNode.mk 10 1, ⟨30, 1⟩, ⟨30, 1⟩, ⟨40, 1⟩].map
      (fun e => (e.user_id, e.expense_id))).Nodup := by
  refine ⟨?_, by decide⟩
  simp only [runDomainOps, expense_step1, expense_step2, expense_step3, expense_step4,
    expense_step5, expense_step6, expense_step7, Option.map_some']
  rfl

/-- C26 (the code at the failing input): the users 1 and 2 are in the user
tree (one leaf) and are the two members of family 7. The branch "Delete Family
(and all its members)" for family 7 deletes user 1 in the first round of the
member loop; that call shifts user 2 to `members[0]` and sets `member_count`
to 1, so the loop ends at `i = 1` without a call for user 2. After the loop and
`deleteFamily`, `searchUser` still finds user 2. -/
theorem deleteFamily_branch_skips_member :
    (deleteFamilyAndMembers (some (.mk [⟨1, "a"⟩, ⟨2, "b"⟩] [] true))
        (some (.mk [⟨7, [⟨1, "a"⟩, ⟨2, "b"⟩]⟩] [] true))
        ⟨[⟨7, [⟨1, "a"⟩, ⟨2, "b"⟩]⟩], [(1, 7), (2, 7)], []⟩ 7).map
        (fun r => (searchUser r.1 1, searchUser r.1 2, traverseAndPrintUsers r.1,
          r.2.1.isNone, r.2.2.released)) =
      some (none, some ⟨2, "b"⟩, [⟨2, "b"⟩], true, [⟨1, "a"⟩]) := by
  decide

/-! ### Predecessor and successor of a key of an internal node -/

theorem mem_subtreesList (n : BTreeNodeUser) (cs : List BTreeNodeUser)
    (h : n ∈ subtreesList cs) : ∃ c ∈ cs, n ∈ subtrees c := by
  induction cs with
  | nil => simp [subtreesList] at h
  | cons c cs ih =>
    rw [subtreesList, List.mem_append] at h
    rcases h with h | h
    · exact ⟨c, by simp, h⟩
    · obtain ⟨d, hd, hn⟩ := ih h
      exact ⟨d, by simp [hd], hn⟩

theorem subtrees_self (t : BTreeNodeUser) : t ∈ subtrees t := by
  obtain ⟨ks, cs, l⟩ := t
  rw [subtrees]
  exact List.mem_cons_self _ _

/-- The traversal of a child is a segment of the loop over the node. -/
theorem traverseFrom_segment (cs : List BTreeNodeUser) (ks : List UserNode) (c : BTreeNodeUser)
    (hc : c ∈ cs) (hlen : cs.length = ks.length + 1) :
    ∃ L R, traverseFrom cs ks = L ++ traverseUsers c ++ R := by
  obtain ⟨cs₁, cs₂, rfl⟩ := List.append_of_mem hc
  have hl : cs₁.length ≤ ks.length := by simp at hlen; omega
  have hk : ks = ks.take cs₁.length ++ ks.drop cs₁.length := (List.take_append_drop _ _).symm
  have hl1 : cs₁.length = (ks.take cs₁.length).length := by simp [hl]
  refine ⟨traverseFrom cs₁ (ks.take cs₁.length), traverseTail cs₂ (ks.drop cs₁.length), ?_⟩
  conv_lhs => rw [hk]
  rw [traverseFrom_cut cs₁ cs₂ c _ _ hl1]
  simp

/-- Every node of a subtree that satisfies the node invariants satisfies them
at its own height, and its traversal is a segment of the traversal of the
subtree. -/
theorem subtrees_segment (h : Nat) : ∀ root, Shape h root → ∀ n ∈ subtrees root,
    ∃ h' L R, Shape h' n ∧ traverseUsers root = L ++ traverseUsers n ++ R := by
  induction h with
  | zero =>
    intro root hs n hn
    obtain ⟨ks, cs, l⟩ := root
    obtain ⟨rfl, rfl⟩ := Shape_zero_mk hs
    rw [subtrees] at hn
    simp only [subtreesList, List.mem_singleton] at hn
    subst hn
    exact ⟨0, [], [], hs, by simp⟩
  | succ h ih =>
    intro root hs n hn
    obtain ⟨ks, cs, l⟩ := root
    obtain ⟨rfl, hlen, hall⟩ := Shape_succ_mk hs
    rw [subtrees, List.mem_cons] at hn
    rcases hn with rfl | hn
    · exact ⟨h + 1, [], [], hs, by simp⟩
    · obtain ⟨c, hc, hnc⟩ := mem_subtreesList n cs hn
      obtain ⟨h', L, R, hsn, htr⟩ := ih c (hall c hc).2.2 n hnc
      obtain ⟨L0, R0, h0⟩ := traverseFrom_segment cs ks c hc hlen
      refine ⟨h', L0 ++ L, R ++ R0, hsn, ?_⟩
      rw [traverseUsers_mk, h0, htr]
      simp

/-- In a strictly increasing list, the neighbours of an entry are the greatest
entry below it and the least entry above it. -/
theorem sorted_neighbours (X Y : List UserNode) (p y s : UserNode)
    (h : StrictSorted (X ++ p :: y :: s :: Y)) :
    p.user_id < y.user_id ∧ y.user_id < s.user_id ∧
    (∀ v ∈ X ++ p :: y :: s :: Y, v.user_id < y.user_id → v.user_id ≤ p.user_id) ∧
    (∀ v ∈ X ++ p :: y :: s :: Y, y.user_id < v.user_id → s.user_id ≤ v.user_id) := by
  unfold StrictSorted at h
  rw [List.pairwise_append] at h
  obtain ⟨-, h2, h3⟩ := h
  simp only [List.pairwise_cons, List.mem_cons] at h2
  obtain ⟨hp, hy, hs, -⟩ := h2
  have hpy := hp y (Or.inl rfl)
  have hys := hy s (Or.inl rfl)
  refine ⟨hpy, hys, ?_, ?_⟩
  · intro v hv hlt
    rw [List.mem_append] at hv
    simp only [List.mem_cons] at hv
    rcases hv with hv | rfl | rfl | rfl | hv
    · exact le_of_lt (h3 v hv p (by simp))
    · exact le_refl _
    · omega
    · omega
    · have := hs v hv
      omega
  · intro v hv hlt
    rw [List.mem_append] at hv
    simp only [List.mem_cons] at hv
    rcases hv with hv | rfl | rfl | rfl | hv
    · have := h3 v hv y (by simp)
      omega
    · omega
    · omega
    · exact le_refl _
    · exact le_of_lt (hs v hv)

/-- C31: for an internal node `node` of a well-formed user tree with strictly
increasing traversal and an index `idx` of one of its keys,
`getIndividualPredecessor(node, idx)` returns the last record of the
traversal of `children[idx]`, which is the record of the tree with the
greatest `user_id` below that of `keys[idx]`, and
`getIndividualSuccessor(node, idx)` returns the first record of the traversal
of `children[idx + 1]`, which is the record of the tree with the least
`user_id` above that of `keys[idx]`. -/
theorem predecessor_successor_spec (root node : BTreeNodeUser) (idx : Nat) (y : UserNode)
    (hwf : WellFormed (some root)) (hsort : StrictSorted (traverseUsers root))
    (hmem : node ∈ subtrees root) (hint : node.is_leaf = false)
    (hy : node.keys[idx]? = some y) :
    ∃ left right p s init rest,
      node.children[idx]? = some left ∧ node.children[idx + 1]? = some right ∧
      getIndividualPredecessor node idx = some p ∧
      getIndividualSuccessor node idx = some s ∧
      traverseUsers left = init ++ [p] ∧ (∀ v ∈ traverseUsers left, v.user_id ≤ p.user_id) ∧
      traverseUsers right = s :: rest ∧ (∀ v ∈ traverseUsers right, s.user_id ≤ v.user_id) ∧
      p ∈ traverseUsers root ∧ s ∈ traverseUsers root ∧
      p.user_id < y.user_id ∧ y.user_id < s.user_id ∧
      (∀ v ∈ traverseUsers root, v.user_id < y.user_id → v.user_id ≤ p.user_id) ∧
      (∀ v ∈ traverseUsers root, y.user_id < v.user_id → s.user_id ≤ v.user_id) := by
  obtain ⟨-, -, h, hs⟩ := hwf
  obtain ⟨h', L, R, hsn, htr⟩ := subtrees_segment h root hs node hmem
  obtain ⟨ks, cs, l⟩ := node
  simp only [is_leaf_mk] at hint
  subst hint
  simp only [keys_mk] at hy
  cases h' with
  | zero => exact absurd (Shape_zero_mk hsn).1 (by simp)
  | succ h' =>
    obtain ⟨-, hlen, hall⟩ := Shape_succ_mk hsn
    have hidx : idx < ks.length := (List.getElem?_eq_some_iff.1 hy).1
    have hk : ks = ks.take idx ++ y :: ks.drop (idx + 1) := by
      have h1 : ks = ks.take idx ++ ks.drop idx := (List.take_append_drop _ _).symm
      have h2 : ks.drop idx = y :: ks.drop (idx + 1) := by
        rw [List.drop_eq_getElem_cons hidx]
        congr 1
        have := (List.getElem?_eq_some_iff.1 hy).2
        exact this
      rw [h2] at h1
      exact h1
    generalize hk1 : ks.take idx = ks₁ at hk
    generalize ks.drop (idx + 1) = ks₂ at hk
    have hl1 : ks₁.length = idx := by rw [← hk1]; simp; omega
    subst hk
    obtain ⟨cs₁, left, cs₂, rfl, hc1, hc2⟩ := children_cut cs ks₁ (y :: ks₂) hlen
    cases cs₂ with
    | nil => simp at hc2
    | cons right cs₂ =>
      have hleft := hall left (by simp)
      have hright := hall right (by simp)
      obtain ⟨p, init, hp, hptr⟩ := rightmostKey_spec h' left hleft.2.2 hleft.1
      obtain ⟨s, rest, hsk, hstr⟩ := leftmostKey_spec h' right hright.2.2 hright.1
      have hcl : cs₁.length = idx := by omega
      have hgl : (cs₁ ++ left :: right :: cs₂)[idx]? = some left := getElem?_app_len hcl
      have hgr : (cs₁ ++ left :: right :: cs₂)[idx + 1]? = some right :=
        getElem?_app_len_succ hcl
      have hnode : traverseUsers (.mk (ks₁ ++ y :: ks₂) (cs₁ ++ left :: right :: cs₂) false) =
          (traverseFrom cs₁ ks₁ ++ init) ++ p :: y :: s :: (rest ++ traverseTail cs₂ ks₂) := by
        rw [traverseUsers_mk, traverseFrom_cut cs₁ (right :: cs₂) left ks₁ (y :: ks₂) hc1,
          traverseTail_cons, traverseFrom_cons, hptr, hstr]
        simp
      have hroot : traverseUsers root =
          (L ++ (traverseFrom cs₁ ks₁ ++ init)) ++
            p :: y :: s :: ((rest ++ traverseTail cs₂ ks₂) ++ R) := by
        rw [htr, hnode]
        simp
      rw [hroot] at hsort
      obtain ⟨hpy, hys, hbelow, habove⟩ := sorted_neighbours _ _ p y s hsort
      have hsl : StrictSorted (init ++ [p]) := by
        unfold StrictSorted at hsort ⊢
        have h1 := (List.pairwise_append.1 hsort).1
        have h2 := (List.pairwise_append.1 h1).2.1
        have h3 := (List.pairwise_append.1 hsort).2.2
        rw [List.pairwise_append]
        refine ⟨(List.pairwise_append.1 h2).2.1, by simp, ?_⟩
        intro a ha b hb
        simp only [List.mem_singleton] at hb
        subst hb
        exact h3 a (by simp [ha]) b (by simp)
      have hsr : StrictSorted (s :: rest) := by
        unfold StrictSorted at hsort ⊢
        have h1 := (List.pairwise_append.1 hsort).2.1
        simp only [List.pairwise_cons] at h1
        obtain ⟨-, -, h2, h3⟩ := h1
        rw [List.pairwise_cons]
        refine ⟨fun a ha => h2 a (by simp [ha]), ?_⟩
        exact (List.pairwise_append.1 (List.pairwise_append.1 h3).1).1
      refine ⟨left, right, p, s, init, rest, hgl, hgr, ?_, ?_, hptr, ?_, hstr, ?_, ?_, ?_,
        hpy, hys, ?_, ?_⟩
      · simp only [getIndividualPredecessor, children_mk, hgl, hp]
      · simp only [getIndividualSuccessor, children_mk, hgr, hsk]
      · intro v hv
        rw [hptr, List.mem_append, List.mem_singleton] at hv
        rcases hv with hv | rfl
        · unfold StrictSorted at hsl
          exact le_of_lt ((List.pairwise_append.1 hsl).2.2 v hv p (by simp))
        · exact le_refl _
      · intro v hv
        rw [hstr, List.mem_cons] at hv
        rcases hv with rfl | hv
        · exact le_refl _
        · unfold StrictSorted at hsr
          exact le_of_lt ((List.pairwise_cons.1 hsr).1 v hv)
      · rw [hroot]; simp
      · rw [hroot]; simp
      · intro v hv
        rw [hroot] at hv
        exact hbelow v hv
      · intro v hv
        rw [hroot] at hv
        exact habove v hv

/-- Witness for C31: the key 10 of the root `[10, 20]` over `[5, 6, 7]`,
`[12, 17]`, `[30]` has predecessor 7 and successor 12. -/
theorem predecessor_successor_spec_witness :
    WellFormed (some scenarioTree) ∧ StrictSorted (traverseUsers scenarioTree) ∧
    scenarioTree ∈ subtrees scenarioTree ∧ scenarioTree.is_leaf = false ∧
    scenarioTree.keys[0]? = some (UserNode.mk 10 "") ∧
    getIndividualPredecessor scenarioTree 0 = some (UserNode.mk 7 "") ∧
    getIndividualSuccessor scenarioTree 0 = some (UserNode.mk 12 "") ∧
    ∃ left right p s init rest,
      scenarioTree.children[0]? = some left ∧ scenarioTree.children[0 + 1]? = some right ∧
      getIndividualPredecessor scenarioTree 0 = some p ∧
      getIndividualSuccessor scenarioTree 0 = some s ∧
      traverseUsers left = init ++ [p] ∧ (∀ v ∈ traverseUsers left, v.user_id ≤ p.user_id) ∧
      traverseUsers right = s :: rest ∧ (∀ v ∈ traverseUsers right, s.user_id ≤ v.user_id) ∧
      p ∈ traverseUsers scenarioTree ∧ s ∈ traverseUsers scenarioTree ∧
      p.user_id < (UserNode.mk 10 "").user_id ∧ (UserNode.mk 10 "").user_id < s.user_id ∧
      (∀ v ∈ traverseUsers scenarioTree, v.user_id < (UserNode.mk 10 "").user_id →
        v.user_id ≤ p.user_id) ∧
      (∀ v ∈ traverseUsers scenarioTree, (UserNode.mk 10 "").user_id < v.user_id →
        s.user_id ≤ v.user_id) :=
  ⟨scenarioTree_wellFormed, scenarioTree_sorted, subtrees_self _, rfl, rfl, rfl, rfl,
    predecessor_successor_spec scenarioTree scenarioTree 0 (UserNode.mk 10 "")
      scenarioTree_wellFormed scenarioTree_sorted (subtrees_self _) rfl rfl⟩

/-- C32: for a well-formed user tree with strictly increasing traversal and an
id `k` that is not in it, `deleteIndividual(&root, k)` succeeds, leaves the
in-order sequence of the tree as it was and leaves a well-formed tree,
whatever borrows, merges or root collapse it performs on the way down. -/
theorem deleteIndividual_absent_keeps_sequence (root : Option BTreeNodeUser) (k : Int)
    (hwf : WellFormed root) (hsort : StrictSorted (traverseAndPrintUsers root))
    (habs : ¬ Present root k) :
    ∃ root', deleteIndividual root k = some (root', root.isSome) ∧ WellFormed root' ∧
      traverseAndPrintUsers root' = traverseAndPrintUsers root ∧
      StrictSorted (traverseAndPrintUsers root') := by
  obtain ⟨root', hdel, hwf', htr⟩ := deleteIndividual_spec root k hwf hsort
  have hne : ∀ u ∈ traverseAndPrintUsers root, u.user_id ≠ k :=
    fun u hu e => habs ⟨u, hu, e⟩
  have htr' : traverseAndPrintUsers root' = traverseAndPrintUsers root := by
    rw [htr]
    exact removeId_of_all_ne hne
  exact ⟨root', hdel, hwf', htr', htr' ▸ hsort⟩

/-- Witness for C32: the id 99 is not in the tree `[10, 20]` over `[5, 6, 7]`,
`[12, 17]`, `[30]`; the call borrows from the left sibling on the way down. -/
theorem deleteIndividual_absent_keeps_sequence_witness :
    WellFormed (some scenarioTree) ∧
    StrictSorted (traverseAndPrintUsers (some scenarioTree)) ∧
    ¬ Present (some scenarioTree) 99 ∧
    ∃ root', deleteIndividual (some scenarioTree) 99 =
        some (root', (some scenarioTree).isSome) ∧ WellFormed root' ∧
      traverseAndPrintUsers root' = traverseAndPrintUsers (some scenarioTree) ∧
      StrictSorted (traverseAndPrintUsers root') :=
  have habs : ¬ Present (some scenarioTree) 99 := by
    rintro ⟨u, hu, hk⟩
    simp [traverseAndPrintUsers, scenarioTree] at hu
    rcases hu with rfl | rfl | rfl | rfl | rfl | rfl | rfl | rfl <;> simp at hk
  ⟨scenarioTree_wellFormed, scenarioTree_sorted, habs,
    deleteIndividual_absent_keeps_sequence (some scenarioTree) 99 scenarioTree_wellFormed
      scenarioTree_sorted habs⟩

/-- The counted function computes the node of `deleteFromIndividualSubtree`. -/
theorem deleteFromIndividualSubtreeCalls_fst : ∀ (fuel : Nat) (node : BTreeNodeUser)
    (k : Int),
    (deleteFromIndividualSubtreeCalls fuel node k).map Prod.fst =
      deleteFromIndividualSubtree fuel node k := by
  intro fuel
  induction fuel with
  | zero => intro node k; rfl
  | succ f ih =>
    intro node k
    rw [deleteFromIndividualSubtreeCalls, deleteFromIndividualSubtree]
    simp only
    generalize find_key_index_individual node k = idx
    by_cases hfound : decide ((node.keys[idx]?).map UserNode.user_id = some k) = true
    · simp only [hfound, if_true]
      cases hleaf : node.is_leaf
      swap
      · simp
      simp only [Bool.false_eq_true, if_false]
      cases hc : node.children[idx]? with
      | none => rfl
      | some left =>
        simp only
        by_cases hl : left.num_keys ≥ M / 2
        · simp only [hl, if_true]
          cases hp : getIndividualPredecessor node idx with
          | none => rfl
          | some pred =>
            simp only
            rw [← ih left pred.user_id]
            cases deleteFromIndividualSubtreeCalls f left pred.user_id <;> rfl
        · simp only [hl, if_false]
          cases hc2 : node.children[idx + 1]? with
          | none => rfl
          | some right =>
            simp only
            by_cases hr : right.num_keys ≥ M / 2
            · simp only [hr, if_true]
              cases hp : getIndividualSuccessor node idx with
              | none => rfl
              | some succ =>
                simp only
                rw [← ih right succ.user_id]
                cases deleteFromIndividualSubtreeCalls f right succ.user_id <;> rfl
            · simp only [hr, if_false]
              cases hm : mergeIndividualNodes node idx with
              | none => rfl
              | some node1 =>
                simp only
                cases hc3 : node1.children[idx]? with
                | none => rfl
                | some c =>
                  simp only
                  rw [← ih c k]
                  cases deleteFromIndividualSubtreeCalls f c k <;> rfl
    · simp only [hfound, if_false]
      cases hleaf : node.is_leaf
      swap
      · simp
      simp only [Bool.false_eq_true, if_false]
      cases hc : node.children[idx]? with
      | none => rfl
      | some child =>
        simp only
        cases hfill : (if child.num_keys < M / 2 then fillIndividualChild node idx
            else some node) with
        | none => rfl
        | some node1 =>
          simp only
          generalize (if (decide (idx = node.num_keys) && decide (idx > node1.num_keys)) = true
            then idx - 1 else idx) = j
          cases hc3 : node1.children[j]? with
          | none => rfl
          | some c =>
            simp only
            rw [← ih c k]
            cases deleteFromIndividualSubtreeCalls f c k <;> rfl

/-- A call that returns with fuel `f` made fewer than `f` recursive calls, and
returns the same with more fuel. -/
theorem deleteFromIndividualSubtreeCalls_step : ∀ (f : Nat) (node : BTreeNodeUser) (k : Int)
    (r : BTreeNodeUser) (n : Nat),
    deleteFromIndividualSubtreeCalls f node k = some (r, n) →
    n < f ∧ deleteFromIndividualSubtreeCalls (f + 1) node k = some (r, n) := by
  intro f
  induction f with
  | zero => intro node k r n h; simp [deleteFromIndividualSubtreeCalls] at h
  | succ f ih =>
    intro node k r n h
    rw [deleteFromIndividualSubtreeCalls] at h ⊢
    simp only at h ⊢
    generalize find_key_index_individual node k = idx at h ⊢
    by_cases hfound : decide ((node.keys[idx]?).map UserNode.user_id = some k) = true
    · simp only [hfound, if_true] at h ⊢
      cases hleaf : node.is_leaf
      swap
      · simp only [hleaf, if_true, Option.some.injEq, Prod.mk.injEq] at h ⊢
        obtain ⟨h1, h2⟩ := h
        subst h1
        subst h2
        exact ⟨by omega, by simp⟩
      simp only [hleaf, Bool.false_eq_true, if_false] at h ⊢
      cases hc : node.children[idx]? with
      | none => simp [hc] at h
      | some left =>
        simp only [hc] at h ⊢
        by_cases hl : left.num_keys ≥ M / 2
        · simp only [hl, if_true] at h ⊢
          cases hp : getIndividualPredecessor node idx with
          | none => simp [hp] at h
          | some pred =>
            simp only [hp] at h ⊢
            cases hrec : deleteFromIndividualSubtreeCalls f left pred.user_id with
            | none => simp [hrec] at h
            | some p =>
              obtain ⟨p1, p2⟩ := p
              obtain ⟨hlt, hnext⟩ := ih _ _ _ _ hrec
              simp only [hrec, Option.some.injEq, Prod.mk.injEq] at h
              simp only [hnext, Option.some.injEq, Prod.mk.injEq]
              obtain ⟨h1, h2⟩ := h
              subst h1
              subst h2
              exact ⟨by omega, by simp⟩
        · simp only [hl, if_false] at h ⊢
          cases hc2 : node.children[idx + 1]? with
          | none => simp [hc2] at h
          | some right =>
            simp only [hc2] at h ⊢
            by_cases hr : right.num_keys ≥ M / 2
            · simp only [hr, if_true] at h ⊢
              cases hp : getIndividualSuccessor node idx with
              | none => simp [hp] at h
              | some succ =>
                simp only [hp] at h ⊢
                cases hrec : deleteFromIndividualSubtreeCalls f right succ.user_id with
                | none => simp [hrec] at h
                | some p =>
                  obtain ⟨p1, p2⟩ := p
                  obtain ⟨hlt, hnext⟩ := ih _ _ _ _ hrec
                  simp only [hrec, Option.some.injEq, Prod.mk.injEq] at h
                  simp only [hnext, Option.some.injEq, Prod.mk.injEq]
                  obtain ⟨h1, h2⟩ := h
                  subst h1
                  subst h2
                  exact ⟨by omega, by simp⟩
            · simp only [hr, if_false] at h ⊢
              cases hm : mergeIndividualNodes node idx with
              | none => simp [hm] at h
              | some node1 =>
                simp only [hm] at h ⊢
                cases hc3 : node1.children[idx]? with
                | none => simp [hc3] at h
                | some c =>
                  simp only [hc3] at h ⊢
                  cases hrec : deleteFromIndividualSubtreeCalls f c k with
                  | none => simp [hrec] at h
                  | some p =>
                    obtain ⟨p1, p2⟩ := p
                    obtain ⟨hlt, hnext⟩ := ih _ _ _ _ hrec
                    simp only [hrec, Option.some.injEq, Prod.mk.injEq] at h
                    simp only [hnext, Option.some.injEq, Prod.mk.injEq]
                    obtain ⟨h1, h2⟩ := h
                    subst h1
                    subst h2
                    exact ⟨by omega, by simp⟩
    · simp only [hfound, if_false] at h ⊢
      cases hleaf : node.is_leaf
      swap
      · simp only [hleaf, if_true, Bool.false_eq_true, if_false, Option.some.injEq,
          Prod.mk.injEq] at h ⊢
        obtain ⟨h1, h2⟩ := h
        exact ⟨by omega, h1, h2⟩
      simp only [hleaf, Bool.false_eq_true, if_false] at h ⊢
      cases hc : node.children[idx]? with
      | none => simp [hc] at h
      | some child =>
        simp only [hc] at h ⊢
        cases hfill : (if child.num_keys < M / 2 then fillIndividualChild node idx
            else some node) with
        | none => simp only [hfill] at h; simp at h
        | some node1 =>
          simp only [hfill] at h ⊢
          generalize (if (decide (idx = node.num_keys) && decide (idx > node1.num_keys)) = true
            then idx - 1 else idx) = j at h ⊢
          cases hc3 : node1.children[j]? with
          | none => simp [hc3] at h
          | some c =>
            simp only [hc3] at h ⊢
            cases hrec : deleteFromIndividualSubtreeCalls f c k with
            | none => simp [hrec] at h
            | some p =>
              obtain ⟨p1, p2⟩ := p
              obtain ⟨hlt, hnext⟩ := ih _ _ _ _ hrec
              simp only [hrec, Option.some.injEq, Prod.mk.injEq] at h
              simp only [hnext, Option.some.injEq, Prod.mk.injEq]
              obtain ⟨h1, h2⟩ := h
              subst h1
              subst h2
              exact ⟨by omega, by simp⟩

/-- A call that returns with fuel `f` returns the same with any fuel from `f` on. -/
theorem deleteFromIndividualSubtreeCalls_mono (f : Nat) (node : BTreeNodeUser) (k : Int)
    (r : BTreeNodeUser) (n : Nat)
    (h : deleteFromIndividualSubtreeCalls f node k = some (r, n)) :
    ∀ g, f ≤ g → deleteFromIndividualSubtreeCalls g node k = some (r, n) := by
  intro g hg
  induction g with
  | zero =>
    have : f = 0 := by omega
    subst this
    exact h
  | succ g ih =>
    by_cases hfg : f = g + 1
    · subst hfg
      exact h
    · exact (deleteFromIndividualSubtreeCalls_step g node k r n (ih (by omega))).2

/-- C33: on a subtree that satisfies the node invariants at height `h` (with a
top node of at least one key and strictly increasing traversal),
`deleteFromIndividualSubtree(node, user_id)` returns: the call makes `n ≤ h`
recursive calls, where `h + 1` is the number of levels of the subtree, and
the result and the count are the same for every bound of at least `h + 1` on
the depth of the recursion. -/
theorem deleteFromIndividualSubtree_terminates (h : Nat) (node : BTreeNodeUser) (k : Int)
    (hs : Shape h node) (hk : 1 ≤ node.num_keys) (hsort : StrictSorted (traverseUsers node)) :
    depth node = h + 1 ∧
    ∃ node' n, n ≤ h ∧ ∀ fuel, h + 1 ≤ fuel →
      deleteFromIndividualSubtreeCalls fuel node k = some (node', n) ∧
      deleteFromIndividualSubtree fuel node k = some node' := by
  refine ⟨depth_of_Shape h node hs, ?_⟩
  obtain ⟨node', hdel, -⟩ := deleteFromIndividualSubtree_spec h (h + 1) node k (by omega) hs hk hsort
  have hfst := deleteFromIndividualSubtreeCalls_fst (h + 1) node k
  rw [hdel] at hfst
  cases hc : deleteFromIndividualSubtreeCalls (h + 1) node k with
  | none => rw [hc] at hfst; simp at hfst
  | some p =>
    obtain ⟨r, n⟩ := p
    rw [hc] at hfst
    simp only [Option.map_some', Option.some.injEq] at hfst
    subst hfst
    refine ⟨r, n, ?_, ?_⟩
    · have := (deleteFromIndividualSubtreeCalls_step (h + 1) node k r n hc).1
      omega
    · intro fuel hfuel
      have hm := deleteFromIndividualSubtreeCalls_mono (h + 1) node k r n hc fuel hfuel
      refine ⟨hm, ?_⟩
      rw [← deleteFromIndividualSubtreeCalls_fst, hm]
      rfl

/-- Witness for C33: deleting 20 from the two-level tree `[10, 20]` over
`[5, 6, 7]`, `[12, 17]`, `[30]`. -/
theorem deleteFromIndividualSubtree_terminates_witness :
    Shape 1 scenarioTree ∧ 1 ≤ scenarioTree.num_keys ∧
    StrictSorted (traverseUsers scenarioTree) ∧
    (deleteFromIndividualSubtreeCalls 2 scenarioTree 20).map Prod.snd = some 1 ∧
    (depth scenarioTree = 1 + 1 ∧
    ∃ node' n, n ≤ 1 ∧ ∀ fuel, 1 + 1 ≤ fuel →
      deleteFromIndividualSubtreeCalls fuel scenarioTree 20 = some (node', n) ∧
      deleteFromIndividualSubtree fuel scenarioTree 20 = some node') :=
  have hs : Shape 1 scenarioTree := by
    obtain ⟨_, _, h, hh⟩ := scenarioTree_wellFormed
    have hd := depth_of_Shape h scenarioTree hh
    have : depth scenarioTree = 2 := by decide
    have h1 : h = 1 := by omega
    exact h1 ▸ hh
  ⟨hs, by decide, scenarioTree_sorted, by decide,
    deleteFromIndividualSubtree_terminates 1 scenarioTree 20 hs (by decide)
      scenarioTree_sorted⟩

/-! ### The expense tree under one user against the user tree -/

@[simp] theorem expense_keys_mk (ks : List ExpenseNode) (cs : List BTreeNodeExpense) (l : Bool) :
    (BTreeNodeExpense.mk ks cs l).keys = ks := rfl
@[simp] theorem expense_children_mk (ks : List ExpenseNode) (cs : List BTreeNodeExpense)
    (l : Bool) : (BTreeNodeExpense.mk ks cs l).children = cs := rfl
@[simp] theorem expense_is_leaf_mk (ks : List ExpenseNode) (cs : List BTreeNodeExpense)
    (l : Bool) : (BTreeNodeExpense.mk ks cs l).is_leaf = l := rfl
@[simp] theorem expense_num_keys_mk (ks : List ExpenseNode) (cs : List BTreeNodeExpense)
    (l : Bool) : (BTreeNodeExpense.mk ks cs l).num_keys = ks.length := rfl

theorem userAsExpenseList_eq (uid : Int) (cs : List BTreeNodeUser) :
    userAsExpenseList uid cs = cs.map (userAsExpense uid) := by
  induction cs with
  | nil => rw [userAsExpenseList]; rfl
  | cons c cs ih => rw [userAsExpenseList, ih]; rfl

theorem userAsExpense_mk (uid : Int) (ks : List UserNode) (cs : List BTreeNodeUser) (l : Bool) :
    userAsExpense uid (.mk ks cs l) =
      .mk (ks.map (fun u => ExpenseNode.mk u.user_id uid)) (cs.map (userAsExpense uid)) l := by
  rw [userAsExpense, userAsExpenseList_eq]

theorem userAsExpense_num_keys (uid : Int) (t : BTreeNodeUser) :
    (userAsExpense uid t).num_keys = t.num_keys := by
  obtain ⟨ks, cs, l⟩ := t
  rw [userAsExpense_mk]
  simp

theorem depthExpenseList_eq (cs : List BTreeNodeExpense) (d : Nat) (hne : cs ≠ [])
    (h : ∀ c ∈ cs, depthExpense c = d) : depthExpenseList cs = d := by
  induction cs with
  | nil => exact absurd rfl hne
  | cons c cs ih =>
    rw [depthExpenseList]
    have hc := h c (List.mem_cons_self _ _)
    by_cases hcs : cs = []
    · subst hcs
      simp [depthExpenseList, hc]
    · rw [ih hcs (fun x hx => h x (List.mem_cons_of_mem _ hx)), hc]
      simp

theorem depthExpense_userAsExpense (uid : Int) (h : Nat) :
    ∀ t, Shape h t → depthExpense (userAsExpense uid t) = h + 1 := by
  induction h with
  | zero =>
    intro t ht
    obtain ⟨ks, cs, l⟩ := t
    obtain ⟨rfl, rfl⟩ := Shape_zero_mk ht
    rw [userAsExpense_mk, depthExpense]
    simp [depthExpenseList]
  | succ h ih =>
    intro t ht
    obtain ⟨ks, cs, l⟩ := t
    obtain ⟨rfl, hlen, hall⟩ := Shape_succ_mk ht
    rw [userAsExpense_mk, depthExpense]
    rw [depthExpenseList_eq _ (h + 1)]
    · intro h0
      have hcs : cs = [] := by simpa using h0
      subst hcs
      simp at hlen
    · intro c hc
      simp only [List.mem_map] at hc
      obtain ⟨c0, hc0, rfl⟩ := hc
      exact ih c0 (hall c0 hc0).2.2

theorem scanDownExpense_userAsExpense (uid : Int) (ks : List UserNode) (id : Int) :
    ∀ n, scanDownExpense (ks.map (fun u => ExpenseNode.mk u.user_id uid))
        (ExpenseNode.mk id uid) n = scanDown ks id n := by
  intro n
  induction n with
  | zero => rfl
  | succ i ih =>
    rw [scanDownExpense, scanDown]
    simp only [List.getElem?_map]
    cases hk : ks[i]? with
    | none => rfl
    | some k =>
      simp only [Option.map_some', expenseGt, gt_iff_lt, lt_self_iff_false, decide_False,
        decide_True, Bool.true_and, Bool.false_or, decide_eq_true_eq, ih]

theorem splitExpenseChild_userAsExpense (uid : Int) (p : BTreeNodeUser) (i : Nat) :
    splitExpenseChild (userAsExpense uid p) i = (splitUserChild p i).map (userAsExpense uid) := by
  obtain ⟨ks, cs, l⟩ := p
  rw [userAsExpense_mk, splitExpenseChild, splitUserChild]
  simp only [expense_children_mk, expense_keys_mk, expense_is_leaf_mk, children_mk, keys_mk,
    is_leaf_mk, List.getElem?_map]
  cases hc : cs[i]? with
  | none => rfl
  | some c =>
    obtain ⟨cks, ccs, cl⟩ := c
    simp only [Option.map_some', userAsExpense_mk, expense_children_mk, expense_keys_mk,
      expense_is_leaf_mk, children_mk, keys_mk, is_leaf_mk, List.getElem?_map]
    cases hm : cks[M / 2 - 1]? with
    | none => rfl
    | some mid =>
      simp only [Option.map_some', userAsExpense_mk, List.map_append, List.map_cons,
        List.map_take, List.map_drop, Option.some.injEq, BTreeNodeExpense.mk.injEq,
        true_and, and_true]
      cases cl <;> simp

theorem insertExpenseNonFull_userAsExpense (uid : Int) : ∀ (fuel : Nat) (nu : BTreeNodeUser)
    (u : UserNode),
    insertExpenseNonFull fuel (userAsExpense uid nu) (ExpenseNode.mk u.user_id uid) =
      (insertUserNonFull fuel nu u).map (userAsExpense uid) := by
  intro fuel
  induction fuel with
  | zero => intro nu u; rfl
  | succ n ih =>
    intro nu u
    have hsplit := splitExpenseChild_userAsExpense uid nu
    obtain ⟨ks, cs, l⟩ := nu
    rw [userAsExpense_mk] at hsplit ⊢
    rw [insertExpenseNonFull, insertUserNonFull]
    simp only [expense_children_mk, expense_keys_mk, expense_is_leaf_mk, expense_num_keys_mk,
      children_mk, keys_mk, is_leaf_mk, num_keys_mk, List.length_map,
      scanDownExpense_userAsExpense]
    generalize scanDown ks u.user_id ks.length = i at hsplit ⊢
    cases l with
    | true =>
      simp [userAsExpense_mk, List.map_take, List.map_drop]
    | false =>
      simp only [Bool.false_eq_true, if_false, List.getElem?_map]
      cases hc : cs[i]? with
      | none => rfl
      | some c =>
        simp only [Option.map_some', userAsExpense_num_keys]
        by_cases hfull : c.num_keys = M - 1
        · simp only [hfull, if_true]
          rw [hsplit i]
          cases hsu : splitUserChild (.mk ks cs false) i with
          | none => rfl
          | some n1 =>
            obtain ⟨k1, c1, l1⟩ := n1
            simp only [Option.map_some', userAsExpense_mk, expense_children_mk, expense_keys_mk,
              expense_is_leaf_mk, children_mk, keys_mk, is_leaf_mk, List.getElem?_map]
            cases hk : k1[i]? with
            | none => rfl
            | some ki =>
              simp only [Option.map_some', expenseLt, gt_iff_lt, lt_self_iff_false,
                decide_False, decide_True, Bool.true_and, Bool.false_or, decide_eq_true_eq]
              generalize (if ki.user_id < u.user_id then i + 1 else i) = j
              cases hcj : c1[j]? with
              | none => rfl
              | some cj =>
                simp only [Option.map_some', ih]
                cases insertUserNonFull n cj u with
                | none => rfl
                | some r => simp [userAsExpense_mk, List.map_set]
        · simp only [hfull, if_false, ih]
          cases insertUserNonFull n c u with
          | none => rfl
          | some r => simp [userAsExpense_mk, List.map_set]

/-- A call of `insertUserNonFull` that returns with fuel `f` returns the same
with more fuel. -/
theorem insertUserNonFull_step : ∀ (f : Nat) (node : BTreeNodeUser) (u : UserNode)
    (r : BTreeNodeUser), insertUserNonFull f node u = some r →
    insertUserNonFull (f + 1) node u = some r := by
  intro f
  induction f with
  | zero => intro node u r h; simp [insertUserNonFull] at h
  | succ f ih =>
    intro node u r h
    rw [insertUserNonFull] at h ⊢
    simp only at h ⊢
    generalize scanDown node.keys u.user_id node.num_keys = i at h ⊢
    cases hleaf : node.is_leaf
    swap
    · simp only [hleaf, if_true] at h ⊢
      exact h
    simp only [hleaf, Bool.false_eq_true, if_false] at h ⊢
    cases hc : node.children[i]? with
    | none => simp [hc] at h
    | some child =>
      simp only [hc] at h ⊢
      by_cases hfull : child.num_keys = M - 1
      · simp only [hfull, if_true] at h ⊢
        cases hs : splitUserChild node i with
        | none => simp [hs] at h
        | some node1 =>
          simp only [hs] at h ⊢
          cases hk : node1.keys[i]? with
          | none => simp [hk] at h
          | some ki =>
            simp only [hk] at h ⊢
            generalize (if u.user_id > ki.user_id then i + 1 else i) = j at h ⊢
            cases hcj : node1.children[j]? with
            | none => simp [hcj] at h
            | some c =>
              simp only [hcj] at h ⊢
              cases hrec : insertUserNonFull f c u with
              | none => simp [hrec] at h
              | some c1 =>
                rw [ih _ _ _ hrec]
                simpa [hrec] using h
      · simp only [hfull, if_false] at h ⊢
        cases hrec : insertUserNonFull f child u with
        | none => simp [hrec] at h
        | some c1 =>
          rw [ih _ _ _ hrec]
          simpa [hrec] using h

theorem insertUserNonFull_mono (f : Nat) (node : BTreeNodeUser) (u : UserNode)
    (r : BTreeNodeUser) (h : insertUserNonFull f node u = some r) :
    ∀ g, f ≤ g → insertUserNonFull g node u = some r := by
  intro g hg
  induction g with
  | zero =>
    have : f = 0 := by omega
    subst this
    exact h
  | succ g ih =>
    by_cases hfg : f = g + 1
    · subst hfg
      exact h
    · exact insertUserNonFull_step g node u r (ih (by omega))

/-- One insert of a fresh id: `insertExpense` on the image of a well-formed
user tree does what `insertUser` does on the user tree. -/
theorem insertExpense_userAsExpense (uid : Int) (rU : Option BTreeNodeUser) (u : UserNode)
    (hwf : WellFormed rU)
    (hnew : ∀ v ∈ traverseAndPrintUsers rU, v.user_id ≠ u.user_id) :
    insertExpense (rU.map (userAsExpense uid)) (ExpenseNode.mk u.user_id uid) =
      (insertUser rU u).map (Option.map (userAsExpense uid)) := by
  cases rU with
  | none => simp [insertExpense, insertUser, userAsExpense_mk]
  | some nu =>
    obtain ⟨_, _, h, hs⟩ := hwf
    have hdu := depth_of_Shape h nu hs
    have hde := depthExpense_userAsExpense uid h nu hs
    simp only [Option.map_some']
    by_cases hfull : nu.num_keys = M - 1
    · obtain ⟨cL, m, cR, hsplit, hsL, hsR, hnL, hnR, htr⟩ :=
        splitUserChild_spec h [] [] [] [] nu false rfl hs (by simpa using hfull)
      simp only [List.nil_append, List.length_nil] at hsplit
      have hs1 : Shape (h + 1) (.mk [m] [cL, cR] false) := by
        apply Shape_mk_succ (by simp)
        intro x hx
        simp only [List.mem_cons, List.mem_singleton, List.not_mem_nil, or_false] at hx
        rcases hx with rfl | rfl
        · exact ⟨by omega, by omega, hsL⟩
        · exact ⟨by omega, by omega, hsR⟩
      have hd1 := depth_of_Shape (h + 1) _ hs1
      have hm : m ∈ traverseUsers nu := by rw [htr]; simp
      have hne : m.user_id ≠ u.user_id := hnew m hm
      have hsE : splitExpenseChild (.mk [] [userAsExpense uid nu] false) 0 =
          some (.mk [ExpenseNode.mk m.user_id uid]
            [userAsExpense uid cL, userAsExpense uid cR] false) := by
        have := splitExpenseChild_userAsExpense uid (.mk [] [nu] false) 0
        rw [hsplit, userAsExpense_mk] at this
        simpa [userAsExpense_mk] using this
      have hLn : ¬ cL.num_keys = M - 1 := by rw [hnL]; decide
      have hRn : ¬ cR.num_keys = M - 1 := by rw [hnR]; decide
      rw [insertExpense, insertUser]
      simp only [userAsExpense_num_keys, hfull, if_true, hsplit, hsE, hd1, expense_keys_mk,
        expense_children_mk, expense_is_leaf_mk, List.getElem?_cons_zero]
      rw [insertUserNonFull]
      simp only [keys_mk, num_keys_mk, is_leaf_mk, children_mk, List.length_singleton,
        Bool.false_eq_true, if_false]
      rcases lt_or_gt_of_ne hne with hlt | hgt
      · have hnl : ¬ u.user_id < m.user_id := by omega
        obtain ⟨c1, A, B, hins, -⟩ := insertUserNonFull_spec h (h + 1) cR u (by omega) hsR
          (by omega)
        have hins2 := insertUserNonFull_mono (h + 1) cR u c1 hins (h + 1 + 1) (by omega)
        have hsc : scanDown [m] u.user_id 1 = 1 := by simp [scanDown, hnl]
        simp only [hsc, hlt, if_true, List.getElem?_cons_succ, List.getElem?_cons_zero, hRn,
          if_false, hins2, depthExpense_userAsExpense uid h cR hsR,
          insertExpenseNonFull_userAsExpense, hins, Option.map_some']
        simp [userAsExpense_mk]
      · have hnl : ¬ m.user_id < u.user_id := by omega
        obtain ⟨c1, A, B, hins, -⟩ := insertUserNonFull_spec h (h + 1) cL u (by omega) hsL
          (by omega)
        have hins2 := insertUserNonFull_mono (h + 1) cL u c1 hins (h + 1 + 1) (by omega)
        have hsc : scanDown [m] u.user_id 1 = 0 := by simp [scanDown, hgt]
        simp only [hsc, hnl, if_false, List.getElem?_cons_zero, hLn, hins2,
          depthExpense_userAsExpense uid h cL hsL, insertExpenseNonFull_userAsExpense, hins,
          Option.map_some']
        simp [userAsExpense_mk]
    · rw [insertExpense, insertUser]
      simp only [userAsExpense_num_keys, hfull, if_false, hde, hdu,
        insertExpenseNonFull_userAsExpense]
      cases insertUserNonFull (h + 1 + 1) nu u <;> rfl

/-- A sequence of inserts of pairwise distinct fresh ids keeps the expense
tree the image of the user tree. -/
theorem insertExpenses_userAsExpense (uid : Int) : ∀ (us : List UserNode)
    (rU : Option BTreeNodeUser), WellFormed rU → StrictSorted (traverseAndPrintUsers rU) →
    (∀ v ∈ traverseAndPrintUsers rU, v.user_id ∉ us.map UserNode.user_id) →
    (us.map UserNode.user_id).Nodup →
    ∃ rU', runUserOpsFrom rU (us.map UserOp.insert) = some rU' ∧
      insertExpenses (rU.map (userAsExpense uid))
        (us.map (fun u => ExpenseNode.mk u.user_id uid)) =
        some (rU'.map (userAsExpense uid)) := by
  intro us
  induction us with
  | nil => intro rU _ _ _ _; exact ⟨rU, rfl, rfl⟩
  | cons u us ih =>
    intro rU hwf hsort hfresh hnd
    have hnd' := List.nodup_cons.1 hnd
    have hnew : ∀ v ∈ traverseAndPrintUsers rU, v.user_id ≠ u.user_id := by
      intro v hv e
      exact hfresh v hv (by simp [e])
    obtain ⟨t, A, B, hins, hwf', hA, hB, _, _, hs'⟩ := insertUser_sorted rU u hwf hsort hnew
    have hsim := insertExpense_userAsExpense uid rU u hwf hnew
    rw [hins] at hsim
    have hfresh' : ∀ v ∈ traverseAndPrintUsers (some t),
        v.user_id ∉ us.map UserNode.user_id := by
      intro v hv
      simp only [traverseAndPrintUsers, hB, List.mem_append, List.mem_cons] at hv
      rcases hv with hv | rfl | hv
      · intro hmem
        exact hfresh v (by rw [hA]; simp [hv]) (by simp [hmem])
      · exact hnd'.1
      · intro hmem
        exact hfresh v (by rw [hA]; simp [hv]) (by simp [hmem])
    obtain ⟨rU', hrun, hexp⟩ := ih (some t) hwf' hs' hfresh' hnd'.2
    refine ⟨rU', ?_, ?_⟩
    · simp only [List.map_cons, runUserOpsFrom, applyUserOp, hins, hrun]
    · simp only [List.map_cons, insertExpenses, hsim, Option.map_some']
      exact hexp

/-- C34 (counterexample): for the expense ids 1, 2, 3, 2 under user 5 the two
engines give different trees. Both split the full root `[1, 2, 3]` into `[2]`
over `[1]` and `[3]`; `insertUser` re-enters at the new root and puts the
second 2 into the right leaf, `insertExpense` picks the child by
`new_root->keys[0]->expense_id < expense->expense_id` and puts it into the
left leaf. -/
theorem insertExpense_differs_on_repeated_id :
    ∃ rE rU,
      insertExpenses none [⟨1, 5⟩, ⟨2, 5⟩, ⟨3, 5⟩, ⟨2, 5⟩] = some (some rE) ∧
      runUserOps [UserOp.insert ⟨1, ""⟩, UserOp.insert ⟨2, ""⟩, UserOp.insert ⟨3, ""⟩,
        UserOp.insert ⟨2, ""⟩] = some (some rU) ∧
      rE = .mk [⟨2, 5⟩] [.mk [⟨1, 5⟩, ⟨2, 5⟩] [] true, .mk [⟨3, 5⟩] [] true] false ∧
      userAsExpense 5 rU =
        .mk [⟨2, 5⟩] [.mk [⟨1, 5⟩] [] true, .mk [⟨2, 5⟩, ⟨3, 5⟩] [] true] false ∧
      rE ≠ userAsExpense 5 rU := by
  refine ⟨.mk [⟨2, 5⟩] [.mk [⟨1, 5⟩, ⟨2, 5⟩] [] true, .mk [⟨3, 5⟩] [] true] false,
    .mk [⟨2, ""⟩] [.mk [⟨1, ""⟩] [] true, .mk [⟨2, ""⟩, ⟨3, ""⟩] [] true] false,
    rfl, rfl, rfl, rfl, ?_⟩
  intro h
  simp [userAsExpense_mk] at h

/-- C34 (amended): for every sequence of pairwise distinct expense ids,
inserting them with `insertExpense` under one `user_id` into an empty expense
tree and inserting the same integers with `insertUser` into an empty user
tree succeeds on both sides, and the expense tree has the shape of the user
tree with the same keys at the same positions. -/
theorem insertExpense_same_tree_as_insertUser (uid : Int) (us : List UserNode)
    (hnd : (us.map UserNode.user_id).Nodup) :
    ∃ rU, runUserOps (us.map UserOp.insert) = some rU ∧
      insertExpenses none (us.map (fun u => ExpenseNode.mk u.user_id uid)) =
        some (rU.map (userAsExpense uid)) :=
  insertExpenses_userAsExpense uid us none trivial
    (by simp [traverseAndPrintUsers, StrictSorted]) (by simp [traverseAndPrintUsers]) hnd

/-- Witness for C34 (amended): the expense ids 1, 2, 3, 4 under user 5. -/
theorem insertExpense_same_tree_as_insertUser_witness :
    ([UserNode.mk 1 "", ⟨2, ""⟩, ⟨3, ""⟩, ⟨4, ""⟩].map UserNode.user_id).Nodup ∧
    insertExpenses none [⟨1, 5⟩, ⟨2, 5⟩, ⟨3, 5⟩, ⟨4, 5⟩] =
      some (some (.mk [⟨2, 5⟩] [.mk [⟨1, 5⟩] [] true, .mk [⟨3, 5⟩, ⟨4, 5⟩] [] true] false)) ∧
    ∃ rU, runUserOps ([UserNode.mk 1 "", ⟨2, ""⟩, ⟨3, ""⟩, ⟨4, ""⟩].map UserOp.insert) =
        some rU ∧
      insertExpenses none
        ([UserNode.mk 1 "", ⟨2, ""⟩, ⟨3, ""⟩, ⟨4, ""⟩].map
          (fun u => ExpenseNode.mk u.user_id 5)) = some (rU.map (userAsExpense 5)) :=
  ⟨by decide, rfl, insertExpense_same_tree_as_insertUser 5 _ (by decide)⟩

/-- C35 (the code at the failing input): after `addUser(1)`, `addExpense(1, 10)`
and `deleteExpense(&expense_root, 1, 10)` the expense list of user 1 is empty
and the expense tree is empty, but `expense_count` of user 1 is still 1. -/
theorem expense_count_not_decremented :
    (runCountedOps ⟨⟨none, none, []⟩, []⟩ [.addUser 1 "a", .addExpense 1 10,
        .deleteExpense 1 10]).map
        (fun c => (c.countOf 1, (c.domain.expensesOf 1).length,
          traverseAndPrintExpenses c.domain.expense_root)) =
      some (1, 0, []) := by
  decide

/-! ### `joinFamily` -/

/-- The write of `joinFamily` to the family records keeps their ids. -/
theorem joinFamily_map_ids (families : List FamilyNode) (fid : Int) (user : UserNode) :
    (families.map (fun g =>
        if g.family_id = fid then FamilyNode.mk g.family_id (g.members ++ [user]) else g)).map
        FamilyNode.family_id = families.map FamilyNode.family_id := by
  rw [List.map_map]
  apply List.map_congr_left
  intro g _
  simp only [Function.comp]
  split <;> rfl

/-- Two records of a store with pairwise distinct ids that carry the same id
are the same record. -/
theorem family_eq_of_id {families : List FamilyNode}
    (hnd : (families.map FamilyNode.family_id).Nodup) {f g : FamilyNode}
    (hf : f ∈ families) (hg : g ∈ families) (h : f.family_id = g.family_id) : f = g :=
  List.inj_on_of_nodup_map hnd hf hg h

/-- The record of the family after the write of `joinFamily`. -/
theorem joinFamily_find (families : List FamilyNode) (record : FamilyNode) (user : UserNode)
    (h : families.find? (fun g => decide (g.family_id = record.family_id)) = some record) :
    (families.map (fun g =>
        if g.family_id = record.family_id then FamilyNode.mk g.family_id (g.members ++ [user])
        else g)).find? (fun g => decide (g.family_id = record.family_id)) =
      some (FamilyNode.mk record.family_id (record.members ++ [user])) := by
  induction families with
  | nil => simp at h
  | cons g gs ih =>
    by_cases hg : g.family_id = record.family_id
    · simp only [List.find?_cons, hg, decide_True] at h
      simp only [Option.some.injEq] at h
      subst h
      simp [List.find?_cons]
    · simp only [List.find?_cons, hg, decide_False] at h
      simp [List.find?_cons, hg, ih h]

theorem lookup_cons_ne {w k : Int} (b : Int) (es : List (Int × Int)) (h : w ≠ k) :
    List.lookup w ((k, b) :: es) = List.lookup w es := by
  have hb : (w == k) = false := by simpa using h
  rw [List.lookup_cons, hb]

theorem lookup_cons_self (k b : Int) (es : List (Int × Int)) :
    List.lookup k ((k, b) :: es) = some b := by
  have hb : (k == k) = true := by simp
  rw [List.lookup_cons, hb]

/-- One call of `joinFamily` from a consistent state: the call returns, the
state stays consistent, and the flag and the new state are as described. -/
theorem joinFamily_step (user_root : Option BTreeNodeUser)
    (family_root : Option BTreeNodeFamily) (heap : UserHeap) (user_id family_id : Int)
    (hok : MembershipOk heap) (hcov : StoreCovers family_root heap)
    (hcap : WithinCapacity heap) :
    ∃ heap' done, joinFamily user_root family_root heap user_id family_id = some (heap', done) ∧
      MembershipOk heap' ∧ StoreCovers family_root heap' ∧ WithinCapacity heap' ∧
      (done = true ↔ ∃ user family record, searchUser user_root user_id = some user ∧
        searchFamily family_root family_id = some family ∧
        heap.family_of.lookup user.user_id = none ∧
        heap.families.find? (fun g => decide (g.family_id = family.family_id)) = some record ∧
        record.members.length < 4) ∧
      (done = true → ∃ user record, searchUser user_root user_id = some user ∧
        heap.families.find? (fun g => decide (g.family_id = record.family_id)) = some record ∧
        heap'.families.find? (fun g => decide (g.family_id = record.family_id)) =
          some (FamilyNode.mk record.family_id (record.members ++ [user])) ∧
        heap'.family_of.lookup user.user_id = some record.family_id ∧
        (∀ w, w ≠ user.user_id → heap'.family_of.lookup w = heap.family_of.lookup w) ∧
        (∀ g, g.family_id ≠ record.family_id → (g ∈ heap'.families ↔ g ∈ heap.families))) ∧
      (done = false → heap' = heap) := by
  unfold joinFamily
  cases hu : searchUser user_root user_id with
  | none =>
    refine ⟨heap, false, rfl, hok, hcov, hcap, ?_, by simp, fun _ => rfl⟩
    simp
  | some user =>
    cases hf : searchFamily family_root family_id with
    | none =>
      refine ⟨heap, false, rfl, hok, hcov, hcap, ?_, by simp, fun _ => rfl⟩
      simp
    | some family =>
      simp only
      cases hl : heap.family_of.lookup user.user_id with
      | some fid =>
        refine ⟨heap, false, by simp, hok, hcov, hcap, ?_, by simp, fun _ => rfl⟩
        refine ⟨fun h => absurd h (by simp), ?_⟩
        rintro ⟨u, f, r, hu', -, hn, -⟩
        simp only [Option.some.injEq] at hu'
        subst hu'
        rw [hl] at hn
        exact absurd hn (by simp)
      | none =>
        simp only [Option.isSome_none, Bool.false_eq_true, if_false]
        obtain ⟨g0, hg0, hg0id⟩ := hcov family_id family hf
        cases hfind : heap.families.find? (fun g => decide (g.family_id = family.family_id)) with
        | none =>
          exfalso
          have := List.find?_eq_none.1 hfind g0 hg0
          simp [hg0id] at this
        | some record =>
          simp only
          have hrid : record.family_id = family.family_id := by
            have := List.find?_some hfind
            simpa using this
          have hrmem : record ∈ heap.families := List.mem_of_find?_eq_some hfind
          by_cases hfull : record.members.length ≥ MAX_FAMILY_MEMBERS
          · simp only [hfull, if_true]
            refine ⟨heap, false, rfl, hok, hcov, hcap, ?_, by simp, fun _ => rfl⟩
            simp only [Bool.false_eq_true, Option.some.injEq, false_iff, not_exists, not_and]
            intro u f r hu' hf' _ hr'
            subst hf'
            rw [hfind] at hr'
            simp only [Option.some.injEq] at hr'
            subst hr'
            simp only [MAX_FAMILY_MEMBERS] at hfull
            omega
          · simp only [hfull, if_false]
            have hlt : record.members.length < 4 := by
              simp only [MAX_FAMILY_MEMBERS] at hfull
              omega
            obtain ⟨hnd, hlink, hmnd⟩ := hok
            have hfind' : heap.families.find?
                (fun g => decide (g.family_id = record.family_id)) = some record := by
              rw [hrid]; exact hfind
            have hfresh : ∀ f ∈ heap.families, ∀ v ∈ f.members, v.user_id ≠ user.user_id := by
              intro f hf' v hv he
              have := hlink f hf' v hv
              rw [he, hl] at this
              simp at this
            refine ⟨_, true, rfl, ⟨?_, ?_, ?_⟩, ?_, ?_, ?_, ?_, by simp⟩
            · simp only
              rw [joinFamily_map_ids]
              exact hnd
            · intro f hf' v hv
              simp only [List.mem_map] at hf'
              obtain ⟨g, hg, rfl⟩ := hf'
              by_cases hgid : g.family_id = record.family_id
              · simp only [hgid, if_true] at hv ⊢
                simp only [List.mem_append, List.mem_singleton] at hv
                rcases hv with hv | rfl
                · have hne := hfresh g hg v hv
                  rw [lookup_cons_ne _ _ hne, ← hgid]
                  exact hlink g hg v hv
                · rw [lookup_cons_self]
              · simp only [hgid, if_false] at hv ⊢
                have hne := hfresh g hg v hv
                rw [lookup_cons_ne _ _ hne]
                exact hlink g hg v hv
            · intro f hf'
              simp only [List.mem_map] at hf'
              obtain ⟨g, hg, rfl⟩ := hf'
              by_cases hgid : g.family_id = record.family_id
              · simp only [hgid, if_true, List.map_append, List.map_cons, List.map_nil]
                rw [List.nodup_append]
                refine ⟨hmnd g hg, by simp, ?_⟩
                intro a ha hb
                simp only [List.mem_singleton] at hb
                subst hb
                simp only [List.mem_map] at ha
                obtain ⟨v, hv, hva⟩ := ha
                exact hfresh g hg v hv hva
              · simp only [hgid, if_false]
                exact hmnd g hg
            · intro fid fam hs
              obtain ⟨g, hg, hgid⟩ := hcov fid fam hs
              have : g.family_id ∈ (heap.families.map (fun g =>
                  if g.family_id = record.family_id then
                    FamilyNode.mk g.family_id (g.members ++ [user])
                  else g)).map FamilyNode.family_id := by
                rw [joinFamily_map_ids]
                exact List.mem_map_of_mem _ hg
              obtain ⟨g', hg', hg'id⟩ := List.mem_map.1 this
              exact ⟨g', hg', by rw [hg'id, hgid]⟩
            · intro f hf'
              simp only [List.mem_map] at hf'
              obtain ⟨g, hg, rfl⟩ := hf'
              by_cases hgid : g.family_id = record.family_id
              · have : g = record := family_eq_of_id hnd hg hrmem hgid
                subst this
                simp only [if_true, List.length_append, List.length_singleton,
                  MAX_FAMILY_MEMBERS]
                omega
              · simp only [hgid, if_false]
                exact hcap g hg
            · simp only [true_iff]
              exact ⟨user, family, record, rfl, rfl, hl, hfind, hlt⟩
            · intro _
              refine ⟨user, record, rfl, hfind', joinFamily_find _ _ _ hfind', ?_, ?_, ?_⟩
              · exact lookup_cons_self _ _ _
              · intro w hw
                exact lookup_cons_ne _ _ hw
              · intro g hgid
                simp only [List.mem_map]
                constructor
                · rintro ⟨g', hg', rfl⟩
                  by_cases h' : g'.family_id = record.family_id
                  · simp only [h', if_true] at hgid
                    exact absurd rfl hgid
                  · simp only [h', if_false]
                    exact hg'
                · intro hg
                  exact ⟨g, hg, by simp [hgid]⟩

/-- In a consistent membership state, no user is in two member lists. -/
theorem MembershipOk_no_two_lists {heap : UserHeap} (hok : MembershipOk heap) :
    ∀ f ∈ heap.families, ∀ g ∈ heap.families, ∀ u ∈ f.members, ∀ v ∈ g.members,
      u.user_id = v.user_id → f = g := by
  intro f hf g hg u hu v hv he
  obtain ⟨hnd, hlink, -⟩ := hok
  have h1 := hlink f hf u hu
  have h2 := hlink g hg v hv
  rw [he, h2] at h1
  exact family_eq_of_id hnd hf hg (by simpa using h1.symm)

/-- Any sequence of `joinFamily` calls from a consistent state runs through
and ends in a consistent state. -/
theorem joinFamilies_inv (user_root : Option BTreeNodeUser)
    (family_root : Option BTreeNodeFamily) (calls : List (Int × Int)) :
    ∀ heap, MembershipOk heap → StoreCovers family_root heap → WithinCapacity heap →
    ∃ heap', joinFamilies user_root family_root heap calls = some heap' ∧
      MembershipOk heap' ∧ StoreCovers family_root heap' ∧ WithinCapacity heap' := by
  induction calls with
  | nil => intro heap hok hcov hcap; exact ⟨heap, rfl, hok, hcov, hcap⟩
  | cons c calls ih =>
    intro heap hok hcov hcap
    obtain ⟨user_id, family_id⟩ := c
    obtain ⟨heap1, done, h1, hok1, hcov1, hcap1, -⟩ :=
      joinFamily_step user_root family_root heap user_id family_id hok hcov hcap
    obtain ⟨heap', h', hr⟩ := ih heap1 hok1 hcov1 hcap1
    refine ⟨heap', ?_, hr⟩
    rw [joinFamilies, h1]
    exact h'

/-- C36: in a consistent membership state whose member lists hold at most
`MAX_FAMILY_MEMBERS` records, `joinFamily(user_id, family_id)` returns `true`
exactly when `searchUser` and `searchFamily` both find a record, the user's
`family` is `NULL` and the family has fewer than 4 members; on `true` the
user is the new last member of that family (so `member_count` is one more),
the user's `family` is that family and nothing else changes; on `false`
nothing changes. After any sequence of `joinFamily` calls the state is
consistent again: no member list holds more than `MAX_FAMILY_MEMBERS = 4`
records, no user is in the member lists of two families, and no user is
twice in one member list. -/
theorem joinFamily_membership (user_root : Option BTreeNodeUser)
    (family_root : Option BTreeNodeFamily) (heap : UserHeap)
    (hok : MembershipOk heap) (hcov : StoreCovers family_root heap)
    (hcap : WithinCapacity heap) :
    (∀ user_id family_id, ∃ heap' done,
      joinFamily user_root family_root heap user_id family_id = some (heap', done) ∧
      (done = true ↔ ∃ user family record, searchUser user_root user_id = some user ∧
        searchFamily family_root family_id = some family ∧
        heap.family_of.lookup user.user_id = none ∧
        heap.families.find? (fun g => decide (g.family_id = family.family_id)) = some record ∧
        record.members.length < 4) ∧
      (done = true → ∃ user record, searchUser user_root user_id = some user ∧
        heap.families.find? (fun g => decide (g.family_id = record.family_id)) = some record ∧
        heap'.families.find? (fun g => decide (g.family_id = record.family_id)) =
          some (FamilyNode.mk record.family_id (record.members ++ [user])) ∧
        heap'.family_of.lookup user.user_id = some record.family_id ∧
        (∀ w, w ≠ user.user_id → heap'.family_of.lookup w = heap.family_of.lookup w) ∧
        (∀ g, g.family_id ≠ record.family_id → (g ∈ heap'.families ↔ g ∈ heap.families))) ∧
      (done = false → heap' = heap)) ∧
    (∀ calls, ∃ heap', joinFamilies user_root family_root heap calls = some heap' ∧
      MembershipOk heap' ∧ StoreCovers family_root heap' ∧ WithinCapacity heap' ∧
      MAX_FAMILY_MEMBERS = 4 ∧
      (∀ f ∈ heap'.families, f.members.length ≤ MAX_FAMILY_MEMBERS) ∧
      (∀ f ∈ heap'.families, ∀ g ∈ heap'.families, ∀ u ∈ f.members, ∀ v ∈ g.members,
        u.user_id = v.user_id → f = g) ∧
      (∀ f ∈ heap'.families, (f.members.map UserNode.user_id).Nodup)) := by
  constructor
  · intro user_id family_id
    obtain ⟨heap', done, h1, -, -, -, h2, h3, h4⟩ :=
      joinFamily_step user_root family_root heap user_id family_id hok hcov hcap
    exact ⟨heap', done, h1, h2, h3, h4⟩
  · intro calls
    obtain ⟨heap', h1, hok', hcov', hcap'⟩ :=
      joinFamilies_inv user_root family_root calls heap hok hcov hcap
    exact ⟨heap', h1, hok', hcov', hcap', rfl, hcap', MembershipOk_no_two_lists hok', hok'.2.2⟩

/-- Witness for C36: user 1 joins family 7 and then asks to join again; the
first call returns `true`, the second `false`. -/
theorem joinFamily_membership_witness :
    MembershipOk (UserHeap.mk [FamilyNode.mk 7 []] [] []) ∧
    StoreCovers (some (BTreeNodeFamily.mk [FamilyNode.mk 7 []] [] true))
      (UserHeap.mk [FamilyNode.mk 7 []] [] []) ∧
    WithinCapacity (UserHeap.mk [FamilyNode.mk 7 []] [] []) ∧
    joinFamily (some (BTreeNodeUser.mk [UserNode.mk 1 "a"] [] true))
      (some (BTreeNodeFamily.mk [FamilyNode.mk 7 []] [] true))
      (UserHeap.mk [FamilyNode.mk 7 []] [] []) 1 7 =
      some (UserHeap.mk [FamilyNode.mk 7 [UserNode.mk 1 "a"]] [(1, 7)] [], true) ∧
    joinFamily (some (BTreeNodeUser.mk [UserNode.mk 1 "a"] [] true))
      (some (BTreeNodeFamily.mk [FamilyNode.mk 7 []] [] true))
      (UserHeap.mk [FamilyNode.mk 7 [UserNode.mk 1 "a"]] [(1, 7)] []) 1 7 =
      some (UserHeap.mk [FamilyNode.mk 7 [UserNode.mk 1 "a"]] [(1, 7)] [], false) ∧
    ∃ heap', joinFamilies (some (BTreeNodeUser.mk [UserNode.mk 1 "a"] [] true))
        (some (BTreeNodeFamily.mk [FamilyNode.mk 7 []] [] true))
        (UserHeap.mk [FamilyNode.mk 7 []] [] []) [(1, 7), (1, 7)] = some heap' ∧
      MembershipOk heap' ∧
      StoreCovers (some (BTreeNodeFamily.mk [FamilyNode.mk 7 []] [] true)) heap' ∧
      WithinCapacity heap' ∧ MAX_FAMILY_MEMBERS = 4 ∧
      (∀ f ∈ heap'.families, f.members.length ≤ MAX_FAMILY_MEMBERS) ∧
      (∀ f ∈ heap'.families, ∀ g ∈ heap'.families, ∀ u ∈ f.members, ∀ v ∈ g.members,
        u.user_id = v.user_id → f = g) ∧
      (∀ f ∈ heap'.families, (f.members.map UserNode.user_id).Nodup) :=
  have hok : MembershipOk (UserHeap.mk [FamilyNode.mk 7 []] [] []) := by
    simp [MembershipOk]
  have hcov : StoreCovers (some (BTreeNodeFamily.mk [FamilyNode.mk 7 []] [] true))
      (UserHeap.mk [FamilyNode.mk 7 []] [] []) := by
    intro fid fam h
    refine ⟨FamilyNode.mk 7 [], by simp, ?_⟩
    simp only [searchFamily, searchFamilyNode, scanUpFamily] at h
    by_cases h7 : (7 : Int) < fid
    · simp [h7] at h
    · simp only [h7, if_false, List.getElem?_cons_zero] at h
      by_cases h8 : (7 : Int) = fid
      · simp only [h8, if_true, Option.some.injEq] at h
        rw [← h]
        exact h8
      · simp [h8] at h
  have hcap : WithinCapacity (UserHeap.mk [FamilyNode.mk 7 []] [] []) := by
    simp [WithinCapacity]
  ⟨hok, hcov, hcap, rfl, rfl,
    (joinFamily_membership _ _ _ hok hcov hcap).2 [(1, 7), (1, 7)]⟩

/-- C37: for dates whose fields are `int` values, `dateCompare(d1, d2)` is 0
exactly when year, month and day are equal; and when no subtraction of two
corresponding fields overflows, it is negative exactly when `d1` is earlier
than `d2` in the order by year, month, day, positive exactly when `d1` is
later, and `dateCompare(d1, d2) = -dateCompare(d2, d1)`. -/
theorem dateCompare_three_way (d1 d2 : Date) (h1 : d1.isInt) (h2 : d2.isInt) :
    (dateCompare d1 d2 = 0 ↔ (d1.year = d2.year ∧ d1.month = d2.month ∧ d1.day = d2.day)) ∧
    (Date.noOverflow d1 d2 →
      (dateCompare d1 d2 < 0 ↔ Date.earlier d1 d2) ∧
      (0 < dateCompare d1 d2 ↔ Date.earlier d2 d1) ∧
      dateCompare d1 d2 = -dateCompare d2 d1) := by
  obtain ⟨⟨a1, a2⟩, ⟨a3, a4⟩, a5, a6⟩ := h1
  obtain ⟨⟨b1, b2⟩, ⟨b3, b4⟩, b5, b6⟩ := h2
  constructor
  · unfold dateCompare wrapInt32
    by_cases hy : d1.year = d2.year
    · by_cases hm : d1.month = d2.month
      · simp only [hy, hm, ne_eq, not_true_eq_false, if_false, true_and]
        constructor <;> intro h <;> omega
      · simp only [hy, hm, ne_eq, not_true_eq_false, not_false_eq_true, if_true, if_false,
          true_and, false_and, iff_false]
        omega
    · simp only [hy, ne_eq, not_false_eq_true, if_true, false_and, iff_false]
      omega
  · rintro ⟨⟨c1, c2⟩, ⟨c3, c4⟩, c5, c6⟩
    unfold dateCompare wrapInt32 Date.earlier
    by_cases hy : d1.year = d2.year
    · have hy' : d2.year = d1.year := hy.symm
      by_cases hm : d1.month = d2.month
      · have hm' : d2.month = d1.month := hm.symm
        simp only [hy, hm, ne_eq, not_true_eq_false, if_false, true_and, lt_self_iff_false,
          false_or]
        refine ⟨?_, ?_, ?_⟩
        · constructor <;> intro h <;> omega
        · constructor <;> intro h <;> omega
        · omega
      · have hm' : ¬ d2.month = d1.month := fun e => hm e.symm
        simp only [hy, hm, hm', ne_eq, not_true_eq_false, not_false_eq_true, if_true,
          if_false, true_and, false_and, or_false, lt_self_iff_false, false_or]
        refine ⟨?_, ?_, ?_⟩
        · constructor <;> intro h <;> omega
        · constructor <;> intro h <;> omega
        · omega
    · have hy' : ¬ d2.year = d1.year := fun e => hy e.symm
      simp only [hy, hy', ne_eq, not_false_eq_true, if_true, false_and, or_false]
      refine ⟨?_, ?_, ?_⟩
      · constructor <;> intro h <;> omega
      · constructor <;> intro h <;> omega
      · omega

/-- Witness for C37: 31 December 2023 against 1 January 2024. -/
theorem dateCompare_three_way_witness :
    (Date.mk 31 12 2023).isInt ∧ (Date.mk 1 1 2024).isInt ∧
    dateCompare ⟨31, 12, 2023⟩ ⟨1, 1, 2024⟩ = -1 ∧
    ((dateCompare ⟨31, 12, 2023⟩ ⟨1, 1, 2024⟩ = 0 ↔
        ((Date.mk 31 12 2023).year = (Date.mk 1 1 2024).year ∧
          (Date.mk 31 12 2023).month = (Date.mk 1 1 2024).month ∧
          (Date.mk 31 12 2023).day = (Date.mk 1 1 2024).day)) ∧
      (Date.noOverflow ⟨31, 12, 2023⟩ ⟨1, 1, 2024⟩ →
        (dateCompare ⟨31, 12, 2023⟩ ⟨1, 1, 2024⟩ < 0 ↔ Date.earlier ⟨31, 12, 2023⟩ ⟨1, 1, 2024⟩) ∧
        (0 < dateCompare ⟨31, 12, 2023⟩ ⟨1, 1, 2024⟩ ↔
          Date.earlier ⟨1, 1, 2024⟩ ⟨31, 12, 2023⟩) ∧
        dateCompare ⟨31, 12, 2023⟩ ⟨1, 1, 2024⟩ = -dateCompare ⟨1, 1, 2024⟩ ⟨31, 12, 2023⟩)) :=
  have h1 : (Date.mk 31 12 2023).isInt := by simp [Date.isInt]
  have h2 : (Date.mk 1 1 2024).isInt := by simp [Date.isInt]
  ⟨h1, h2, by decide, dateCompare_three_way _ _ h1 h2⟩

/-! ### Reads of released records after a delete through the predecessor -/

theorem readTreeList_eq (released : List UserNode) (g : Int) (cs : List BTreeNodeUser) :
    readTreeList released g cs = cs.map (readTree released g) := by
  induction cs with
  | nil => rw [readTreeList]; rfl
  | cons c cs ih => rw [readTreeList, ih]; rfl

theorem readTree_mk (released : List UserNode) (g : Int) (ks : List UserNode)
    (cs : List BTreeNodeUser) (l : Bool) :
    readTree released g (.mk ks cs l) =
      .mk (ks.map (readThrough released g)) (cs.map (readTree released g)) l := by
  rw [readTree, readTreeList_eq]

theorem scenario_delete10_traced :
    deleteIndividualTraced (some scenarioTree) 10 =
      some (some (.mk [⟨7, ""⟩, ⟨20, ""⟩]
        [.mk [⟨5, ""⟩, ⟨6, ""⟩] [] true, .mk [⟨12, ""⟩, ⟨17, ""⟩] [] true,
          .mk [⟨30, ""⟩] [] true] false), true, [TreeEvent.removeFromLeaf ⟨7, ""⟩]) := rfl

/-- The call `deleteIndividual(&root, 10)` on the scenario tree, with `free`
taken into account: the record of user 7 is released and the first key slot
of the root points to it. -/
theorem scenario_delete10 (g : Int) :
    deleteIndividualAfterFree g (some scenarioTree) 10 =
      some (some (scenarioAfterDelete g), true, [⟨7, ""⟩]) := by
  rw [deleteIndividualAfterFree, scenario_delete10_traced]
  simp [releasedRecords, readTree_mk, readThrough, scenarioAfterDelete]

theorem scenario_inserts :
    runUserOps [UserOp.insert ⟨10, ""⟩, UserOp.insert ⟨20, ""⟩, UserOp.insert ⟨5, ""⟩,
      UserOp.insert ⟨6, ""⟩, UserOp.insert ⟨12, ""⟩, UserOp.insert ⟨30, ""⟩,
      UserOp.insert ⟨7, ""⟩, UserOp.insert ⟨17, ""⟩] = some (some scenarioTree) :=
  scenario_runUserOps "" "" "" "" "" "" "" ""

theorem after_step5 (g : Int) (hg : 30 < g) :
    deleteIndividualAfterFree g (some (scenarioAfterDelete g)) 5 =
      some (some (.mk [⟨g, ""⟩, ⟨20, ""⟩]
        [.mk [⟨6, ""⟩] [] true, .mk [⟨12, ""⟩, ⟨17, ""⟩] [] true,
          .mk [⟨30, ""⟩] [] true] false), true, [⟨5, ""⟩]) := by
  have h1 : ¬ g < 5 := by omega
  have h2 : ¬ g = 5 := by omega
  simp [deleteIndividualAfterFree, deleteIndividualTraced, scenarioAfterDelete, depth, depthList,
    deleteFromIndividualSubtreeTraced, find_key_index_individual, scanUp, h1, h2,
    removeFromLeafIndividual, releasedRecords, readTree_mk, readThrough]

theorem after_step6 (g : Int) (hg : 30 < g) :
    deleteIndividualAfterFree g (some (.mk [⟨g, ""⟩, ⟨20, ""⟩]
        [.mk [⟨6, ""⟩] [] true, .mk [⟨12, ""⟩, ⟨17, ""⟩] [] true,
          .mk [⟨30, ""⟩] [] true] false)) 6 =
      some (some (.mk [⟨12, ""⟩, ⟨20, ""⟩]
        [.mk [⟨g, ""⟩] [] true, .mk [⟨17, ""⟩] [] true, .mk [⟨30, ""⟩] [] true] false),
        true, [⟨6, ""⟩]) := by
  have h1 : ¬ g < 6 := by omega
  have h2 : ¬ g = 6 := by omega
  simp [deleteIndividualAfterFree, deleteIndividualTraced, depth, depthList,
    deleteFromIndividualSubtreeTraced, find_key_index_individual, scanUp, h1, h2,
    fillIndividualChildTraced, borrowFromRightIndividual, num_keys,
    removeFromLeafIndividual, releasedRecords, readTree_mk, readThrough]

theorem after_step7 (g : Int) (hg : 30 < g) :
    deleteIndividualAfterFree g (some (.mk [⟨12, ""⟩, ⟨20, ""⟩]
        [.mk [⟨g, ""⟩] [] true, .mk [⟨17, ""⟩] [] true, .mk [⟨30, ""⟩] [] true] false)) 7 =
      some (some (.mk [⟨20, ""⟩]
        [.mk [⟨g, ""⟩, ⟨12, ""⟩, ⟨17, ""⟩] [] true, .mk [⟨30, ""⟩] [] true] false),
        true, []) := by
  have h1 : ¬ g < 7 := by omega
  have h2 : ¬ g = 7 := by omega
  simp [deleteIndividualAfterFree, deleteIndividualTraced, depth, depthList,
    deleteFromIndividualSubtreeTraced, find_key_index_individual, scanUp, h1, h2,
    fillIndividualChildTraced, mergeIndividualNodes, num_keys,
    removeFromLeafIndividual, releasedRecords, readTree_mk, readThrough]

theorem after_step12 (g : Int) (hg : 30 < g) :
    deleteIndividualAfterFree g (some (.mk [⟨20, ""⟩]
        [.mk [⟨g, ""⟩, ⟨12, ""⟩, ⟨17, ""⟩] [] true, .mk [⟨30, ""⟩] [] true] false)) 12 =
      some (some (.mk [⟨20, ""⟩]
        [.mk [⟨g, ""⟩, ⟨12, ""⟩, ⟨17, ""⟩] [] true, .mk [⟨30, ""⟩] [] true] false),
        true, []) := by
  have h1 : ¬ g < 12 := by omega
  have h2 : ¬ g = 12 := by omega
  simp [deleteIndividualAfterFree, deleteIndividualTraced, depth, depthList,
    deleteFromIndividualSubtreeTraced, find_key_index_individual, scanUp, h1, h2,
    num_keys, removeFromLeafIndividual, releasedRecords, readTree_mk, readThrough]

theorem after_step17 (g : Int) (hg : 30 < g) :
    deleteIndividualAfterFree g (some (.mk [⟨20, ""⟩]
        [.mk [⟨g, ""⟩, ⟨12, ""⟩, ⟨17, ""⟩] [] true, .mk [⟨30, ""⟩] [] true] false)) 17 =
      some (some (.mk [⟨20, ""⟩]
        [.mk [⟨g, ""⟩, ⟨12, ""⟩, ⟨17, ""⟩] [] true, .mk [⟨30, ""⟩] [] true] false),
        true, []) := by
  have h1 : ¬ g < 17 := by omega
  have h2 : ¬ g = 17 := by omega
  simp [deleteIndividualAfterFree, deleteIndividualTraced, depth, depthList,
    deleteFromIndividualSubtreeTraced, find_key_index_individual, scanUp, h1, h2,
    num_keys, removeFromLeafIndividual, releasedRecords, readTree_mk, readThrough]

theorem after_step20 (g : Int) (hg : 30 < g) :
    deleteIndividualAfterFree g (some (.mk [⟨20, ""⟩]
        [.mk [⟨g, ""⟩, ⟨12, ""⟩, ⟨17, ""⟩] [] true, .mk [⟨30, ""⟩] [] true] false)) 20 =
      some (some (.mk [⟨17, ""⟩]
        [.mk [⟨g, ""⟩, ⟨12, ""⟩, ⟨17, ""⟩] [] true, .mk [⟨30, ""⟩] [] true] false),
        true, []) := by
  have h1 : ¬ g < 17 := by omega
  have h2 : ¬ g = 17 := by omega
  simp [deleteIndividualAfterFree, deleteIndividualTraced, depth, depthList,
    deleteFromIndividualSubtreeTraced, find_key_index_individual, scanUp, h1, h2,
    getIndividualPredecessor, rightmostKey,
    num_keys, removeFromLeafIndividual, releasedRecords, readTree_mk, readThrough]

theorem after_step30 (g : Int) (hg : 30 < g) :
    deleteIndividualAfterFree g (some (.mk [⟨17, ""⟩]
        [.mk [⟨g, ""⟩, ⟨12, ""⟩, ⟨17, ""⟩] [] true, .mk [⟨30, ""⟩] [] true] false)) 30 =
      some (some (.mk [⟨17, ""⟩]
        [.mk [⟨g, ""⟩, ⟨12, ""⟩] [] true, .mk [⟨17, ""⟩] [] true] false),
        true, [⟨30, ""⟩]) := by
  have h2 : ¬ g = 30 := by omega
  simp [deleteIndividualAfterFree, deleteIndividualTraced, depth, depthList,
    deleteFromIndividualSubtreeTraced, find_key_index_individual, scanUp, h2,
    fillIndividualChildTraced, borrowFromLeftIndividual,
    num_keys, removeFromLeafIndividual, releasedRecords, readTree_mk, readThrough]

/-- C1 (the code at the failing input): the ids 10, 20, 5, 6, 12, 30, 7, 17
are inserted and `deleteIndividual(&root, 10)` is called. The call takes the
predecessor branch: it stores the record of user 7 in the root and releases
that record. User 7 has been inserted and not deleted, but for every value
`g` that the released record reads as, `searchUser(root, 7)` returns no
record other than the released one; and when `g` is above 30,
`searchUser` returns `NULL` for the live ids 20, 7, 12, 17 and 30. -/
theorem searchUser_reads_released_record (g : Int) :
    runUserOps [UserOp.insert ⟨10, ""⟩, UserOp.insert ⟨20, ""⟩, UserOp.insert ⟨5, ""⟩,
      UserOp.insert ⟨6, ""⟩, UserOp.insert ⟨12, ""⟩, UserOp.insert ⟨30, ""⟩,
      UserOp.insert ⟨7, ""⟩, UserOp.insert ⟨17, ""⟩] = some (some scenarioTree) ∧
    deleteIndividualAfterFree g (some scenarioTree) 10 =
      some (some (scenarioAfterDelete g), true, [⟨7, ""⟩]) ∧
    (liveAfter [UserOp.insert ⟨10, ""⟩, UserOp.insert ⟨20, ""⟩, UserOp.insert ⟨5, ""⟩,
      UserOp.insert ⟨6, ""⟩, UserOp.insert ⟨12, ""⟩, UserOp.insert ⟨30, ""⟩,
      UserOp.insert ⟨7, ""⟩, UserOp.insert ⟨17, ""⟩, UserOp.delete 10]).map UserNode.user_id =
      [20, 5, 6, 12, 30, 7, 17] ∧
    (∀ u, searchUser (some (scenarioAfterDelete g)) 7 = some u →
      u = readThrough [⟨7, ""⟩] g ⟨7, ""⟩) ∧
    (30 < g →
      [20, 7, 12, 17, 30].map (searchUser (some (scenarioAfterDelete g))) =
        [none, none, none, none, none]) := by
  refine ⟨scenario_inserts, scenario_delete10 g, by decide, ?_, ?_⟩
  · intro u hu
    rcases lt_trichotomy g 7 with h | h | h
    · have h1 : ¬ (7 : Int) = g := by omega
      simp [searchUser, searchUserNode, searchUserChild, scenarioAfterDelete, scanUp, h, h1]
        at hu
    · subst h
      simp [searchUser, searchUserNode, scenarioAfterDelete, scanUp] at hu
      simp [readThrough, ← hu]
    · have h1 : ¬ (7 : Int) = g := by omega
      have h2 : ¬ g < 7 := by omega
      simp [searchUser, searchUserNode, searchUserChild, scenarioAfterDelete, scanUp, h1, h2]
        at hu
  · intro hg
    have a1 : ¬ g < 20 := by omega
    have a2 : ¬ g < 7 := by omega
    have a3 : ¬ g < 12 := by omega
    have a4 : ¬ g < 17 := by omega
    have a5 : ¬ g < 30 := by omega
    have b1 : ¬ (20 : Int) = g := by omega
    have b2 : ¬ (7 : Int) = g := by omega
    have b3 : ¬ (12 : Int) = g := by omega
    have b4 : ¬ (17 : Int) = g := by omega
    have b5 : ¬ (30 : Int) = g := by omega
    simp [searchUser, searchUserNode, searchUserChild, scenarioAfterDelete, scanUp, a1, a2, a3,
      a4, a5, b1, b2, b3, b4, b5]

/-- Witness for C1: the released record reads 1000. -/
theorem searchUser_reads_released_record_witness :
    (30 : Int) < 1000 ∧
    [20, 7, 12, 17, 30].map (searchUser (some (scenarioAfterDelete 1000))) =
      [none, none, none, none, none] :=
  ⟨by decide, (searchUser_reads_released_record 1000).2.2.2.2 (by decide)⟩

/-- C5 (the code at the failing input): the tree `[10, 20]` over `[5, 6, 7]`,
`[12, 17]`, `[30]` is well-formed and sorted and holds 10.
`deleteIndividual(&root, 10)` returns `true` and releases the record of user
7, to which the root then points; the traversal afterwards prints, in the
place of user 7, what the released record reads as, so its ids are those of
before with exactly 10 removed only if the released memory still reads 7. -/
theorem deleteIndividual_traversal_reads_released (g : Int) :
    WellFormed (some scenarioTree) ∧
    StrictSorted (traverseAndPrintUsers (some scenarioTree)) ∧
    Present (some scenarioTree) 10 ∧
    deleteIndividualAfterFree g (some scenarioTree) 10 =
      some (some (scenarioAfterDelete g), true, [⟨7, ""⟩]) ∧
    traverseAndPrintUsers (some (scenarioAfterDelete g)) =
      [⟨5, ""⟩, ⟨6, ""⟩, readThrough [⟨7, ""⟩] g ⟨7, ""⟩, ⟨12, ""⟩, ⟨17, ""⟩, ⟨20, ""⟩,
        ⟨30, ""⟩] ∧
    ((traverseAndPrintUsers (some (scenarioAfterDelete g))).map UserNode.user_id =
        (removeId 10 (traverseAndPrintUsers (some scenarioTree))).map UserNode.user_id ↔
      g = 7) := by
  refine ⟨scenarioTree_wellFormed, scenarioTree_sorted, ⟨⟨10, ""⟩, by decide, rfl⟩,
    scenario_delete10 g, ?_, ?_⟩
  · simp [traverseAndPrintUsers, scenarioAfterDelete, readThrough]
  · have h : (removeId 10 (traverseAndPrintUsers (some scenarioTree))).map UserNode.user_id =
        [5, 6, 7, 12, 17, 20, 30] := by decide
    rw [h]
    simp [traverseAndPrintUsers, scenarioAfterDelete]

/-- C7 (the code at the failing input): after the inserts of the ids 10, 20,
5, 6, 12, 30, 7, 17 and `deleteIndividual(&root, 10)`, the in-order traversal
reads the ids 5, 6, `g`, 12, 17, 20, 30, where `g` is what the released record
of user 7 reads as; they are strictly increasing only if `g` is between 6 and
12. -/
theorem traversal_order_reads_released (g : Int) :
    runUserOps [UserOp.insert ⟨10, ""⟩, UserOp.insert ⟨20, ""⟩, UserOp.insert ⟨5, ""⟩,
      UserOp.insert ⟨6, ""⟩, UserOp.insert ⟨12, ""⟩, UserOp.insert ⟨30, ""⟩,
      UserOp.insert ⟨7, ""⟩, UserOp.insert ⟨17, ""⟩] = some (some scenarioTree) ∧
    deleteIndividualAfterFree g (some scenarioTree) 10 =
      some (some (scenarioAfterDelete g), true, [⟨7, ""⟩]) ∧
    (traverseAndPrintUsers (some (scenarioAfterDelete g))).map UserNode.user_id =
      [5, 6, g, 12, 17, 20, 30] ∧
    (StrictSorted (traverseAndPrintUsers (some (scenarioAfterDelete g))) ↔
      (6 < g ∧ g < 12)) := by
  refine ⟨scenario_inserts, scenario_delete10 g, ?_, ?_⟩
  · simp [traverseAndPrintUsers, scenarioAfterDelete]
  · simp only [traverseAndPrintUsers, scenarioAfterDelete, traverseUsers_mk,
      traverseFrom_cons_cons, traverseFrom_cons_nil, traverseFrom_nil, StrictSorted,
      List.cons_append, List.nil_append, List.pairwise_cons, List.mem_cons, List.mem_singleton,
      List.not_mem_nil, List.Pairwise.nil, forall_eq_or_imp, forall_eq]
    constructor
    · intro h
      omega
    · intro h
      simp
      omega

/-- C8 (the code at the failing input): the tree `[10, 20]` over `[5, 6, 7]`,
`[12, 17]`, `[30]` satisfies the node invariants and holds 10. After
`deleteIndividual(&root, 10)` the shape invariants still hold, but the first
key slot of the root points to the record of user 7, which the call has
released: the keys of the root are in order only if the released record reads
below 20, and the keys of the first two children are on the two sides of it
only if it reads between 6 and 12. -/
theorem deleteIndividual_breaks_key_order (g : Int) :
    WellFormed (some scenarioTree) ∧
    StrictSorted (traverseAndPrintUsers (some scenarioTree)) ∧
    Present (some scenarioTree) 10 ∧
    deleteIndividualAfterFree g (some scenarioTree) 10 =
      some (some (scenarioAfterDelete g), true, [⟨7, ""⟩]) ∧
    WellFormed (some (scenarioAfterDelete g)) ∧
    (scenarioAfterDelete g).keys = [readThrough [⟨7, ""⟩] g ⟨7, ""⟩, ⟨20, ""⟩] ∧
    (StrictSorted (scenarioAfterDelete g).keys ↔ g < 20) ∧
    (((∀ c a, (scenarioAfterDelete g).children[0]? = some c → a ∈ c.keys → a.user_id < g) ∧
      (∀ c b, (scenarioAfterDelete g).children[1]? = some c → b ∈ c.keys → g < b.user_id)) ↔
      (6 < g ∧ g < 12)) := by
  refine ⟨scenarioTree_wellFormed, scenarioTree_sorted, ⟨⟨10, ""⟩, by decide, rfl⟩,
    scenario_delete10 g, ?_, ?_, ?_, ?_⟩
  · exact ⟨by simp [scenarioAfterDelete], by simp [scenarioAfterDelete], 1,
      by simp [scenarioAfterDelete, Shape]⟩
  · simp [scenarioAfterDelete, readThrough]
  · simp [scenarioAfterDelete, StrictSorted]
  · simp only [scenarioAfterDelete, children_mk, List.getElem?_cons_zero,
      List.getElem?_cons_succ, Option.some.injEq]
    constructor
    · rintro ⟨h1, h2⟩
      have := h1 _ ⟨6, ""⟩ rfl (by simp)
      have := h2 _ ⟨12, ""⟩ rfl (by simp)
      simp at *
      omega
    · rintro ⟨h1, h2⟩
      constructor
      · rintro c a rfl ha
        simp at ha
        rcases ha with rfl | rfl <;> simp <;> omega
      · rintro c b rfl hb
        simp at hb
        rcases hb with rfl | rfl <;> simp <;> omega

/-- C10 (the code at the failing input): the ids 10, 20, 5, 6, 12, 30, 7, 17
are inserted and then all deleted, 10 first. The delete of 10 releases the
record of user 7 and leaves the root pointing to it. When the released record
reads above 30, the deletes of 5, 6 and 30 find their keys, the deletes of 7,
12 and 17 do not, the delete of 20 replaces it by 17, and the tree that is
left is `[17]` over `[g, 12]` and `[17]`: the root handle is not `NULL`
although every inserted id has been deleted. -/
theorem root_left_after_all_deleted (g : Int) (hg : 30 < g) :
    runUserOps [UserOp.insert ⟨10, ""⟩, UserOp.insert ⟨20, ""⟩, UserOp.insert ⟨5, ""⟩,
      UserOp.insert ⟨6, ""⟩, UserOp.insert ⟨12, ""⟩, UserOp.insert ⟨30, ""⟩,
      UserOp.insert ⟨7, ""⟩, UserOp.insert ⟨17, ""⟩] = some (some scenarioTree) ∧
    deletesAfterFree g (some scenarioTree) [10, 5, 6, 7, 12, 17, 20, 30] =
      some (some (.mk [⟨17, ""⟩]
        [.mk [⟨g, ""⟩, ⟨12, ""⟩] [] true, .mk [⟨17, ""⟩] [] true] false),
        [⟨7, ""⟩, ⟨5, ""⟩, ⟨6, ""⟩, ⟨30, ""⟩]) ∧
    liveAfter [UserOp.insert ⟨10, ""⟩, UserOp.insert ⟨20, ""⟩, UserOp.insert ⟨5, ""⟩,
      UserOp.insert ⟨6, ""⟩, UserOp.insert ⟨12, ""⟩, UserOp.insert ⟨30, ""⟩,
      UserOp.insert ⟨7, ""⟩, UserOp.insert ⟨17, ""⟩, UserOp.delete 10, UserOp.delete 5,
      UserOp.delete 6, UserOp.delete 7, UserOp.delete 12, UserOp.delete 17, UserOp.delete 20,
      UserOp.delete 30] = [] := by
  refine ⟨scenario_inserts, ?_, by decide⟩
  simp only [deletesAfterFree, scenario_delete10 g, after_step5 g hg, after_step6 g hg,
    after_step7 g hg, after_step12 g hg, after_step17 g hg, after_step20 g hg,
    after_step30 g hg, List.nil_append, List.cons_append, List.append_nil]

/-- Witness for C10: the released record reads 1000. -/
theorem root_left_after_all_deleted_witness :
    (30 : Int) < 1000 ∧
    deletesAfterFree 1000 (some scenarioTree) [10, 5, 6, 7, 12, 17, 20, 30] =
      some (some (.mk [⟨17, ""⟩]
        [.mk [⟨1000, ""⟩, ⟨12, ""⟩] [] true, .mk [⟨17, ""⟩] [] true] false),
        [⟨7, ""⟩, ⟨5, ""⟩, ⟨6, ""⟩, ⟨30, ""⟩]) :=
  ⟨by decide, (root_left_after_all_deleted 1000 (by decide)).2.1⟩

/-- C27 (the code at the failing input): in the state where user 1 has added
the expenses 10, 20, 30, 40, the expense (1, 20) is found by `searchExpense`
and by `searchExpenseForUser`. `deleteExpense(&expense_root, 1, 20)` returns
`true`; the record it hands to `removeFromLeafExpense`, which unlinks and
releases it, is the record of expense 30, to which the root then points.
Afterwards `searchExpenseForUser(user 1, 20)` still returns the record of
expense 20 (not `NULL`), and `searchExpenseForUser(user 1, 30)` returns
`NULL` although expense 30 was not deleted. -/
theorem deleteExpense_releases_successor :
    searchExpense expenseScenario.expense_root 1 20 = some ⟨20, 1⟩ ∧
    searchExpenseForUser (some (expenseScenario.expensesOf 1)) 20 = some ⟨20, 1⟩ ∧
    searchExpenseForUser (some (expenseScenario.expensesOf 1)) 30 = some ⟨30, 1⟩ ∧
    (deleteExpense expenseScenario.expense_root 1 20).map
        (fun r => (r.2.1, r.2.2, r.1.map BTreeNodeExpense.keys)) =
      some (true, [⟨30, 1⟩], some [⟨30, 1⟩]) ∧
    (expenseScenario.deleteExpense 1 20).map
        (fun r => (r.2, r.1.expensesOf 1, searchExpenseForUser (some (r.1.expensesOf 1)) 20,
          searchExpenseForUser (some (r.1.expensesOf 1)) 30)) =
      some (true, [⟨10, 1⟩, ⟨20, 1⟩, ⟨40, 1⟩], some ⟨20, 1⟩, none) := by
  refine ⟨by decide, by decide, by decide, by decide, by decide⟩

end ExpenseTracking
